import Mathlib

/-! # OrderBook: a shallow embedding of the matching engine

The definitions below follow `src/Order.h`, `src/OrderBook.h`,
`src/OrderBook.cpp` and the loop of `main` in `src/main.cpp`.

* `std::map<Nat, OrderPointers, std::greater<Nat>> bids_` and
  `std::map<Nat, OrderPointers, std::less<Nat>> asks_` are association
  lists kept in the iteration order of the map (best price first).
* `std::unordered_map` (`data_`, `orders_`) is an association list; a new key
  is appended, an existing key is updated in place.
* An `Order` is shared (`std::shared_ptr`) between `orders_` and its level
  queue. The embedding stores a copy in both places and applies every `Fill`
  to both copies. The list iterator kept in `OrderEntry` designates the node
  of that order; erasing through it is modelled by erasing the node carrying
  the order id.
* `Price`, `Quantity` and `OrderId` (`Usings.h`, not part of the sources) are
  unsigned integers, here `Nat`. `Quantity` has 32 bits: the arithmetic on the
  aggregate index `data_` is taken modulo `2 ^ 32`.
* A thrown exception, and behaviour the language leaves undefined
  (`front()` of an empty list, erasing through a foreign iterator), is the
  result `none`.
* `MatchOrder` reads the references `bidPrice` and `askPrice` once more
  after `bids_.erase(bidPrice)` or `asks_.erase(askPrice)` has removed the
  level they refer to; the embedding reads the price the level had.
* The public methods are called by a thread that does not own the mutex
  `ordersMutex_`; their `std::scoped_lock` takes it and holds it until they
  return. `MatchOrder` runs inside `AddOrder`, so the thread owns the mutex
  there. A thread that locks a `std::mutex` it owns has undefined behaviour and
  does not come back from the lock: the result `none` (`scopedLock`).
-/

/-! ## Association lists -/

/-- The value stored under key `k`, if any (`find` / `contains` / `at`). -/
def assocFind {β : Type} (k : Nat) : List (Nat × β) → Option β
  | [] => none
  | (k', v) :: rest => if k' = k then some v else assocFind k rest

/-- Remove the entry stored under key `k` (`erase(key)`). -/
def assocErase {β : Type} (k : Nat) : List (Nat × β) → List (Nat × β)
  | [] => []
  | (k', v) :: rest => if k' = k then rest else (k', v) :: assocErase k rest

/-- Overwrite the value under `k` in place; a new key is appended. -/
def assocSet {β : Type} (k : Nat) (v : β) : List (Nat × β) → List (Nat × β)
  | [] => [(k, v)]
  | (k', v') :: rest => if k' = k then (k, v) :: rest else (k', v') :: assocSet k v rest

/-- Overwrite the value under `k` when the key is present; otherwise nothing. -/
def assocReplace {β : Type} (k : Nat) (v : β) : List (Nat × β) → List (Nat × β)
  | [] => []
  | (k', v') :: rest => if k' = k then (k, v) :: rest else (k', v') :: assocReplace k v rest

/-! ## Orders (`Order.h`) -/

/-- Modelled from the spec: `Side.h` is not part of the sources; the spec gives
`side ∈ {Buy, Sell}`. -/
inductive Side where
  | Buy
  | Sell
deriving DecidableEq

/-- Modelled from the spec: `OrderType.h` is not part of the sources; the spec
lists the five order types. -/
inductive OrderType where
  | Market
  | GoodTillCancel
  | GoodForDay
  | FillAndKill
  | FillOrKill
deriving DecidableEq

/-- The data members of `class Order`. -/
structure Order where
  orderType_ : OrderType
  orderId_ : Nat
  side_ : Side
  price_ : Nat
  initialQuantity_ : Nat
  remainingQuantity_ : Nat
deriving DecidableEq

/-- The constructor `Order(orderType, orderId, side, price, quantity)`. -/
def Order.create (orderType : OrderType) (orderId : Nat) (side : Side) (price : Nat)
    (quantity : Nat) : Order :=
  { orderType_ := orderType, orderId_ := orderId, side_ := side, price_ := price,
    initialQuantity_ := quantity, remainingQuantity_ := quantity }

/-- The accessor `Order::GetFilledQuantity`. -/
def Order.GetFilledQuantity (o : Order) : Nat := o.initialQuantity_ - o.remainingQuantity_

/-- The predicate `Order::IsFilled`. -/
def Order.IsFilled (o : Order) : Bool := decide (o.remainingQuantity_ = 0)

/-- The method `Order::Fill`: `none` is the thrown `std::logic_error`. -/
def Order.Fill (o : Order) (quantity : Nat) : Option Order :=
  if quantity > o.remainingQuantity_ then none
  else some { o with remainingQuantity_ := o.remainingQuantity_ - quantity }

/-- The method `Order::ToGoodTillCancel`: `none` is the thrown `std::logic_error`. -/
def Order.ToGoodTillCancel (o : Order) (price : Nat) : Option Order :=
  if o.orderType_ ≠ OrderType.Market then none
  else some { o with price_ := price, orderType_ := OrderType.GoodTillCancel }

/-- Modelled from the spec: `OrderModify.h` is not part of the sources; a modify
request carries the id, side, price and quantity. -/
structure OrderModify where
  orderId_ : Nat
  side_ : Side
  price_ : Nat
  quantity_ : Nat
deriving DecidableEq

/-- Modelled from the spec: `OrderModify::ToOrderPointer` is not part of the
sources; it constructs a fresh order with the request's side, price and
quantity, the given type and the same id. -/
def OrderModify.ToOrderPointer (m : OrderModify) (orderType : OrderType) : Order :=
  Order.create orderType m.orderId_ m.side_ m.price_ m.quantity_

/-- Modelled from the spec: `Trade.h` is not part of the sources; a trade leg
carries the order id, the price and the quantity. -/
structure TradeInfo where
  orderId_ : Nat
  price_ : Nat
  quantity_ : Nat
deriving DecidableEq

/-- Modelled from the spec: `Trade.h` is not part of the sources; a trade is a
buy leg and a sell leg. -/
structure Trade where
  bidTrade_ : TradeInfo
  askTrade_ : TradeInfo
deriving DecidableEq

abbrev Trades := List Trade

/-! ## The book (`OrderBook.h`) -/

/-- The aggregate `OrderBook::LevelData`. -/
structure LevelData where
  askQuantity_ : Nat := 0
  bidQuantity_ : Nat := 0
  count_ : Nat := 0
deriving DecidableEq

/-- The enumeration `LevelData::Action`. -/
inductive LevelData.Action where
  | Add
  | Remove
  | Match
deriving DecidableEq

/-- A side ladder: the levels in the iteration order of the `std::map`. -/
abbrev Ladder := List (Nat × List Order)

/-- The data members of `class OrderBook` that make up the book. -/
structure OrderBook where
  data_ : List (Nat × LevelData) := []
  bids_ : Ladder := []
  asks_ : Ladder := []
  orders_ : List (Nat × Order) := []
deriving DecidableEq

/-- Unsigned 32-bit addition. -/
def add32 (x y : Nat) : Nat := (x + y) % 2 ^ 32

/-- Unsigned 32-bit subtraction. -/
def sub32 (x y : Nat) : Nat := (x + (2 ^ 32 - y % 2 ^ 32)) % 2 ^ 32

/-- The statements of `OrderBook::UpdateLevelData` on the entry `levelData`
of the price: the count goes up by one (`Add`), down by one (`Remove`) or stays
(`Match`), and the quantity of the side goes up (`Add`) or down. -/
def LevelData.update (levelData : LevelData) (side : Side) (quantity : Nat)
    (action : LevelData.Action) : LevelData :=
  let count : Nat :=
    match action with
    | LevelData.Action.Add => add32 levelData.count_ 1
    | LevelData.Action.Remove => sub32 levelData.count_ 1
    | LevelData.Action.Match => levelData.count_
  if action = LevelData.Action.Add then
    if side = Side.Buy then
      { levelData with count_ := count, bidQuantity_ := add32 levelData.bidQuantity_ quantity }
    else
      { levelData with count_ := count, askQuantity_ := add32 levelData.askQuantity_ quantity }
  else
    if side = Side.Buy then
      { levelData with count_ := count, bidQuantity_ := sub32 levelData.bidQuantity_ quantity }
    else
      { levelData with count_ := count, askQuantity_ := sub32 levelData.askQuantity_ quantity }

/-- The update `OrderBook::UpdateLevelData` on the aggregate index:
`data_[price]` (a fresh entry is all zero) is updated, and erased when its
count is zero. -/
def UpdateLevelData (data : List (Nat × LevelData)) (side : Side) (price : Nat)
    (quantity : Nat) (action : LevelData.Action) : List (Nat × LevelData) :=
  let levelData1 : LevelData := ((assocFind price data).getD {}).update side quantity action
  if levelData1.count_ = 0 then assocErase price data else assocSet price levelData1 data

/-- The hook `OrderBook::OnOrderAdded`. -/
def OnOrderAdded (data : List (Nat × LevelData)) (order : Order) : List (Nat × LevelData) :=
  UpdateLevelData data order.side_ order.price_ order.remainingQuantity_ LevelData.Action.Add

/-- The hook `OrderBook::OnOrderRemoved`. -/
def OnOrderRemoved (data : List (Nat × LevelData)) (order : Order) : List (Nat × LevelData) :=
  UpdateLevelData data order.side_ order.price_ order.remainingQuantity_ LevelData.Action.Remove

/-- The hook `OrderBook::OnOrderMatched`. -/
def OnOrderMatched (data : List (Nat × LevelData)) (side : Side) (price : Nat)
    (quantity : Nat) (isFullyFilled : Bool) : List (Nat × LevelData) :=
  UpdateLevelData data side price quantity (if isFullyFilled then LevelData.Action.Remove else LevelData.Action.Match)

/-- Erase from a level queue the node of the order with this id
(`orders.erase(orderIterator)`); `none` when the queue has no such node. -/
def eraseOrder (orderId : Nat) : List Order → Option (List Order)
  | [] => none
  | o :: rest =>
    if o.orderId_ = orderId then some rest
    else (eraseOrder orderId rest).map (fun r => o :: r)

/-- The level part of `CancelOrderInternal`: `ladder.at(price)`, erase the
node, and erase the level when its queue became empty. -/
def cancelInLadder (ladder : Ladder) (price : Nat) (orderId : Nat) : Option Ladder :=
  match assocFind price ladder with
  | none => none
  | some orders =>
    match eraseOrder orderId orders with
    | none => none
    | some orders1 =>
      if orders1 = [] then some (assocErase price ladder)
      else some (assocReplace price orders1 ladder)

/-- The method `OrderBook::CancelOrderInternal`. -/
def OrderBook.CancelOrderInternal (b : OrderBook) (orderId : Nat) : Option OrderBook :=
  match assocFind orderId b.orders_ with
  | none => some b
  | some order =>
    if order.side_ = Side.Buy then
      (cancelInLadder b.bids_ order.price_ orderId).map fun bids =>
        { b with orders_ := assocErase orderId b.orders_, bids_ := bids,
                 data_ := OnOrderRemoved b.data_ order }
    else
      (cancelInLadder b.asks_ order.price_ orderId).map fun asks =>
        { b with orders_ := assocErase orderId b.orders_, asks_ := asks,
                 data_ := OnOrderRemoved b.data_ order }

/-- The statement `std::scoped_lock ordersLock{ordersMutex_}` executed by a
thread; `owned` tells whether that thread already owns `ordersMutex_`. The
mutex is a `std::mutex`: a thread that owns it and locks it again has undefined
behaviour and does not come back from the lock, which is the result `none`. -/
def scopedLock (owned : Bool) : Option Unit :=
  if owned then none else some ()

/-- The method `OrderBook::CancelOrder` run by a thread that owns
`ordersMutex_` (`owned`) or does not: the lock, then `CancelOrderInternal`. -/
def OrderBook.CancelOrderFrom (b : OrderBook) (owned : Bool) (orderId : Nat) :
    Option OrderBook :=
  (scopedLock owned).bind fun _ => b.CancelOrderInternal orderId

/-- The method `OrderBook::CancelOrder` called from outside the class, by a
thread that does not own `ordersMutex_`. -/
def OrderBook.CancelOrder (b : OrderBook) (orderId : Nat) : Option OrderBook :=
  b.CancelOrderFrom false orderId

/-- The method `OrderBook::CancelOrders`: under its own lock it calls
`CancelOrderInternal`. -/
def OrderBook.CancelOrders (b : OrderBook) : List Nat → Option OrderBook
  | [] => some b
  | orderId :: rest => (b.CancelOrderInternal orderId).bind fun b1 => b1.CancelOrders rest

/-- The method `OrderBook::CanMatch`. -/
def OrderBook.CanMatch (b : OrderBook) (side : Side) (price : Nat) : Bool :=
  if side = Side.Buy then
    match b.asks_ with
    | [] => false
    | (bestAsk, _) :: _ => decide (price ≥ bestAsk)
  else
    match b.bids_ with
    | [] => false
    | (bestBid, _) :: _ => decide (price ≤ bestBid)

/-- The loop over `data_` in `OrderBook::CanFullyFill`, over the entries in
the order in which the container yields them. -/
def canFullyFillLoop (side : Side) (price : Nat) (threshold : Nat) :
    List (Nat × LevelData) → Nat → Bool
  | [], _ => false
  | (levelPrice, levelData) :: rest, quantity =>
    if (side = Side.Buy ∧ levelPrice < threshold) ∨ (side = Side.Sell ∧ levelPrice > threshold) then
      canFullyFillLoop side price threshold rest quantity
    else if (side = Side.Buy ∧ levelPrice > price) ∨ (side = Side.Sell ∧ levelPrice < price) then
      canFullyFillLoop side price threshold rest quantity
    else if (side = Side.Buy ∧ levelData.askQuantity_ = 0)
        ∨ (side = Side.Sell ∧ levelData.bidQuantity_ = 0) then
      canFullyFillLoop side price threshold rest quantity
    else if (side = Side.Buy ∧ levelData.askQuantity_ ≥ quantity)
        ∨ (side = Side.Sell ∧ levelData.bidQuantity_ ≥ quantity) then
      true
    else
      canFullyFillLoop side price threshold rest
        (sub32 quantity (if side = Side.Buy then levelData.askQuantity_ else levelData.bidQuantity_))

/-- The method `OrderBook::CanFullyFill`. -/
def OrderBook.CanFullyFill (b : OrderBook) (side : Side) (price : Nat) (quantity : Nat) :
    Bool :=
  if ¬ b.CanMatch side price then false
  else
    let threshold : Option Nat :=
      if side = Side.Buy then b.asks_.head?.map Prod.fst else b.bids_.head?.map Prod.fst
    match threshold with
    | none => false
    | some t => canFullyFillLoop side price t b.data_ quantity

/-- The level queue once its front order has been filled to `order1`:
`if (order->IsFilled()) queue.pop_front();`. The queue holds the order itself,
so an order that is not filled shows its new remaining quantity. -/
def fillQueue (order1 : Order) (rest : List Order) : List Order :=
  if order1.IsFilled then rest else order1 :: rest

/-- The order index once an order has been filled to `order1`:
`if (order->IsFilled()) orders_.erase(order->GetOrderId());`. The index holds
the order itself, so an order that is not filled shows its new remaining
quantity. -/
def fillIndex (order1 : Order) (orders : List (Nat × Order)) : List (Nat × Order) :=
  if order1.IsFilled then assocErase order1.orderId_ orders
  else assocReplace order1.orderId_ order1 orders

/-- One pass of the inner `while` of `MatchOrder`: the front orders of the two
best levels trade. `bids` and `asks` are references to the queues of the first
nodes of `bids_` and `asks_`, so the pass rewrites those queues in place. -/
def OrderBook.matchFront (b : OrderBook) (bidPrice : Nat) (bid : Order) (bids : List Order)
    (bidLevels : Ladder) (askPrice : Nat) (ask : Order) (asks : List Order)
    (askLevels : Ladder) : Option (Trade × OrderBook) :=
  let quantity := min bid.remainingQuantity_ ask.remainingQuantity_
  (bid.Fill quantity).bind fun bid1 =>
  (ask.Fill quantity).bind fun ask1 =>
    let trade : Trade :=
      { bidTrade_ := { orderId_ := bid1.orderId_, price_ := bid1.price_, quantity_ := quantity },
        askTrade_ := { orderId_ := ask1.orderId_, price_ := ask1.price_, quantity_ := quantity } }
    let data1 := OnOrderMatched b.data_ Side.Buy bid1.price_ quantity bid1.IsFilled
    let data2 := OnOrderMatched data1 Side.Sell ask1.price_ quantity ask1.IsFilled
    some (trade, { data_ := data2,
                   bids_ := (bidPrice, fillQueue bid1 bids) :: bidLevels,
                   asks_ := (askPrice, fillQueue ask1 asks) :: askLevels,
                   orders_ := fillIndex ask1 (fillIndex bid1 b.orders_) })

/-- The inner `while (!bids.empty() && !asks.empty())` of `MatchOrder`. -/
def OrderBook.matchLevel : Nat → OrderBook → Trades → Option (Trades × OrderBook)
  | fuel, b, trades =>
    match b.bids_, b.asks_ with
    | (bidPrice, bid :: bids) :: bidLevels, (askPrice, ask :: asks) :: askLevels =>
      match fuel with
      | 0 => none
      | fuel1 + 1 =>
        (b.matchFront bidPrice bid bids bidLevels askPrice ask asks askLevels).bind fun r =>
          OrderBook.matchLevel fuel1 r.2 (trades ++ [r.1])
    | _, _ => some (trades, b)

/-- The statements of `MatchOrder` that erase an emptied best level from the
ladders. -/
def OrderBook.eraseEmptyLevels (b : OrderBook) (bidPrice askPrice : Nat) : OrderBook :=
  let bids1 := if assocFind bidPrice b.bids_ = some [] then assocErase bidPrice b.bids_ else b.bids_
  let asks1 := if assocFind askPrice b.asks_ = some [] then assocErase askPrice b.asks_ else b.asks_
  { b with bids_ := bids1, asks_ := asks1 }

/-- The statement of `MatchOrder` that erases the aggregate entry at `price`
when both of its quantities are zero. -/
def eraseZeroLevelData (data : List (Nat × LevelData)) (price : Nat) :
    List (Nat × LevelData) :=
  match assocFind price data with
  | none => data
  | some levelData =>
    if levelData.bidQuantity_ = 0 ∧ levelData.askQuantity_ = 0 then assocErase price data
    else data

/-- The statement of `MatchOrder` that cancels the front order of the best
level of a ladder when it is `FillAndKill`. The call goes to the public
`CancelOrder` while `AddOrder`, inside which `MatchOrder` runs, owns the
mutex. -/
def OrderBook.cancelFillAndKill (b : OrderBook) (ladder : Ladder) : Option OrderBook :=
  match ladder with
  | [] => some b
  | (_, []) :: _ => none
  | (_, order :: _) :: _ =>
    if order.orderType_ = OrderType.FillAndKill then b.CancelOrderFrom true order.orderId_
    else some b

/-- The statements of `MatchOrder` between the inner loop and the
`FillAndKill` cancellations: the removal of the emptied levels and of the
aggregate entries whose quantities are zero. -/
def OrderBook.afterLevel (b : OrderBook) (bidPrice askPrice : Nat) : OrderBook :=
  { b.eraseEmptyLevels bidPrice askPrice with
    data_ := eraseZeroLevelData
      (eraseZeroLevelData (b.eraseEmptyLevels bidPrice askPrice).data_ bidPrice) askPrice }

/-- The body of the outer `while (true)` of `MatchOrder` once the best bid and
the best ask are known to cross: the inner loop, the removal of emptied levels
and aggregate entries, and the cancellation of `FillAndKill` front orders. -/
def OrderBook.matchPass (b : OrderBook) (bidPrice askPrice : Nat) (fuel : Nat)
    (trades : Trades) : Option (Trades × OrderBook) :=
  (b.matchLevel fuel trades).bind fun r =>
    let b2 := r.2.afterLevel bidPrice askPrice
    (b2.cancelFillAndKill b2.bids_).bind fun b3 =>
    (b3.cancelFillAndKill b3.asks_).bind fun b4 =>
      some (r.1, b4)

/-- The outer `while (true)` of `MatchOrder`. -/
def OrderBook.matchLoop : Nat → OrderBook → Trades → Option (Trades × OrderBook)
  | 0, _, _ => none
  | fuel + 1, b, trades =>
    match b.bids_, b.asks_ with
    | [], _ => some (trades, b)
    | _ :: _, [] => some (trades, b)
    | (bidPrice, bids) :: _, (askPrice, asks) :: _ =>
      if bidPrice < askPrice then some (trades, b)
      else
        (b.matchPass bidPrice askPrice (bids.length + asks.length) trades).bind fun r =>
          OrderBook.matchLoop fuel r.2 r.1

/-- The method `OrderBook::MatchOrder`. Every pass of the outer loop that does
not leave it erases a level, so the number of levels bounds the passes. -/
def OrderBook.MatchOrder (b : OrderBook) : Option (Trades × OrderBook) :=
  b.matchLoop (b.bids_.length + b.asks_.length + 1) []

/-- The statements `auto &orders = ladder[price]; orders.push_back(order);` for
a `std::map` whose comparator is `before`. -/
def ladderPushBack (before : Nat → Nat → Bool) (price : Nat) (order : Order) :
    Ladder → Ladder
  | [] => [(price, [order])]
  | (p, orders) :: rest =>
    if p = price then (p, orders ++ [order]) :: rest
    else if before price p then (price, [order]) :: (p, orders) :: rest
    else (p, orders) :: ladderPushBack before price order rest

/-- The insertion statements of `AddOrder`: the level queue, `orders_` and
`OnOrderAdded`. -/
def OrderBook.insertOrder (b : OrderBook) (order : Order) : OrderBook :=
  let bids1 :=
    if order.side_ = Side.Buy then
      ladderPushBack (fun x y => decide (x > y)) order.price_ order b.bids_
    else b.bids_
  let asks1 :=
    if order.side_ = Side.Buy then b.asks_
    else ladderPushBack (fun x y => decide (x < y)) order.price_ order b.asks_
  { data_ := OnOrderAdded b.data_ order, bids_ := bids1, asks_ := asks1,
    orders_ := b.orders_ ++ [(order.orderId_, order)] }

/-- The part of `AddOrder` after the promotion of a market order: the
`FillAndKill` gate, the `FillOrKill` gate, the insertion and `MatchOrder`. -/
def OrderBook.addGated (b : OrderBook) (order : Order) : Option (Trades × OrderBook) :=
  if order.orderType_ = OrderType.FillAndKill ∧ ¬ b.CanMatch order.side_ order.price_ then
    some ([], b)
  else if order.orderType_ = OrderType.FillOrKill
      ∧ ¬ b.CanFullyFill order.side_ order.price_ order.initialQuantity_ then
    some ([], b)
  else
    (b.insertOrder order).MatchOrder

/-- The method `OrderBook::AddOrder`. Its `std::scoped_lock` holds the mutex
until the return, so `MatchOrder` runs with the mutex owned. -/
def OrderBook.AddOrder (b : OrderBook) (order : Order) : Option (Trades × OrderBook) :=
  if (assocFind order.orderId_ b.orders_).isSome then some ([], b)
  else if order.orderType_ = OrderType.Market then
    if order.side_ = Side.Buy ∧ b.asks_ ≠ [] then
      match b.asks_.getLast? with
      | none => none
      | some (worstAsk, _) => (order.ToGoodTillCancel worstAsk).bind fun order1 => b.addGated order1
    else if order.side_ = Side.Sell ∧ b.bids_ ≠ [] then
      match b.bids_.getLast? with
      | none => none
      | some (worstBid, _) => (order.ToGoodTillCancel worstBid).bind fun order1 => b.addGated order1
    else some ([], b)
  else b.addGated order

/-- The method `OrderBook::ModifyOrder`: the look-up under a lock that is
released at the end of its block, then the public `CancelOrder` and
`AddOrder`, each taking the mutex for itself. -/
def OrderBook.ModifyOrder (b : OrderBook) (orderModify : OrderModify) :
    Option (Trades × OrderBook) :=
  match assocFind orderModify.orderId_ b.orders_ with
  | none => some ([], b)
  | some order =>
    (b.CancelOrder orderModify.orderId_).bind fun b1 =>
      b1.AddOrder (orderModify.ToOrderPointer order.orderType_)

/-- The method `OrderBook::Size`. -/
def OrderBook.Size (b : OrderBook) : Nat := b.orders_.length

/-- The lambda `CreateLevelInfos` of `GetOrderInfos`: the price and the
32-bit sum of the remaining quantities of a level. -/
def CreateLevelInfos (price : Nat) (orders : List Order) : Nat × Nat :=
  (price, orders.foldl (fun runningSum order => add32 runningSum order.remainingQuantity_) 0)

/-- The method `OrderBook::GetOrderInfos`: the bid infos and the ask infos. -/
def OrderBook.GetOrderInfos (b : OrderBook) : List (Nat × Nat) × List (Nat × Nat) :=
  (b.bids_.map (fun l => CreateLevelInfos l.1 l.2), b.asks_.map (fun l => CreateLevelInfos l.1 l.2))

/-! ## Vocabulary of the properties -/

/-- The orders of a ladder, level after level, each level in queue order. -/
def ladderOrders : Ladder → List Order
  | [] => []
  | (_, orders) :: rest => orders ++ ladderOrders rest

/-- The orders resting in the two ladders of the book. -/
def OrderBook.allOrders (b : OrderBook) : List Order :=
  ladderOrders b.bids_ ++ ladderOrders b.asks_

/-- The queue of the level at `price` on `side` (empty when there is no such level). -/
def OrderBook.levelQueue (b : OrderBook) (side : Side) (price : Nat) : List Order :=
  ((if side = Side.Buy then assocFind price b.bids_ else assocFind price b.asks_)).getD []

/-- Sum of the quantities of a trade list (the common quantity of the two legs
is read on the buy leg). -/
def tradedQuantity (trades : Trades) : Nat :=
  (trades.map fun t => t.bidTrade_.quantity_).sum

/-- Sum of the remaining quantities of a list of orders. -/
def remainingSum (orders : List Order) : Nat :=
  (orders.map Order.remainingQuantity_).sum

/-- Every field of an order but its remaining quantity: what stays fixed while
the order rests in the book. -/
def Order.ident (o : Order) : OrderType × Nat × Side × Nat × Nat :=
  (o.orderType_, o.orderId_, o.side_, o.price_, o.initialQuantity_)

/-- Structural consistency of the book: the ladders are ordered maps whose
levels hold orders of their side and price, order ids are unique, and the
order index holds exactly the orders of the ladders. -/
structure OrderBook.WF (b : OrderBook) : Prop where
  bidsSorted : b.bids_.Pairwise (fun x y => x.1 > y.1)
  asksSorted : b.asks_.Pairwise (fun x y => x.1 < y.1)
  bidsLevel : ∀ x ∈ b.bids_, ∀ o ∈ x.2, o.side_ = Side.Buy ∧ o.price_ = x.1
  asksLevel : ∀ x ∈ b.asks_, ∀ o ∈ x.2, o.side_ = Side.Sell ∧ o.price_ = x.1
  idsNodup : (b.allOrders.map Order.orderId_).Nodup
  keysNodup : (b.orders_.map Prod.fst).Nodup
  index : ∀ id o, assocFind id b.orders_ = some o ↔ (o ∈ b.allOrders ∧ o.orderId_ = id)

/-- No level of a ladder has an empty queue. -/
def ladderNoEmpty (l : Ladder) : Prop := ∀ x ∈ l, x.2 ≠ []

/-- No level of the book has an empty queue. -/
def OrderBook.NoEmptyLevels (b : OrderBook) : Prop :=
  ladderNoEmpty b.bids_ ∧ ladderNoEmpty b.asks_

/-- Every bid price is strictly below every ask price. -/
def OrderBook.Uncrossed (b : OrderBook) : Prop :=
  ∀ x ∈ b.bids_, ∀ y ∈ b.asks_, x.1 < y.1

/-- No resting order has type `FillAndKill`. -/
def OrderBook.NoFillAndKill (b : OrderBook) : Prop :=
  (∀ o ∈ b.allOrders, o.orderType_ ≠ OrderType.FillAndKill)
    ∧ (∀ e ∈ b.orders_, e.2.orderType_ ≠ OrderType.FillAndKill)

/-- Book states reachable from the empty book by calls of `AddOrder` (on a
freshly constructed order), `CancelOrder` and `ModifyOrder` that return. -/
inductive Reachable : OrderBook → Prop where
  | empty : Reachable {}
  | add {b b1 : OrderBook} {trades : Trades} (orderType : OrderType) (orderId : Nat)
      (side : Side) (price : Nat) (quantity : Nat) :
      Reachable b →
      b.AddOrder (Order.create orderType orderId side price quantity) = some (trades, b1) →
      Reachable b1
  | cancel {b b1 : OrderBook} (orderId : Nat) :
      Reachable b → b.CancelOrder orderId = some b1 → Reachable b1
  | modify {b b1 : OrderBook} {trades : Trades} (orderModify : OrderModify) :
      Reachable b → b.ModifyOrder orderModify = some (trades, b1) → Reachable b1

/-- Book states reachable as in `Reachable` when every order added or
modified has a positive quantity. -/
inductive ReachableValid : OrderBook → Prop where
  | empty : ReachableValid {}
  | add {b b1 : OrderBook} {trades : Trades} (orderType : OrderType) (orderId : Nat)
      (side : Side) (price : Nat) (quantity : Nat) :
      ReachableValid b → 0 < quantity →
      b.AddOrder (Order.create orderType orderId side price quantity) = some (trades, b1) →
      ReachableValid b1
  | cancel {b b1 : OrderBook} (orderId : Nat) :
      ReachableValid b → b.CancelOrder orderId = some b1 → ReachableValid b1
  | modify {b b1 : OrderBook} {trades : Trades} (orderModify : OrderModify) :
      ReachableValid b → 0 < orderModify.quantity_ →
      b.ModifyOrder orderModify = some (trades, b1) → ReachableValid b1

/-- The best bid price is strictly below the best ask price, or a ladder is
empty: the test that leaves the outer loop of `MatchOrder`. -/
def OrderBook.HeadUncrossed (b : OrderBook) : Prop :=
  match b.bids_, b.asks_ with
  | (bidPrice, _) :: _, (askPrice, _) :: _ => bidPrice < askPrice
  | _, _ => True


/-- The order that `AddOrder` inserts for the incoming order `o`: `o` itself,
or for a market order its promotion to `GoodTillCancel` at the worst price of
the opposite ladder. -/
def OrderBook.Promoted (b : OrderBook) (o o1 : Order) : Prop :=
  (o.orderType_ ≠ OrderType.Market ∧ o1 = o)
    ∨ (o.orderType_ = OrderType.Market
        ∧ ∃ w q, (if o.side_ = Side.Buy then b.asks_ else b.bids_).getLast? = some (w, q)
          ∧ o1 = { o with price_ := w, orderType_ := OrderType.GoodTillCancel })

/-- The gates of `AddOrder` let the order `o1` through. -/
def OrderBook.Admits (b : OrderBook) (o1 : Order) : Prop :=
  (o1.orderType_ = OrderType.FillAndKill → b.CanMatch o1.side_ o1.price_ = true)
    ∧ (o1.orderType_ = OrderType.FillOrKill
        → b.CanFullyFill o1.side_ o1.price_ o1.initialQuantity_ = true)

/-- Number of levels of the two ladders: the bound on the passes of the outer
loop of `MatchOrder`. -/
def OrderBook.levels (b : OrderBook) : Nat := b.bids_.length + b.asks_.length

/-- Length of the two best queues: the bound on the passes of the inner loop
of `MatchOrder`. -/
def OrderBook.headLen (b : OrderBook) : Nat :=
  (b.bids_.head?.map fun x => x.2.length).getD 0 + (b.asks_.head?.map fun x => x.2.length).getD 0

/-- Every resting order has a positive remaining quantity, at most its
initial quantity. -/
def OrderBook.Positive (b : OrderBook) : Prop :=
  ∀ x ∈ b.allOrders, 0 < x.remainingQuantity_ ∧ x.remainingQuantity_ ≤ x.initialQuantity_

/-- Total remaining quantity of the opposite-side orders at prices acceptable
to an order of side `side` and limit `price`: the asks at a price `≤ price`
for a buy, the bids at a price `≥ price` for a sell. -/
def OrderBook.crossingLiquidity (b : OrderBook) (side : Side) (price : Nat) : Nat :=
  if side = Side.Buy then
    remainingSum (ladderOrders (b.asks_.filter fun x => decide (x.1 ≤ price)))
  else
    remainingSum (ladderOrders (b.bids_.filter fun x => decide (price ≤ x.1)))

/-- A trade whose legs have the same quantity, whose buy leg carries the id
and price of a buy order of `orders`, whose sell leg carries the id and price
of a sell order of `orders`, and whose buy price is at least its sell price. -/
def Trade.LegsIn (orders : List Order) (t : Trade) : Prop :=
  t.bidTrade_.quantity_ = t.askTrade_.quantity_
    ∧ (∃ x ∈ orders, x.side_ = Side.Buy ∧ t.bidTrade_.orderId_ = x.orderId_
        ∧ t.bidTrade_.price_ = x.price_)
    ∧ (∃ y ∈ orders, y.side_ = Side.Sell ∧ t.askTrade_.orderId_ = y.orderId_
        ∧ t.askTrade_.price_ = y.price_)
    ∧ t.askTrade_.price_ ≤ t.bidTrade_.price_

/-- Total remaining quantity of the orders at the best price of the side
opposite to `side`: the first level of `asks_` for a buy, of `bids_` for a
sell. -/
def OrderBook.bestOppositeQuantity (b : OrderBook) (side : Side) : Nat :=
  match (if side = Side.Buy then b.asks_ else b.bids_) with
  | [] => 0
  | (_, orders) :: _ => remainingSum orders

/-- Number of the orders of a list at price `p`. -/
def levelCount (orders : List Order) (p : Nat) : Nat :=
  (orders.map fun o => if o.price_ = p then 1 else 0).sum

/-- Sum of the remaining quantities of the orders of a list on side `s` at
price `p`. -/
def levelQuantity (orders : List Order) (s : Side) (p : Nat) : Nat :=
  (orders.map fun o => if o.side_ = s ∧ o.price_ = p then o.remainingQuantity_ else 0).sum

/-- The aggregate entry that a list of resting orders calls for at price `p`. -/
def expectedLevelData (orders : List Order) (p : Nat) : Option LevelData :=
  if levelCount orders p = 0 then none
  else some { askQuantity_ := levelQuantity orders Side.Sell p,
              bidQuantity_ := levelQuantity orders Side.Buy p,
              count_ := levelCount orders p }

/-- The aggregate index `data` is the one that the resting orders call for. -/
def DataOK (data : List (Nat × LevelData)) (orders : List Order) : Prop :=
  (data.map Prod.fst).Nodup ∧ ∀ p, assocFind p data = expectedLevelData orders p

/-- The level totals of a list of resting orders fit in 32 bits. -/
def FitsIn32 (orders : List Order) : Prop :=
  ∀ p, levelCount orders p < 2 ^ 32 ∧ levelQuantity orders Side.Buy p < 2 ^ 32
    ∧ levelQuantity orders Side.Sell p < 2 ^ 32

/-- Sum of the opposite-side quantities of the aggregate entries that
`CanFullyFill` takes into account for an order of side `side` and limit
`price` when the best opposite price is `threshold`: the ask quantities of the
entries with `threshold ≤ p ≤ price` for a buy, the bid quantities of the
entries with `price ≤ p ≤ threshold` for a sell. -/
def countedQuantity (side : Side) (price threshold : Nat) (data : List (Nat × LevelData)) :
    Nat :=
  (data.map fun e =>
    if side = Side.Buy then (if threshold ≤ e.1 ∧ e.1 ≤ price then e.2.askQuantity_ else 0)
    else (if price ≤ e.1 ∧ e.1 ≤ threshold then e.2.bidQuantity_ else 0)).sum

/-- Book states reachable as in `ReachableValid` when no level total
overflows 32 bits: whenever an order is inserted, the count and the two
quantities of every price, taken over the resting orders and the inserted
order, are below `2 ^ 32`. -/
inductive ReachableFit : OrderBook → Prop where
  | empty : ReachableFit {}
  | add {b b1 : OrderBook} {trades : Trades} (orderType : OrderType) (orderId : Nat)
      (side : Side) (price : Nat) (quantity : Nat) :
      ReachableFit b → 0 < quantity →
      (∀ o1, b.Promoted (Order.create orderType orderId side price quantity) o1 →
        FitsIn32 (o1 :: b.allOrders)) →
      b.AddOrder (Order.create orderType orderId side price quantity) = some (trades, b1) →
      ReachableFit b1
  | cancel {b b1 : OrderBook} (orderId : Nat) :
      ReachableFit b → b.CancelOrder orderId = some b1 → ReachableFit b1
  | modify {b b1 : OrderBook} {trades : Trades} (orderModify : OrderModify) :
      ReachableFit b → 0 < orderModify.quantity_ →
      (∀ order b2 o1, assocFind orderModify.orderId_ b.orders_ = some order →
        b.CancelOrder orderModify.orderId_ = some b2 →
        b2.Promoted (orderModify.ToOrderPointer order.orderType_) o1 →
        FitsIn32 (o1 :: b2.allOrders)) →
      b.ModifyOrder orderModify = some (trades, b1) → ReachableFit b1

/-! ## The driver of `main.cpp` -/

/-- The enumeration `ActionType` of `InputHandler.h`. -/
inductive ActionType where
  | Add
  | Modify
  | Cancel
deriving DecidableEq

/-- The record `Information` of `InputHandler.h`. -/
structure Information where
  type_ : ActionType
  orderType_ : OrderType
  side_ : Side
  price_ : Nat
  quantity_ : Nat
  orderId_ : Nat
deriving DecidableEq

/-- The function `GetOrder` of `main.cpp`. -/
def GetOrder (information : Information) : Order :=
  Order.create information.orderType_ information.orderId_ information.side_
    information.price_ information.quantity_

/-- The function `GetModifyOrder` of `main.cpp`. -/
def GetModifyOrder (information : Information) : OrderModify :=
  { orderId_ := information.orderId_, side_ := information.side_,
    price_ := information.price_, quantity_ := information.quantity_ }

/-- The body of the loop of `main`: the `switch` on the type of the
instruction. The trades are dropped, as in the source. -/
def OrderBook.execute (b : OrderBook) (information : Information) : Option OrderBook :=
  match information.type_ with
  | ActionType.Add => (b.AddOrder (GetOrder information)).map Prod.snd
  | ActionType.Modify => (b.ModifyOrder (GetModifyOrder information)).map Prod.snd
  | ActionType.Cancel => b.CancelOrder information.orderId_

/-- The loop of `main` over the parsed instructions. -/
def OrderBook.executeAll (b : OrderBook) : List Information → Option OrderBook
  | [] => some b
  | information :: rest => (b.execute information).bind fun b1 => b1.executeAll rest

/-- The instruction line `A side orderType price quantity orderId`. -/
def Information.add (side : Side) (orderType : OrderType) (price quantity orderId : Nat) :
    Information :=
  { type_ := ActionType.Add, orderType_ := orderType, side_ := side, price_ := price,
    quantity_ := quantity, orderId_ := orderId }

/-- The instruction line `C orderId`. The parser leaves the other fields of the
record unset and the cancel does not read them; they are fixed here. -/
def Information.cancel (orderId : Nat) : Information :=
  { type_ := ActionType.Cancel, orderType_ := OrderType.GoodTillCancel, side_ := Side.Buy,
    price_ := 0, quantity_ := 0, orderId_ := orderId }

/-! ## Example states -/

/-- The book after `A B GoodTillCancel 100 10 1`. -/
def bookOneBid : OrderBook :=
  { data_ := [(100, { askQuantity_ := 0, bidQuantity_ := 10, count_ := 1 })],
    bids_ := [(100, [Order.create OrderType.GoodTillCancel 1 Side.Buy 100 10])],
    asks_ := [],
    orders_ := [(1, Order.create OrderType.GoodTillCancel 1 Side.Buy 100 10)] }

/-- The book after `A B GoodTillCancel 100 10 1` and `A S GoodTillCancel 105 5 2`. -/
def bookBidAsk : OrderBook :=
  { data_ := [(100, { askQuantity_ := 0, bidQuantity_ := 10, count_ := 1 }),
              (105, { askQuantity_ := 5, bidQuantity_ := 0, count_ := 1 })],
    bids_ := [(100, [Order.create OrderType.GoodTillCancel 1 Side.Buy 100 10])],
    asks_ := [(105, [Order.create OrderType.GoodTillCancel 2 Side.Sell 105 5])],
    orders_ := [(1, Order.create OrderType.GoodTillCancel 1 Side.Buy 100 10),
                (2, Order.create OrderType.GoodTillCancel 2 Side.Sell 105 5)] }

/-- The book `bookBidAsk` after `A S GoodTillCancel 100 4 3`, which trades 4
against order 1. -/
def bookAfterSell : OrderBook :=
  { data_ := [(100, { askQuantity_ := 0, bidQuantity_ := 6, count_ := 1 }),
              (105, { askQuantity_ := 5, bidQuantity_ := 0, count_ := 1 })],
    bids_ := [(100, [{ Order.create OrderType.GoodTillCancel 1 Side.Buy 100 10 with
                       remainingQuantity_ := 6 }])],
    asks_ := [(105, [Order.create OrderType.GoodTillCancel 2 Side.Sell 105 5])],
    orders_ := [(1, { Order.create OrderType.GoodTillCancel 1 Side.Buy 100 10 with
                      remainingQuantity_ := 6 }),
                (2, Order.create OrderType.GoodTillCancel 2 Side.Sell 105 5)] }

/-- The instructions `A S GoodTillCancel 100 3 1` and `A S GoodTillCancel 105 4 2`. -/
def traceTwoAskLevels : List Information :=
  [Information.add Side.Sell OrderType.GoodTillCancel 100 3 1,
   Information.add Side.Sell OrderType.GoodTillCancel 105 4 2]

/-- The book after `traceTwoAskLevels`: two ask levels, 100x3 and 105x4. -/
def bookTwoAskLevels : OrderBook :=
  { data_ := [(100, { askQuantity_ := 3, bidQuantity_ := 0, count_ := 1 }),
              (105, { askQuantity_ := 4, bidQuantity_ := 0, count_ := 1 })],
    bids_ := [],
    asks_ := [(100, [Order.create OrderType.GoodTillCancel 1 Side.Sell 100 3]),
              (105, [Order.create OrderType.GoodTillCancel 2 Side.Sell 105 4])],
    orders_ := [(1, Order.create OrderType.GoodTillCancel 1 Side.Sell 100 3),
                (2, Order.create OrderType.GoodTillCancel 2 Side.Sell 105 4)] }

/-- The instructions `A S GoodTillCancel 100 2147483648 1` and
`A S GoodTillCancel 100 2147483648 2`. -/
def traceTwoLargeAsks : List Information :=
  [Information.add Side.Sell OrderType.GoodTillCancel 100 2147483648 1,
   Information.add Side.Sell OrderType.GoodTillCancel 100 2147483648 2]

/-- The book after `traceTwoLargeAsks`: the ask total of the level at 100 has
wrapped to 0. -/
def bookTwoLargeAsks : OrderBook :=
  { data_ := [(100, { askQuantity_ := 0, bidQuantity_ := 0, count_ := 2 })],
    bids_ := [],
    asks_ := [(100, [Order.create OrderType.GoodTillCancel 1 Side.Sell 100 2147483648,
                     Order.create OrderType.GoodTillCancel 2 Side.Sell 100 2147483648])],
    orders_ := [(1, Order.create OrderType.GoodTillCancel 1 Side.Sell 100 2147483648),
                (2, Order.create OrderType.GoodTillCancel 2 Side.Sell 100 2147483648)] }

/-- The instructions `A S GoodTillCancel 100 2147483648 1`,
`A S GoodTillCancel 100 2147483653 2`, `A B GoodTillCancel 100 5 3`,
`A S GoodTillCancel 100 1 4`, `C 1` and `C 2`. -/
def traceStaleAggregate : List Information :=
  [Information.add Side.Sell OrderType.GoodTillCancel 100 2147483648 1,
   Information.add Side.Sell OrderType.GoodTillCancel 100 2147483653 2,
   Information.add Side.Buy OrderType.GoodTillCancel 100 5 3,
   Information.add Side.Sell OrderType.GoodTillCancel 100 1 4,
   Information.cancel 1,
   Information.cancel 2]

/-- The book after `traceStaleAggregate`: one ask of quantity 1 rests at 100
and the aggregate of that level holds an ask total of 2147483643. -/
def bookStaleAggregate : OrderBook :=
  { data_ := [(100, { askQuantity_ := 2147483643, bidQuantity_ := 0, count_ := 4294967295 })],
    bids_ := [],
    asks_ := [(100, [Order.create OrderType.GoodTillCancel 4 Side.Sell 100 1])],
    orders_ := [(4, Order.create OrderType.GoodTillCancel 4 Side.Sell 100 1)] }

/-- The book `bookStaleAggregate` after `A B FillOrKill 100 100 7`: the order
has traded 1 and rests with 99 remaining. -/
def bookAfterFillOrKill : OrderBook :=
  { data_ := [(100, { askQuantity_ := 4294967295, bidQuantity_ := 0, count_ := 4294967295 })],
    bids_ := [(100, [{ Order.create OrderType.FillOrKill 7 Side.Buy 100 100 with
                       remainingQuantity_ := 99 }])],
    asks_ := [],
    orders_ := [(7, { Order.create OrderType.FillOrKill 7 Side.Buy 100 100 with
                      remainingQuantity_ := 99 })] }


/-! ## Vocabulary of the level queues -/

/-- The ladder of a side: `bids_` for `Buy`, `asks_` for `Sell`. -/
def OrderBook.ladder (b : OrderBook) (side : Side) : Ladder :=
  if side = Side.Buy then b.bids_ else b.asks_

/-- The aggregate entry at `price`, all zero when `data_` has no entry there
(what `data_[price]` reads). -/
def OrderBook.levelData (b : OrderBook) (price : Nat) : LevelData :=
  (assocFind price b.data_).getD {}

/-- The ids of the queue of the level at `price` on `side`, front first. -/
def OrderBook.levelIds (b : OrderBook) (side : Side) (price : Nat) : List Nat :=
  (b.levelQueue side price).map Order.orderId_

/-- The ids of the orders resting in the two ladders. -/
def OrderBook.bookIds (b : OrderBook) : List Nat :=
  b.allOrders.map Order.orderId_

/-- The ids of every level queue of `b'` are a sublist of those of the same
queue of `b`: orders have left the queues, none has entered and none has
changed place. -/
def QueuesShrink (b b' : OrderBook) : Prop :=
  ∀ s p, List.Sublist (b'.levelIds s p) (b.levelIds s p)

/-! ## The order object across a call of its mutators -/

/-- The order object after a call of `Order::Fill`, whether the call returned
or threw: the `throw` comes before the assignment to `remainingQuantity_`. -/
def Order.afterFill (o : Order) (quantity : Nat) : Order :=
  if quantity > o.remainingQuantity_ then o
  else { o with remainingQuantity_ := o.remainingQuantity_ - quantity }

/-- The order object after a call of `Order::ToGoodTillCancel`, whether the
call returned or threw: the `throw` comes before the two assignments. -/
def Order.afterToGoodTillCancel (o : Order) (price : Nat) : Order :=
  if o.orderType_ ≠ OrderType.Market then o
  else { o with price_ := price, orderType_ := OrderType.GoodTillCancel }

/-! ## The day-expiry step (`PruneGoodForDayOrders`) -/

/-- The collecting loop of `PruneGoodForDayOrders`: the ids of the entries of
`orders_` whose order has type `GoodForDay`, in the iteration order of the
index. -/
def OrderBook.goodForDayIds (b : OrderBook) : List Nat :=
  (b.orders_.filter fun e => decide (e.2.orderType_ = OrderType.GoodForDay)).map
    fun e => e.2.orderId_

/-- The step of `PruneGoodForDayOrders` once the cutoff is reached: the ids are
collected and passed to `CancelOrders`. The wait for the cutoff is not part of
the embedding. -/
def OrderBook.pruneStep (b : OrderBook) : Option OrderBook :=
  b.CancelOrders b.goodForDayIds

/-! ## More example states -/

/-- The instructions `A B GoodTillCancel 100 5 1` and `A B GoodTillCancel 100 5 2`. -/
def traceTwoBuys : List Information :=
  [Information.add Side.Buy OrderType.GoodTillCancel 100 5 1,
   Information.add Side.Buy OrderType.GoodTillCancel 100 5 2]

/-- The book after `traceTwoBuys`: the buys 1 and 2 queue at 100 in that order. -/
def bookTwoBuys : OrderBook :=
  { data_ := [(100, { askQuantity_ := 0, bidQuantity_ := 10, count_ := 2 })],
    bids_ := [(100, [Order.create OrderType.GoodTillCancel 1 Side.Buy 100 5,
                     Order.create OrderType.GoodTillCancel 2 Side.Buy 100 5])],
    asks_ := [],
    orders_ := [(1, Order.create OrderType.GoodTillCancel 1 Side.Buy 100 5),
                (2, Order.create OrderType.GoodTillCancel 2 Side.Buy 100 5)] }

/-- The book `bookTwoBuys` after `M 1 B 100 5`: order 1 queues behind order 2. -/
def bookTwoBuysModified : OrderBook :=
  { data_ := [(100, { askQuantity_ := 0, bidQuantity_ := 10, count_ := 2 })],
    bids_ := [(100, [Order.create OrderType.GoodTillCancel 2 Side.Buy 100 5,
                     Order.create OrderType.GoodTillCancel 1 Side.Buy 100 5])],
    asks_ := [],
    orders_ := [(2, Order.create OrderType.GoodTillCancel 2 Side.Buy 100 5),
                (1, Order.create OrderType.GoodTillCancel 1 Side.Buy 100 5)] }

/-- The instructions `A S GoodForDay 100 2147483648 1`,
`A S GoodForDay 100 2147483653 2` and `A B GoodTillCancel 100 5 3`. -/
def traceErasedAggregate : List Information :=
  [Information.add Side.Sell OrderType.GoodForDay 100 2147483648 1,
   Information.add Side.Sell OrderType.GoodForDay 100 2147483653 2,
   Information.add Side.Buy OrderType.GoodTillCancel 100 5 3]

/-- The book after `traceErasedAggregate`: two asks rest at 100 and the
aggregate index has no entry, the ask total having wrapped to 5 before the
trade of 5 brought both quantities of the entry to 0. -/
def bookErasedAggregate : OrderBook :=
  { data_ := [],
    bids_ := [],
    asks_ := [(100, [{ Order.create OrderType.GoodForDay 1 Side.Sell 100 2147483648 with
                       remainingQuantity_ := 2147483643 },
                     Order.create OrderType.GoodForDay 2 Side.Sell 100 2147483653])],
    orders_ := [(1, { Order.create OrderType.GoodForDay 1 Side.Sell 100 2147483648 with
                      remainingQuantity_ := 2147483643 }),
                (2, Order.create OrderType.GoodForDay 2 Side.Sell 100 2147483653)] }


/-! ## The mutex `ordersMutex_` inside `MatchOrder` -/

/-- The book with the ask 100x3 (id 1), after `A S GoodTillCancel 100 3 1`. -/
def bookOneAsk : OrderBook :=
  { data_ := [(100, { askQuantity_ := 3, bidQuantity_ := 0, count_ := 1 })],
    bids_ := [],
    asks_ := [(100, [Order.create OrderType.GoodTillCancel 1 Side.Sell 100 3])],
    orders_ := [(1, Order.create OrderType.GoodTillCancel 1 Side.Sell 100 3)] }

/-- The book inside `AddOrder` of `A B FillAndKill 100 10 2` on `bookOneAsk`,
when `MatchOrder` reaches the statements that cancel a `FillAndKill` order:
order 1 is filled and gone, order 2 is the front of the best bid level with 7
left. -/
def bookFillAndKillLeft : OrderBook :=
  { data_ := [(100, { askQuantity_ := 0, bidQuantity_ := 7, count_ := 1 })],
    bids_ := [(100, [{ Order.create OrderType.FillAndKill 2 Side.Buy 100 10 with
                        remainingQuantity_ := 7 }])],
    asks_ := [],
    orders_ := [(2, { Order.create OrderType.FillAndKill 2 Side.Buy 100 10 with
                       remainingQuantity_ := 7 })] }


/-! ## The instruction parser (`InputHandler.cpp`) -/

/-- How a call of the parser ends: it returns a value, it throws a
`std::logic_error` (or a class derived from it), or it runs into behaviour the
language leaves undefined (`operator[]` past the end of a vector). -/
inductive Outcome (α : Type) where
  | ok (value : α)
  | thrown
  | undefined
deriving DecidableEq

/-- Sequencing of two calls: the second runs when the first returned. -/
def Outcome.bind {α β : Type} (x : Outcome α) (f : α → Outcome β) : Outcome β :=
  match x with
  | Outcome.ok value => f value
  | Outcome.thrown => Outcome.thrown
  | Outcome.undefined => Outcome.undefined

/-- The value of a run of decimal digits. -/
def digitsValue (digits : List Char) : Nat :=
  digits.foldl (fun acc c => 10 * acc + (c.toNat - 48)) 0

/-- The call `std::from_chars(first, last, value)` for a `std::int64_t` in base
10: the text must start with an optional minus sign followed by at least one
digit; the longest such prefix is converted and what follows it is not read.
`none` when there is no such prefix or the number does not fit in 64 bits: the
variable then keeps its value. -/
def fromChars (str : List Char) : Option Int :=
  let negative : Bool := str.head? = some '-'
  let digits : List Char := (if negative then str.drop 1 else str).takeWhile Char.isDigit
  if digits = [] then none
  else
    let value : Int := if negative then - (digitsValue digits : Int) else (digitsValue digits : Int)
    if value < - (2 : Int) ^ 63 ∨ value > (2 : Int) ^ 63 - 1 then none else some value

/-- The function `InputHandler::ToNumber`: the variable starts at 0, the
result of `std::from_chars` is not looked at, a negative value throws, and the
value is cast to 32 bits. -/
def ToNumber (str : List Char) : Outcome Nat :=
  let value : Int := (fromChars str).getD 0
  if value < 0 then Outcome.thrown else Outcome.ok (value.toNat % 2 ^ 32)

/-- The call `str.find(delimiter, startIndex)`: `none` is `npos`. -/
def findFrom (str : List Char) (delimiter : Char) (startIndex : Nat) : Option Nat :=
  match (str.drop startIndex).indexOf? delimiter with
  | none => none
  | some offset => some (startIndex + offset)

/-- The loop of `InputHandler::Split` and the statements after it; the loop is
left when `find` returns `npos` or 0. -/
def splitLoop (str : List Char) (delimiter : Char) :
    Nat → Nat → List (List Char) → List (List Char)
  | 0, startIndex, res => res ++ [str.drop startIndex]
  | fuel + 1, startIndex, res =>
    match findFrom str delimiter startIndex with
    | none => res ++ [str.drop startIndex]
    | some endIndex =>
      if endIndex = 0 then res ++ [str.drop startIndex]
      else
        splitLoop str delimiter fuel (endIndex + 1)
          (res ++ [(str.drop startIndex).take (endIndex - startIndex)])

/-- The function `InputHandler::Split`. Every pass of the loop moves
`startIndex` forward, so the length of the text bounds the passes. -/
def Split (str : List Char) (delimiter : Char) : List (List Char) :=
  splitLoop str delimiter (str.length + 1) 0 []

/-- The expression `values[i]` on a `std::vector`: undefined past the end. -/
def valueAt (values : List (List Char)) (i : Nat) : Outcome (List Char) :=
  match values.get? i with
  | none => Outcome.undefined
  | some value => Outcome.ok value

/-- The function `InputHandler::ParseOrderType`. -/
def ParseOrderType (str : List Char) : Outcome OrderType :=
  if str = "Market".toList then Outcome.ok OrderType.Market
  else if str = "FillAndKill".toList then Outcome.ok OrderType.FillAndKill
  else if str = "FillOrKill".toList then Outcome.ok OrderType.FillOrKill
  else if str = "GoodForDay".toList then Outcome.ok OrderType.GoodForDay
  else if str = "GoodTillCancel".toList then Outcome.ok OrderType.GoodTillCancel
  else Outcome.thrown

/-- The function `InputHandler::ParseSide`; `str.at(0)` throws on the empty
text. -/
def ParseSide (str : List Char) : Outcome Side :=
  match str.head? with
  | none => Outcome.thrown
  | some c =>
    if c = 'B' then Outcome.ok Side.Buy
    else if c = 'S' then Outcome.ok Side.Sell
    else Outcome.thrown

/-- The function `InputHandler::ParsePrice`. -/
def ParsePrice (str : List Char) : Outcome Nat :=
  if str = [] then Outcome.thrown else ToNumber str

/-- The function `InputHandler::ParseQuantity`. -/
def ParseQuantity (str : List Char) : Outcome Nat :=
  if str = [] then Outcome.thrown else ToNumber str

/-- The function `InputHandler::ParseOrderId`. -/
def ParseOrderId (str : List Char) : Outcome Nat :=
  if str = [] then Outcome.thrown else ToNumber str

/-- The instruction line `M orderId side price quantity`. The parser leaves the
order type of the record unset and the modify does not read it; it is fixed
here. -/
def Information.modify (orderId : Nat) (side : Side) (price quantity : Nat) : Information :=
  { type_ := ActionType.Modify, orderType_ := OrderType.GoodTillCancel, side_ := side,
    price_ := price, quantity_ := quantity, orderId_ := orderId }

/-- The function `InputHandler::TryParseInformation`: `ok none` is the return
value `false`, `ok (some information)` the return value `true` with the
record filled. -/
def TryParseInformation (str : List Char) : Outcome (Option Information) :=
  match str.head? with
  | none => Outcome.thrown
  | some action =>
    let values := Split str ' '
    if action = 'A' then
      (valueAt values 1).bind fun v1 => (ParseSide v1).bind fun side =>
      (valueAt values 2).bind fun v2 => (ParseOrderType v2).bind fun orderType =>
      (valueAt values 3).bind fun v3 => (ParsePrice v3).bind fun price =>
      (valueAt values 4).bind fun v4 => (ParseQuantity v4).bind fun quantity =>
      (valueAt values 5).bind fun v5 => (ParseOrderId v5).bind fun orderId =>
        Outcome.ok (some (Information.add side orderType price quantity orderId))
    else if action = 'M' then
      (valueAt values 1).bind fun v1 => (ParseOrderId v1).bind fun orderId =>
      (valueAt values 2).bind fun v2 => (ParseSide v2).bind fun side =>
      (valueAt values 3).bind fun v3 => (ParsePrice v3).bind fun price =>
      (valueAt values 4).bind fun v4 => (ParseQuantity v4).bind fun quantity =>
        Outcome.ok (some (Information.modify orderId side price quantity))
    else if action = 'C' then
      (valueAt values 1).bind fun v1 => (ParseOrderId v1).bind fun orderId =>
        Outcome.ok (some (Information.cancel orderId))
    else Outcome.ok none

/-- The record `Result` of `InputHandler.h`. -/
structure Result where
  allCount_ : Nat
  bidCount_ : Nat
  askCount_ : Nat
deriving DecidableEq

/-- The function `InputHandler::TryParseResult`. -/
def TryParseResult (str : List Char) : Outcome (Option Result) :=
  match str.head? with
  | none => Outcome.thrown
  | some c =>
    if c ≠ 'R' then Outcome.ok none
    else
      let values := Split str ' '
      (valueAt values 1).bind fun v1 => (ToNumber v1).bind fun allCount =>
      (valueAt values 2).bind fun v2 => (ToNumber v2).bind fun bidCount =>
      (valueAt values 3).bind fun v3 => (ToNumber v3).bind fun askCount =>
        Outcome.ok (some { allCount_ := allCount, bidCount_ := bidCount, askCount_ := askCount })

/-- The loop of `InputHandler::GetInformationsAndResult` over the lines that
`std::getline` yields, and the `throw` after it. The `std::logic_error` that
the result branch constructs when the file is not at its end is not thrown, so
that test has no effect. -/
def getInformationsLoop : List (List Char) → List Information →
    Outcome (List Information × Result)
  | [], _ => Outcome.thrown
  | line :: rest, informations =>
    if line = [] then Outcome.thrown
    else if line.head? ≠ some 'R' then
      (TryParseInformation line).bind fun parsed =>
        match parsed with
        | none => Outcome.thrown
        | some information => getInformationsLoop rest (informations ++ [information])
    else
      (TryParseResult line).bind fun parsed =>
        match parsed with
        | none => Outcome.thrown
        | some result => Outcome.ok (informations, result)

/-- The function `InputHandler::GetInformationsAndResult` on the lines of the
file. -/
def GetInformationsAndResult (lines : List (List Char)) :
    Outcome (List Information × Result) :=
  getInformationsLoop lines []


/-! ## Vocabulary of the liquidity test (`CanFullyFill`) -/

/-- The best price of the ladder opposite to `side`: the value that
`CanFullyFill` stores in `threshold`. -/
def OrderBook.bestOpposite (b : OrderBook) (side : Side) : Option Nat :=
  if side = Side.Buy then b.asks_.head?.map Prod.fst else b.bids_.head?.map Prod.fst

/-- The subtractions `quantity -= ...` that the loop of `CanFullyFill`
performs, in the order of the passes: the value of `quantity` before the
statement and the amount subtracted. -/
def canFullyFillSubtractions (side : Side) (price : Nat) (threshold : Nat) :
    List (Nat × LevelData) → Nat → List (Nat × Nat)
  | [], _ => []
  | (levelPrice, levelData) :: rest, quantity =>
    if (side = Side.Buy ∧ levelPrice < threshold) ∨ (side = Side.Sell ∧ levelPrice > threshold) then
      canFullyFillSubtractions side price threshold rest quantity
    else if (side = Side.Buy ∧ levelPrice > price) ∨ (side = Side.Sell ∧ levelPrice < price) then
      canFullyFillSubtractions side price threshold rest quantity
    else if (side = Side.Buy ∧ levelData.askQuantity_ = 0)
        ∨ (side = Side.Sell ∧ levelData.bidQuantity_ = 0) then
      canFullyFillSubtractions side price threshold rest quantity
    else if (side = Side.Buy ∧ levelData.askQuantity_ ≥ quantity)
        ∨ (side = Side.Sell ∧ levelData.bidQuantity_ ≥ quantity) then
      []
    else
      (quantity, if side = Side.Buy then levelData.askQuantity_ else levelData.bidQuantity_)
        :: canFullyFillSubtractions side price threshold rest
            (sub32 quantity
              (if side = Side.Buy then levelData.askQuantity_ else levelData.bidQuantity_))

/-! ## Vocabulary of price-time priority -/

/-- The other side. -/
def Side.opposite (side : Side) : Side :=
  if side = Side.Buy then Side.Sell else Side.Buy

/-- The priority sequence of a side: the orders of its ladder, best price
first (the bids from the highest price down, the asks from the lowest price
up) and within one price in arrival order. -/
def OrderBook.prioritySequence (b : OrderBook) (side : Side) : List Order :=
  if side = Side.Buy then ladderOrders b.bids_ else ladderOrders b.asks_

/-- The leg of a trade on a side. -/
def Trade.leg (t : Trade) (side : Side) : TradeInfo :=
  if side = Side.Buy then t.bidTrade_ else t.askTrade_

/-! ## Example states of the last properties -/

/-- The book after `A S GoodTillCancel 100 0 1`: an ask of quantity 0 rests at
100. -/
def bookZeroAsk : OrderBook :=
  { data_ := [(100, { askQuantity_ := 0, bidQuantity_ := 0, count_ := 1 })],
    bids_ := [],
    asks_ := [(100, [Order.create OrderType.GoodTillCancel 1 Side.Sell 100 0])],
    orders_ := [(1, Order.create OrderType.GoodTillCancel 1 Side.Sell 100 0)] }

/-- The trades of `A B GoodTillCancel 105 5 3` on `bookTwoAskLevels`: 3 against
order 1 at 100, then 2 against order 2 at 105. -/
def tradesOfSweep : Trades :=
  [{ bidTrade_ := { orderId_ := 3, price_ := 105, quantity_ := 3 },
     askTrade_ := { orderId_ := 1, price_ := 100, quantity_ := 3 } },
   { bidTrade_ := { orderId_ := 3, price_ := 105, quantity_ := 2 },
     askTrade_ := { orderId_ := 2, price_ := 105, quantity_ := 2 } }]

/-- The book `bookTwoAskLevels` after `A B GoodTillCancel 105 5 3`: order 2
rests with 2 remaining. -/
def bookAfterSweep : OrderBook :=
  { data_ := [(105, { askQuantity_ := 2, bidQuantity_ := 0, count_ := 1 })],
    bids_ := [],
    asks_ := [(105, [{ Order.create OrderType.GoodTillCancel 2 Side.Sell 105 4 with
                       remainingQuantity_ := 2 }])],
    orders_ := [(2, { Order.create OrderType.GoodTillCancel 2 Side.Sell 105 4 with
                      remainingQuantity_ := 2 })] }

/-! ## The sweep of an incoming order -/

/-- How far an incoming order `o` of side `side`, alone on the best level of
its ladder, has swept the opposite side. `opposite` is the opposite priority
sequence at entry, `own` the queue of the level of `o` now (the order with what
remains of it, or nothing once it is filled), `now` the opposite
priority sequence now and `trades` the trades emitted so far. Every trade has
`o` as its leg on `side`; the opposite legs follow a prefix `done` of
`opposite`; and either every order of `done` was filled for its whole
remaining quantity and `now` is what follows `done`, or `o` is used up, every
order of `done` but the last was so filled, and the last one heads `now`. -/
def Swept (side : Side) (o : Order) (opposite own now : List Order) (trades : Trades) : Prop :=
  (∀ t ∈ trades, (t.leg side).orderId_ = o.orderId_ ∧ (t.leg side).price_ = o.price_)
    ∧ ∃ done rest, opposite = done ++ rest
      ∧ trades.map (fun t => (t.leg side.opposite).orderId_) = done.map Order.orderId_
      ∧ ((((∃ o', own = [o'] ∧ o'.ident = o.ident) ∨ own = []) ∧ now = rest
            ∧ trades.map (fun t => (t.leg side.opposite).quantity_)
                = done.map Order.remainingQuantity_)
          ∨ (own = [] ∧ ∃ init last last', done = init ++ [last] ∧ now = last' :: rest
              ∧ last'.ident = last.ident
              ∧ trades.dropLast.map (fun t => (t.leg side.opposite).quantity_)
                  = init.map Order.remainingQuantity_))


/-! ## Association list lemmas -/

section Assoc
variable {β : Type}

@[simp] theorem assocFind_nil (k : Nat) : assocFind k ([] : List (Nat × β)) = none := rfl

@[simp] theorem assocFind_cons (k k' : Nat) (v : β) (l : List (Nat × β)) :
    assocFind k ((k', v) :: l) = if k' = k then some v else assocFind k l := rfl

theorem assocFind_eq_none_iff (k : Nat) (l : List (Nat × β)) :
    assocFind k l = none ↔ k ∉ l.map Prod.fst := by
  induction l with
  | nil => simp
  | cons x l ih =>
    obtain ⟨k', v⟩ := x
    by_cases h : k' = k
    · simp [h]
    · simp [h, ih, Ne.symm h]

theorem assocFind_mem {k : Nat} {v : β} {l : List (Nat × β)} (h : assocFind k l = some v) :
    (k, v) ∈ l := by
  induction l with
  | nil => simp at h
  | cons x l ih =>
    obtain ⟨k', v'⟩ := x
    by_cases hk : k' = k
    · simp [hk] at h
      simp [hk, h]
    · simp [hk] at h
      exact List.mem_cons_of_mem _ (ih h)

theorem assocFind_of_mem {k : Nat} {v : β} {l : List (Nat × β)}
    (hnd : (l.map Prod.fst).Nodup) (h : (k, v) ∈ l) : assocFind k l = some v := by
  induction l with
  | nil => simp at h
  | cons x l ih =>
    obtain ⟨k', v'⟩ := x
    simp only [List.map_cons, List.nodup_cons] at hnd
    rcases List.mem_cons.1 h with h1 | h1
    · injection h1 with h2 h3
      simp [h2, h3]
    · have hne : k' ≠ k := by
        rintro rfl
        exact hnd.1 (List.mem_map_of_mem Prod.fst h1)
      simp [hne, ih hnd.2 h1]

theorem assocErase_keys_sublist (k : Nat) (l : List (Nat × β)) :
    List.Sublist ((assocErase k l).map Prod.fst) (l.map Prod.fst) := by
  induction l with
  | nil => simp [assocErase]
  | cons x l ih =>
    obtain ⟨k', v⟩ := x
    by_cases h : k' = k
    · simp [assocErase, h]
    · simp [assocErase, h, ih]

theorem assocErase_sublist (k : Nat) (l : List (Nat × β)) :
    List.Sublist (assocErase k l) l := by
  induction l with
  | nil => simp [assocErase]
  | cons x l ih =>
    obtain ⟨k', v⟩ := x
    by_cases h : k' = k
    · simp [assocErase, h]
    · simp [assocErase, h, ih]

theorem assocFind_assocErase_ne {k k' : Nat} (h : k' ≠ k) (l : List (Nat × β)) :
    assocFind k' (assocErase k l) = assocFind k' l := by
  induction l with
  | nil => simp [assocErase]
  | cons x l ih =>
    obtain ⟨k1, v⟩ := x
    by_cases h1 : k1 = k
    · subst h1
      simp [assocErase, Ne.symm h]
    · simp [assocErase, h1, ih]

theorem assocFind_assocErase_self (k : Nat) (l : List (Nat × β))
    (hnd : (l.map Prod.fst).Nodup) : assocFind k (assocErase k l) = none := by
  induction l with
  | nil => simp [assocErase]
  | cons x l ih =>
    obtain ⟨k1, v⟩ := x
    simp only [List.map_cons, List.nodup_cons] at hnd
    by_cases h1 : k1 = k
    · subst h1
      simp [assocErase, assocFind_eq_none_iff, hnd.1]
    · simp [assocErase, h1, ih hnd.2]

theorem assocFind_assocErase (k k' : Nat) (l : List (Nat × β))
    (hnd : (l.map Prod.fst).Nodup) :
    assocFind k' (assocErase k l) = if k' = k then none else assocFind k' l := by
  by_cases h : k' = k
  · subst h
    simp [assocFind_assocErase_self _ _ hnd]
  · simp [h, assocFind_assocErase_ne h]

theorem assocErase_of_not_mem {k : Nat} {l : List (Nat × β)} (h : assocFind k l = none) :
    assocErase k l = l := by
  induction l with
  | nil => simp [assocErase]
  | cons x l ih =>
    obtain ⟨k1, v⟩ := x
    by_cases h1 : k1 = k
    · simp [h1] at h
    · simp [h1] at h
      simp [assocErase, h1, ih h]

theorem assocFind_assocSet (k k' : Nat) (v : β) (l : List (Nat × β)) :
    assocFind k' (assocSet k v l) = if k' = k then some v else assocFind k' l := by
  induction l with
  | nil =>
    by_cases h : k' = k
    · simp [assocSet, h]
    · simp [assocSet, h, Ne.symm h]
  | cons x l ih =>
    obtain ⟨k1, v1⟩ := x
    by_cases h1 : k1 = k
    · subst h1
      by_cases h : k' = k1
      · simp [assocSet, h]
      · simp [assocSet, h, Ne.symm h]
    · by_cases h : k' = k
      · subst h
        simp [assocSet, h1, ih]
      · simp [assocSet, h1, ih, h]

theorem assocSet_keys_nodup (k : Nat) (v : β) (l : List (Nat × β))
    (hnd : (l.map Prod.fst).Nodup) : ((assocSet k v l).map Prod.fst).Nodup := by
  induction l with
  | nil => simp [assocSet]
  | cons x l ih =>
    obtain ⟨k1, v1⟩ := x
    simp only [List.map_cons, List.nodup_cons] at hnd
    by_cases h1 : k1 = k
    · subst h1
      simp [assocSet, hnd.1, hnd.2]
    · simp only [assocSet, h1, if_false, List.map_cons, List.nodup_cons]
      refine ⟨?_, ih hnd.2⟩
      have := assocFind_assocSet k k1 v l
      simp only [h1, if_false] at this
      rw [← assocFind_eq_none_iff, this, assocFind_eq_none_iff]
      exact hnd.1

theorem assocReplace_keys (k : Nat) (v : β) (l : List (Nat × β)) :
    (assocReplace k v l).map Prod.fst = l.map Prod.fst := by
  induction l with
  | nil => simp [assocReplace]
  | cons x l ih =>
    obtain ⟨k1, v1⟩ := x
    by_cases h1 : k1 = k
    · simp [assocReplace, h1]
    · simp [assocReplace, h1, ih]

theorem assocFind_assocReplace (k k' : Nat) (v : β) (l : List (Nat × β)) :
    assocFind k' (assocReplace k v l)
      = if k' = k then (assocFind k l).map (fun _ => v) else assocFind k' l := by
  induction l with
  | nil => simp [assocReplace]
  | cons x l ih =>
    obtain ⟨k1, v1⟩ := x
    by_cases h1 : k1 = k
    · subst h1
      by_cases h : k' = k1
      · simp [assocReplace, h]
      · simp [assocReplace, h, Ne.symm h]
    · by_cases h : k' = k
      · subst h
        simp [assocReplace, h1, ih]
      · simp [assocReplace, h1, ih, h]

theorem assocFind_append (k : Nat) (l1 l2 : List (Nat × β)) :
    assocFind k (l1 ++ l2) = (assocFind k l1).orElse (fun _ => assocFind k l2) := by
  induction l1 with
  | nil => simp
  | cons x l ih =>
    obtain ⟨k1, v1⟩ := x
    by_cases h1 : k1 = k
    · simp [h1]
    · simp [h1, ih]

theorem assocErase_nodup (k : Nat) (l : List (Nat × β)) (hnd : (l.map Prod.fst).Nodup) :
    ((assocErase k l).map Prod.fst).Nodup :=
  List.Nodup.sublist (assocErase_keys_sublist k l) hnd

end Assoc


/-! ## Ladders -/

@[simp] theorem ladderOrders_nil : ladderOrders [] = [] := rfl

@[simp] theorem ladderOrders_cons (p : Nat) (os : List Order) (l : Ladder) :
    ladderOrders ((p, os) :: l) = os ++ ladderOrders l := rfl

theorem mem_ladderOrders {o : Order} {l : Ladder} :
    o ∈ ladderOrders l ↔ ∃ x ∈ l, o ∈ x.2 := by
  induction l with
  | nil => simp
  | cons x l ih =>
    obtain ⟨p, os⟩ := x
    simp [ih]

theorem ladderOrders_assocErase_sublist (p : Nat) (l : Ladder) :
    List.Sublist (ladderOrders (assocErase p l)) (ladderOrders l) := by
  induction l with
  | nil => simp [assocErase]
  | cons x l ih =>
    obtain ⟨q, os⟩ := x
    by_cases h : q = p
    · simp [assocErase, h]
    · simp [assocErase, h, ih]

/-- Pushing an order on a ladder adds exactly that order. -/
theorem ladderOrders_pushBack_perm (before : Nat → Nat → Bool) (p : Nat) (o : Order)
    (l : Ladder) : List.Perm (ladderOrders (ladderPushBack before p o l)) (o :: ladderOrders l) := by
  induction l with
  | nil => simp [ladderPushBack]
  | cons x l ih =>
    obtain ⟨q, os⟩ := x
    by_cases h : q = p
    · simp only [ladderPushBack, h, if_true, ladderOrders_cons, List.append_assoc]
      have : List.Perm (os ++ ([o] ++ ladderOrders l)) ([o] ++ (os ++ ladderOrders l)) := by
        rw [← List.append_assoc, ← List.append_assoc]
        exact List.Perm.append_right _ List.perm_append_comm
      simp
    · by_cases hb : before p q = true
      · simp [ladderPushBack, h, hb]
      · simp only [ladderPushBack, h, hb, if_false, ladderOrders_cons]
        have h1 : List.Perm (os ++ ladderOrders (ladderPushBack before p o l))
            (os ++ (o :: ladderOrders l)) := List.Perm.append_left _ ih
        exact h1.trans List.perm_middle

theorem mem_pushBack_keys (before : Nat → Nat → Bool) (p : Nat) (o : Order) (l : Ladder)
    (x : Nat × List Order) (hx : x ∈ ladderPushBack before p o l) :
    x.1 = p ∨ x ∈ l := by
  induction l with
  | nil =>
    simp only [ladderPushBack, List.mem_singleton] at hx
    left; rw [hx]
  | cons y l ih =>
    obtain ⟨q, os⟩ := y
    unfold ladderPushBack at hx
    split_ifs at hx with h hb
    · rcases List.mem_cons.1 hx with hx | hx
      · left; rw [hx]; exact h
      · right; exact List.mem_cons_of_mem _ hx
    · rcases List.mem_cons.1 hx with hx | hx
      · left; rw [hx]
      · right; exact hx
    · rcases List.mem_cons.1 hx with hx | hx
      · right; rw [hx]; exact List.mem_cons_self _ _
      · rcases ih hx with h1 | h1
        · left; exact h1
        · right; exact List.mem_cons_of_mem _ h1

/-- Pushing keeps a descending ladder descending. -/
theorem pushBack_sorted_desc (p : Nat) (o : Order) (l : Ladder)
    (hs : l.Pairwise (fun x y => x.1 > y.1)) :
    (ladderPushBack (fun x y => decide (x > y)) p o l).Pairwise (fun x y => x.1 > y.1) := by
  induction l with
  | nil => simp [ladderPushBack]
  | cons x l ih =>
    obtain ⟨q, os⟩ := x
    rw [List.pairwise_cons] at hs
    unfold ladderPushBack
    split_ifs with h hb
    · exact List.pairwise_cons.2 ⟨hs.1, hs.2⟩
    · have hb' : p > q := by simpa using hb
      refine List.pairwise_cons.2 ⟨?_, List.pairwise_cons.2 ⟨hs.1, hs.2⟩⟩
      intro y hy
      rcases List.mem_cons.1 hy with hy | hy
      · rw [hy]; exact hb'
      · have := hs.1 y hy
        dsimp only at this ⊢
        omega
    · have hb' : ¬ p > q := by simpa using hb
      refine List.pairwise_cons.2 ⟨?_, ih hs.2⟩
      intro y hy
      rcases mem_pushBack_keys _ _ _ _ _ hy with h1 | h1
      · dsimp only; omega
      · exact hs.1 y h1

/-- Pushing keeps an ascending ladder ascending. -/
theorem pushBack_sorted_asc (p : Nat) (o : Order) (l : Ladder)
    (hs : l.Pairwise (fun x y => x.1 < y.1)) :
    (ladderPushBack (fun x y => decide (x < y)) p o l).Pairwise (fun x y => x.1 < y.1) := by
  induction l with
  | nil => simp [ladderPushBack]
  | cons x l ih =>
    obtain ⟨q, os⟩ := x
    rw [List.pairwise_cons] at hs
    unfold ladderPushBack
    split_ifs with h hb
    · exact List.pairwise_cons.2 ⟨hs.1, hs.2⟩
    · have hb' : p < q := by simpa using hb
      refine List.pairwise_cons.2 ⟨?_, List.pairwise_cons.2 ⟨hs.1, hs.2⟩⟩
      intro y hy
      rcases List.mem_cons.1 hy with hy | hy
      · rw [hy]; exact hb'
      · have := hs.1 y hy
        dsimp only at this ⊢
        omega
    · have hb' : ¬ p < q := by simpa using hb
      refine List.pairwise_cons.2 ⟨?_, ih hs.2⟩
      intro y hy
      rcases mem_pushBack_keys _ _ _ _ _ hy with h1 | h1
      · dsimp only; omega
      · exact hs.1 y h1

/-- Pushing an order of side `s` at its own price keeps the levels
homogeneous. -/
theorem pushBack_level (before : Nat → Nat → Bool) (s : Side) (o : Order) (l : Ladder)
    (hs : o.side_ = s)
    (hl : ∀ x ∈ l, ∀ o' ∈ x.2, o'.side_ = s ∧ o'.price_ = x.1) :
    ∀ x ∈ ladderPushBack before o.price_ o l, ∀ o' ∈ x.2, o'.side_ = s ∧ o'.price_ = x.1 := by
  induction l with
  | nil =>
    intro x hx o' ho'
    simp only [ladderPushBack, List.mem_singleton] at hx
    rw [hx] at ho' ⊢
    simp only [List.mem_singleton] at ho'
    rw [ho']; exact ⟨hs, rfl⟩
  | cons y l ih =>
    obtain ⟨q, os⟩ := y
    intro x hx o' ho'
    have hl' : ∀ x ∈ l, ∀ o' ∈ x.2, o'.side_ = s ∧ o'.price_ = x.1 :=
      fun x hx => hl x (List.mem_cons_of_mem _ hx)
    have hq := hl (q, os) (List.mem_cons_self _ _)
    unfold ladderPushBack at hx
    split_ifs at hx with h hb
    · rcases List.mem_cons.1 hx with hx | hx
      · rw [hx] at ho' ⊢
        rcases List.mem_append.1 ho' with ho' | ho'
        · exact hq o' ho'
        · simp only [List.mem_singleton] at ho'
          rw [ho']; exact ⟨hs, h.symm⟩
      · exact hl' x hx o' ho'
    · rcases List.mem_cons.1 hx with hx | hx
      · rw [hx] at ho' ⊢
        simp only [List.mem_singleton] at ho'
        rw [ho']; exact ⟨hs, rfl⟩
      · exact hl x hx o' ho'
    · rcases List.mem_cons.1 hx with hx | hx
      · rw [hx] at ho' ⊢
        exact hq o' ho'
      · exact ih hl' x hx o' ho'

theorem pushBack_noEmpty (before : Nat → Nat → Bool) (p : Nat) (o : Order) (l : Ladder)
    (hl : ladderNoEmpty l) : ladderNoEmpty (ladderPushBack before p o l) := by
  induction l with
  | nil =>
    intro x hx
    simp only [ladderPushBack, List.mem_singleton] at hx
    rw [hx]; simp
  | cons y l ih =>
    obtain ⟨q, os⟩ := y
    have hl' : ladderNoEmpty l := fun x hx => hl x (List.mem_cons_of_mem _ hx)
    have hq := hl (q, os) (List.mem_cons_self _ _)
    intro x hx
    unfold ladderPushBack at hx
    split_ifs at hx with h hb
    · rcases List.mem_cons.1 hx with hx | hx
      · rw [hx]; simp
      · exact hl' x hx
    · rcases List.mem_cons.1 hx with hx | hx
      · rw [hx]; simp
      · exact hl x hx
    · rcases List.mem_cons.1 hx with hx | hx
      · rw [hx]; exact hq
      · exact ih hl' x hx


/-! ## Decomposition of association lists and queues -/

theorem assocFind_split {β : Type} {k : Nat} {v : β} {l : List (Nat × β)}
    (h : assocFind k l = some v) :
    ∃ l1 l2, l = l1 ++ (k, v) :: l2 ∧ (∀ x ∈ l1, x.1 ≠ k) ∧ assocErase k l = l1 ++ l2
      ∧ ∀ v', assocReplace k v' l = l1 ++ (k, v') :: l2 := by
  induction l with
  | nil => simp at h
  | cons x l ih =>
    obtain ⟨k1, v1⟩ := x
    by_cases h1 : k1 = k
    · subst h1
      simp only [assocFind_cons, if_true, Option.some.injEq] at h
      subst h
      exact ⟨[], l, by simp, by simp, by simp [assocErase], by simp [assocReplace]⟩
    · simp only [assocFind_cons, h1, if_false] at h
      obtain ⟨l1, l2, e1, e2, e3, e4⟩ := ih h
      refine ⟨(k1, v1) :: l1, l2, by simp [e1], ?_, by simp [assocErase, h1, e3], ?_⟩
      · intro x hx
        rcases List.mem_cons.1 hx with hx | hx
        · rw [hx]; exact h1
        · exact e2 x hx
      · intro v'
        simp [assocReplace, h1, e4]

theorem eraseOrder_split {id : Nat} {os os' : List Order} (h : eraseOrder id os = some os') :
    ∃ l1 o l2, os = l1 ++ o :: l2 ∧ os' = l1 ++ l2 ∧ o.orderId_ = id
      ∧ ∀ x ∈ l1, x.orderId_ ≠ id := by
  induction os generalizing os' with
  | nil => simp [eraseOrder] at h
  | cons x l ih =>
    by_cases h1 : x.orderId_ = id
    · simp only [eraseOrder, h1, if_true, Option.some.injEq] at h
      exact ⟨[], x, l, by simp, by simp [h], h1, by simp⟩
    · simp only [eraseOrder, h1, if_false, Option.map_eq_some'] at h
      obtain ⟨r, hr, e⟩ := h
      obtain ⟨l1, o, l2, e1, e2, e3, e4⟩ := ih hr
      refine ⟨x :: l1, o, l2, by simp [e1], by simp [← e, e2], e3, ?_⟩
      intro y hy
      rcases List.mem_cons.1 hy with hy | hy
      · rw [hy]; exact h1
      · exact e4 y hy

theorem eraseOrder_isSome {id : Nat} {os : List Order} (h : ∃ o ∈ os, o.orderId_ = id) :
    ∃ os', eraseOrder id os = some os' := by
  induction os with
  | nil => simp at h
  | cons x l ih =>
    by_cases h1 : x.orderId_ = id
    · exact ⟨l, by simp [eraseOrder, h1]⟩
    · obtain ⟨o, ho, e⟩ := h
      rcases List.mem_cons.1 ho with ho | ho
      · subst ho; exact absurd e h1
      · obtain ⟨os', h2⟩ := ih ⟨o, ho, e⟩
        exact ⟨x :: os', by simp [eraseOrder, h1, h2]⟩

theorem ladderOrders_append (l1 l2 : Ladder) :
    ladderOrders (l1 ++ l2) = ladderOrders l1 ++ ladderOrders l2 := by
  induction l1 with
  | nil => simp
  | cons x l ih =>
    obtain ⟨p, os⟩ := x
    simp [ih]

theorem sorted_desc_keys_nodup {l : Ladder} (h : l.Pairwise (fun x y => x.1 > y.1)) :
    (l.map Prod.fst).Nodup := by
  rw [List.Nodup, List.pairwise_map]
  exact h.imp (fun h => Nat.ne_of_gt h)

theorem sorted_asc_keys_nodup {l : Ladder} (h : l.Pairwise (fun x y => x.1 < y.1)) :
    (l.map Prod.fst).Nodup := by
  rw [List.Nodup, List.pairwise_map]
  exact h.imp (fun h => Nat.ne_of_lt h)

/-- What `cancelInLadder` does to a ladder: one order with the given id leaves
the queue at `price`; nothing else moves. -/
theorem cancelInLadder_split {l l' : Ladder} {price id : Nat}
    (h : cancelInLadder l price id = some l') :
    ∃ L1 q1 o q2 L2, l = L1 ++ (price, q1 ++ o :: q2) :: L2 ∧ o.orderId_ = id
      ∧ (∀ x ∈ L1, x.1 ≠ price) ∧ (∀ x ∈ q1, x.orderId_ ≠ id)
      ∧ l' = (if q1 ++ q2 = [] then L1 ++ L2 else L1 ++ (price, q1 ++ q2) :: L2) := by
  unfold cancelInLadder at h
  cases hf : assocFind price l with
  | none => simp [hf] at h
  | some os =>
    simp only [hf] at h
    cases he : eraseOrder id os with
    | none => simp [he] at h
    | some os' =>
      simp only [he] at h
      obtain ⟨q1, o, q2, e1, e2, e3, e4⟩ := eraseOrder_split he
      obtain ⟨L1, L2, f1, f2, f3, f4⟩ := assocFind_split hf
      refine ⟨L1, q1, o, q2, L2, by rw [f1, e1], e3, f2, e4, ?_⟩
      rw [← e2]
      split_ifs at h ⊢ with h1
      · simp only [Option.some.injEq] at h
        rw [← h, f3]
      · simp only [Option.some.injEq] at h
        rw [← h, f4]


/-! ## Structural consistency is preserved -/

theorem OrderBook.WF.of_eq {b b' : OrderBook} (h : b.WF) (h1 : b'.bids_ = b.bids_)
    (h2 : b'.asks_ = b.asks_) (h3 : b'.orders_ = b.orders_) : b'.WF := by
  have ha : b'.allOrders = b.allOrders := by simp [OrderBook.allOrders, h1, h2]
  exact ⟨h1 ▸ h.bidsSorted, h2 ▸ h.asksSorted, h1 ▸ h.bidsLevel, h2 ▸ h.asksLevel,
    ha ▸ h.idsNodup, h3 ▸ h.keysNodup, by rw [h3, ha]; exact h.index⟩

theorem wf_empty : ({} : OrderBook).WF :=
  ⟨by simp, by simp, by simp, by simp, by simp [OrderBook.allOrders], by simp,
    by simp [OrderBook.allOrders]⟩

theorem OrderBook.WF.find_of_mem {b : OrderBook} (h : b.WF) {o : Order} (ho : o ∈ b.allOrders) :
    assocFind o.orderId_ b.orders_ = some o :=
  (h.index o.orderId_ o).2 ⟨ho, rfl⟩

theorem OrderBook.WF.not_mem_of_fresh {b : OrderBook} (h : b.WF) {id : Nat}
    (hf : assocFind id b.orders_ = none) : id ∉ b.allOrders.map Order.orderId_ := by
  intro hm
  obtain ⟨o, ho, e⟩ := List.mem_map.1 hm
  have := h.find_of_mem ho
  rw [e, hf] at this
  exact Option.noConfusion this

theorem allOrders_insertOrder_perm (b : OrderBook) (o : Order) :
    List.Perm (b.insertOrder o).allOrders (o :: b.allOrders) := by
  unfold OrderBook.insertOrder OrderBook.allOrders
  by_cases hs : o.side_ = Side.Buy
  · simp only [hs, if_true]
    exact (List.Perm.append_right _ (ladderOrders_pushBack_perm _ _ _ _))
  · simp only [hs, if_false]
    exact (List.Perm.append_left _ (ladderOrders_pushBack_perm _ _ _ _)).trans
      List.perm_middle

theorem wf_insertOrder {b : OrderBook} (h : b.WF) (o : Order)
    (hf : assocFind o.orderId_ b.orders_ = none) : (b.insertOrder o).WF := by
  have hp := allOrders_insertOrder_perm b o
  have hmem : ∀ x, x ∈ (b.insertOrder o).allOrders ↔ x = o ∨ x ∈ b.allOrders := by
    intro x; rw [hp.mem_iff]; simp
  refine ⟨?_, ?_, ?_, ?_, ?_, ?_, ?_⟩
  · unfold OrderBook.insertOrder
    by_cases hs : o.side_ = Side.Buy
    · simp only [hs, if_true]; exact pushBack_sorted_desc _ _ _ h.bidsSorted
    · simp only [hs, if_false]; exact h.bidsSorted
  · unfold OrderBook.insertOrder
    by_cases hs : o.side_ = Side.Buy
    · simp only [hs, if_true]; exact h.asksSorted
    · simp only [hs, if_false]; exact pushBack_sorted_asc _ _ _ h.asksSorted
  · unfold OrderBook.insertOrder
    by_cases hs : o.side_ = Side.Buy
    · simp only [hs, if_true]; exact pushBack_level _ _ _ _ hs h.bidsLevel
    · simp only [hs, if_false]; exact h.bidsLevel
  · unfold OrderBook.insertOrder
    by_cases hs : o.side_ = Side.Buy
    · simp only [hs, if_true]; exact h.asksLevel
    · simp only [hs, if_false]
      have hs' : o.side_ = Side.Sell := by cases hside : o.side_ <;> simp_all
      exact pushBack_level _ _ _ _ hs' h.asksLevel
  · rw [(hp.map _).nodup_iff, List.map_cons, List.nodup_cons]
    exact ⟨h.not_mem_of_fresh hf, h.idsNodup⟩
  · have : (b.insertOrder o).orders_ = b.orders_ ++ [(o.orderId_, o)] := rfl
    rw [this, List.map_append, List.nodup_append]
    refine ⟨h.keysNodup, by simp, ?_⟩
    intro a ha hb
    simp only [List.map_cons, List.map_nil, List.mem_singleton] at hb
    subst hb
    exact (assocFind_eq_none_iff _ _).1 hf ha
  · intro id x
    have : (b.insertOrder o).orders_ = b.orders_ ++ [(o.orderId_, o)] := rfl
    rw [this, assocFind_append, hmem]
    cases hfind : assocFind id b.orders_ with
    | some y =>
      simp only [Option.orElse, Option.some.injEq]
      have hy := (h.index id y).1 hfind
      constructor
      · rintro rfl; exact ⟨Or.inr hy.1, hy.2⟩
      · rintro ⟨h1 | h1, h2⟩
        · subst h1; rw [h2, hfind] at hf; exact Option.noConfusion hf
        · have := (h.index id x).2 ⟨h1, h2⟩
          rw [hfind] at this
          exact Option.some.inj this
    | none =>
      simp only [Option.orElse, assocFind_cons, assocFind_nil]
      constructor
      · intro h1
        split_ifs at h1 with h2
        · simp only [Option.some.injEq] at h1
          subst h1
          exact ⟨Or.inl rfl, h2⟩
      · rintro ⟨h1 | h1, h2⟩
        · subst h1; simp [h2]
        · have := (h.index id x).2 ⟨h1, h2⟩
          rw [hfind] at this
          exact Option.noConfusion this

/-- The orders of a ladder after `cancelInLadder`: one order with the id is
gone. -/
theorem cancelInLadder_orders {l l' : Ladder} {price id : Nat}
    (h : cancelInLadder l price id = some l') :
    ∃ A o B, ladderOrders l = A ++ o :: B ∧ ladderOrders l' = A ++ B ∧ o.orderId_ = id
      ∧ List.Sublist (l'.map Prod.fst) (l.map Prod.fst)
      ∧ (∀ x ∈ l', ∃ y ∈ l, x.1 = y.1 ∧ ∀ z ∈ x.2, z ∈ y.2)
      ∧ (ladderNoEmpty l → ladderNoEmpty l') := by
  obtain ⟨L1, q1, o, q2, L2, e1, e2, -, -, e5⟩ := cancelInLadder_split h
  refine ⟨ladderOrders L1 ++ q1, o, q2 ++ ladderOrders L2, ?_, ?_, e2, ?_, ?_, ?_⟩
  · simp [e1, ladderOrders_append]
  · rw [e5]
    split_ifs with h1
    · have h2 := List.append_eq_nil.1 h1
      simp [ladderOrders_append, h2.1, h2.2]
    · simp [ladderOrders_append]
  · rw [e5, e1]
    split_ifs with h1
    · simp
    · simp
  · rw [e5, e1]
    intro x hx
    split_ifs at hx with h1
    · refine ⟨x, ?_, rfl, fun z hz => hz⟩
      rcases List.mem_append.1 hx with hx | hx
      · exact List.mem_append_left _ hx
      · exact List.mem_append_right _ (List.mem_cons_of_mem _ hx)
    · rcases List.mem_append.1 hx with hx | hx
      · exact ⟨x, List.mem_append_left _ hx, rfl, fun z hz => hz⟩
      · rcases List.mem_cons.1 hx with hx | hx
        · refine ⟨(price, q1 ++ o :: q2), by simp, by rw [hx], ?_⟩
          intro z hz
          rw [hx] at hz
          rcases List.mem_append.1 hz with hz | hz
          · exact List.mem_append_left _ hz
          · exact List.mem_append_right _ (List.mem_cons_of_mem _ hz)
        · exact ⟨x, List.mem_append_right _ (List.mem_cons_of_mem _ hx), rfl, fun z hz => hz⟩
  · rw [e5, e1]
    intro hne x hx
    split_ifs at hx with h1
    · apply hne
      rcases List.mem_append.1 hx with hx | hx
      · exact List.mem_append_left _ hx
      · exact List.mem_append_right _ (List.mem_cons_of_mem _ hx)
    · rcases List.mem_append.1 hx with hx | hx
      · exact hne x (List.mem_append_left _ hx)
      · rcases List.mem_cons.1 hx with hx | hx
        · rw [hx]; exact h1
        · exact hne x (List.mem_append_right _ (List.mem_cons_of_mem _ hx))

/-- Removing one order from the ladders and its id from the index keeps the
book consistent. -/
theorem wf_remove {b b' : OrderBook} (h : b.WF) {A B : List Order} {o : Order}
    (hall : b.allOrders = A ++ o :: B) (hall' : b'.allOrders = A ++ B)
    (hbs : b'.bids_.Pairwise (fun x y => x.1 > y.1))
    (has : b'.asks_.Pairwise (fun x y => x.1 < y.1))
    (hbl : ∀ x ∈ b'.bids_, ∀ o ∈ x.2, o.side_ = Side.Buy ∧ o.price_ = x.1)
    (hal : ∀ x ∈ b'.asks_, ∀ o ∈ x.2, o.side_ = Side.Sell ∧ o.price_ = x.1)
    (ho : b'.orders_ = assocErase o.orderId_ b.orders_) : b'.WF := by
  have hnd := h.idsNodup
  rw [hall] at hnd
  simp only [List.map_append, List.map_cons] at hnd
  have hnd' : ((A ++ B).map Order.orderId_).Nodup := by
    rw [List.map_append]
    exact hnd.sublist (List.Sublist.append_left (List.sublist_cons_self _ _) _)
  have hnotin : ∀ x ∈ A ++ B, x.orderId_ ≠ o.orderId_ := by
    intro x hx e
    have h1 := List.nodup_middle.1 hnd
    rw [List.nodup_cons] at h1
    apply h1.1
    rw [← List.map_append, ← e]
    exact List.mem_map_of_mem _ hx
  refine ⟨hbs, has, hbl, hal, by rw [hall']; exact hnd', by rw [ho]; exact assocErase_nodup _ _ h.keysNodup, ?_⟩
  intro id x
  rw [ho, hall', assocFind_assocErase _ _ _ h.keysNodup]
  split_ifs with h1
  · subst h1
    constructor
    · intro h2; exact absurd h2 (by simp)
    · rintro ⟨h2, h3⟩; exact absurd h3 (hnotin x h2)
  · rw [h.index, hall]
    constructor
    · rintro ⟨h2, h3⟩
      refine ⟨?_, h3⟩
      rcases List.mem_append.1 h2 with h2 | h2
      · exact List.mem_append_left _ h2
      · rcases List.mem_cons.1 h2 with h2 | h2
        · subst h2; exact absurd h3.symm h1
        · exact List.mem_append_right _ h2
    · rintro ⟨h2, h3⟩
      refine ⟨?_, h3⟩
      rcases List.mem_append.1 h2 with h2 | h2
      · exact List.mem_append_left _ h2
      · exact List.mem_append_right _ (List.mem_cons_of_mem _ h2)

theorem level_transfer {s : Side} {l l' : Ladder}
    (hl : ∀ x ∈ l, ∀ o ∈ x.2, o.side_ = s ∧ o.price_ = x.1)
    (h : ∀ x ∈ l', ∃ y ∈ l, x.1 = y.1 ∧ ∀ z ∈ x.2, z ∈ y.2) :
    ∀ x ∈ l', ∀ o ∈ x.2, o.side_ = s ∧ o.price_ = x.1 := by
  intro x hx o ho
  obtain ⟨y, hy, e, hsub⟩ := h x hx
  rw [e]
  exact hl y hy o (hsub o ho)

theorem sorted_desc_transfer {l l' : Ladder} (hs : l.Pairwise (fun x y => x.1 > y.1))
    (h : List.Sublist (l'.map Prod.fst) (l.map Prod.fst)) :
    l'.Pairwise (fun x y => x.1 > y.1) := by
  have h1 : (l.map Prod.fst).Pairwise (fun x y => x > y) := List.pairwise_map.2 hs
  exact List.pairwise_map.1 (h1.sublist h)

theorem sorted_asc_transfer {l l' : Ladder} (hs : l.Pairwise (fun x y => x.1 < y.1))
    (h : List.Sublist (l'.map Prod.fst) (l.map Prod.fst)) :
    l'.Pairwise (fun x y => x.1 < y.1) := by
  have h1 : (l.map Prod.fst).Pairwise (fun x y => x < y) := List.pairwise_map.2 hs
  exact List.pairwise_map.1 (h1.sublist h)

theorem wf_cancel {b b' : OrderBook} (h : b.WF) {id : Nat}
    (hc : b.CancelOrderInternal id = some b') : b'.WF := by
  unfold OrderBook.CancelOrderInternal at hc
  cases hf : assocFind id b.orders_ with
  | none =>
    simp only [hf, Option.some.injEq] at hc
    exact hc ▸ h
  | some order =>
    simp only [hf] at hc
    have hid : order.orderId_ = id := ((h.index id order).1 hf).2
    split_ifs at hc with hs
    · obtain ⟨bids, hb, e⟩ := Option.map_eq_some'.1 hc
      obtain ⟨A, o, B, e1, e2, e3, e4, e5, -⟩ := cancelInLadder_orders hb
      subst e
      refine wf_remove (A := A) (B := B ++ ladderOrders b.asks_) (o := o) h ?_ ?_ ?_ ?_ ?_ ?_ ?_
      · simp [OrderBook.allOrders, e1]
      · simp [OrderBook.allOrders, e2]
      · exact sorted_desc_transfer h.bidsSorted e4
      · exact h.asksSorted
      · exact level_transfer h.bidsLevel e5
      · exact h.asksLevel
      · simp [e3]
    · obtain ⟨asks, hb, e⟩ := Option.map_eq_some'.1 hc
      obtain ⟨A, o, B, e1, e2, e3, e4, e5, -⟩ := cancelInLadder_orders hb
      subst e
      refine wf_remove (A := ladderOrders b.bids_ ++ A) (B := B) (o := o) h ?_ ?_ ?_ ?_ ?_ ?_ ?_
      · simp [OrderBook.allOrders, e1]
      · simp [OrderBook.allOrders, e2]
      · exact h.bidsSorted
      · exact sorted_asc_transfer h.asksSorted e4
      · exact h.bidsLevel
      · exact level_transfer h.asksLevel e5
      · simp [e3]


/-! ## The match step keeps the book consistent -/

theorem fillQueue_append (o1 : Order) (X Y : List Order) :
    fillQueue o1 (X ++ Y) = fillQueue o1 X ++ Y := by
  unfold fillQueue; split_ifs <;> simp

theorem mem_fillQueue {o1 x : Order} {X : List Order} (h : x ∈ fillQueue o1 X) :
    x = o1 ∨ x ∈ X := by
  unfold fillQueue at h
  split_ifs at h
  · exact Or.inr h
  · exact List.mem_cons.1 h

theorem Order.Fill_eq_some {o o1 : Order} {q : Nat} (h : o.Fill q = some o1) :
    q ≤ o.remainingQuantity_ ∧ o1 = { o with remainingQuantity_ := o.remainingQuantity_ - q } := by
  unfold Order.Fill at h
  split_ifs at h with h1
  simp only [Option.some.injEq] at h
  exact ⟨by omega, h.symm⟩

theorem Order.Fill_min_left (o : Order) (n : Nat) :
    o.Fill (min o.remainingQuantity_ n)
      = some { o with remainingQuantity_ := o.remainingQuantity_ - min o.remainingQuantity_ n } := by
  unfold Order.Fill
  rw [if_neg]
  have := Nat.min_le_left o.remainingQuantity_ n
  omega

theorem Order.Fill_min_right (o : Order) (n : Nat) :
    o.Fill (min n o.remainingQuantity_)
      = some { o with remainingQuantity_ := o.remainingQuantity_ - min n o.remainingQuantity_ } := by
  unfold Order.Fill
  rw [if_neg]
  have := Nat.min_le_right n o.remainingQuantity_
  omega

/-- Replacing one order of the ladders by an order of the same id, in the
ladders and in the index, keeps the book consistent. -/
theorem wf_replace {b b' : OrderBook} (h : b.WF) {A B : List Order} {o o1 : Order}
    (hall : b.allOrders = A ++ o :: B) (hall' : b'.allOrders = A ++ o1 :: B)
    (hid : o1.orderId_ = o.orderId_)
    (hbs : b'.bids_.Pairwise (fun x y => x.1 > y.1))
    (has : b'.asks_.Pairwise (fun x y => x.1 < y.1))
    (hbl : ∀ x ∈ b'.bids_, ∀ o ∈ x.2, o.side_ = Side.Buy ∧ o.price_ = x.1)
    (hal : ∀ x ∈ b'.asks_, ∀ o ∈ x.2, o.side_ = Side.Sell ∧ o.price_ = x.1)
    (ho : b'.orders_ = assocReplace o.orderId_ o1 b.orders_) : b'.WF := by
  have hnd := h.idsNodup
  rw [hall] at hnd
  simp only [List.map_append, List.map_cons] at hnd
  have hnotin : ∀ x ∈ A ++ B, x.orderId_ ≠ o.orderId_ := by
    intro x hx e
    have h1 := List.nodup_middle.1 hnd
    rw [List.nodup_cons] at h1
    apply h1.1
    rw [← List.map_append, ← e]
    exact List.mem_map_of_mem _ hx
  have hfo : assocFind o.orderId_ b.orders_ = some o :=
    h.find_of_mem (by rw [hall]; simp)
  refine ⟨hbs, has, hbl, hal, ?_, by rw [ho, assocReplace_keys]; exact h.keysNodup, ?_⟩
  · rw [hall']
    simp only [List.map_append, List.map_cons, hid]
    exact hnd
  · intro id x
    rw [ho, hall', assocFind_assocReplace]
    split_ifs with h1
    · subst h1
      rw [hfo]
      simp only [Option.map_some', Option.some.injEq]
      constructor
      · rintro rfl; exact ⟨by simp, hid⟩
      · rintro ⟨h2, h3⟩
        rcases List.mem_append.1 h2 with h2 | h2
        · exact absurd h3 (hnotin x (List.mem_append_left _ h2))
        · rcases List.mem_cons.1 h2 with h2 | h2
          · exact h2.symm
          · exact absurd h3 (hnotin x (List.mem_append_right _ h2))
    · rw [h.index, hall]
      constructor
      · rintro ⟨h2, h3⟩
        refine ⟨?_, h3⟩
        rcases List.mem_append.1 h2 with h2 | h2
        · exact List.mem_append_left _ h2
        · rcases List.mem_cons.1 h2 with h2 | h2
          · subst h2; exact absurd h3.symm h1
          · exact List.mem_append_right _ (List.mem_cons_of_mem _ h2)
      · rintro ⟨h2, h3⟩
        refine ⟨?_, h3⟩
        rcases List.mem_append.1 h2 with h2 | h2
        · exact List.mem_append_left _ h2
        · rcases List.mem_cons.1 h2 with h2 | h2
          · subst h2; rw [hid] at h3; exact absurd h3.symm h1
          · exact List.mem_append_right _ (List.mem_cons_of_mem _ h2)

/-- Filling one order of the ladders (dropping it when it is filled), in the
ladders and in the index, keeps the book consistent. -/
theorem wf_fill {b b' : OrderBook} (h : b.WF) {A B : List Order} {o o1 : Order}
    (hall : b.allOrders = A ++ o :: B) (hall' : b'.allOrders = A ++ fillQueue o1 B)
    (hid : o1.orderId_ = o.orderId_)
    (hbs : b'.bids_.Pairwise (fun x y => x.1 > y.1))
    (has : b'.asks_.Pairwise (fun x y => x.1 < y.1))
    (hbl : ∀ x ∈ b'.bids_, ∀ o ∈ x.2, o.side_ = Side.Buy ∧ o.price_ = x.1)
    (hal : ∀ x ∈ b'.asks_, ∀ o ∈ x.2, o.side_ = Side.Sell ∧ o.price_ = x.1)
    (ho : b'.orders_ = fillIndex o1 b.orders_) : b'.WF := by
  unfold fillQueue at hall'
  unfold fillIndex at ho
  split_ifs at hall' ho with h1
  · exact wf_remove h hall hall' hbs has hbl hal (by rw [ho, hid])
  · exact wf_replace h hall hall' hid hbs has hbl hal (by rw [ho, hid])

/-- The ladders and the index after `matchFront`. -/
theorem matchFront_eq {b b' : OrderBook} {bp ap : Nat} {bid ask : Order} {bids asks : List Order}
    {bl al : Ladder} {t : Trade}
    (h : b.matchFront bp bid bids bl ap ask asks al = some (t, b')) :
    ∃ q bid1 ask1, q = min bid.remainingQuantity_ ask.remainingQuantity_
      ∧ bid1 = { bid with remainingQuantity_ := bid.remainingQuantity_ - q }
      ∧ ask1 = { ask with remainingQuantity_ := ask.remainingQuantity_ - q }
      ∧ t = { bidTrade_ := { orderId_ := bid.orderId_, price_ := bid.price_, quantity_ := q },
              askTrade_ := { orderId_ := ask.orderId_, price_ := ask.price_, quantity_ := q } }
      ∧ b'.bids_ = (bp, fillQueue bid1 bids) :: bl
      ∧ b'.asks_ = (ap, fillQueue ask1 asks) :: al
      ∧ b'.orders_ = fillIndex ask1 (fillIndex bid1 b.orders_)
      ∧ b'.data_ = OnOrderMatched (OnOrderMatched b.data_ Side.Buy bid.price_ q bid1.IsFilled)
          Side.Sell ask.price_ q ask1.IsFilled := by
  unfold OrderBook.matchFront at h
  simp only [Order.Fill_min_left, Order.Fill_min_right, Option.some_bind, Option.some.injEq,
    Prod.mk.injEq] at h
  obtain ⟨h1, h2⟩ := h
  refine ⟨_, _, _, rfl, rfl, rfl, h1.symm, ?_, ?_, ?_, ?_⟩ <;> rw [← h2]

theorem matchFront_isSome (b : OrderBook) (bp ap : Nat) (bid ask : Order) (bids asks : List Order)
    (bl al : Ladder) : ∃ r, b.matchFront bp bid bids bl ap ask asks al = some r := by
  unfold OrderBook.matchFront
  simp only [Order.Fill_min_left, Order.Fill_min_right, Option.some_bind]
  exact ⟨_, rfl⟩

theorem wf_matchFront {b b' : OrderBook} {bp ap : Nat} {bid ask : Order} {bids asks : List Order}
    {bl al : Ladder} {t : Trade} (hw : b.WF)
    (hb : b.bids_ = (bp, bid :: bids) :: bl) (ha : b.asks_ = (ap, ask :: asks) :: al)
    (h : b.matchFront bp bid bids bl ap ask asks al = some (t, b')) : b'.WF := by
  obtain ⟨q, bid1, ask1, -, e2, e3, -, e5, e6, e7, -⟩ := matchFront_eq h
  -- first the bid, then the ask
  have hbs := hw.bidsSorted
  have has := hw.asksSorted
  have hbl := hw.bidsLevel
  have hal := hw.asksLevel
  rw [hb] at hbs hbl
  rw [ha] at has hal
  have hbl1 : ∀ x ∈ (bp, fillQueue bid1 bids) :: bl, ∀ o ∈ x.2,
      o.side_ = Side.Buy ∧ o.price_ = x.1 := by
    intro x hx o ho
    rcases List.mem_cons.1 hx with hx | hx
    · rw [hx] at ho ⊢
      rcases mem_fillQueue ho with ho | ho
      · have := hbl (bp, bid :: bids) (List.mem_cons_self _ _) bid (List.mem_cons_self _ _)
        rw [ho, e2]; exact this
      · exact hbl (bp, bid :: bids) (List.mem_cons_self _ _) o (List.mem_cons_of_mem _ ho)
    · exact hbl x (List.mem_cons_of_mem _ hx) o ho
  have hal1 : ∀ x ∈ (ap, fillQueue ask1 asks) :: al, ∀ o ∈ x.2,
      o.side_ = Side.Sell ∧ o.price_ = x.1 := by
    intro x hx o ho
    rcases List.mem_cons.1 hx with hx | hx
    · rw [hx] at ho ⊢
      rcases mem_fillQueue ho with ho | ho
      · have := hal (ap, ask :: asks) (List.mem_cons_self _ _) ask (List.mem_cons_self _ _)
        rw [ho, e3]; exact this
      · exact hal (ap, ask :: asks) (List.mem_cons_self _ _) o (List.mem_cons_of_mem _ ho)
    · exact hal x (List.mem_cons_of_mem _ hx) o ho
  have hbs1 : ((bp, fillQueue bid1 bids) :: bl).Pairwise (fun x y => x.1 > y.1) := by
    rw [List.pairwise_cons] at hbs ⊢; exact hbs
  have has1 : ((ap, fillQueue ask1 asks) :: al).Pairwise (fun x y => x.1 < y.1) := by
    rw [List.pairwise_cons] at has ⊢; exact has
  have hw1 : OrderBook.WF ⟨b.data_, (bp, fillQueue bid1 bids) :: bl, b.asks_,
      fillIndex bid1 b.orders_⟩ := by
    refine wf_fill (A := []) (B := bids ++ ladderOrders bl ++ ladderOrders b.asks_) (o := bid)
      hw ?_ ?_ (show bid1.orderId_ = bid.orderId_ by rw [e2]) hbs1 hw.asksSorted hbl1 hw.asksLevel rfl
    · simp [OrderBook.allOrders, hb]
    · simp [OrderBook.allOrders, fillQueue_append]
  refine wf_fill (A := fillQueue bid1 bids ++ ladderOrders bl) (B := asks ++ ladderOrders al)
    (o := ask) hw1 ?_ ?_ (show ask1.orderId_ = ask.orderId_ by rw [e3]) (by rw [e5]; exact hbs1) (by rw [e6]; exact has1)
    (by rw [e5]; exact hbl1) (by rw [e6]; exact hal1) (by rw [e7])
  · simp [OrderBook.allOrders, ha]
  · simp [OrderBook.allOrders, e5, e6, fillQueue_append]

/-- Induction over the inner loop: a property kept by every `matchFront` holds
when the loop is left. -/
theorem matchLevel_induct (P : OrderBook → Trades → Prop)
    (hstep : ∀ (b b' : OrderBook) (ts : Trades) (bp ap : Nat) (bid ask : Order)
      (bids asks : List Order) (bl al : Ladder) (t : Trade),
      b.bids_ = (bp, bid :: bids) :: bl → b.asks_ = (ap, ask :: asks) :: al → P b ts →
      b.matchFront bp bid bids bl ap ask asks al = some (t, b') → P b' (ts ++ [t])) :
    ∀ (fuel : Nat) (b : OrderBook) (ts : Trades) (r : Trades × OrderBook),
      P b ts → b.matchLevel fuel ts = some r → P r.2 r.1 := by
  intro fuel
  induction fuel with
  | zero =>
    intro b ts r hp h
    unfold OrderBook.matchLevel at h
    split at h
    · simp at h
    · simp only [Option.some.injEq] at h
      rw [← h]; exact hp
  | succ n ih =>
    intro b ts r hp h
    unfold OrderBook.matchLevel at h
    split at h
    · rename_i bp bid bids bl ap ask asks al hb ha
      simp only [Option.bind_eq_some] at h
      obtain ⟨⟨t, b'⟩, h1, h2⟩ := h
      exact ih b' (ts ++ [t]) r (hstep b b' ts bp ap bid ask bids asks bl al t hb ha hp h1) h2
    · simp only [Option.some.injEq] at h
      rw [← h]; exact hp

theorem wf_matchLevel {fuel : Nat} {b : OrderBook} {ts : Trades} {r : Trades × OrderBook}
    (hw : b.WF) (h : b.matchLevel fuel ts = some r) : r.2.WF :=
  matchLevel_induct (fun b _ => b.WF)
    (fun _ _ _ _ _ _ _ _ _ _ _ _ hb ha hp h => wf_matchFront hp hb ha h) fuel b ts r hw h


/-! ## The outer loop keeps the book consistent -/

theorem eraseEmpty_spec (p : Nat) (l : Ladder) :
    ladderOrders (if assocFind p l = some [] then assocErase p l else l) = ladderOrders l
      ∧ List.Sublist (if assocFind p l = some [] then assocErase p l else l) l := by
  split_ifs with h
  · obtain ⟨l1, l2, e1, -, e3, -⟩ := assocFind_split h
    rw [e3]
    constructor
    · rw [e1]; simp [ladderOrders_append]
    · rw [e1]; exact List.Sublist.append_left (List.sublist_cons_self _ _) _
  · exact ⟨rfl, List.Sublist.refl _⟩

theorem allOrders_eraseEmptyLevels (b : OrderBook) (bp ap : Nat) :
    (b.eraseEmptyLevels bp ap).allOrders = b.allOrders := by
  unfold OrderBook.eraseEmptyLevels OrderBook.allOrders
  simp only [(eraseEmpty_spec bp b.bids_).1, (eraseEmpty_spec ap b.asks_).1]

theorem wf_eraseEmptyLevels {b : OrderBook} (h : b.WF) (bp ap : Nat) :
    (b.eraseEmptyLevels bp ap).WF := by
  have hb := (eraseEmpty_spec bp b.bids_).2
  have ha := (eraseEmpty_spec ap b.asks_).2
  refine ⟨h.bidsSorted.sublist hb, h.asksSorted.sublist ha, ?_, ?_, ?_, h.keysNodup, ?_⟩
  · intro x hx; exact h.bidsLevel x (hb.subset hx)
  · intro x hx; exact h.asksLevel x (ha.subset hx)
  · rw [allOrders_eraseEmptyLevels]; exact h.idsNodup
  · rw [allOrders_eraseEmptyLevels]; exact h.index

theorem wf_afterLevel {b : OrderBook} (h : b.WF) (bp ap : Nat) : (b.afterLevel bp ap).WF :=
  (wf_eraseEmptyLevels h bp ap).of_eq rfl rfl rfl

/-- Called from outside, `CancelOrder` is `CancelOrderInternal`. -/
theorem CancelOrder_eq_internal (b : OrderBook) (orderId : Nat) :
    b.CancelOrder orderId = b.CancelOrderInternal orderId := rfl

/-- Called by a thread that owns the mutex, `CancelOrder` does not return. -/
theorem CancelOrderFrom_owned (b : OrderBook) (orderId : Nat) :
    b.CancelOrderFrom true orderId = none := rfl

/-- When the cancelling statement of `MatchOrder` returns, the front order of
the ladder was not `FillAndKill` and the book is the one it was. -/
theorem cancelFillAndKill_eq_some {b b' : OrderBook} {l : Ladder}
    (hc : b.cancelFillAndKill l = some b') :
    b' = b ∧ ∀ (p : Nat) (o : Order) (rest : List Order) (tl : Ladder),
      l = (p, o :: rest) :: tl → o.orderType_ ≠ OrderType.FillAndKill := by
  unfold OrderBook.cancelFillAndKill at hc
  split at hc
  · simp only [Option.some.injEq] at hc
    exact ⟨hc.symm, fun p o rest tl e => by cases e⟩
  · simp at hc
  · split_ifs at hc with ht
    · simp [CancelOrderFrom_owned] at hc
    · simp only [Option.some.injEq] at hc
      refine ⟨hc.symm, fun p o rest tl e => ?_⟩
      simp only [List.cons.injEq, Prod.mk.injEq] at e
      obtain ⟨⟨-, e1, -⟩, -⟩ := e
      exact e1 ▸ ht

theorem wf_cancelFillAndKill {b b' : OrderBook} (h : b.WF) (l : Ladder)
    (hc : b.cancelFillAndKill l = some b') : b'.WF :=
  (cancelFillAndKill_eq_some hc).1 ▸ h

theorem matchPass_eq_some {b : OrderBook} {bp ap fuel : Nat} {ts : Trades}
    {r : Trades × OrderBook} (h : b.matchPass bp ap fuel ts = some r) :
    ∃ (r1 : Trades × OrderBook) (b3 : OrderBook), b.matchLevel fuel ts = some r1
      ∧ (r1.2.afterLevel bp ap).cancelFillAndKill (r1.2.afterLevel bp ap).bids_ = some b3
      ∧ b3.cancelFillAndKill b3.asks_ = some r.2 ∧ r.1 = r1.1 := by
  unfold OrderBook.matchPass at h
  simp only [Option.bind_eq_some] at h
  obtain ⟨r1, h1, b3, h2, b4, h3, h4⟩ := h
  simp only [Option.some.injEq] at h4
  refine ⟨r1, b3, h1, h2, ?_, ?_⟩
  · rw [← h4]; exact h3
  · rw [← h4]

theorem wf_matchPass {b : OrderBook} {bp ap fuel : Nat} {ts : Trades}
    {r : Trades × OrderBook} (hw : b.WF) (h : b.matchPass bp ap fuel ts = some r) : r.2.WF := by
  obtain ⟨r1, b3, h1, h2, h3, -⟩ := matchPass_eq_some h
  have w1 := wf_matchLevel hw h1
  have w2 := wf_afterLevel w1 bp ap
  have w3 := wf_cancelFillAndKill w2 _ h2
  exact wf_cancelFillAndKill w3 _ h3

/-- Induction over the outer loop: a property kept by every `matchPass` holds
when the loop is left. -/
theorem matchLoop_induct (P : OrderBook → Trades → Prop)
    (hstep : ∀ (b : OrderBook) (ts : Trades) (bp ap : Nat) (bids asks : List Order)
      (bl al : Ladder) (r : Trades × OrderBook),
      b.bids_ = (bp, bids) :: bl → b.asks_ = (ap, asks) :: al → ¬ bp < ap → P b ts →
      b.matchPass bp ap (bids.length + asks.length) ts = some r → P r.2 r.1) :
    ∀ (fuel : Nat) (b : OrderBook) (ts : Trades) (r : Trades × OrderBook),
      P b ts → b.matchLoop fuel ts = some r → P r.2 r.1 := by
  intro fuel
  induction fuel with
  | zero =>
    intro b ts r _ h
    simp [OrderBook.matchLoop] at h
  | succ n ih =>
    intro b ts r hp h
    unfold OrderBook.matchLoop at h
    split at h
    · simp only [Option.some.injEq] at h; rw [← h]; exact hp
    · simp only [Option.some.injEq] at h; rw [← h]; exact hp
    · rename_i bp bids bl ap asks al hb ha
      split_ifs at h with hlt
      · simp only [Option.some.injEq] at h; rw [← h]; exact hp
      · simp only [Option.bind_eq_some] at h
        obtain ⟨r1, h1, h2⟩ := h
        exact ih r1.2 r1.1 r (hstep b ts bp ap bids asks bl al r1 hb ha hlt hp h1) h2

/-- The outer loop is left only when the best prices do not cross. -/
theorem matchLoop_headUncrossed :
    ∀ (fuel : Nat) (b : OrderBook) (ts : Trades) (r : Trades × OrderBook),
      b.matchLoop fuel ts = some r → r.2.HeadUncrossed := by
  intro fuel
  induction fuel with
  | zero =>
    intro b ts r h
    simp [OrderBook.matchLoop] at h
  | succ n ih =>
    intro b ts r h
    unfold OrderBook.matchLoop at h
    split at h
    · rename_i hb
      simp only [Option.some.injEq] at h; rw [← h]
      simp [OrderBook.HeadUncrossed, hb]
    · rename_i hb ha
      simp only [Option.some.injEq] at h; rw [← h]
      simp only [OrderBook.HeadUncrossed, ha]
      split <;> simp_all
    · rename_i bp bids bl ap asks al hb ha
      split_ifs at h with hlt
      · simp only [Option.some.injEq] at h; rw [← h]
        simp [OrderBook.HeadUncrossed, hb, ha, hlt]
      · simp only [Option.bind_eq_some] at h
        obtain ⟨r1, -, h2⟩ := h
        exact ih r1.2 r1.1 r h2

theorem wf_matchLoop {fuel : Nat} {b : OrderBook} {ts : Trades} {r : Trades × OrderBook}
    (hw : b.WF) (h : b.matchLoop fuel ts = some r) : r.2.WF :=
  matchLoop_induct (fun b _ => b.WF)
    (fun _ _ _ _ _ _ _ _ _ _ _ _ hp h => wf_matchPass hp h) fuel b ts r hw h

theorem uncrossed_of_head {b : OrderBook} (hw : b.WF) (h : b.HeadUncrossed) : b.Uncrossed := by
  intro x hx y hy
  unfold OrderBook.HeadUncrossed at h
  have hbs := hw.bidsSorted
  have has := hw.asksSorted
  split at h
  · rename_i bp bq bl ap aq al hb ha
    rw [hb] at hx hbs
    rw [ha] at hy has
    rw [List.pairwise_cons] at hbs has
    have h1 : x.1 ≤ bp := by
      rcases List.mem_cons.1 hx with hx | hx
      · rw [hx]
      · exact Nat.le_of_lt (hbs.1 x hx)
    have h2 : ap ≤ y.1 := by
      rcases List.mem_cons.1 hy with hy | hy
      · rw [hy]
      · exact Nat.le_of_lt (has.1 y hy)
    omega
  · rename_i hne
    cases hb : b.bids_ with
    | nil => rw [hb] at hx; simp at hx
    | cons x1 l1 =>
      cases ha : b.asks_ with
      | nil => rw [ha] at hy; simp at hy
      | cons y1 l2 => exact absurd ha (hne x1.1 x1.2 l1 y1.1 y1.2 l2 hb)

/-- The four invariants of a book at rest that do not involve the aggregate
index. -/
theorem wf_MatchOrder {b : OrderBook} {r : Trades × OrderBook} (hw : b.WF)
    (h : b.MatchOrder = some r) : r.2.WF ∧ r.2.Uncrossed := by
  have w := wf_matchLoop hw h
  exact ⟨w, uncrossed_of_head w (matchLoop_headUncrossed _ _ _ _ h)⟩


/-! ## The public operations keep the book consistent and uncrossed -/

theorem addGated_eq_some {b : OrderBook} {o1 : Order} {r : Trades × OrderBook}
    (h : b.addGated o1 = some r) :
    r = ([], b) ∨ (b.Admits o1 ∧ (b.insertOrder o1).MatchOrder = some r) := by
  unfold OrderBook.addGated at h
  split_ifs at h with h1 h2
  · left; simp only [Option.some.injEq] at h; exact h.symm
  · left; simp only [Option.some.injEq] at h; exact h.symm
  · right
    refine ⟨⟨?_, ?_⟩, h⟩
    · intro ht
      by_contra hc
      exact h1 ⟨ht, hc⟩
    · intro ht
      by_contra hc
      exact h2 ⟨ht, hc⟩

/-- The two ways in which `AddOrder` returns: a rejection that leaves the book
as it was, or the insertion of the (promoted) order followed by `MatchOrder`. -/
theorem AddOrder_eq_some {b : OrderBook} {o : Order} {r : Trades × OrderBook}
    (h : b.AddOrder o = some r) :
    r = ([], b) ∨ ∃ o1, assocFind o.orderId_ b.orders_ = none ∧ b.Promoted o o1
      ∧ b.Admits o1 ∧ (b.insertOrder o1).MatchOrder = some r := by
  unfold OrderBook.AddOrder at h
  split_ifs at h with h1 h2 h3 h4
  · left; simp only [Option.some.injEq] at h; exact h.symm
  · have hf : assocFind o.orderId_ b.orders_ = none := by
      cases hx : assocFind o.orderId_ b.orders_ with
      | none => rfl
      | some v => simp [hx] at h1
    split at h
    · simp at h
    · rename_i w q hl
      simp only [Order.ToGoodTillCancel, h2, ne_eq, not_true_eq_false, if_false,
        Option.some_bind] at h
      rcases addGated_eq_some h with h5 | h5
      · left; exact h5
      · right
        refine ⟨_, hf, Or.inr ⟨h2, w, q, ?_, rfl⟩, h5.1, h5.2⟩
        simp [h3.1, hl]
  · have hf : assocFind o.orderId_ b.orders_ = none := by
      cases hx : assocFind o.orderId_ b.orders_ with
      | none => rfl
      | some v => simp [hx] at h1
    split at h
    · simp at h
    · rename_i w q hl
      simp only [Order.ToGoodTillCancel, h2, ne_eq, not_true_eq_false, if_false,
        Option.some_bind] at h
      rcases addGated_eq_some h with h5 | h5
      · left; exact h5
      · right
        refine ⟨_, hf, Or.inr ⟨h2, w, q, ?_, rfl⟩, h5.1, h5.2⟩
        simp [h4.1, hl]
  · left; simp only [Option.some.injEq] at h; exact h.symm
  · have hf : assocFind o.orderId_ b.orders_ = none := by
      cases hx : assocFind o.orderId_ b.orders_ with
      | none => rfl
      | some v => simp [hx] at h1
    rcases addGated_eq_some h with h5 | h5
    · left; exact h5
    · right
      exact ⟨o, hf, Or.inl ⟨h2, rfl⟩, h5.1, h5.2⟩

theorem OrderBook.Promoted.id_eq {b : OrderBook} {o o1 : Order} (h : b.Promoted o o1) :
    o1.orderId_ = o.orderId_ := by
  rcases h with ⟨-, h⟩ | ⟨-, w, q, -, h⟩ <;> rw [h]

theorem OrderBook.Promoted.side_eq {b : OrderBook} {o o1 : Order} (h : b.Promoted o o1) :
    o1.side_ = o.side_ := by
  rcases h with ⟨-, h⟩ | ⟨-, w, q, -, h⟩ <;> rw [h]

theorem OrderBook.Promoted.remaining_eq {b : OrderBook} {o o1 : Order} (h : b.Promoted o o1) :
    o1.remainingQuantity_ = o.remainingQuantity_ ∧ o1.initialQuantity_ = o.initialQuantity_ := by
  rcases h with ⟨-, h⟩ | ⟨-, w, q, -, h⟩ <;> rw [h] <;> exact ⟨rfl, rfl⟩

theorem OrderBook.Promoted.not_market {b : OrderBook} {o o1 : Order} (h : b.Promoted o o1) :
    o1.orderType_ ≠ OrderType.Market := by
  rcases h with ⟨h0, h⟩ | ⟨-, w, q, -, h⟩
  · rw [h]; exact h0
  · rw [h]; simp

theorem uncrossed_of_keys {b b' : OrderBook} (h : b.Uncrossed)
    (hb : List.Sublist (b'.bids_.map Prod.fst) (b.bids_.map Prod.fst))
    (ha : List.Sublist (b'.asks_.map Prod.fst) (b.asks_.map Prod.fst)) : b'.Uncrossed := by
  intro x hx y hy
  obtain ⟨x', hx', ex⟩ := List.mem_map.1 (hb.subset (List.mem_map_of_mem Prod.fst hx))
  obtain ⟨y', hy', ey⟩ := List.mem_map.1 (ha.subset (List.mem_map_of_mem Prod.fst hy))
  rw [← ex, ← ey]
  exact h x' hx' y' hy'

theorem uncrossed_cancel {b b' : OrderBook} (h : b.Uncrossed) {id : Nat}
    (hc : b.CancelOrderInternal id = some b') : b'.Uncrossed := by
  unfold OrderBook.CancelOrderInternal at hc
  cases hf : assocFind id b.orders_ with
  | none =>
    simp only [hf, Option.some.injEq] at hc
    exact hc ▸ h
  | some order =>
    simp only [hf] at hc
    split_ifs at hc with hs
    · obtain ⟨bids, hb, e⟩ := Option.map_eq_some'.1 hc
      obtain ⟨A, o, B, -, -, -, e4, -, -⟩ := cancelInLadder_orders hb
      subst e
      exact uncrossed_of_keys h e4 (List.Sublist.refl _)
    · obtain ⟨asks, hb, e⟩ := Option.map_eq_some'.1 hc
      obtain ⟨A, o, B, -, -, -, e4, -, -⟩ := cancelInLadder_orders hb
      subst e
      exact uncrossed_of_keys h (List.Sublist.refl _) e4

theorem wf_AddOrder {b : OrderBook} {o : Order} {r : Trades × OrderBook}
    (hw : b.WF) (hu : b.Uncrossed) (h : b.AddOrder o = some r) : r.2.WF ∧ r.2.Uncrossed := by
  rcases AddOrder_eq_some h with h1 | ⟨o1, hf, hp, -, hm⟩
  · rw [h1]; exact ⟨hw, hu⟩
  · exact wf_MatchOrder (wf_insertOrder hw o1 (by rw [hp.id_eq]; exact hf)) hm

theorem ModifyOrder_eq_some {b : OrderBook} {m : OrderModify} {r : Trades × OrderBook}
    (h : b.ModifyOrder m = some r) :
    (assocFind m.orderId_ b.orders_ = none ∧ r = ([], b))
      ∨ ∃ order b1, assocFind m.orderId_ b.orders_ = some order
          ∧ b.CancelOrder m.orderId_ = some b1
          ∧ b1.AddOrder (m.ToOrderPointer order.orderType_) = some r := by
  unfold OrderBook.ModifyOrder at h
  split at h
  · rename_i hf
    left; simp only [Option.some.injEq] at h; exact ⟨hf, h.symm⟩
  · rename_i order hf
    right
    obtain ⟨b1, h1, h2⟩ := Option.bind_eq_some.1 h
    exact ⟨order, b1, hf, h1, h2⟩

theorem wf_ModifyOrder {b : OrderBook} {m : OrderModify} {r : Trades × OrderBook}
    (hw : b.WF) (hu : b.Uncrossed) (h : b.ModifyOrder m = some r) :
    r.2.WF ∧ r.2.Uncrossed := by
  rcases ModifyOrder_eq_some h with ⟨-, h1⟩ | ⟨order, b1, -, h1, h2⟩
  · rw [h1]; exact ⟨hw, hu⟩
  · exact wf_AddOrder (wf_cancel hw h1) (uncrossed_cancel hu h1) h2

theorem Reachable.wf_uncrossed {b : OrderBook} (h : Reachable b) : b.WF ∧ b.Uncrossed := by
  induction h with
  | empty => exact ⟨wf_empty, by intro x hx; simp at hx⟩
  | add _ _ _ _ _ _ h ih => exact wf_AddOrder ih.1 ih.2 h
  | cancel _ _ h ih => exact ⟨wf_cancel ih.1 h, uncrossed_cancel ih.2 h⟩
  | modify _ _ h ih => exact wf_ModifyOrder ih.1 ih.2 h

theorem ReachableValid.reachable {b : OrderBook} (h : ReachableValid b) : Reachable b := by
  induction h with
  | empty => exact Reachable.empty
  | add t id s p q _ _ h ih => exact Reachable.add t id s p q ih h
  | cancel id _ h ih => exact Reachable.cancel id ih h
  | modify m _ _ h ih => exact Reachable.modify m ih h


/-! ## The loops return, and leave no empty level -/

theorem fillQueue_length_le (o1 : Order) (X : List Order) :
    (fillQueue o1 X).length ≤ X.length + 1 := by
  unfold fillQueue; split_ifs <;> simp

theorem fillQueue_filled {o1 : Order} (X : List Order) (h : o1.remainingQuantity_ = 0) :
    fillQueue o1 X = X := by
  simp [fillQueue, Order.IsFilled, h]

theorem matchLevel_total : ∀ (fuel : Nat) (b : OrderBook) (ts : Trades),
    b.headLen ≤ fuel → ∃ r, b.matchLevel fuel ts = some r := by
  intro fuel
  induction fuel with
  | zero =>
    intro b ts hle
    unfold OrderBook.matchLevel
    split
    · rename_i bp bid bids bl ap ask asks al hb ha
      simp [OrderBook.headLen, hb, ha] at hle
    · exact ⟨_, rfl⟩
  | succ n ih =>
    intro b ts hle
    unfold OrderBook.matchLevel
    split
    · rename_i bp bid bids bl ap ask asks al hb ha
      obtain ⟨⟨t, b'⟩, hr⟩ := matchFront_isSome b bp ap bid ask bids asks bl al
      obtain ⟨q, bid1, ask1, e1, e2, e3, -, e5, e6, -, -⟩ := matchFront_eq hr
      simp only [hr, Option.some_bind]
      apply ih
      simp only [OrderBook.headLen, hb, ha, e5, e6, List.head?_cons, Option.map_some',
        Option.getD_some, List.length_cons] at hle ⊢
      have hb1 := fillQueue_length_le bid1 bids
      have ha1 := fillQueue_length_le ask1 asks
      rcases Nat.le_total bid.remainingQuantity_ ask.remainingQuantity_ with hle1 | hle1
      · have : bid1.remainingQuantity_ = 0 := by
          rw [e2, e1, Nat.min_eq_left hle1]; simp
        rw [fillQueue_filled bids this]
        omega
      · have : ask1.remainingQuantity_ = 0 := by
          rw [e3, e1, Nat.min_eq_right hle1]; simp
        rw [fillQueue_filled asks this]
        omega
    · exact ⟨_, rfl⟩

/-- The inner loop rewrites the two best queues only, and is left when one of
them is empty. -/
theorem matchLevel_shape : ∀ (fuel : Nat) (b : OrderBook) (ts : Trades)
    (r : Trades × OrderBook) (bp ap : Nat) (bq aq : List Order) (bl al : Ladder),
    b.bids_ = (bp, bq) :: bl → b.asks_ = (ap, aq) :: al → b.matchLevel fuel ts = some r →
    ∃ bq' aq', r.2.bids_ = (bp, bq') :: bl ∧ r.2.asks_ = (ap, aq') :: al
      ∧ (bq' = [] ∨ aq' = []) := by
  intro fuel
  induction fuel with
  | zero =>
    intro b ts r bp ap bq aq bl al hb ha h
    unfold OrderBook.matchLevel at h
    split at h
    · simp at h
    · rename_i hne
      simp only [Option.some.injEq] at h
      rw [← h]
      refine ⟨bq, aq, hb, ha, ?_⟩
      cases bq with
      | nil => exact Or.inl rfl
      | cons x xs =>
        cases aq with
        | nil => exact Or.inr rfl
        | cons y ys => exact absurd ha (hne _ _ _ _ _ _ _ _ hb)
  | succ n ih =>
    intro b ts r bp ap bq aq bl al hb ha h
    unfold OrderBook.matchLevel at h
    split at h
    · rename_i bp' bid bids bl' ap' ask asks al' hb' ha'
      simp only [Option.bind_eq_some] at h
      obtain ⟨⟨t, b'⟩, h1, h2⟩ := h
      obtain ⟨q, bid1, ask1, -, -, -, -, e5, e6, -, -⟩ := matchFront_eq h1
      rw [hb] at hb'
      rw [ha] at ha'
      simp only [List.cons.injEq, Prod.mk.injEq] at hb' ha'
      obtain ⟨⟨rfl, -⟩, rfl⟩ := hb'
      obtain ⟨⟨rfl, -⟩, rfl⟩ := ha'
      exact ih b' _ r bp ap _ _ bl al e5 e6 h2
    · rename_i hne
      simp only [Option.some.injEq] at h
      rw [← h]
      refine ⟨bq, aq, hb, ha, ?_⟩
      cases bq with
      | nil => exact Or.inl rfl
      | cons x xs =>
        cases aq with
        | nil => exact Or.inr rfl
        | cons y ys => exact absurd ha (hne _ _ _ _ _ _ _ _ hb)

theorem ladderNoEmpty_tail {x : Nat × List Order} {l : Ladder} (h : ladderNoEmpty (x :: l)) :
    ladderNoEmpty l := fun y hy => h y (List.mem_cons_of_mem _ hy)

/-- The book right after the inner loop and the removal of emptied levels. -/
theorem afterLevel_shape {b : OrderBook} {bp ap : Nat} {bq aq : List Order} {bl al : Ladder}
    (hb : b.bids_ = (bp, bq) :: bl) (ha : b.asks_ = (ap, aq) :: al) :
    (b.afterLevel bp ap).bids_ = (if bq = [] then bl else (bp, bq) :: bl)
      ∧ (b.afterLevel bp ap).asks_ = (if aq = [] then al else (ap, aq) :: al)
      ∧ (b.afterLevel bp ap).orders_ = b.orders_ := by
  refine ⟨?_, ?_, rfl⟩ <;>
    simp [OrderBook.afterLevel, OrderBook.eraseEmptyLevels, hb, ha, assocErase]

theorem cancel_total {b : OrderBook} (hw : b.WF) (id : Nat) :
    ∃ b', b.CancelOrderInternal id = some b' := by
  unfold OrderBook.CancelOrderInternal
  cases hf : assocFind id b.orders_ with
  | none => exact ⟨b, rfl⟩
  | some order =>
    simp only []
    obtain ⟨hmem, hid⟩ := (hw.index id order).1 hf
    unfold OrderBook.allOrders at hmem
    have key : ∀ (l : Ladder), (l.map Prod.fst).Nodup →
        (∀ x ∈ l, ∀ o ∈ x.2, o.price_ = x.1) → order ∈ ladderOrders l →
        ∃ l', cancelInLadder l order.price_ id = some l' := by
      intro l hnd hl hm
      obtain ⟨x, hx, hox⟩ := mem_ladderOrders.1 hm
      have hp := hl x hx order hox
      have hfind : assocFind order.price_ l = some x.2 :=
        assocFind_of_mem hnd (by rw [hp]; exact hx)
      obtain ⟨os', he⟩ := eraseOrder_isSome ⟨order, hox, hid⟩
      unfold cancelInLadder
      simp only [hfind, he]
      split_ifs
      · exact ⟨_, rfl⟩
      · exact ⟨_, rfl⟩
    split_ifs with hs
    · have hm : order ∈ ladderOrders b.bids_ := by
        rcases List.mem_append.1 hmem with h1 | h1
        · exact h1
        · obtain ⟨x, hx, hox⟩ := mem_ladderOrders.1 h1
          have := (hw.asksLevel x hx order hox).1
          rw [hs] at this
          exact Side.noConfusion this
      obtain ⟨l', hl'⟩ := key b.bids_ (sorted_desc_keys_nodup hw.bidsSorted)
        (fun x hx o ho => (hw.bidsLevel x hx o ho).2) hm
      exact ⟨_, by rw [hl']; rfl⟩
    · have hm : order ∈ ladderOrders b.asks_ := by
        rcases List.mem_append.1 hmem with h1 | h1
        · obtain ⟨x, hx, hox⟩ := mem_ladderOrders.1 h1
          exact absurd (hw.bidsLevel x hx order hox).1 hs
        · exact h1
      obtain ⟨l', hl'⟩ := key b.asks_ (sorted_asc_keys_nodup hw.asksSorted)
        (fun x hx o ho => (hw.asksLevel x hx o ho).2) hm
      exact ⟨_, by rw [hl']; rfl⟩

/-- A cancellation removes no level but possibly the one it empties, and
leaves no empty level behind. -/
theorem cancel_levels {b b' : OrderBook} {id : Nat} (hc : b.CancelOrderInternal id = some b') :
    List.Sublist (b'.bids_.map Prod.fst) (b.bids_.map Prod.fst)
      ∧ List.Sublist (b'.asks_.map Prod.fst) (b.asks_.map Prod.fst)
      ∧ (b.NoEmptyLevels → b'.NoEmptyLevels) := by
  unfold OrderBook.CancelOrderInternal at hc
  cases hf : assocFind id b.orders_ with
  | none =>
    simp only [hf, Option.some.injEq] at hc
    subst hc
    exact ⟨List.Sublist.refl _, List.Sublist.refl _, fun h => h⟩
  | some order =>
    simp only [hf] at hc
    split_ifs at hc with hs
    · obtain ⟨bids, hb, e⟩ := Option.map_eq_some'.1 hc
      obtain ⟨A, o, B, -, -, -, e4, -, e6⟩ := cancelInLadder_orders hb
      subst e
      exact ⟨e4, List.Sublist.refl _, fun h => ⟨e6 h.1, h.2⟩⟩
    · obtain ⟨asks, hb, e⟩ := Option.map_eq_some'.1 hc
      obtain ⟨A, o, B, -, -, -, e4, -, e6⟩ := cancelInLadder_orders hb
      subst e
      exact ⟨List.Sublist.refl _, e4, fun h => ⟨h.1, e6 h.2⟩⟩

theorem cancelFillAndKill_levels {b b' : OrderBook} {l : Ladder}
    (hc : b.cancelFillAndKill l = some b') :
    List.Sublist (b'.bids_.map Prod.fst) (b.bids_.map Prod.fst)
      ∧ List.Sublist (b'.asks_.map Prod.fst) (b.asks_.map Prod.fst)
      ∧ (b.NoEmptyLevels → b'.NoEmptyLevels) := by
  rw [(cancelFillAndKill_eq_some hc).1]
  exact ⟨List.Sublist.refl _, List.Sublist.refl _, fun h => h⟩

/-- The cancelling statement of `MatchOrder` returns when no order of the
ladder is `FillAndKill`. -/
theorem cancelFillAndKill_total (b : OrderBook) {l : Ladder} (hl : ladderNoEmpty l)
    (hn : ∀ x ∈ ladderOrders l, x.orderType_ ≠ OrderType.FillAndKill) :
    b.cancelFillAndKill l = some b := by
  unfold OrderBook.cancelFillAndKill
  split
  · rfl
  · rename_i p rest
    exact absurd rfl (hl (p, []) (List.mem_cons_self _ _))
  · rename_i p order q rest
    rw [if_neg (hn order (by simp [ladderOrders]))]

/-- After the inner loop and the removal of the emptied levels the book has
no empty level and at least one level less. -/
theorem afterLevel_props {b : OrderBook} {r : Trades × OrderBook} {fuel : Nat} {ts : Trades}
    {bp ap : Nat} {bq aq : List Order} {bl al : Ladder}
    (hne : b.NoEmptyLevels) (hb : b.bids_ = (bp, bq) :: bl) (ha : b.asks_ = (ap, aq) :: al)
    (h : b.matchLevel fuel ts = some r) :
    (r.2.afterLevel bp ap).NoEmptyLevels ∧ (r.2.afterLevel bp ap).levels < b.levels := by
  obtain ⟨bq', aq', e1, e2, e3⟩ := matchLevel_shape fuel b ts r bp ap bq aq bl al hb ha h
  obtain ⟨f1, f2, -⟩ := afterLevel_shape e1 e2
  have hbl : ladderNoEmpty bl := by have := hne.1; rw [hb] at this; exact ladderNoEmpty_tail this
  have hal : ladderNoEmpty al := by have := hne.2; rw [ha] at this; exact ladderNoEmpty_tail this
  refine ⟨⟨?_, ?_⟩, ?_⟩
  · rw [f1]
    split_ifs with h1
    · exact hbl
    · intro x hx
      rcases List.mem_cons.1 hx with hx | hx
      · rw [hx]; exact h1
      · exact hbl x hx
  · rw [f2]
    split_ifs with h1
    · exact hal
    · intro x hx
      rcases List.mem_cons.1 hx with hx | hx
      · rw [hx]; exact h1
      · exact hal x hx
  · unfold OrderBook.levels
    rw [f1, f2, hb, ha]
    rcases e3 with h1 | h1
    · rw [if_pos h1]
      split_ifs <;> simp only [List.length_cons] <;> omega
    · rw [if_pos h1]
      split_ifs <;> simp only [List.length_cons] <;> omega

theorem matchPass_props {b : OrderBook} {r : Trades × OrderBook} {fuel : Nat} {ts : Trades}
    {bp ap : Nat} {bq aq : List Order} {bl al : Ladder}
    (hne : b.NoEmptyLevels) (hb : b.bids_ = (bp, bq) :: bl) (ha : b.asks_ = (ap, aq) :: al)
    (h : b.matchPass bp ap fuel ts = some r) :
    r.2.NoEmptyLevels ∧ r.2.levels < b.levels := by
  obtain ⟨r1, b3, h1, h2, h3, -⟩ := matchPass_eq_some h
  obtain ⟨p1, p2⟩ := afterLevel_props hne hb ha h1
  obtain ⟨c1, c2, c3⟩ := cancelFillAndKill_levels h2
  obtain ⟨d1, d2, d3⟩ := cancelFillAndKill_levels h3
  refine ⟨d3 (c3 p1), ?_⟩
  have l1 := (d1.trans c1).length_le
  have l2 := (d2.trans c2).length_le
  simp only [List.length_map] at l1 l2
  unfold OrderBook.levels at p2 ⊢
  omega

theorem noEmpty_matchLoop {fuel : Nat} {b : OrderBook} {ts : Trades} {r : Trades × OrderBook}
    (hne : b.NoEmptyLevels) (h : b.matchLoop fuel ts = some r) : r.2.NoEmptyLevels :=
  matchLoop_induct (fun b _ => b.NoEmptyLevels)
    (fun _ _ _ _ _ _ _ _ _ hb ha _ hp h => (matchPass_props hp hb ha h).1) fuel b ts r hne h

theorem noEmpty_insertOrder {b : OrderBook} (hne : b.NoEmptyLevels) (o : Order) :
    (b.insertOrder o).NoEmptyLevels := by
  unfold OrderBook.insertOrder OrderBook.NoEmptyLevels
  by_cases hs : o.side_ = Side.Buy
  · simp only [hs, if_true]
    exact ⟨pushBack_noEmpty _ _ _ _ hne.1, hne.2⟩
  · simp only [hs, if_false]
    exact ⟨hne.1, pushBack_noEmpty _ _ _ _ hne.2⟩

theorem noEmpty_AddOrder {b : OrderBook} {o : Order} {r : Trades × OrderBook}
    (hne : b.NoEmptyLevels) (h : b.AddOrder o = some r) : r.2.NoEmptyLevels := by
  rcases AddOrder_eq_some h with h1 | ⟨o1, -, -, -, hm⟩
  · rw [h1]; exact hne
  · exact noEmpty_matchLoop (noEmpty_insertOrder hne o1) hm

theorem Reachable.noEmpty {b : OrderBook} (h : Reachable b) : b.NoEmptyLevels := by
  induction h with
  | empty => exact ⟨by intro x hx; simp at hx, by intro x hx; simp at hx⟩
  | add _ _ _ _ _ _ h ih => exact noEmpty_AddOrder ih h
  | cancel _ _ h ih => exact (cancel_levels h).2.2 ih
  | modify _ _ h ih =>
    rcases ModifyOrder_eq_some h with ⟨-, h1⟩ | ⟨order, b1, -, h1, h2⟩
    · cases h1; exact ih
    · exact noEmpty_AddOrder ((cancel_levels h1).2.2 ih) h2


/-! ## Orders only leave the book: no `FillAndKill` order rests -/

theorem cancel_allOrders {b b' : OrderBook} {id : Nat} {order : Order}
    (hf : assocFind id b.orders_ = some order)
    (hc : b.CancelOrderInternal id = some b') :
    ∃ A x B, b.allOrders = A ++ x :: B ∧ b'.allOrders = A ++ B ∧ x.orderId_ = id
      ∧ b'.orders_ = assocErase id b.orders_ := by
  unfold OrderBook.CancelOrderInternal at hc
  simp only [hf] at hc
  split_ifs at hc with hs
  · obtain ⟨bids, hb, e⟩ := Option.map_eq_some'.1 hc
    obtain ⟨A, o, B, e1, e2, e3, -, -, -⟩ := cancelInLadder_orders hb
    subst e
    exact ⟨A, o, B ++ ladderOrders b.asks_, by simp [OrderBook.allOrders, e1],
      by simp [OrderBook.allOrders, e2], e3, rfl⟩
  · obtain ⟨asks, hb, e⟩ := Option.map_eq_some'.1 hc
    obtain ⟨A, o, B, e1, e2, e3, -, -, -⟩ := cancelInLadder_orders hb
    subst e
    exact ⟨ladderOrders b.bids_ ++ A, o, B, by simp [OrderBook.allOrders, e1],
      by simp [OrderBook.allOrders, e2], e3, rfl⟩

theorem cancel_allOrders_sublist {b b' : OrderBook} {id : Nat}
    (hc : b.CancelOrderInternal id = some b') : List.Sublist b'.allOrders b.allOrders := by
  cases hf : assocFind id b.orders_ with
  | none =>
    unfold OrderBook.CancelOrderInternal at hc
    simp only [hf, Option.some.injEq] at hc
    rw [hc]
  | some order =>
    obtain ⟨A, x, B, e1, e2, -, -⟩ := cancel_allOrders hf hc
    rw [e1, e2]
    exact List.Sublist.append_left (List.sublist_cons_self _ _) _

theorem cancelFillAndKill_sublist {b b' : OrderBook} {l : Ladder}
    (hc : b.cancelFillAndKill l = some b') : List.Sublist b'.allOrders b.allOrders := by
  rw [(cancelFillAndKill_eq_some hc).1]

theorem fillQueue_ident_suffix {o o1 : Order} (X : List Order) (h : o1.ident = o.ident) :
    (fillQueue o1 X).map Order.ident <:+ (o :: X).map Order.ident := by
  unfold fillQueue
  split_ifs
  · simp only [List.map_cons]
    exact List.suffix_cons _ _
  · simp only [List.map_cons, h]
    exact List.suffix_refl _

/-- The inner loop consumes the two best queues from the front: what is left
of each queue is a suffix of it, up to the remaining quantities. -/
theorem matchLevel_suffix {fuel : Nat} {b : OrderBook} {ts : Trades}
    {r : Trades × OrderBook} {bp ap : Nat} {bq aq : List Order} {bl al : Ladder}
    (hb : b.bids_ = (bp, bq) :: bl) (ha : b.asks_ = (ap, aq) :: al)
    (h : b.matchLevel fuel ts = some r) :
    ∃ bq' aq', r.2.bids_ = (bp, bq') :: bl ∧ r.2.asks_ = (ap, aq') :: al
      ∧ bq'.map Order.ident <:+ bq.map Order.ident
      ∧ aq'.map Order.ident <:+ aq.map Order.ident ∧ (bq' = [] ∨ aq' = []) := by
  have key := matchLevel_induct
    (fun b' _ => ∃ bq' aq', b'.bids_ = (bp, bq') :: bl ∧ b'.asks_ = (ap, aq') :: al
      ∧ bq'.map Order.ident <:+ bq.map Order.ident
      ∧ aq'.map Order.ident <:+ aq.map Order.ident) ?_ fuel b ts r
    ⟨bq, aq, hb, ha, List.suffix_refl _, List.suffix_refl _⟩ h
  · obtain ⟨bq', aq', e1, e2, e3, e4⟩ := key
    obtain ⟨bq2, aq2, f1, f2, f3⟩ := matchLevel_shape fuel b ts r bp ap bq aq bl al hb ha h
    rw [e1] at f1
    rw [e2] at f2
    simp only [List.cons.injEq, Prod.mk.injEq, true_and, and_true] at f1 f2
    subst f1 f2
    exact ⟨bq', aq', e1, e2, e3, e4, f3⟩
  · intro b1 b2 ts1 bp1 ap1 bid ask bids asks bl1 al1 t hb1 ha1 hp hm
    obtain ⟨bq', aq', e1, e2, e3, e4⟩ := hp
    obtain ⟨q, bid1, ask1, -, g2, g3, -, g5, g6, -, -⟩ := matchFront_eq hm
    rw [hb1] at e1
    rw [ha1] at e2
    simp only [List.cons.injEq, Prod.mk.injEq] at e1 e2
    obtain ⟨⟨rfl, rfl⟩, rfl⟩ := e1
    obtain ⟨⟨rfl, rfl⟩, rfl⟩ := e2
    refine ⟨_, _, g5, g6, ?_, ?_⟩
    · exact (fillQueue_ident_suffix bids (by rw [g2]; rfl)).trans e3
    · exact (fillQueue_ident_suffix asks (by rw [g3]; rfl)).trans e4

theorem mem_of_ident_suffix {X Y : List Order} (h : X.map Order.ident <:+ Y.map Order.ident)
    {x : Order} (hx : x ∈ X) : ∃ y ∈ Y, x.ident = y.ident := by
  have := h.subset (List.mem_map_of_mem Order.ident hx)
  obtain ⟨y, hy, e⟩ := List.mem_map.1 this
  exact ⟨y, hy, e.symm⟩

theorem Order.type_of_ident {x y : Order} (h : x.ident = y.ident) :
    x.orderType_ = y.orderType_ := by
  unfold Order.ident at h
  exact (Prod.mk.inj h).1

/-- Orders of the book after the inner loop come from orders of the book
before it. -/
theorem matchLevel_from {fuel : Nat} {b : OrderBook} {ts : Trades} {r : Trades × OrderBook}
    (h : b.matchLevel fuel ts = some r) :
    ∀ x ∈ r.2.allOrders, ∃ y ∈ b.allOrders, x.ident = y.ident := by
  refine matchLevel_induct
    (fun b' _ => ∀ x ∈ b'.allOrders, ∃ y ∈ b.allOrders, x.ident = y.ident) ?_ fuel b ts r
    (fun x hx => ⟨x, hx, rfl⟩) h
  intro b1 b2 ts1 bp1 ap1 bid ask bids asks bl1 al1 t hb1 ha1 hp hm x hx
  obtain ⟨q, bid1, ask1, -, g2, g3, -, g5, g6, -, -⟩ := matchFront_eq hm
  have hbid := hp bid (by simp [OrderBook.allOrders, hb1])
  have hask := hp ask (by simp [OrderBook.allOrders, ha1])
  simp only [OrderBook.allOrders, g5, g6, ladderOrders_cons, List.mem_append] at hx
  rcases hx with (hx | hx) | (hx | hx)
  · rcases mem_fillQueue hx with hx | hx
    · obtain ⟨y, hy, e⟩ := hbid
      exact ⟨y, hy, by rw [hx, g2, ← e]; rfl⟩
    · exact hp x (by simp [OrderBook.allOrders, hb1, hx])
  · exact hp x (by simp [OrderBook.allOrders, hb1, hx])
  · rcases mem_fillQueue hx with hx | hx
    · obtain ⟨y, hy, e⟩ := hask
      exact ⟨y, hy, by rw [hx, g3, ← e]; rfl⟩
    · exact hp x (by simp [OrderBook.allOrders, ha1, hx])
  · exact hp x (by simp [OrderBook.allOrders, ha1, hx])

theorem allOrders_afterLevel (b : OrderBook) (bp ap : Nat) :
    (b.afterLevel bp ap).allOrders = b.allOrders :=
  allOrders_eraseEmptyLevels b bp ap

theorem matchPass_from {b : OrderBook} {bp ap fuel : Nat} {ts : Trades}
    {r : Trades × OrderBook} (h : b.matchPass bp ap fuel ts = some r) :
    ∀ x ∈ r.2.allOrders, ∃ y ∈ b.allOrders, x.ident = y.ident := by
  obtain ⟨r1, b3, h1, h2, h3, -⟩ := matchPass_eq_some h
  intro x hx
  have hx3 := (cancelFillAndKill_sublist h3).subset hx
  have hx2 := (cancelFillAndKill_sublist h2).subset hx3
  rw [allOrders_afterLevel] at hx2
  exact matchLevel_from h1 x hx2

theorem matchLoop_from {fuel : Nat} {b : OrderBook} {ts : Trades} {r : Trades × OrderBook}
    (h : b.matchLoop fuel ts = some r) :
    ∀ x ∈ r.2.allOrders, ∃ y ∈ b.allOrders, x.ident = y.ident := by
  refine matchLoop_induct
    (fun b' _ => ∀ x ∈ b'.allOrders, ∃ y ∈ b.allOrders, x.ident = y.ident) ?_ fuel b ts r
    (fun x hx => ⟨x, hx, rfl⟩) h
  intro b1 ts1 bp ap bids asks bl al r1 _ _ _ hp hm x hx
  obtain ⟨y, hy, e⟩ := matchPass_from hm x hx
  obtain ⟨z, hz, e'⟩ := hp y hy
  exact ⟨z, hz, e.trans e'⟩

/-! ## The match loop returns when no order is `FillAndKill` -/

/-- A pass of the outer loop returns when no order of the book is
`FillAndKill`: the cancelling statements then change nothing. -/
theorem matchPass_total {b : OrderBook} (ts : Trades)
    {bp ap : Nat} {bq aq : List Order} {bl al : Ladder}
    (hne : b.NoEmptyLevels)
    (hn : ∀ x ∈ b.allOrders, x.orderType_ ≠ OrderType.FillAndKill)
    (hb : b.bids_ = (bp, bq) :: bl) (ha : b.asks_ = (ap, aq) :: al) :
    ∃ r, b.matchPass bp ap (bq.length + aq.length) ts = some r := by
  obtain ⟨r1, h1⟩ := matchLevel_total (bq.length + aq.length) b ts
    (by simp [OrderBook.headLen, hb, ha])
  obtain ⟨p1, -⟩ := afterLevel_props hne hb ha h1
  have hn1 : ∀ x ∈ (r1.2.afterLevel bp ap).allOrders,
      x.orderType_ ≠ OrderType.FillAndKill := by
    intro x hx
    rw [allOrders_afterLevel] at hx
    obtain ⟨y, hy, e⟩ := matchLevel_from h1 x hx
    rw [Order.type_of_ident e]
    exact hn y hy
  have h2 := cancelFillAndKill_total (r1.2.afterLevel bp ap) p1.1
    (fun x hx => hn1 x (List.mem_append_left _ hx))
  have h3 := cancelFillAndKill_total (r1.2.afterLevel bp ap) p1.2
    (fun x hx => hn1 x (List.mem_append_right _ hx))
  refine ⟨(r1.1, r1.2.afterLevel bp ap), ?_⟩
  unfold OrderBook.matchPass
  simp only [h1, Option.some_bind]
  simp only [h2, Option.some_bind, h3]

theorem matchLoop_total : ∀ (fuel : Nat) (b : OrderBook) (ts : Trades),
    b.NoEmptyLevels → (∀ x ∈ b.allOrders, x.orderType_ ≠ OrderType.FillAndKill) →
    b.levels < fuel → ∃ r, b.matchLoop fuel ts = some r := by
  intro fuel
  induction fuel with
  | zero => intro b ts _ _ h; omega
  | succ n ih =>
    intro b ts hne hn hlt
    unfold OrderBook.matchLoop
    split
    · exact ⟨_, rfl⟩
    · exact ⟨_, rfl⟩
    · rename_i bp bq bl ap aq al hb ha
      split_ifs with h1
      · exact ⟨_, rfl⟩
      · obtain ⟨r1, hr1⟩ := matchPass_total ts hne hn hb ha
        obtain ⟨p1, p2⟩ := matchPass_props hne hb ha hr1
        simp only [hr1, Option.some_bind]
        refine ih r1.2 r1.1 p1 ?_ (by omega)
        intro x hx
        obtain ⟨y, hy, e⟩ := matchPass_from hr1 x hx
        rw [Order.type_of_ident e]
        exact hn y hy

/-- `MatchOrder` returns on a book without empty level and without
`FillAndKill` order. -/
theorem MatchOrder_total {b : OrderBook} (hne : b.NoEmptyLevels)
    (hn : ∀ x ∈ b.allOrders, x.orderType_ ≠ OrderType.FillAndKill) :
    ∃ r, b.MatchOrder = some r :=
  matchLoop_total _ b [] hne hn (by unfold OrderBook.levels; omega)


/-! ## A `FillAndKill` order is gone after a first pass that returns -/

theorem matchLoop_succ_crossed {b : OrderBook} {n bp ap : Nat} {bq aq : List Order}
    {bl al : Ladder} {ts : Trades} (hb : b.bids_ = (bp, bq) :: bl)
    (ha : b.asks_ = (ap, aq) :: al) (hx : ¬ bp < ap) :
    b.matchLoop (n + 1) ts
      = (b.matchPass bp ap (bq.length + aq.length) ts).bind fun r => r.2.matchLoop n r.1 := by
  rw [OrderBook.matchLoop]
  simp only [hb, ha, hx, if_false]

theorem matchLoop_succ_uncrossed {b : OrderBook} {n : Nat} {ts : Trades}
    (h : b.HeadUncrossed) : b.matchLoop (n + 1) ts = some (ts, b) := by
  rw [OrderBook.matchLoop]
  unfold OrderBook.HeadUncrossed at h
  split
  · rfl
  · rfl
  · rename_i bp bq bl ap aq al hb ha
    simp only [hb, ha] at h
    simp [h]

theorem cancelFillAndKill_noop {b b' : OrderBook} {l : Ladder}
    (hl : ∀ x ∈ ladderOrders l, x.orderType_ ≠ OrderType.FillAndKill)
    (hc : b.cancelFillAndKill l = some b') : b' = b := by
  unfold OrderBook.cancelFillAndKill at hc
  split at hc
  · simp only [Option.some.injEq] at hc; exact hc.symm
  · simp at hc
  · rename_i p order q rest
    have := hl order (by simp)
    simp only [this, if_false, Option.some.injEq] at hc
    exact hc.symm

theorem suffix_singleton {X : List Order} {o : Order}
    (h : X.map Order.ident <:+ [o].map Order.ident) :
    X = [] ∨ ∃ o', X = [o'] ∧ o'.ident = o.ident := by
  cases X with
  | nil => exact Or.inl rfl
  | cons x xs =>
    right
    have hl := h.length_le
    simp only [List.map_cons, List.length_cons, List.length_map, List.map_nil,
      List.length_nil] at hl
    have hxs : xs = [] := List.length_eq_zero.1 (by omega)
    subst hxs
    refine ⟨x, rfl, ?_⟩
    have := h.subset (List.mem_cons_self _ _)
    simpa using this

/-- A pass of the outer loop that starts with a lone `FillAndKill` order on
the best bid level and returns ends without any `FillAndKill` order: the
order was filled in the pass. -/
theorem matchPass_clears_bid {b : OrderBook} {r : Trades × OrderBook} {bp ap fuel : Nat}
    {aq : List Order} {bl al : Ladder} {ts : Trades} {o : Order}
    (hw : b.WF) (hb : b.bids_ = (bp, [o]) :: bl) (ha : b.asks_ = (ap, aq) :: al)
    (hrest : ∀ x ∈ ladderOrders bl ++ ladderOrders b.asks_,
      x.orderType_ ≠ OrderType.FillAndKill)
    (ho : o.orderType_ = OrderType.FillAndKill)
    (h : b.matchPass bp ap fuel ts = some r) :
    ∀ x ∈ r.2.allOrders, x.orderType_ ≠ OrderType.FillAndKill := by
  obtain ⟨r1, b3, h1, h2, h3, -⟩ := matchPass_eq_some h
  obtain ⟨bq', aq', e1, e2, e3, e4, -⟩ := matchLevel_suffix hb ha h1
  obtain ⟨f1, f2, -⟩ := afterLevel_shape e1 e2
  have w2 := wf_afterLevel (wf_matchLevel hw h1) bp ap
  have hall : (r1.2.afterLevel bp ap).allOrders
      = bq' ++ ladderOrders bl ++ (aq' ++ ladderOrders al) := by
    rw [allOrders_afterLevel]; simp [OrderBook.allOrders, e1, e2]
  have hasks : ∀ x ∈ aq' ++ ladderOrders al, x.orderType_ ≠ OrderType.FillAndKill := by
    intro x hx
    rcases List.mem_append.1 hx with hx | hx
    · obtain ⟨y, hy, e⟩ := mem_of_ident_suffix e4 hx
      rw [Order.type_of_ident e]
      exact hrest y (by simp [ha, hy])
    · exact hrest x (by simp [ha, hx])
  have hbl : ∀ x ∈ ladderOrders bl, x.orderType_ ≠ OrderType.FillAndKill :=
    fun x hx => hrest x (List.mem_append_left _ hx)
  have h3' : ∀ x ∈ b3.allOrders, x.orderType_ ≠ OrderType.FillAndKill := by
    rcases suffix_singleton e3 with h5 | ⟨o', h5, h6⟩
    · subst h5
      intro x hx
      have := (cancelFillAndKill_sublist h2).subset hx
      rw [hall] at this
      simp only [List.nil_append, List.mem_append] at this
      rcases this with h7 | h7
      · exact hbl x h7
      · exact hasks x (List.mem_append.2 h7)
    · subst h5
      have ht : o'.orderType_ = OrderType.FillAndKill := by
        rw [Order.type_of_ident h6]; exact ho
      rw [f1] at h2
      simp only [List.cons_ne_nil, if_false] at h2
      unfold OrderBook.cancelFillAndKill at h2
      simp only [ht, if_true] at h2
      rw [CancelOrderFrom_owned] at h2
      exact absurd h2 (by simp)
  intro x hx
  exact h3' x ((cancelFillAndKill_sublist h3).subset hx)

/-- A pass of the outer loop that starts with a lone `FillAndKill` order on
the best ask level and returns ends without any `FillAndKill` order: the
order was filled in the pass. -/
theorem matchPass_clears_ask {b : OrderBook} {r : Trades × OrderBook} {bp ap fuel : Nat}
    {bq : List Order} {bl al : Ladder} {ts : Trades} {o : Order}
    (hw : b.WF) (hb : b.bids_ = (bp, bq) :: bl) (ha : b.asks_ = (ap, [o]) :: al)
    (hrest : ∀ x ∈ ladderOrders b.bids_ ++ ladderOrders al,
      x.orderType_ ≠ OrderType.FillAndKill)
    (ho : o.orderType_ = OrderType.FillAndKill)
    (h : b.matchPass bp ap fuel ts = some r) :
    ∀ x ∈ r.2.allOrders, x.orderType_ ≠ OrderType.FillAndKill := by
  obtain ⟨r1, b3, h1, h2, h3, -⟩ := matchPass_eq_some h
  obtain ⟨bq', aq', e1, e2, e3, e4, -⟩ := matchLevel_suffix hb ha h1
  obtain ⟨f1, f2, -⟩ := afterLevel_shape e1 e2
  have w2 := wf_afterLevel (wf_matchLevel hw h1) bp ap
  have hall : (r1.2.afterLevel bp ap).allOrders
      = bq' ++ ladderOrders bl ++ (aq' ++ ladderOrders al) := by
    rw [allOrders_afterLevel]; simp [OrderBook.allOrders, e1, e2]
  have hbids : ∀ x ∈ bq' ++ ladderOrders bl, x.orderType_ ≠ OrderType.FillAndKill := by
    intro x hx
    rcases List.mem_append.1 hx with hx | hx
    · obtain ⟨y, hy, e⟩ := mem_of_ident_suffix e3 hx
      rw [Order.type_of_ident e]
      exact hrest y (by simp [hb, hy])
    · exact hrest x (by simp [hb, hx])
  have hal : ∀ x ∈ ladderOrders al, x.orderType_ ≠ OrderType.FillAndKill :=
    fun x hx => hrest x (List.mem_append_right _ hx)
  have hb3 : b3 = r1.2.afterLevel bp ap := by
    refine cancelFillAndKill_noop ?_ h2
    intro x hx
    rw [f1] at hx
    apply hbids
    split_ifs at hx with h5
    · exact List.mem_append_right _ hx
    · simpa using hx
  subst hb3
  rcases suffix_singleton e4 with h5 | ⟨o', h5, h6⟩
  · subst h5
    intro x hx
    have := (cancelFillAndKill_sublist h3).subset hx
    rw [hall] at this
    simp only [List.nil_append, List.mem_append] at this
    rcases this with h7 | h7
    · exact hbids x (List.mem_append.2 h7)
    · exact hal x h7
  · subst h5
    have ht : o'.orderType_ = OrderType.FillAndKill := by
      rw [Order.type_of_ident h6]; exact ho
    rw [f2] at h3
    simp only [List.cons_ne_nil, if_false] at h3
    unfold OrderBook.cancelFillAndKill at h3
    simp only [ht, if_true] at h3
    rw [CancelOrderFrom_owned] at h3
    exact absurd h3 (by simp)


/-! ## `AddOrder` leaves no `FillAndKill` order -/

theorem pushBack_head_desc {p : Nat} {o : Order} {l : Ladder} (h : ∀ x ∈ l, x.1 < p) :
    ladderPushBack (fun x y => decide (x > y)) p o l = (p, [o]) :: l := by
  cases l with
  | nil => rfl
  | cons x l =>
    obtain ⟨q, os⟩ := x
    have := h (q, os) (List.mem_cons_self _ _)
    simp only at this
    unfold ladderPushBack
    rw [if_neg (by omega), if_pos (by simpa using this)]

theorem pushBack_head_asc {p : Nat} {o : Order} {l : Ladder} (h : ∀ x ∈ l, p < x.1) :
    ladderPushBack (fun x y => decide (x < y)) p o l = (p, [o]) :: l := by
  cases l with
  | nil => rfl
  | cons x l =>
    obtain ⟨q, os⟩ := x
    have := h (q, os) (List.mem_cons_self _ _)
    simp only at this
    unfold ladderPushBack
    rw [if_neg (by omega), if_pos (by simpa using this)]

theorem CanMatch_buy {b : OrderBook} {p : Nat} (h : b.CanMatch Side.Buy p = true) :
    ∃ ap aq al, b.asks_ = (ap, aq) :: al ∧ ap ≤ p := by
  unfold OrderBook.CanMatch at h
  simp only [if_true] at h
  split at h
  · simp at h
  · rename_i ap aq al ha
    exact ⟨ap, aq, al, ha, by simpa using h⟩

theorem CanMatch_sell {b : OrderBook} {p : Nat} (h : b.CanMatch Side.Sell p = true) :
    ∃ bp bq bl, b.bids_ = (bp, bq) :: bl ∧ p ≤ bp := by
  unfold OrderBook.CanMatch at h
  have hne : ¬ (Side.Sell = Side.Buy) := by decide
  simp only [hne, if_false] at h
  split at h
  · simp at h
  · rename_i bp bq bl hb
    exact ⟨bp, bq, bl, hb, by simpa using h⟩

/-- A buy order that crosses an uncrossed book becomes the lone order of a new
best bid level. -/
theorem insertOrder_buy_crossing {b : OrderBook} {o : Order} {ap : Nat} {aq : List Order}
    {al : Ladder} (hu : b.Uncrossed) (hs : o.side_ = Side.Buy)
    (ha : b.asks_ = (ap, aq) :: al) (hp : ap ≤ o.price_) :
    (b.insertOrder o).bids_ = (o.price_, [o]) :: b.bids_ ∧ (b.insertOrder o).asks_ = b.asks_ := by
  unfold OrderBook.insertOrder
  simp only [hs, if_true, and_true]
  apply pushBack_head_desc
  intro x hx
  have := hu x hx (ap, aq) (by rw [ha]; exact List.mem_cons_self _ _)
  simp only at this
  omega

/-- A sell order that crosses an uncrossed book becomes the lone order of a
new best ask level. -/
theorem insertOrder_sell_crossing {b : OrderBook} {o : Order} {bp : Nat} {bq : List Order}
    {bl : Ladder} (hu : b.Uncrossed) (hs : o.side_ = Side.Sell)
    (hb : b.bids_ = (bp, bq) :: bl) (hp : o.price_ ≤ bp) :
    (b.insertOrder o).bids_ = b.bids_ ∧ (b.insertOrder o).asks_ = (o.price_, [o]) :: b.asks_ := by
  unfold OrderBook.insertOrder
  simp only [hs, if_false, true_and]
  have : ¬ (Side.Sell = Side.Buy) := by decide
  simp only [this, if_false, true_and]
  apply pushBack_head_asc
  intro x hx
  have := hu (bp, bq) (by rw [hb]; exact List.mem_cons_self _ _) x hx
  simp only at this
  omega

theorem noFAK_AddOrder {b : OrderBook} {o : Order} {r : Trades × OrderBook}
    (hw : b.WF) (hu : b.Uncrossed)
    (hn : ∀ x ∈ b.allOrders, x.orderType_ ≠ OrderType.FillAndKill)
    (h : b.AddOrder o = some r) :
    ∀ x ∈ r.2.allOrders, x.orderType_ ≠ OrderType.FillAndKill := by
  rcases AddOrder_eq_some h with h1 | ⟨o1, hf, hp, hadm, hm⟩
  · rw [h1]; exact hn
  · have hw1 := wf_insertOrder hw o1 (by rw [hp.id_eq]; exact hf)
    by_cases ht : o1.orderType_ = OrderType.FillAndKill
    · have hcm := hadm.1 ht
      unfold OrderBook.MatchOrder at hm
      cases hs : o1.side_ with
      | Buy =>
        rw [hs] at hcm
        obtain ⟨ap, aq, al, ha, hle⟩ := CanMatch_buy hcm
        obtain ⟨e1, e2⟩ := insertOrder_buy_crossing hu hs ha hle
        rw [matchLoop_succ_crossed e1 (e2.trans ha) (by omega)] at hm
        obtain ⟨r1, hr1, hr2⟩ := Option.bind_eq_some.1 hm
        have hc := matchPass_clears_bid hw1 e1 (e2.trans ha) (by
          intro x hx
          rw [e2] at hx
          exact hn x hx) ht hr1
        intro x hx
        obtain ⟨y, hy, e⟩ := matchLoop_from hr2 x hx
        rw [Order.type_of_ident e]
        exact hc y hy
      | Sell =>
        rw [hs] at hcm
        obtain ⟨bp, bq, bl, hb, hle⟩ := CanMatch_sell hcm
        obtain ⟨e1, e2⟩ := insertOrder_sell_crossing hu hs hb hle
        rw [matchLoop_succ_crossed (e1.trans hb) e2 (by omega)] at hm
        obtain ⟨r1, hr1, hr2⟩ := Option.bind_eq_some.1 hm
        have hc := matchPass_clears_ask hw1 (e1.trans hb) e2 (by
          intro x hx
          rw [e1] at hx
          exact hn x hx) ht hr1
        intro x hx
        obtain ⟨y, hy, e⟩ := matchLoop_from hr2 x hx
        rw [Order.type_of_ident e]
        exact hc y hy
    · intro x hx
      obtain ⟨y, hy, e⟩ := matchLoop_from hm x hx
      rw [Order.type_of_ident e]
      rcases List.mem_cons.1 ((allOrders_insertOrder_perm b o1).mem_iff.1 hy) with h5 | h5
      · rw [h5]; exact ht
      · exact hn y h5

theorem Reachable.noFAK {b : OrderBook} (h : Reachable b) :
    ∀ x ∈ b.allOrders, x.orderType_ ≠ OrderType.FillAndKill := by
  induction h with
  | empty => intro x hx; simp [OrderBook.allOrders] at hx
  | add _ _ _ _ _ hr h ih => exact noFAK_AddOrder hr.wf_uncrossed.1 hr.wf_uncrossed.2 ih h
  | cancel _ _ h ih => exact fun x hx => ih x ((cancel_allOrders_sublist h).subset hx)
  | @modify b0 b1 ts m hr h ih =>
    rcases ModifyOrder_eq_some h with ⟨-, h1⟩ | ⟨order, b2, -, h1, h2⟩
    · cases h1; exact ih
    · exact noFAK_AddOrder (r := (ts, b1)) (wf_cancel hr.wf_uncrossed.1 h1)
        (uncrossed_cancel hr.wf_uncrossed.2 h1)
        (fun x hx => ih x ((cancel_allOrders_sublist h1).subset hx)) h2

/-! ## The index and the level queues of a consistent book -/

theorem level_sublist {x : Nat × List Order} {l : Ladder} (h : x ∈ l) :
    List.Sublist x.2 (ladderOrders l) := by
  induction l with
  | nil => simp at h
  | cons y l ih =>
    obtain ⟨p, os⟩ := y
    rcases List.mem_cons.1 h with h | h
    · rw [h]; exact List.sublist_append_left _ _
    · exact (ih h).trans (List.sublist_append_right _ _)

theorem OrderBook.WF.nodup_allOrders {b : OrderBook} (hw : b.WF) : b.allOrders.Nodup :=
  List.Nodup.of_map _ hw.idsNodup

/-- An order of a consistent book rests in the queue of the level of its side
and price. -/
theorem OrderBook.WF.mem_levelQueue {b : OrderBook} (hw : b.WF) {o : Order}
    (ho : o ∈ b.allOrders) :
    o ∈ b.levelQueue o.side_ o.price_ ∧ List.Sublist (b.levelQueue o.side_ o.price_) b.allOrders := by
  unfold OrderBook.allOrders at ho ⊢
  unfold OrderBook.levelQueue
  rcases List.mem_append.1 ho with h1 | h1
  · obtain ⟨x, hx, hox⟩ := mem_ladderOrders.1 h1
    obtain ⟨hs, hp⟩ := hw.bidsLevel x hx o hox
    have hfind : assocFind o.price_ b.bids_ = some x.2 :=
      assocFind_of_mem (sorted_desc_keys_nodup hw.bidsSorted) (by rw [hp]; exact hx)
    simp only [hs, if_true, hfind, Option.getD_some]
    exact ⟨hox, (level_sublist hx).trans (List.sublist_append_left _ _)⟩
  · obtain ⟨x, hx, hox⟩ := mem_ladderOrders.1 h1
    obtain ⟨hs, hp⟩ := hw.asksLevel x hx o hox
    have hfind : assocFind o.price_ b.asks_ = some x.2 :=
      assocFind_of_mem (sorted_asc_keys_nodup hw.asksSorted) (by rw [hp]; exact hx)
    have hne : ¬ (Side.Sell = Side.Buy) := by decide
    simp only [hs, hne, if_false, hfind, Option.getD_some]
    exact ⟨hox, (level_sublist hx).trans (List.sublist_append_right _ _)⟩

theorem OrderBook.WF.entry {b : OrderBook} (hw : b.WF) {e : Nat × Order} (he : e ∈ b.orders_) :
    e.2 ∈ b.allOrders ∧ e.2.orderId_ = e.1 :=
  (hw.index e.1 e.2).1 (assocFind_of_mem hw.keysNodup he)

theorem OrderBook.WF.size_eq {b : OrderBook} (hw : b.WF) : b.Size = b.allOrders.length := by
  have hkeys : (b.orders_.map Prod.snd).map Order.orderId_ = b.orders_.map Prod.fst := by
    rw [List.map_map]
    apply List.map_congr_left
    intro e he
    exact (hw.entry he).2
  have hnd : (b.orders_.map Prod.snd).Nodup := by
    apply List.Nodup.of_map Order.orderId_
    rw [hkeys]; exact hw.keysNodup
  have hperm : List.Perm (b.orders_.map Prod.snd) b.allOrders := by
    rw [List.perm_ext_iff_of_nodup hnd hw.nodup_allOrders]
    intro o
    constructor
    · intro ho
      obtain ⟨e, he, rfl⟩ := List.mem_map.1 ho
      exact (hw.entry he).1
    · intro ho
      exact List.mem_map.2 ⟨(o.orderId_, o), assocFind_mem (hw.find_of_mem ho), rfl⟩
  have := hperm.length_eq
  simpa [OrderBook.Size] using this

/-! ## `MatchOrder` returns after the insertion of an order that is not `FillAndKill` -/

theorem noFAK_insertOrder {b : OrderBook} {o : Order}
    (hn : ∀ x ∈ b.allOrders, x.orderType_ ≠ OrderType.FillAndKill)
    (ht : o.orderType_ ≠ OrderType.FillAndKill) :
    ∀ x ∈ (b.insertOrder o).allOrders, x.orderType_ ≠ OrderType.FillAndKill := by
  intro x hx
  rcases List.mem_cons.1 ((allOrders_insertOrder_perm b o).mem_iff.1 hx) with h5 | h5
  · rw [h5]; exact ht
  · exact hn x h5

theorem MatchOrder_insert_total {b : OrderBook} (h : Reachable b) {o : Order}
    (ht : o.orderType_ ≠ OrderType.FillAndKill) :
    ∃ r, (b.insertOrder o).MatchOrder = some r :=
  MatchOrder_total (noEmpty_insertOrder h.noEmpty o) (noFAK_insertOrder h.noFAK ht)


/-! ## Quantities through the inner loop -/

@[simp] theorem tradedQuantity_nil : tradedQuantity [] = 0 := rfl

theorem tradedQuantity_append (ts1 ts2 : Trades) :
    tradedQuantity (ts1 ++ ts2) = tradedQuantity ts1 + tradedQuantity ts2 := by
  simp [tradedQuantity]

@[simp] theorem remainingSum_nil : remainingSum [] = 0 := rfl

@[simp] theorem remainingSum_cons (o : Order) (l : List Order) :
    remainingSum (o :: l) = o.remainingQuantity_ + remainingSum l := by
  simp [remainingSum]

theorem remainingSum_append (l1 l2 : List Order) :
    remainingSum (l1 ++ l2) = remainingSum l1 + remainingSum l2 := by
  simp [remainingSum]

theorem remainingSum_fillQueue (o1 : Order) (X : List Order) :
    remainingSum (fillQueue o1 X) = o1.remainingQuantity_ + remainingSum X := by
  unfold fillQueue
  split_ifs with h
  · simp only [Order.IsFilled, decide_eq_true_eq] at h
    rw [h]; simp
  · simp

theorem pos_fillQueue {o1 : Order} {X : List Order}
    (hX : ∀ x ∈ X, 0 < x.remainingQuantity_) :
    ∀ x ∈ fillQueue o1 X, 0 < x.remainingQuantity_ := by
  intro x hx
  unfold fillQueue at hx
  split_ifs at hx with h
  · exact hX x hx
  · rcases List.mem_cons.1 hx with hx | hx
    · simp only [Order.IsFilled, decide_eq_true_eq] at h
      rw [hx]; omega
    · exact hX x hx

/-- What the inner loop does to the two best queues and to the trade list:
each queue is consumed from the front, the quantity it loses is the quantity
traded, and each new trade pairs an order of the best bid queue with an order
of the best ask queue for one common quantity. -/
theorem matchLevel_trades {fuel : Nat} {b : OrderBook} {ts : Trades}
    {r : Trades × OrderBook} {bp ap : Nat} {bq aq : List Order} {bl al : Ladder}
    (hb : b.bids_ = (bp, bq) :: bl) (ha : b.asks_ = (ap, aq) :: al)
    (h : b.matchLevel fuel ts = some r) :
    ∃ bq' aq' new, r.2.bids_ = (bp, bq') :: bl ∧ r.2.asks_ = (ap, aq') :: al
      ∧ r.1 = ts ++ new
      ∧ bq'.map Order.ident <:+ bq.map Order.ident
      ∧ aq'.map Order.ident <:+ aq.map Order.ident
      ∧ remainingSum bq' + tradedQuantity new = remainingSum bq
      ∧ remainingSum aq' + tradedQuantity new = remainingSum aq
      ∧ (∀ t ∈ new, ∃ x ∈ bq, ∃ y ∈ aq, t.bidTrade_.orderId_ = x.orderId_
          ∧ t.bidTrade_.price_ = x.price_ ∧ t.askTrade_.orderId_ = y.orderId_
          ∧ t.askTrade_.price_ = y.price_ ∧ t.bidTrade_.quantity_ = t.askTrade_.quantity_)
      ∧ ((∀ x ∈ bq ++ aq, 0 < x.remainingQuantity_) →
          (∀ x ∈ bq' ++ aq', 0 < x.remainingQuantity_)
            ∧ ∀ t ∈ new, 0 < t.bidTrade_.quantity_) := by
  refine matchLevel_induct
    (fun b' ts' => ∃ bq' aq' new, b'.bids_ = (bp, bq') :: bl ∧ b'.asks_ = (ap, aq') :: al
      ∧ ts' = ts ++ new
      ∧ bq'.map Order.ident <:+ bq.map Order.ident
      ∧ aq'.map Order.ident <:+ aq.map Order.ident
      ∧ remainingSum bq' + tradedQuantity new = remainingSum bq
      ∧ remainingSum aq' + tradedQuantity new = remainingSum aq
      ∧ (∀ t ∈ new, ∃ x ∈ bq, ∃ y ∈ aq, t.bidTrade_.orderId_ = x.orderId_
          ∧ t.bidTrade_.price_ = x.price_ ∧ t.askTrade_.orderId_ = y.orderId_
          ∧ t.askTrade_.price_ = y.price_ ∧ t.bidTrade_.quantity_ = t.askTrade_.quantity_)
      ∧ ((∀ x ∈ bq ++ aq, 0 < x.remainingQuantity_) →
          (∀ x ∈ bq' ++ aq', 0 < x.remainingQuantity_)
            ∧ ∀ t ∈ new, 0 < t.bidTrade_.quantity_)) ?_ fuel b ts r
    ⟨bq, aq, [], hb, ha, by simp, List.suffix_refl _, List.suffix_refl _, by simp, by simp,
      by simp, fun hp => ⟨hp, by simp⟩⟩ h
  intro b1 b2 ts1 bp1 ap1 bid ask bids asks bl1 al1 t hb1 ha1 hp hm
  obtain ⟨bq', aq', new, e1, e2, e3, e4, e5, e6, e7, e8, e9⟩ := hp
  obtain ⟨q, bid1, ask1, g1, g2, g3, g4, g5, g6, -, -⟩ := matchFront_eq hm
  rw [hb1] at e1
  rw [ha1] at e2
  simp only [List.cons.injEq, Prod.mk.injEq] at e1 e2
  obtain ⟨⟨rfl, rfl⟩, rfl⟩ := e1
  obtain ⟨⟨rfl, rfl⟩, rfl⟩ := e2
  have hq1 : q ≤ bid.remainingQuantity_ := by rw [g1]; exact Nat.min_le_left _ _
  have hq2 : q ≤ ask.remainingQuantity_ := by rw [g1]; exact Nat.min_le_right _ _
  have hb1r : bid1.remainingQuantity_ = bid.remainingQuantity_ - q := by rw [g2]
  have ha1r : ask1.remainingQuantity_ = ask.remainingQuantity_ - q := by rw [g3]
  have htq : tradedQuantity [t] = q := by rw [g4]; simp [tradedQuantity]
  obtain ⟨x, hx, ex⟩ := mem_of_ident_suffix e4 (List.mem_cons_self bid bids)
  obtain ⟨y, hy, ey⟩ := mem_of_ident_suffix e5 (List.mem_cons_self ask asks)
  have exid : bid.orderId_ = x.orderId_ ∧ bid.price_ = x.price_ := by
    unfold Order.ident at ex
    simp only [Prod.mk.injEq] at ex
    exact ⟨ex.2.1, ex.2.2.2.1⟩
  have eyid : ask.orderId_ = y.orderId_ ∧ ask.price_ = y.price_ := by
    unfold Order.ident at ey
    simp only [Prod.mk.injEq] at ey
    exact ⟨ey.2.1, ey.2.2.2.1⟩
  refine ⟨_, _, new ++ [t], g5, g6, by rw [e3, List.append_assoc], ?_, ?_, ?_, ?_, ?_, ?_⟩
  · exact (fillQueue_ident_suffix bids (by rw [g2]; rfl)).trans e4
  · exact (fillQueue_ident_suffix asks (by rw [g3]; rfl)).trans e5
  · rw [remainingSum_fillQueue, tradedQuantity_append, htq, hb1r, ← e6, remainingSum_cons]
    omega
  · rw [remainingSum_fillQueue, tradedQuantity_append, htq, ha1r, ← e7, remainingSum_cons]
    omega
  · intro t' ht'
    rcases List.mem_append.1 ht' with ht' | ht'
    · exact e8 t' ht'
    · simp only [List.mem_singleton] at ht'
      refine ⟨x, hx, y, hy, ?_⟩
      rw [ht', g4]
      exact ⟨exid.1, exid.2, eyid.1, eyid.2, rfl⟩
  · intro hpos
    obtain ⟨p1, p2⟩ := e9 hpos
    constructor
    · intro z hz
      rcases List.mem_append.1 hz with hz | hz
      · exact pos_fillQueue (fun w hw => p1 w (by simp [hw])) z hz
      · exact pos_fillQueue (fun w hw => p1 w (by simp [hw])) z hz
    · intro t' ht'
      rcases List.mem_append.1 ht' with ht' | ht'
      · exact p2 t' ht'
      · simp only [List.mem_singleton] at ht'
        rw [ht', g4]
        have h1 := p1 bid (by simp)
        have h2 := p1 ask (by simp)
        show 0 < q
        rw [g1]
        exact Nat.lt_min.2 ⟨h1, h2⟩

/-- An order that the inner loop leaves in one of the two best queues has a
positive remaining quantity or was in the queue, untouched, at the start. -/
theorem matchLevel_left {fuel : Nat} {b : OrderBook} {ts : Trades}
    {r : Trades × OrderBook} {bp ap : Nat} {bq aq : List Order} {bl al : Ladder}
    (hb : b.bids_ = (bp, bq) :: bl) (ha : b.asks_ = (ap, aq) :: al)
    (h : b.matchLevel fuel ts = some r) :
    ∃ bq' aq', r.2.bids_ = (bp, bq') :: bl ∧ r.2.asks_ = (ap, aq') :: al
      ∧ (∀ x ∈ bq', 0 < x.remainingQuantity_ ∨ x ∈ bq)
      ∧ (∀ x ∈ aq', 0 < x.remainingQuantity_ ∨ x ∈ aq) := by
  refine matchLevel_induct
    (fun b' _ => ∃ bq' aq', b'.bids_ = (bp, bq') :: bl ∧ b'.asks_ = (ap, aq') :: al
      ∧ (∀ x ∈ bq', 0 < x.remainingQuantity_ ∨ x ∈ bq)
      ∧ (∀ x ∈ aq', 0 < x.remainingQuantity_ ∨ x ∈ aq)) ?_ fuel b ts r
    ⟨bq, aq, hb, ha, fun x hx => Or.inr hx, fun x hx => Or.inr hx⟩ h
  intro b1 b2 ts1 bp1 ap1 bid ask bids asks bl1 al1 t hb1 ha1 hp hm
  obtain ⟨bq', aq', e1, e2, e3, e4⟩ := hp
  obtain ⟨q, bid1, ask1, -, -, -, -, g5, g6, -, -⟩ := matchFront_eq hm
  rw [hb1] at e1
  rw [ha1] at e2
  simp only [List.cons.injEq, Prod.mk.injEq] at e1 e2
  obtain ⟨⟨rfl, rfl⟩, rfl⟩ := e1
  obtain ⟨⟨rfl, rfl⟩, rfl⟩ := e2
  have key : ∀ (o1 : Order) (X : List Order), ∀ x ∈ fillQueue o1 X,
      0 < x.remainingQuantity_ ∨ x ∈ X := by
    intro o1 X x hx
    unfold fillQueue at hx
    split_ifs at hx with hf
    · exact Or.inr hx
    · rcases List.mem_cons.1 hx with hx | hx
      · simp only [Order.IsFilled, decide_eq_true_eq] at hf
        left; rw [hx]; omega
      · exact Or.inr hx
  refine ⟨_, _, g5, g6, ?_, ?_⟩
  · intro x hx
    rcases key _ _ x hx with h1 | h1
    · exact Or.inl h1
    · exact e3 x (List.mem_cons_of_mem _ h1)
  · intro x hx
    rcases key _ _ x hx with h1 | h1
    · exact Or.inl h1
    · exact e4 x (List.mem_cons_of_mem _ h1)


/-! ## Positive remaining quantities, the legs of the trades -/

theorem positive_matchFront {b b' : OrderBook} {bp ap : Nat} {bid ask : Order}
    {bids asks : List Order} {bl al : Ladder} {t : Trade} (hpos : b.Positive)
    (hb : b.bids_ = (bp, bid :: bids) :: bl) (ha : b.asks_ = (ap, ask :: asks) :: al)
    (h : b.matchFront bp bid bids bl ap ask asks al = some (t, b')) : b'.Positive := by
  obtain ⟨q, bid1, ask1, g1, g2, g3, -, g5, g6, -, -⟩ := matchFront_eq h
  have hbid := hpos bid (by simp [OrderBook.allOrders, hb])
  have hask := hpos ask (by simp [OrderBook.allOrders, ha])
  have key : ∀ (o o1 : Order) (X : List Order) (x : Order),
      o1.remainingQuantity_ = o.remainingQuantity_ - q → o1.initialQuantity_ = o.initialQuantity_ →
      o.remainingQuantity_ ≤ o.initialQuantity_ →
      (∀ z ∈ X, 0 < z.remainingQuantity_ ∧ z.remainingQuantity_ ≤ z.initialQuantity_) →
      x ∈ fillQueue o1 X → 0 < x.remainingQuantity_ ∧ x.remainingQuantity_ ≤ x.initialQuantity_ := by
    intro o o1 X x h1 h2 h3 hX hx
    unfold fillQueue at hx
    split_ifs at hx with hf
    · exact hX x hx
    · rcases List.mem_cons.1 hx with hx | hx
      · simp only [Order.IsFilled, decide_eq_true_eq] at hf
        rw [hx]; omega
      · exact hX x hx
  intro x hx
  simp only [OrderBook.allOrders, g5, g6, ladderOrders_cons, List.mem_append] at hx
  rcases hx with (hx | hx) | (hx | hx)
  · exact key bid bid1 bids x (by rw [g2]) (by rw [g2]) hbid.2
      (fun z hz => hpos z (by simp [OrderBook.allOrders, hb, hz])) hx
  · exact hpos x (by simp [OrderBook.allOrders, hb, hx])
  · exact key ask ask1 asks x (by rw [g3]) (by rw [g3]) hask.2
      (fun z hz => hpos z (by simp [OrderBook.allOrders, ha, hz])) hx
  · exact hpos x (by simp [OrderBook.allOrders, ha, hx])

theorem positive_matchLevel {fuel : Nat} {b : OrderBook} {ts : Trades} {r : Trades × OrderBook}
    (hpos : b.Positive) (h : b.matchLevel fuel ts = some r) : r.2.Positive :=
  matchLevel_induct (fun b _ => b.Positive)
    (fun _ _ _ _ _ _ _ _ _ _ _ _ hb ha hp h => positive_matchFront hp hb ha h) fuel b ts r hpos h

theorem positive_matchPass {b : OrderBook} {bp ap fuel : Nat} {ts : Trades}
    {r : Trades × OrderBook} (hpos : b.Positive) (h : b.matchPass bp ap fuel ts = some r) :
    r.2.Positive := by
  obtain ⟨r1, b3, h1, h2, h3, -⟩ := matchPass_eq_some h
  intro x hx
  have hx3 := (cancelFillAndKill_sublist h3).subset hx
  have hx2 := (cancelFillAndKill_sublist h2).subset hx3
  rw [allOrders_afterLevel] at hx2
  exact positive_matchLevel hpos h1 x hx2

theorem positive_matchLoop {fuel : Nat} {b : OrderBook} {ts : Trades} {r : Trades × OrderBook}
    (hpos : b.Positive) (h : b.matchLoop fuel ts = some r) : r.2.Positive :=
  matchLoop_induct (fun b _ => b.Positive)
    (fun _ _ _ _ _ _ _ _ _ _ _ _ hp h => positive_matchPass hp h) fuel b ts r hpos h

theorem positive_insertOrder {b : OrderBook} (hpos : b.Positive) {o : Order}
    (h1 : 0 < o.remainingQuantity_) (h2 : o.remainingQuantity_ ≤ o.initialQuantity_) :
    (b.insertOrder o).Positive := by
  intro x hx
  rcases List.mem_cons.1 ((allOrders_insertOrder_perm b o).mem_iff.1 hx) with h5 | h5
  · rw [h5]; exact ⟨h1, h2⟩
  · exact hpos x h5

theorem positive_AddOrder {b : OrderBook} {o : Order} {r : Trades × OrderBook}
    (hpos : b.Positive) (h1 : 0 < o.remainingQuantity_)
    (h2 : o.remainingQuantity_ ≤ o.initialQuantity_)
    (h : b.AddOrder o = some r) : r.2.Positive := by
  rcases AddOrder_eq_some h with h3 | ⟨o1, -, hp, -, hm⟩
  · rw [h3]; exact hpos
  · obtain ⟨e1, e2⟩ := hp.remaining_eq
    exact positive_matchLoop (positive_insertOrder hpos (by omega) (by omega)) hm

theorem ReachableValid.positive {b : OrderBook} (h : ReachableValid b) : b.Positive := by
  induction h with
  | empty => intro x hx; simp [OrderBook.allOrders] at hx
  | add _ _ _ _ _ _ hq h ih =>
    exact positive_AddOrder ih (by simpa [Order.create] using hq) (by simp [Order.create]) h
  | cancel _ _ h ih => exact fun x hx => ih x ((cancel_allOrders_sublist h).subset hx)
  | @modify b0 b1 ts m _ hq h ih =>
    rcases ModifyOrder_eq_some h with ⟨-, h1⟩ | ⟨order, b2, -, h1, h2⟩
    · cases h1; exact ih
    · exact positive_AddOrder (r := (ts, b1))
        (fun x hx => ih x ((cancel_allOrders_sublist h1).subset hx))
        (by simpa [OrderModify.ToOrderPointer, Order.create] using hq)
        (by simp [OrderModify.ToOrderPointer, Order.create]) h2

theorem Order.fields_of_ident {x y : Order} (h : x.ident = y.ident) :
    x.orderType_ = y.orderType_ ∧ x.orderId_ = y.orderId_ ∧ x.side_ = y.side_
      ∧ x.price_ = y.price_ ∧ x.initialQuantity_ = y.initialQuantity_ := by
  unfold Order.ident at h
  simp only [Prod.mk.injEq] at h
  exact h

theorem Trade.LegsIn.mono {l1 l2 : List Order} {t : Trade} (h : t.LegsIn l1)
    (hsub : ∀ x ∈ l1, x ∈ l2) : t.LegsIn l2 := by
  obtain ⟨h1, ⟨x, hx, h3⟩, ⟨y, hy, h4⟩, h5⟩ := h
  exact ⟨h1, ⟨x, hsub x hx, h3⟩, ⟨y, hsub y hy, h4⟩, h5⟩

/-- The trades of one pass of the outer loop pair a buy order and a sell order
of the book at the start of the pass, at crossing prices; their quantity is
positive when every remaining quantity of that book is. -/
theorem matchPass_legs {b : OrderBook} {bp ap : Nat} {bq aq : List Order}
    {bl al : Ladder} {fuel : Nat} {ts : Trades} {r : Trades × OrderBook}
    (hw : b.WF) (hb : b.bids_ = (bp, bq) :: bl)
    (ha : b.asks_ = (ap, aq) :: al) (hx : ¬ bp < ap)
    (h : b.matchPass bp ap fuel ts = some r) :
    ∃ new, r.1 = ts ++ new ∧ (∀ t ∈ new, t.LegsIn b.allOrders)
      ∧ (b.Positive → ∀ t ∈ new, 0 < t.bidTrade_.quantity_) := by
  obtain ⟨r1, b3, h1, -, -, h4⟩ := matchPass_eq_some h
  obtain ⟨bq', aq', new, -, -, e3, -, -, -, -, e8, e9⟩ := matchLevel_trades hb ha h1
  refine ⟨new, by rw [h4, e3], ?_, ?_⟩
  · intro t ht
    obtain ⟨x, hxq, y, hyq, f1, f2, f3, f4, f5⟩ := e8 t ht
    have hxl := hw.bidsLevel (bp, bq) (by rw [hb]; exact List.mem_cons_self _ _) x hxq
    have hyl := hw.asksLevel (ap, aq) (by rw [ha]; exact List.mem_cons_self _ _) y hyq
    refine ⟨f5, ⟨x, by simp [OrderBook.allOrders, hb, hxq], hxl.1, f1, f2⟩,
      ⟨y, by simp [OrderBook.allOrders, ha, hyq], hyl.1, f3, f4⟩, ?_⟩
    rw [f2, f4, hxl.2, hyl.2]
    simp only
    omega
  · intro hpos
    have hposq : ∀ x ∈ bq ++ aq, 0 < x.remainingQuantity_ := by
      intro x hx
      apply (hpos x _).1
      rcases List.mem_append.1 hx with hx | hx
      · simp [OrderBook.allOrders, hb, hx]
      · simp [OrderBook.allOrders, ha, hx]
    exact (e9 hposq).2

theorem Trade.LegsIn.of_ident {l1 l2 : List Order} {t : Trade} (h : t.LegsIn l1)
    (hfrom : ∀ x ∈ l1, ∃ y ∈ l2, x.ident = y.ident) : t.LegsIn l2 := by
  obtain ⟨h1, ⟨x, hx, h3⟩, ⟨y, hy, h4⟩, h5⟩ := h
  obtain ⟨x', hx', ex⟩ := hfrom x hx
  obtain ⟨y', hy', ey⟩ := hfrom y hy
  have fx := Order.fields_of_ident ex
  have fy := Order.fields_of_ident ey
  refine ⟨h1, ⟨x', hx', ?_, ?_, ?_⟩, ⟨y', hy', ?_, ?_, ?_⟩, h5⟩
  · rw [← fx.2.2.1]; exact h3.1
  · rw [← fx.2.1]; exact h3.2.1
  · rw [← fx.2.2.2.1]; exact h3.2.2
  · rw [← fy.2.2.1]; exact h4.1
  · rw [← fy.2.1]; exact h4.2.1
  · rw [← fy.2.2.2.1]; exact h4.2.2

/-- The trades of `MatchOrder` pair a buy order and a sell order of the book
it starts from, at crossing prices; their quantity is positive when every
remaining quantity of that book is. -/
theorem matchLoop_legs {fuel : Nat} {b : OrderBook} {ts : Trades}
    {r : Trades × OrderBook} (hw : b.WF) (h : b.matchLoop fuel ts = some r) :
    ∃ new, r.1 = ts ++ new ∧ (∀ t ∈ new, t.LegsIn b.allOrders)
      ∧ (b.Positive → ∀ t ∈ new, 0 < t.bidTrade_.quantity_) := by
  have key := matchLoop_induct
    (fun b' ts' => b'.WF
      ∧ (∀ x ∈ b'.allOrders, ∃ y ∈ b.allOrders, x.ident = y.ident)
      ∧ ∃ new, ts' = ts ++ new ∧ (∀ t ∈ new, t.LegsIn b.allOrders)
          ∧ (b.Positive → b'.Positive ∧ ∀ t ∈ new, 0 < t.bidTrade_.quantity_)) ?_ fuel b ts r
    ⟨hw, fun x hx => ⟨x, hx, rfl⟩, [], by simp, by simp, fun hp => ⟨hp, by simp⟩⟩ h
  · obtain ⟨-, -, new, e1, e2, e3⟩ := key
    exact ⟨new, e1, e2, fun hp => (e3 hp).2⟩
  · intro b1 ts1 bp ap bids asks bl al r1 hb1 ha1 hx hp hm
    obtain ⟨w1, f1, new, e1, e2, e3⟩ := hp
    obtain ⟨new2, g1, g2, g3⟩ := matchPass_legs w1 hb1 ha1 hx hm
    refine ⟨wf_matchPass w1 hm, ?_, new ++ new2, ?_, ?_, ?_⟩
    · intro x hx
      obtain ⟨y, hy, e⟩ := matchPass_from hm x hx
      obtain ⟨z, hz, e'⟩ := f1 y hy
      exact ⟨z, hz, e.trans e'⟩
    · rw [g1, e1, List.append_assoc]
    · intro t ht
      rcases List.mem_append.1 ht with ht | ht
      · exact e2 t ht
      · exact (g2 t ht).of_ident f1
    · intro hpos
      obtain ⟨p1, p2⟩ := e3 hpos
      refine ⟨positive_matchPass p1 hm, ?_⟩
      intro t ht
      rcases List.mem_append.1 ht with ht | ht
      · exact p2 t ht
      · exact g3 p1 t ht


/-! ## An incoming buy order sweeps the asks -/

theorem matchPass_keys {b : OrderBook} {bp ap : Nat} {bq aq : List Order}
    {bl al : Ladder} {fuel : Nat} {ts : Trades} {r : Trades × OrderBook}
    (hb : b.bids_ = (bp, bq) :: bl) (ha : b.asks_ = (ap, aq) :: al)
    (h : b.matchPass bp ap fuel ts = some r) :
    List.Sublist (r.2.bids_.map Prod.fst) (b.bids_.map Prod.fst)
      ∧ List.Sublist (r.2.asks_.map Prod.fst) (b.asks_.map Prod.fst) := by
  obtain ⟨r1, b3, h1, h2, h3, -⟩ := matchPass_eq_some h
  obtain ⟨bq', aq', e1, e2, -⟩ := matchLevel_shape fuel b ts r1 bp ap bq aq bl al hb ha h1
  obtain ⟨f1, f2, -⟩ := afterLevel_shape e1 e2
  obtain ⟨c1, c2, -⟩ := cancelFillAndKill_levels h2
  obtain ⟨d1, d2, -⟩ := cancelFillAndKill_levels h3
  constructor
  · refine (d1.trans c1).trans ?_
    rw [f1, hb]
    split_ifs
    · simp
    · simp
  · refine (d2.trans c2).trans ?_
    rw [f2, ha]
    split_ifs
    · simp
    · simp

theorem crossingLiquidity_buy_cons {b : OrderBook} {ap p : Nat} {aq : List Order} {al : Ladder}
    (ha : b.asks_ = (ap, aq) :: al) (hle : ap ≤ p) :
    b.crossingLiquidity Side.Buy p
      = remainingSum aq + remainingSum (ladderOrders (al.filter fun x => decide (x.1 ≤ p))) := by
  unfold OrderBook.crossingLiquidity
  simp [ha, List.filter_cons, hle, remainingSum_append]

theorem crossingLiquidity_buy_zero {b : OrderBook} {p : Nat} (h : ∀ y ∈ b.asks_, p < y.1) :
    b.crossingLiquidity Side.Buy p = 0 := by
  unfold OrderBook.crossingLiquidity
  have : (b.asks_.filter fun x => decide (x.1 ≤ p)) = [] := by
    rw [List.filter_eq_nil_iff]
    intro y hy
    have := h y hy
    simp only [decide_eq_true_eq]
    omega
  simp [this]

/-- One pass of the outer loop that returns, when the best bid level holds the
lone incoming buy order: the order trades against the best ask level, and
either is used up or stays alone on its level. -/
theorem matchPass_sweep_buy {b : OrderBook} {r : Trades × OrderBook} {p ap fuel : Nat}
    {aq : List Order} {bl al : Ladder} {ts : Trades} {o : Order}
    (ho : 0 < o.remainingQuantity_)
    (hb : b.bids_ = (p, [o]) :: bl) (ha : b.asks_ = (ap, aq) :: al) (hx : ¬ p < ap)
    (h : b.matchPass p ap fuel ts = some r) :
    ∃ new, r.1 = ts ++ new
      ∧ (∀ t ∈ new, t.bidTrade_.orderId_ = o.orderId_ ∧ t.bidTrade_.price_ = o.price_)
      ∧ r.2.crossingLiquidity Side.Buy p + tradedQuantity new = b.crossingLiquidity Side.Buy p
      ∧ ((r.2.bids_ = bl ∧ tradedQuantity new = o.remainingQuantity_)
          ∨ ∃ o', r.2.bids_ = (p, [o']) :: bl ∧ o'.ident = o.ident
              ∧ o'.remainingQuantity_ + tradedQuantity new = o.remainingQuantity_
              ∧ 0 < o'.remainingQuantity_) := by
  obtain ⟨r1, b3, h1, h2, h3, h4⟩ := matchPass_eq_some h
  obtain ⟨bq', aq', new, e1, e2, e3, e4, e5, e6, e7, e8, -⟩ := matchLevel_trades hb ha h1
  obtain ⟨f1, f2, -⟩ := afterLevel_shape e1 e2
  have hb3 : b3 = r1.2.afterLevel p ap := (cancelFillAndKill_eq_some h2).1
  subst hb3
  have hr2 : r.2 = r1.2.afterLevel p ap := (cancelFillAndKill_eq_some h3).1
  have p1 : ∀ x ∈ bq', 0 < x.remainingQuantity_ := by
    obtain ⟨bq2, aq2, l1, -, l3, -⟩ := matchLevel_left hb ha h1
    rw [e1] at l1
    simp only [List.cons.injEq, Prod.mk.injEq, true_and, and_true] at l1
    subst l1
    intro x hx
    rcases l3 x hx with h7 | h7
    · exact h7
    · simp only [List.mem_singleton] at h7
      rw [h7]; exact ho
  have hle : ap ≤ p := by omega
  refine ⟨new, by rw [h4, e3], ?_, ?_, ?_⟩
  · intro t ht
    obtain ⟨x, hxq, y, -, g1, g2, -⟩ := e8 t ht
    simp only [List.mem_singleton] at hxq
    rw [g1, g2, hxq]
    exact ⟨rfl, rfl⟩
  · rw [crossingLiquidity_buy_cons ha hle, ← e7, hr2]
    by_cases haq : aq' = []
    · have hasks : (r1.2.afterLevel p ap).asks_ = al := by rw [f2, if_pos haq]
      unfold OrderBook.crossingLiquidity
      simp only [hasks, if_true, haq, remainingSum_nil]
      omega
    · have hasks : (r1.2.afterLevel p ap).asks_ = (ap, aq') :: al := by rw [f2, if_neg haq]
      rw [crossingLiquidity_buy_cons hasks hle]
      omega
  · rw [hr2, f1]
    rcases suffix_singleton e4 with h5 | ⟨o', h5, h6⟩
    · left
      subst h5
      simp only [if_true, true_and]
      simp only [remainingSum_nil, remainingSum_cons] at e6
      omega
    · right
      subst h5
      refine ⟨o', by simp, h6, ?_, p1 o' (by simp)⟩
      simp only [remainingSum_nil, remainingSum_cons] at e6
      omega


/-! ## `MatchOrder` after the insertion of a buy order -/

theorem matchLoop_keys {fuel : Nat} {b : OrderBook} {ts : Trades} {r : Trades × OrderBook}
    (h : b.matchLoop fuel ts = some r) :
    List.Sublist (r.2.bids_.map Prod.fst) (b.bids_.map Prod.fst)
      ∧ List.Sublist (r.2.asks_.map Prod.fst) (b.asks_.map Prod.fst) := by
  refine matchLoop_induct
    (fun b' _ => List.Sublist (b'.bids_.map Prod.fst) (b.bids_.map Prod.fst)
      ∧ List.Sublist (b'.asks_.map Prod.fst) (b.asks_.map Prod.fst)) ?_ fuel b ts r
    ⟨List.Sublist.refl _, List.Sublist.refl _⟩ h
  intro b1 ts1 bp ap bids asks bl al r1 hb1 ha1 _ hp hm
  obtain ⟨k1, k2⟩ := matchPass_keys hb1 ha1 hm
  exact ⟨k1.trans hp.1, k2.trans hp.2⟩

theorem Order.eq_of_ident {x y : Order} (h : x.ident = y.ident) :
    x = { y with remainingQuantity_ := x.remainingQuantity_ } := by
  obtain ⟨h1, h2, h3, h4, h5⟩ := Order.fields_of_ident h
  cases x; cases y
  simp only at h1 h2 h3 h4 h5
  simp [h1, h2, h3, h4, h5]

/-- The outer loop started with the lone incoming buy order `o` on the best
bid level of a book that is otherwise uncrossed, when it returns: every trade
has `o` as its buy leg, the crossing liquidity shrinks by the traded quantity,
and `o` is used up or stays alone on its level. -/
theorem matchLoop_sweep_buy {fuel : Nat} {b : OrderBook} {r : Trades × OrderBook} {p : Nat}
    {bl : Ladder} {o : Order} (ho : 0 < o.remainingQuantity_)
    (hb : b.bids_ = (p, [o]) :: bl) (hrest : ∀ x ∈ bl, ∀ y ∈ b.asks_, x.1 < y.1)
    (h : b.matchLoop fuel [] = some r) :
    (∀ t ∈ r.1, t.bidTrade_.orderId_ = o.orderId_ ∧ t.bidTrade_.price_ = o.price_)
      ∧ r.2.crossingLiquidity Side.Buy p + tradedQuantity r.1 = b.crossingLiquidity Side.Buy p
      ∧ ((r.2.bids_ = bl ∧ tradedQuantity r.1 = o.remainingQuantity_)
          ∨ ∃ o', r.2.bids_ = (p, [o']) :: bl ∧ o'.ident = o.ident
              ∧ o'.remainingQuantity_ + tradedQuantity r.1 = o.remainingQuantity_
              ∧ 0 < o'.remainingQuantity_) := by
  have key := matchLoop_induct
    (fun b' ts' => (∀ x ∈ bl, ∀ y ∈ b'.asks_, x.1 < y.1)
      ∧ (∀ t ∈ ts', t.bidTrade_.orderId_ = o.orderId_ ∧ t.bidTrade_.price_ = o.price_)
      ∧ b'.crossingLiquidity Side.Buy p + tradedQuantity ts' = b.crossingLiquidity Side.Buy p
      ∧ ((b'.bids_ = bl ∧ tradedQuantity ts' = o.remainingQuantity_)
          ∨ ∃ o', b'.bids_ = (p, [o']) :: bl ∧ o'.ident = o.ident
              ∧ o'.remainingQuantity_ + tradedQuantity ts' = o.remainingQuantity_
              ∧ 0 < o'.remainingQuantity_)) ?_ fuel b [] r
    ⟨hrest, by simp, by simp, Or.inr ⟨o, hb, rfl, by simp, ho⟩⟩ h
  · exact ⟨key.2.1, key.2.2.1, key.2.2.2⟩
  · intro b1 ts1 bp ap bids asks bl1 al r1 hb1 ha1 hx hp hm
    obtain ⟨u1, l1, c1, s1⟩ := hp
    rcases s1 with ⟨s1, -⟩ | ⟨o', s1, s2, s3, s4⟩
    · exfalso
      have := u1 (bp, bids) (by rw [← s1, hb1]; exact List.mem_cons_self _ _) (ap, asks)
        (by rw [ha1]; exact List.mem_cons_self _ _)
      exact hx this
    · rw [hb1] at s1
      simp only [List.cons.injEq, Prod.mk.injEq] at s1
      obtain ⟨⟨rfl, rfl⟩, rfl⟩ := s1
      obtain ⟨new, g1, g2, g3, g4⟩ := matchPass_sweep_buy s4 hb1 ha1 hx hm
      obtain ⟨-, k2⟩ := matchPass_keys hb1 ha1 hm
      have fo := Order.fields_of_ident s2
      refine ⟨?_, ?_, ?_, ?_⟩
      · intro x hx y hy
        obtain ⟨y', hy', ey⟩ := List.mem_map.1 (k2.subset (List.mem_map_of_mem Prod.fst hy))
        rw [← ey]
        exact u1 x hx y' hy'
      · intro t ht
        rw [g1] at ht
        rcases List.mem_append.1 ht with ht | ht
        · exact l1 t ht
        · rw [← fo.2.1, ← fo.2.2.2.1]; exact g2 t ht
      · rw [g1, tradedQuantity_append]; omega
      · rw [g1, tradedQuantity_append]
        rcases g4 with ⟨g4, g5⟩ | ⟨o'', g4, g5, g6, g7⟩
        · left; exact ⟨g4, by omega⟩
        · right; exact ⟨o'', g4, g5.trans s2, by omega, g7⟩

theorem mem_insertOrder_bids {b : OrderBook} {o : Order} {x : Nat × List Order}
    (hx : x ∈ (b.insertOrder o).bids_) : (o.side_ = Side.Buy ∧ x.1 = o.price_) ∨ x ∈ b.bids_ := by
  unfold OrderBook.insertOrder at hx
  by_cases hs : o.side_ = Side.Buy
  · simp only [hs, if_true] at hx
    rcases mem_pushBack_keys _ _ _ _ _ hx with h1 | h1
    · exact Or.inl ⟨hs, h1⟩
    · exact Or.inr h1
  · simp only [hs, if_false] at hx
    exact Or.inr hx

theorem mem_insertOrder_asks {b : OrderBook} {o : Order} {x : Nat × List Order}
    (hx : x ∈ (b.insertOrder o).asks_) : (o.side_ = Side.Sell ∧ x.1 = o.price_) ∨ x ∈ b.asks_ := by
  unfold OrderBook.insertOrder at hx
  by_cases hs : o.side_ = Side.Buy
  · simp only [hs, if_true] at hx
    exact Or.inr hx
  · simp only [hs, if_false] at hx
    rcases mem_pushBack_keys _ _ _ _ _ hx with h1 | h1
    · refine Or.inl ⟨?_, h1⟩
      cases hside : o.side_ with
      | Buy => exact absurd hside hs
      | Sell => rfl
    · exact Or.inr h1

theorem headUncrossed_of_uncrossed {b : OrderBook} (h : b.Uncrossed) : b.HeadUncrossed := by
  unfold OrderBook.HeadUncrossed
  split
  · rename_i bp bq bl ap aq al hb ha
    exact h (bp, bq) (by rw [hb]; exact List.mem_cons_self _ _) (ap, aq)
      (by rw [ha]; exact List.mem_cons_self _ _)
  · trivial

theorem not_CanMatch_buy {b : OrderBook} {p : Nat} (hw : b.WF)
    (h : ¬ b.CanMatch Side.Buy p = true) : ∀ y ∈ b.asks_, p < y.1 := by
  unfold OrderBook.CanMatch at h
  simp only [if_true] at h
  have hs := hw.asksSorted
  intro y hy
  split at h
  · rename_i ha; rw [ha] at hy; simp at hy
  · rename_i ap aq al ha
    simp only [decide_eq_true_eq, not_le] at h
    rw [ha] at hy hs
    rw [List.pairwise_cons] at hs
    rcases List.mem_cons.1 hy with hy | hy
    · rw [hy]; exact h
    · have := hs.1 y hy
      simp only at this
      omega

/-- The result of `MatchOrder` right after the insertion of a buy order
into a book at rest, when it returns: the traded quantity is the smaller
of the order's quantity and the crossing liquidity, every trade has the order
as its buy leg, and the order stays in the index exactly when it was not used
up, with what is left of it. -/
theorem insert_match_buy {b : OrderBook} {o1 : Order} {r : Trades × OrderBook}
    (hw : b.WF) (hu : b.Uncrossed)
    (hf : assocFind o1.orderId_ b.orders_ = none) (hs : o1.side_ = Side.Buy)
    (hq : 0 < o1.remainingQuantity_)
    (hm : (b.insertOrder o1).MatchOrder = some r) :
    tradedQuantity r.1 = min o1.remainingQuantity_ (b.crossingLiquidity Side.Buy o1.price_)
      ∧ (∀ t ∈ r.1, t.bidTrade_.orderId_ = o1.orderId_ ∧ t.bidTrade_.price_ = o1.price_)
      ∧ r.2.crossingLiquidity Side.Buy o1.price_ + tradedQuantity r.1
          = b.crossingLiquidity Side.Buy o1.price_
      ∧ assocFind o1.orderId_ r.2.orders_
          = (if tradedQuantity r.1 < o1.remainingQuantity_ then
              some { o1 with remainingQuantity_ := o1.remainingQuantity_ - tradedQuantity r.1 }
            else none) := by
  have hw1 := wf_insertOrder hw o1 hf
  have hasks : (b.insertOrder o1).asks_ = b.asks_ := by
    unfold OrderBook.insertOrder; simp [hs]
  have hL : (b.insertOrder o1).crossingLiquidity Side.Buy o1.price_
      = b.crossingLiquidity Side.Buy o1.price_ := by
    unfold OrderBook.crossingLiquidity; simp [hasks]
  obtain ⟨hw2, hu2⟩ := wf_MatchOrder hw1 hm
  by_cases hcm : b.CanMatch Side.Buy o1.price_ = true
  · obtain ⟨ap, aq, al, ha, hle⟩ := CanMatch_buy hcm
    obtain ⟨e1, e2⟩ := insertOrder_buy_crossing hu hs ha hle
    obtain ⟨s1, s2, s3⟩ := matchLoop_sweep_buy hq e1
      (fun x hx y hy => hu x hx y (by rw [← hasks]; exact hy)) hm
    rw [hL] at s2
    refine ⟨?_, s1, s2, ?_⟩
    · rcases s3 with ⟨s3, s4⟩ | ⟨o', s3, s4, s5, s6⟩
      · rw [Nat.min_def]; split_ifs <;> omega
      · have hz : r.2.crossingLiquidity Side.Buy o1.price_ = 0 := by
          apply crossingLiquidity_buy_zero
          intro y hy
          exact hu2 (o1.price_, [o']) (by rw [s3]; exact List.mem_cons_self _ _) y hy
        rw [hz] at s2
        rw [Nat.min_def]; split_ifs <;> omega
    · rcases s3 with ⟨s3, s4⟩ | ⟨o', s3, s4, s5, s6⟩
      · rw [if_neg (by omega)]
        cases hfind : assocFind o1.orderId_ r.2.orders_ with
        | none => rfl
        | some x =>
          exfalso
          obtain ⟨hx, hxid⟩ := (hw2.index _ _).1 hfind
          unfold OrderBook.allOrders at hx
          rcases List.mem_append.1 hx with hx | hx
          · rw [s3] at hx
            exact hw.not_mem_of_fresh hf
              (List.mem_map.2 ⟨x, List.mem_append_left _ hx, hxid⟩)
          · obtain ⟨lv, hlv, hxl⟩ := mem_ladderOrders.1 hx
            have hside := (hw2.asksLevel lv hlv x hxl).1
            obtain ⟨y, hy, e⟩ := matchLoop_from hm x (List.mem_append_right _ hx)
            have fy := Order.fields_of_ident e
            rcases List.mem_cons.1 ((allOrders_insertOrder_perm b o1).mem_iff.1 hy) with h5 | h5
            · rw [fy.2.2.1, h5, hs] at hside
              exact Side.noConfusion hside
            · exact hw.not_mem_of_fresh hf
                (List.mem_map.2 ⟨y, h5, by rw [← fy.2.1]; exact hxid⟩)
      · rw [if_pos (by omega)]
        have hmem : o' ∈ r.2.allOrders := by
          simp [OrderBook.allOrders, s3]
        have fo := Order.fields_of_ident s4
        have := hw2.find_of_mem hmem
        rw [fo.2.1] at this
        rw [this, Order.eq_of_ident s4]
        congr 2
        omega
  · have hall := not_CanMatch_buy hw hcm
    have hu1 : (b.insertOrder o1).Uncrossed := by
      intro x hx y hy
      rw [hasks] at hy
      rcases mem_insertOrder_bids hx with ⟨-, h1⟩ | h1
      · rw [h1]; exact hall y hy
      · exact hu x h1 y hy
    unfold OrderBook.MatchOrder at hm
    rw [matchLoop_succ_uncrossed (headUncrossed_of_uncrossed hu1)] at hm
    simp only [Option.some.injEq] at hm
    subst hm
    have hz := crossingLiquidity_buy_zero hall
    simp only [tradedQuantity_nil, hz, Nat.min_zero, hL, Nat.add_zero, Nat.sub_zero, hq, if_true,
      List.not_mem_nil, false_implies, implies_true, true_and]
    exact hw1.find_of_mem ((allOrders_insertOrder_perm b o1).mem_iff.2 (List.mem_cons_self _ _))


/-! ## An incoming sell order sweeps the bids -/

theorem crossingLiquidity_sell_cons {b : OrderBook} {bp p : Nat} {bq : List Order} {bl : Ladder}
    (hb : b.bids_ = (bp, bq) :: bl) (hle : p ≤ bp) :
    b.crossingLiquidity Side.Sell p
      = remainingSum bq + remainingSum (ladderOrders (bl.filter fun x => decide (p ≤ x.1))) := by
  unfold OrderBook.crossingLiquidity
  have hne : ¬ (Side.Sell = Side.Buy) := by decide
  simp [hne, hb, List.filter_cons, hle, remainingSum_append]

theorem crossingLiquidity_sell_zero {b : OrderBook} {p : Nat} (h : ∀ y ∈ b.bids_, y.1 < p) :
    b.crossingLiquidity Side.Sell p = 0 := by
  unfold OrderBook.crossingLiquidity
  have hne : ¬ (Side.Sell = Side.Buy) := by decide
  have : (b.bids_.filter fun x => decide (p ≤ x.1)) = [] := by
    rw [List.filter_eq_nil_iff]
    intro y hy
    have := h y hy
    simp only [decide_eq_true_eq]
    omega
  simp [hne, this]

/-- One pass of the outer loop that returns, when the best ask level holds the
lone incoming sell order: the order trades against the best bid level, and
either is used up or stays alone on its level. -/
theorem matchPass_sweep_sell {b : OrderBook} {r : Trades × OrderBook} {p bp fuel : Nat}
    {bq : List Order} {bl al : Ladder} {ts : Trades} {o : Order}
    (ho : 0 < o.remainingQuantity_)
    (hb : b.bids_ = (bp, bq) :: bl) (ha : b.asks_ = (p, [o]) :: al) (hx : ¬ bp < p)
    (h : b.matchPass bp p fuel ts = some r) :
    ∃ new, r.1 = ts ++ new
      ∧ (∀ t ∈ new, t.askTrade_.orderId_ = o.orderId_ ∧ t.askTrade_.price_ = o.price_)
      ∧ r.2.crossingLiquidity Side.Sell p + tradedQuantity new = b.crossingLiquidity Side.Sell p
      ∧ ((r.2.asks_ = al ∧ tradedQuantity new = o.remainingQuantity_)
          ∨ ∃ o', r.2.asks_ = (p, [o']) :: al ∧ o'.ident = o.ident
              ∧ o'.remainingQuantity_ + tradedQuantity new = o.remainingQuantity_
              ∧ 0 < o'.remainingQuantity_) := by
  obtain ⟨r1, b3, h1, h2, h3, h4⟩ := matchPass_eq_some h
  obtain ⟨bq', aq', new, e1, e2, e3, e4, e5, e6, e7, e8, -⟩ := matchLevel_trades hb ha h1
  obtain ⟨f1, f2, -⟩ := afterLevel_shape e1 e2
  have hb3 : b3 = r1.2.afterLevel bp p := (cancelFillAndKill_eq_some h2).1
  subst hb3
  have hr2 : r.2 = r1.2.afterLevel bp p := (cancelFillAndKill_eq_some h3).1
  have p1 : ∀ x ∈ aq', 0 < x.remainingQuantity_ := by
    obtain ⟨bq2, aq2, -, l2, -, l4⟩ := matchLevel_left hb ha h1
    rw [e2] at l2
    simp only [List.cons.injEq, Prod.mk.injEq, true_and, and_true] at l2
    subst l2
    intro x hx
    rcases l4 x hx with h7 | h7
    · exact h7
    · simp only [List.mem_singleton] at h7
      rw [h7]; exact ho
  have hle : p ≤ bp := by omega
  refine ⟨new, by rw [h4, e3], ?_, ?_, ?_⟩
  · intro t ht
    obtain ⟨x, -, y, hyq, -, -, g1, g2, -⟩ := e8 t ht
    simp only [List.mem_singleton] at hyq
    rw [g1, g2, hyq]
    exact ⟨rfl, rfl⟩
  · rw [crossingLiquidity_sell_cons hb hle, ← e6, hr2]
    by_cases hbq : bq' = []
    · have hbids : (r1.2.afterLevel bp p).bids_ = bl := by rw [f1, if_pos hbq]
      unfold OrderBook.crossingLiquidity
      have hne : ¬ (Side.Sell = Side.Buy) := by decide
      simp only [hbids, hne, if_false, hbq, remainingSum_nil]
      omega
    · have hbids : (r1.2.afterLevel bp p).bids_ = (bp, bq') :: bl := by rw [f1, if_neg hbq]
      rw [crossingLiquidity_sell_cons hbids hle]
      omega
  · rw [hr2, f2]
    rcases suffix_singleton e5 with h5 | ⟨o', h5, h6⟩
    · left
      subst h5
      simp only [if_true, true_and]
      simp only [remainingSum_nil, remainingSum_cons] at e7
      omega
    · right
      subst h5
      refine ⟨o', by simp, h6, ?_, p1 o' (by simp)⟩
      simp only [remainingSum_nil, remainingSum_cons] at e7
      omega

/-- The outer loop started with the lone incoming sell order `o` on the best
ask level of a book that is otherwise uncrossed, when it returns: every trade
has `o` as its sell leg, the crossing liquidity shrinks by the traded
quantity, and `o` is used up or stays alone on its level. -/
theorem matchLoop_sweep_sell {fuel : Nat} {b : OrderBook} {r : Trades × OrderBook} {p : Nat}
    {al : Ladder} {o : Order} (ho : 0 < o.remainingQuantity_)
    (ha : b.asks_ = (p, [o]) :: al) (hrest : ∀ x ∈ b.bids_, ∀ y ∈ al, x.1 < y.1)
    (h : b.matchLoop fuel [] = some r) :
    (∀ t ∈ r.1, t.askTrade_.orderId_ = o.orderId_ ∧ t.askTrade_.price_ = o.price_)
      ∧ r.2.crossingLiquidity Side.Sell p + tradedQuantity r.1 = b.crossingLiquidity Side.Sell p
      ∧ ((r.2.asks_ = al ∧ tradedQuantity r.1 = o.remainingQuantity_)
          ∨ ∃ o', r.2.asks_ = (p, [o']) :: al ∧ o'.ident = o.ident
              ∧ o'.remainingQuantity_ + tradedQuantity r.1 = o.remainingQuantity_
              ∧ 0 < o'.remainingQuantity_) := by
  have key := matchLoop_induct
    (fun b' ts' => (∀ x ∈ b'.bids_, ∀ y ∈ al, x.1 < y.1)
      ∧ (∀ t ∈ ts', t.askTrade_.orderId_ = o.orderId_ ∧ t.askTrade_.price_ = o.price_)
      ∧ b'.crossingLiquidity Side.Sell p + tradedQuantity ts' = b.crossingLiquidity Side.Sell p
      ∧ ((b'.asks_ = al ∧ tradedQuantity ts' = o.remainingQuantity_)
          ∨ ∃ o', b'.asks_ = (p, [o']) :: al ∧ o'.ident = o.ident
              ∧ o'.remainingQuantity_ + tradedQuantity ts' = o.remainingQuantity_
              ∧ 0 < o'.remainingQuantity_)) ?_ fuel b [] r
    ⟨hrest, by simp, by simp, Or.inr ⟨o, ha, rfl, by simp, ho⟩⟩ h
  · exact ⟨key.2.1, key.2.2.1, key.2.2.2⟩
  · intro b1 ts1 bp ap bids asks bl al1 r1 hb1 ha1 hx hp hm
    obtain ⟨u1, l1, c1, s1⟩ := hp
    rcases s1 with ⟨s1, -⟩ | ⟨o', s1, s2, s3, s4⟩
    · exfalso
      have := u1 (bp, bids) (by rw [hb1]; exact List.mem_cons_self _ _) (ap, asks)
        (by rw [← s1, ha1]; exact List.mem_cons_self _ _)
      exact hx this
    · rw [ha1] at s1
      simp only [List.cons.injEq, Prod.mk.injEq] at s1
      obtain ⟨⟨rfl, rfl⟩, rfl⟩ := s1
      obtain ⟨new, g1, g2, g3, g4⟩ := matchPass_sweep_sell s4 hb1 ha1 hx hm
      obtain ⟨k1, -⟩ := matchPass_keys hb1 ha1 hm
      have fo := Order.fields_of_ident s2
      refine ⟨?_, ?_, ?_, ?_⟩
      · intro x hx y hy
        obtain ⟨x', hx', ex⟩ := List.mem_map.1 (k1.subset (List.mem_map_of_mem Prod.fst hx))
        rw [← ex]
        exact u1 x' hx' y hy
      · intro t ht
        rw [g1] at ht
        rcases List.mem_append.1 ht with ht | ht
        · exact l1 t ht
        · rw [← fo.2.1, ← fo.2.2.2.1]; exact g2 t ht
      · rw [g1, tradedQuantity_append]; omega
      · rw [g1, tradedQuantity_append]
        rcases g4 with ⟨g4, g5⟩ | ⟨o'', g4, g5, g6, g7⟩
        · left; exact ⟨g4, by omega⟩
        · right; exact ⟨o'', g4, g5.trans s2, by omega, g7⟩

theorem not_CanMatch_sell {b : OrderBook} {p : Nat} (hw : b.WF)
    (h : ¬ b.CanMatch Side.Sell p = true) : ∀ y ∈ b.bids_, y.1 < p := by
  unfold OrderBook.CanMatch at h
  have hne : ¬ (Side.Sell = Side.Buy) := by decide
  simp only [hne, if_false] at h
  have hs := hw.bidsSorted
  intro y hy
  split at h
  · rename_i hb; rw [hb] at hy; simp at hy
  · rename_i bp bq bl hb
    simp only [decide_eq_true_eq, not_le] at h
    rw [hb] at hy hs
    rw [List.pairwise_cons] at hs
    rcases List.mem_cons.1 hy with hy | hy
    · rw [hy]; exact h
    · have := hs.1 y hy
      simp only at this
      omega

/-- The result of `MatchOrder` right after the insertion of a sell order
into a book at rest, when it returns: the traded quantity is the smaller
of the order's quantity and the crossing liquidity, every trade has the order
as its sell leg, and the order stays in the index exactly when it was not used
up, with what is left of it. -/
theorem insert_match_sell {b : OrderBook} {o1 : Order} {r : Trades × OrderBook}
    (hw : b.WF) (hu : b.Uncrossed)
    (hf : assocFind o1.orderId_ b.orders_ = none) (hs : o1.side_ = Side.Sell)
    (hq : 0 < o1.remainingQuantity_)
    (hm : (b.insertOrder o1).MatchOrder = some r) :
    tradedQuantity r.1 = min o1.remainingQuantity_ (b.crossingLiquidity Side.Sell o1.price_)
      ∧ (∀ t ∈ r.1, t.askTrade_.orderId_ = o1.orderId_ ∧ t.askTrade_.price_ = o1.price_)
      ∧ r.2.crossingLiquidity Side.Sell o1.price_ + tradedQuantity r.1
          = b.crossingLiquidity Side.Sell o1.price_
      ∧ assocFind o1.orderId_ r.2.orders_
          = (if tradedQuantity r.1 < o1.remainingQuantity_ then
              some { o1 with remainingQuantity_ := o1.remainingQuantity_ - tradedQuantity r.1 }
            else none) := by
  have hne : ¬ (Side.Sell = Side.Buy) := by decide
  have hw1 := wf_insertOrder hw o1 hf
  have hbids : (b.insertOrder o1).bids_ = b.bids_ := by
    unfold OrderBook.insertOrder; simp [hs]
  have hL : (b.insertOrder o1).crossingLiquidity Side.Sell o1.price_
      = b.crossingLiquidity Side.Sell o1.price_ := by
    unfold OrderBook.crossingLiquidity; simp [hbids]
  obtain ⟨hw2, hu2⟩ := wf_MatchOrder hw1 hm
  by_cases hcm : b.CanMatch Side.Sell o1.price_ = true
  · obtain ⟨bp, bq, bl, hb, hle⟩ := CanMatch_sell hcm
    obtain ⟨e1, e2⟩ := insertOrder_sell_crossing hu hs hb hle
    obtain ⟨s1, s2, s3⟩ := matchLoop_sweep_sell hq e2
      (fun x hx y hy => hu x (by rw [← hbids]; exact hx) y hy) hm
    rw [hL] at s2
    refine ⟨?_, s1, s2, ?_⟩
    · rcases s3 with ⟨s3, s4⟩ | ⟨o', s3, s4, s5, s6⟩
      · rw [Nat.min_def]; split_ifs <;> omega
      · have hz : r.2.crossingLiquidity Side.Sell o1.price_ = 0 := by
          apply crossingLiquidity_sell_zero
          intro y hy
          exact hu2 y hy (o1.price_, [o']) (by rw [s3]; exact List.mem_cons_self _ _)
        rw [hz] at s2
        rw [Nat.min_def]; split_ifs <;> omega
    · rcases s3 with ⟨s3, s4⟩ | ⟨o', s3, s4, s5, s6⟩
      · rw [if_neg (by omega)]
        cases hfind : assocFind o1.orderId_ r.2.orders_ with
        | none => rfl
        | some x =>
          exfalso
          obtain ⟨hx, hxid⟩ := (hw2.index _ _).1 hfind
          unfold OrderBook.allOrders at hx
          rcases List.mem_append.1 hx with hx | hx
          · obtain ⟨lv, hlv, hxl⟩ := mem_ladderOrders.1 hx
            have hside := (hw2.bidsLevel lv hlv x hxl).1
            obtain ⟨y, hy, e⟩ := matchLoop_from hm x (List.mem_append_left _ hx)
            have fy := Order.fields_of_ident e
            rcases List.mem_cons.1 ((allOrders_insertOrder_perm b o1).mem_iff.1 hy) with h5 | h5
            · rw [fy.2.2.1, h5, hs] at hside
              exact Side.noConfusion hside
            · exact hw.not_mem_of_fresh hf
                (List.mem_map.2 ⟨y, h5, by rw [← fy.2.1]; exact hxid⟩)
          · rw [s3] at hx
            exact hw.not_mem_of_fresh hf
              (List.mem_map.2 ⟨x, List.mem_append_right _ hx, hxid⟩)
      · rw [if_pos (by omega)]
        have hmem : o' ∈ r.2.allOrders := by
          simp [OrderBook.allOrders, s3]
        have fo := Order.fields_of_ident s4
        have := hw2.find_of_mem hmem
        rw [fo.2.1] at this
        rw [this, Order.eq_of_ident s4]
        congr 2
        omega
  · have hall := not_CanMatch_sell hw hcm
    have hu1 : (b.insertOrder o1).Uncrossed := by
      intro x hx y hy
      rw [hbids] at hx
      rcases mem_insertOrder_asks hy with ⟨-, h1⟩ | h1
      · rw [h1]; exact hall x hx
      · exact hu x hx y h1
    unfold OrderBook.MatchOrder at hm
    rw [matchLoop_succ_uncrossed (headUncrossed_of_uncrossed hu1)] at hm
    simp only [Option.some.injEq] at hm
    subst hm
    have hz := crossingLiquidity_sell_zero hall
    simp only [tradedQuantity_nil, hz, Nat.min_zero, hL, Nat.add_zero, Nat.sub_zero, hq, if_true,
      List.not_mem_nil, false_implies, implies_true, true_and]
    exact hw1.find_of_mem ((allOrders_insertOrder_perm b o1).mem_iff.2 (List.mem_cons_self _ _))


/-! ## `AddOrder` by order type -/

theorem addGated_limit {b : OrderBook} {o : Order}
    (ht : o.orderType_ = OrderType.GoodTillCancel ∨ o.orderType_ = OrderType.GoodForDay) :
    b.addGated o = (b.insertOrder o).MatchOrder := by
  unfold OrderBook.addGated
  rcases ht with ht | ht <;> simp [ht]

theorem AddOrder_limit {b : OrderBook} {o : Order}
    (ht : o.orderType_ = OrderType.GoodTillCancel ∨ o.orderType_ = OrderType.GoodForDay)
    (hf : assocFind o.orderId_ b.orders_ = none) :
    b.AddOrder o = (b.insertOrder o).MatchOrder := by
  unfold OrderBook.AddOrder
  rw [hf]
  rcases ht with ht | ht <;> simp [ht, addGated_limit]

theorem AddOrder_market_buy {b : OrderBook} {o : Order} {w : Nat} {lvl : List Order}
    (ht : o.orderType_ = OrderType.Market) (hs : o.side_ = Side.Buy)
    (hf : assocFind o.orderId_ b.orders_ = none) (hl : b.asks_.getLast? = some (w, lvl)) :
    b.AddOrder o
      = (b.insertOrder { o with price_ := w, orderType_ := OrderType.GoodTillCancel }).MatchOrder := by
  have hne : b.asks_ ≠ [] := by
    intro h; rw [h] at hl; simp at hl
  unfold OrderBook.AddOrder
  rw [hf]
  simp only [Option.isSome_none, Bool.false_eq_true, if_false, ht, if_true, hs, hne, ne_eq,
    not_false_eq_true, and_self, hl, Order.ToGoodTillCancel, not_true_eq_false, Option.some_bind]
  exact addGated_limit (Or.inl rfl)

theorem AddOrder_market_sell {b : OrderBook} {o : Order} {w : Nat} {lvl : List Order}
    (ht : o.orderType_ = OrderType.Market) (hs : o.side_ = Side.Sell)
    (hf : assocFind o.orderId_ b.orders_ = none) (hl : b.bids_.getLast? = some (w, lvl)) :
    b.AddOrder o
      = (b.insertOrder { o with price_ := w, orderType_ := OrderType.GoodTillCancel }).MatchOrder := by
  have hne : b.bids_ ≠ [] := by
    intro h; rw [h] at hl; simp at hl
  have hsb : ¬ (Side.Sell = Side.Buy) := by decide
  unfold OrderBook.AddOrder
  rw [hf]
  simp only [Option.isSome_none, Bool.false_eq_true, if_false, ht, if_true, hs, hsb, hne, ne_eq,
    not_false_eq_true, and_self, false_and, hl, Order.ToGoodTillCancel, not_true_eq_false,
    Option.some_bind]
  exact addGated_limit (Or.inl rfl)

theorem getLast_asc_max {l : Ladder} {w : Nat} {lvl : List Order}
    (hs : l.Pairwise (fun x y => x.1 < y.1)) (hl : l.getLast? = some (w, lvl)) :
    ∀ y ∈ l, y.1 ≤ w := by
  induction l with
  | nil => simp at hl
  | cons x l ih =>
    rw [List.pairwise_cons] at hs
    cases l with
    | nil =>
      simp only [List.getLast?_singleton, Option.some.injEq] at hl
      intro y hy
      simp only [List.mem_singleton] at hy
      rw [hy, hl]
    | cons x2 l2 =>
      rw [List.getLast?_cons_cons] at hl
      have h1 := ih hs.2 hl
      intro y hy
      rcases List.mem_cons.1 hy with hy | hy
      · rw [hy]
        have h2 := hs.1 x2 (List.mem_cons_self _ _)
        have h3 := h1 x2 (List.mem_cons_self _ _)
        omega
      · exact h1 y hy

theorem getLast_desc_min {l : Ladder} {w : Nat} {lvl : List Order}
    (hs : l.Pairwise (fun x y => x.1 > y.1)) (hl : l.getLast? = some (w, lvl)) :
    ∀ y ∈ l, w ≤ y.1 := by
  induction l with
  | nil => simp at hl
  | cons x l ih =>
    rw [List.pairwise_cons] at hs
    cases l with
    | nil =>
      simp only [List.getLast?_singleton, Option.some.injEq] at hl
      intro y hy
      simp only [List.mem_singleton] at hy
      rw [hy, hl]
    | cons x2 l2 =>
      rw [List.getLast?_cons_cons] at hl
      have h1 := ih hs.2 hl
      intro y hy
      rcases List.mem_cons.1 hy with hy | hy
      · rw [hy]
        have h2 := hs.1 x2 (List.mem_cons_self _ _)
        have h3 := h1 x2 (List.mem_cons_self _ _)
        omega
      · exact h1 y hy

theorem crossingLiquidity_buy_all {b : OrderBook} {w : Nat} (h : ∀ y ∈ b.asks_, y.1 ≤ w) :
    b.crossingLiquidity Side.Buy w = remainingSum (ladderOrders b.asks_) := by
  unfold OrderBook.crossingLiquidity
  have : (b.asks_.filter fun x => decide (x.1 ≤ w)) = b.asks_ := by
    rw [List.filter_eq_self]
    intro y hy
    simpa using h y hy
  simp [this]

theorem crossingLiquidity_sell_all {b : OrderBook} {w : Nat} (h : ∀ y ∈ b.bids_, w ≤ y.1) :
    b.crossingLiquidity Side.Sell w = remainingSum (ladderOrders b.bids_) := by
  unfold OrderBook.crossingLiquidity
  have hsb : ¬ (Side.Sell = Side.Buy) := by decide
  have : (b.bids_.filter fun x => decide (w ≤ x.1)) = b.bids_ := by
    rw [List.filter_eq_self]
    intro y hy
    simpa using h y hy
  simp [hsb, this]

/-- An order of a consistent book sits on a level of its side keyed by its
price. -/
theorem OrderBook.WF.level_of_mem {b : OrderBook} (hw : b.WF) {o : Order}
    (ho : o ∈ b.allOrders) :
    (o.side_ = Side.Buy → ∃ x ∈ b.bids_, x.1 = o.price_)
      ∧ (o.side_ = Side.Sell → ∃ x ∈ b.asks_, x.1 = o.price_) := by
  unfold OrderBook.allOrders at ho
  rcases List.mem_append.1 ho with h1 | h1
  · obtain ⟨x, hx, hox⟩ := mem_ladderOrders.1 h1
    obtain ⟨hs, hp⟩ := hw.bidsLevel x hx o hox
    exact ⟨fun _ => ⟨x, hx, hp.symm⟩, fun h => by rw [hs] at h; exact Side.noConfusion h⟩
  · obtain ⟨x, hx, hox⟩ := mem_ladderOrders.1 h1
    obtain ⟨hs, hp⟩ := hw.asksLevel x hx o hox
    exact ⟨fun h => by rw [hs] at h; exact Side.noConfusion h, fun _ => ⟨x, hx, hp.symm⟩⟩

theorem ReachableValid.noEmptyLevels {b : OrderBook} (h : ReachableValid b) : b.NoEmptyLevels :=
  h.reachable.noEmpty


/-! ## `MatchOrder` after the insertion of an order of either side -/

theorem Side.eq_sell_of_ne_buy {s : Side} (h : ¬ s = Side.Buy) : s = Side.Sell := by
  cases s
  · exact absurd rfl h
  · rfl

/-- The result of `MatchOrder` right after the insertion of an order into a
book at rest, when it returns. -/
theorem insert_match {b : OrderBook} {o : Order} {r : Trades × OrderBook}
    (hw : b.WF) (hu : b.Uncrossed)
    (hf : assocFind o.orderId_ b.orders_ = none) (hq : 0 < o.remainingQuantity_)
    (hm : (b.insertOrder o).MatchOrder = some r) :
    tradedQuantity r.1 = min o.remainingQuantity_ (b.crossingLiquidity o.side_ o.price_)
      ∧ (∀ t ∈ r.1, (if o.side_ = Side.Buy then t.bidTrade_ else t.askTrade_).orderId_ = o.orderId_
          ∧ (if o.side_ = Side.Buy then t.bidTrade_ else t.askTrade_).price_ = o.price_)
      ∧ r.2.crossingLiquidity o.side_ o.price_ + tradedQuantity r.1
          = b.crossingLiquidity o.side_ o.price_
      ∧ assocFind o.orderId_ r.2.orders_
          = (if tradedQuantity r.1 < o.remainingQuantity_ then
              some { o with remainingQuantity_ := o.remainingQuantity_ - tradedQuantity r.1 }
            else none) := by
  by_cases hs : o.side_ = Side.Buy
  · obtain ⟨m1, m2, m3, m4⟩ := insert_match_buy hw hu hf hs hq hm
    rw [← hs] at m1 m3
    refine ⟨m1, ?_, m3, m4⟩
    intro t htr
    rw [if_pos hs]
    exact m2 t htr
  · have hs' := Side.eq_sell_of_ne_buy hs
    obtain ⟨m1, m2, m3, m4⟩ := insert_match_sell hw hu hf hs' hq hm
    rw [← hs'] at m1 m3
    refine ⟨m1, ?_, m3, m4⟩
    intro t htr
    rw [if_neg hs]
    exact m2 t htr

/-- Where the inserted order is after `MatchOrder`: live with what is left of
it, in the index and in the queue of its level, or nowhere. -/
theorem insert_match_rests {b : OrderBook} {o : Order} {r : Trades × OrderBook}
    (hw : b.WF) (hu : b.Uncrossed)
    (hf : assocFind o.orderId_ b.orders_ = none) (hq : 0 < o.remainingQuantity_)
    (hm : (b.insertOrder o).MatchOrder = some r) :
    (tradedQuantity r.1 < o.remainingQuantity_ →
        assocFind o.orderId_ r.2.orders_
            = some { o with remainingQuantity_ := o.remainingQuantity_ - tradedQuantity r.1 }
          ∧ { o with remainingQuantity_ := o.remainingQuantity_ - tradedQuantity r.1 }
              ∈ r.2.levelQueue o.side_ o.price_)
      ∧ (¬ tradedQuantity r.1 < o.remainingQuantity_ →
          assocFind o.orderId_ r.2.orders_ = none ∧ ∀ x ∈ r.2.allOrders, x.orderId_ ≠ o.orderId_) := by
  obtain ⟨-, -, -, m4⟩ := insert_match hw hu hf hq hm
  obtain ⟨hw2, -⟩ := wf_MatchOrder (wf_insertOrder hw o hf) hm
  constructor
  · intro hlt
    rw [if_pos hlt] at m4
    exact ⟨m4, (hw2.mem_levelQueue ((hw2.index _ _).1 m4).1).1⟩
  · intro hge
    rw [if_neg hge] at m4
    refine ⟨m4, ?_⟩
    intro x hx hxid
    have := hw2.find_of_mem hx
    rw [hxid, m4] at this
    exact Option.noConfusion this


/-! ## The aggregate index -/

theorem add32_eq {x y : Nat} (h : x + y < 2 ^ 32) : add32 x y = x + y :=
  Nat.mod_eq_of_lt h

theorem sub32_eq {x y : Nat} (hy : y ≤ x) (hx : x < 2 ^ 32) : sub32 x y = x - y := by
  unfold sub32
  have h1 : y % 2 ^ 32 = y := Nat.mod_eq_of_lt (by omega)
  rw [h1]
  have h2 : x + (2 ^ 32 - y) = (x - y) + 2 ^ 32 := by omega
  rw [h2, Nat.add_mod_right]
  exact Nat.mod_eq_of_lt (by omega)

@[simp] theorem levelCount_nil (p : Nat) : levelCount [] p = 0 := rfl

@[simp] theorem levelCount_cons (o : Order) (l : List Order) (p : Nat) :
    levelCount (o :: l) p = (if o.price_ = p then 1 else 0) + levelCount l p := by
  simp [levelCount]

@[simp] theorem levelCount_append (l1 l2 : List Order) (p : Nat) :
    levelCount (l1 ++ l2) p = levelCount l1 p + levelCount l2 p := by
  simp [levelCount]

@[simp] theorem levelQuantity_nil (s : Side) (p : Nat) : levelQuantity [] s p = 0 := rfl

@[simp] theorem levelQuantity_cons (o : Order) (l : List Order) (s : Side) (p : Nat) :
    levelQuantity (o :: l) s p
      = (if o.side_ = s ∧ o.price_ = p then o.remainingQuantity_ else 0) + levelQuantity l s p := by
  simp [levelQuantity]

@[simp] theorem levelQuantity_append (l1 l2 : List Order) (s : Side) (p : Nat) :
    levelQuantity (l1 ++ l2) s p = levelQuantity l1 s p + levelQuantity l2 s p := by
  simp [levelQuantity]

theorem levelCount_perm {l1 l2 : List Order} (h : List.Perm l1 l2) (p : Nat) :
    levelCount l1 p = levelCount l2 p :=
  (h.map _).sum_eq

theorem levelQuantity_perm {l1 l2 : List Order} (h : List.Perm l1 l2) (s : Side) (p : Nat) :
    levelQuantity l1 s p = levelQuantity l2 s p :=
  (h.map _).sum_eq

theorem levelQuantity_le_of_count_zero {l : List Order} {p : Nat} (h : levelCount l p = 0)
    (s : Side) : levelQuantity l s p = 0 := by
  induction l with
  | nil => rfl
  | cons o l ih =>
    rw [levelCount_cons] at h
    rw [levelQuantity_cons]
    by_cases hp : o.price_ = p
    · simp [hp] at h
    · simp only [hp, if_false, Nat.zero_add] at h
      simp [hp, ih h]

theorem levelQuantity_pos {l : List Order} {p : Nat} (hc : 0 < levelCount l p)
    (hpos : ∀ o ∈ l, 0 < o.remainingQuantity_) :
    0 < levelQuantity l Side.Buy p + levelQuantity l Side.Sell p := by
  induction l with
  | nil => simp at hc
  | cons o l ih =>
    rw [levelCount_cons] at hc
    rw [levelQuantity_cons, levelQuantity_cons]
    have ho := hpos o (List.mem_cons_self _ _)
    by_cases hp : o.price_ = p
    · cases hs : o.side_ <;> simp [hp] <;> omega
    · simp only [hp, if_false, Nat.zero_add] at hc
      have := ih hc (fun x hx => hpos x (List.mem_cons_of_mem _ hx))
      simp only [hp, and_false, if_false, Nat.zero_add]
      exact this

theorem fillQueue_levelCount (o1 : Order) (X : List Order) (p : Nat) :
    levelCount (fillQueue o1 X) p
      = (if o1.IsFilled = true then 0 else if o1.price_ = p then 1 else 0) + levelCount X p := by
  unfold fillQueue
  split_ifs <;> simp [*]

theorem fillQueue_levelQuantity (o1 : Order) (X : List Order) (s : Side) (p : Nat) :
    levelQuantity (fillQueue o1 X) s p
      = (if o1.side_ = s ∧ o1.price_ = p then o1.remainingQuantity_ else 0)
          + levelQuantity X s p := by
  unfold fillQueue
  by_cases h1 : o1.IsFilled = true
  · rw [if_pos h1]
    simp only [Order.IsFilled, decide_eq_true_eq] at h1
    rw [h1]; simp
  · rw [if_neg h1, levelQuantity_cons]

/-- The entry at each price after `UpdateLevelData`. -/
theorem assocFind_UpdateLevelData {data : List (Nat × LevelData)}
    (hnd : (data.map Prod.fst).Nodup) (s : Side) (p q : Nat) (a : LevelData.Action) (p' : Nat) :
    assocFind p' (UpdateLevelData data s p q a)
      = if p' = p then
          (if (((assocFind p data).getD {}).update s q a).count_ = 0 then none
           else some (((assocFind p data).getD {}).update s q a))
        else assocFind p' data := by
  unfold UpdateLevelData
  simp only []
  split_ifs with h1 h2 h3
  · rw [assocFind_assocErase _ _ _ hnd, if_pos h2]
  · rw [assocFind_assocErase _ _ _ hnd, if_neg h2]
  · rw [assocFind_assocSet, if_pos h3]
  · rw [assocFind_assocSet, if_neg h3]

theorem UpdateLevelData_nodup {data : List (Nat × LevelData)}
    (hnd : (data.map Prod.fst).Nodup) (s : Side) (p q : Nat) (a : LevelData.Action) :
    ((UpdateLevelData data s p q a).map Prod.fst).Nodup := by
  unfold UpdateLevelData
  simp only []
  split_ifs
  · exact assocErase_nodup _ _ hnd
  · exact assocSet_keys_nodup _ _ _ hnd

/-- The entry that consistent data holds at a price, present or not. -/
theorem DataOK.getD {data : List (Nat × LevelData)} {orders : List Order}
    (h : DataOK data orders) (p : Nat) :
    (assocFind p data).getD {}
      = { askQuantity_ := levelQuantity orders Side.Sell p,
          bidQuantity_ := levelQuantity orders Side.Buy p,
          count_ := levelCount orders p } := by
  rw [h.2 p]
  unfold expectedLevelData
  split_ifs with h1
  · simp [h1, levelQuantity_le_of_count_zero h1]
  · rfl

/-- `OnOrderAdded` keeps the aggregate index consistent when the order joins
the resting orders and no level total overflows. -/
theorem data_add {data : List (Nat × LevelData)} {orders : List Order} {o : Order}
    (h : DataOK data orders) (hfit : FitsIn32 (o :: orders)) :
    DataOK (OnOrderAdded data o) (o :: orders) := by
  refine ⟨UpdateLevelData_nodup h.1 _ _ _ _, ?_⟩
  intro p
  unfold OnOrderAdded
  rw [assocFind_UpdateLevelData h.1, h.getD]
  obtain ⟨f1, f2, f3⟩ := hfit o.price_
  simp only [levelCount_cons, levelQuantity_cons, if_true, and_true] at f1 f2 f3
  unfold expectedLevelData
  by_cases hp : p = o.price_
  · subst hp
    simp only [if_true, levelCount_cons, levelQuantity_cons, and_true]
    cases hs : o.side_ with
    | Buy =>
      simp only [hs, if_true] at f2 f3
      have hne : ¬ (Side.Buy = Side.Sell) := by decide
      simp only [LevelData.update, if_true, hne, if_false, Nat.zero_add]
      rw [add32_eq (by omega), add32_eq (by omega)]
      rw [if_neg (by omega), if_neg (by omega)]
      congr 2 <;> omega
    | Sell =>
      have hne : ¬ (Side.Sell = Side.Buy) := by decide
      simp only [hs, hne, if_false, if_true, Nat.zero_add] at f2 f3
      simp only [LevelData.update, if_true, hne, if_false, Nat.zero_add]
      rw [add32_eq (by omega), add32_eq (by omega)]
      rw [if_neg (by omega), if_neg (by omega)]
      congr 2 <;> omega
  · have hp' : ¬ o.price_ = p := fun e => hp e.symm
    simp only [hp, if_false, levelCount_cons, levelQuantity_cons, hp', and_false, Nat.zero_add]
    exact h.2 p


/-! ## Fills and removals keep the aggregate index consistent -/

theorem fits_fill {A B : List Order} {o o1 : Order} {q : Nat}
    (hfit : FitsIn32 (A ++ o :: B))
    (ho1 : o1 = { o with remainingQuantity_ := o.remainingQuantity_ - q }) :
    FitsIn32 (A ++ fillQueue o1 B) := by
  intro p
  obtain ⟨f1, f2, f3⟩ := hfit p
  simp only [levelCount_append, levelCount_cons, levelQuantity_append, levelQuantity_cons,
    fillQueue_levelCount, fillQueue_levelQuantity] at f1 f2 f3 ⊢
  have e1 : o1.price_ = o.price_ := by rw [ho1]
  have e2 : o1.side_ = o.side_ := by rw [ho1]
  have e3 : o1.remainingQuantity_ ≤ o.remainingQuantity_ := by rw [ho1]; simp
  rw [e1, e2]
  refine ⟨?_, ?_, ?_⟩
  · split_ifs at f1 ⊢ <;> omega
  · split_ifs at f2 ⊢ <;> omega
  · split_ifs at f3 ⊢ <;> omega

/-- `OnOrderMatched` keeps the aggregate index consistent when the order is
filled by `q` in the book, and dropped from it when nothing is left. -/
theorem data_fill {data : List (Nat × LevelData)} {A B : List Order} {o o1 : Order} {q : Nat}
    (h : DataOK data (A ++ o :: B)) (hfit : FitsIn32 (A ++ o :: B))
    (ho1 : o1 = { o with remainingQuantity_ := o.remainingQuantity_ - q })
    (hq : q ≤ o.remainingQuantity_) :
    DataOK (OnOrderMatched data o.side_ o.price_ q o1.IsFilled) (A ++ fillQueue o1 B) := by
  refine ⟨UpdateLevelData_nodup h.1 _ _ _ _, ?_⟩
  intro p
  unfold OnOrderMatched
  rw [assocFind_UpdateLevelData h.1, h.getD]
  obtain ⟨f1, f2, f3⟩ := hfit o.price_
  simp only [levelCount_append, levelCount_cons, levelQuantity_append, levelQuantity_cons,
    if_true, and_true] at f1 f2 f3
  have e1 : o1.price_ = o.price_ := by rw [ho1]
  have e2 : o1.side_ = o.side_ := by rw [ho1]
  have e3 : o1.remainingQuantity_ = o.remainingQuantity_ - q := by rw [ho1]
  have hfilled : o1.IsFilled = true ↔ o.remainingQuantity_ - q = 0 := by
    simp [Order.IsFilled, e3]
  unfold expectedLevelData
  by_cases hp : p = o.price_
  · subst hp
    simp only [if_true, levelCount_append, levelCount_cons, levelQuantity_append,
      levelQuantity_cons, fillQueue_levelCount, fillQueue_levelQuantity, e1, e2, e3, and_true]
    have hnb : ¬ (Side.Buy = Side.Sell) := by decide
    have hns : ¬ (Side.Sell = Side.Buy) := by decide
    by_cases hf : o1.IsFilled = true
    · have hz := hfilled.1 hf
      cases hs : o.side_ with
      | Buy =>
        simp only [hs, if_true, hnb, if_false, Nat.zero_add] at f2 f3
        simp only [hf, if_true, LevelData.update, hnb, hns, if_false, Nat.zero_add, hz,
          Nat.add_zero, reduceCtorEq]
        rw [sub32_eq (by omega) (by omega), sub32_eq (by omega) (by omega)]
        by_cases hc : levelCount A o.price_ + levelCount B o.price_ = 0
        · rw [if_pos (by omega), if_pos hc]
        · rw [if_neg (by omega), if_neg hc]
          congr 2 <;> omega
      | Sell =>
        simp only [hs, if_true, hns, if_false, Nat.zero_add] at f2 f3
        simp only [hf, if_true, LevelData.update, hnb, hns, if_false, Nat.zero_add, hz,
          Nat.add_zero, reduceCtorEq]
        rw [sub32_eq (by omega) (by omega), sub32_eq (by omega) (by omega)]
        by_cases hc : levelCount A o.price_ + levelCount B o.price_ = 0
        · rw [if_pos (by omega), if_pos hc]
        · rw [if_neg (by omega), if_neg hc]
          congr 2 <;> omega
    · cases hs : o.side_ with
      | Buy =>
        simp only [hs, if_true, hnb, if_false, Nat.zero_add] at f2 f3
        simp only [hf, if_true, LevelData.update, hnb, hns, if_false, Nat.zero_add,
          Bool.false_eq_true, reduceCtorEq]
        rw [sub32_eq (by omega) (by omega)]
        rw [if_neg (by omega), if_neg (by omega)]
        congr 2
        omega
      | Sell =>
        simp only [hs, if_true, hns, if_false, Nat.zero_add] at f2 f3
        simp only [hf, if_true, LevelData.update, hnb, hns, if_false, Nat.zero_add,
          Bool.false_eq_true, reduceCtorEq]
        rw [sub32_eq (by omega) (by omega)]
        rw [if_neg (by omega), if_neg (by omega)]
        congr 2
        omega
  · have hp' : ¬ o.price_ = p := fun e => hp e.symm
    simp only [hp, if_false, levelCount_append, levelCount_cons, levelQuantity_append,
      levelQuantity_cons, fillQueue_levelCount, fillQueue_levelQuantity, e1, e2, hp',
      and_false, Nat.zero_add, ite_self]
    have := h.2 p
    unfold expectedLevelData at this
    simp only [levelCount_append, levelCount_cons, levelQuantity_append,
      levelQuantity_cons, hp', and_false, if_false, Nat.zero_add] at this
    exact this


/-! ## The aggregate index through the operations -/

theorem DataOK.of_perm {data : List (Nat × LevelData)} {l1 l2 : List Order}
    (h : DataOK data l1) (hp : List.Perm l1 l2) : DataOK data l2 := by
  refine ⟨h.1, fun p => ?_⟩
  rw [h.2 p]
  unfold expectedLevelData
  rw [levelCount_perm hp, levelQuantity_perm hp, levelQuantity_perm hp]

theorem FitsIn32.fits_perm {l1 l2 : List Order} (h : FitsIn32 l1) (hp : List.Perm l1 l2) :
    FitsIn32 l2 := by
  intro p
  rw [← levelCount_perm hp, ← levelQuantity_perm hp, ← levelQuantity_perm hp]
  exact h p

theorem FitsIn32.tail {o : Order} {l : List Order} (h : FitsIn32 (o :: l)) : FitsIn32 l := by
  intro p
  obtain ⟨f1, f2, f3⟩ := h p
  simp only [levelCount_cons, levelQuantity_cons] at f1 f2 f3
  exact ⟨by omega, by omega, by omega⟩

theorem data_insertOrder {b : OrderBook} {o : Order} (h : DataOK b.data_ b.allOrders)
    (hfit : FitsIn32 (o :: b.allOrders)) :
    DataOK (b.insertOrder o).data_ (b.insertOrder o).allOrders
      ∧ FitsIn32 (b.insertOrder o).allOrders :=
  ⟨(data_add h hfit).of_perm (allOrders_insertOrder_perm b o).symm,
    hfit.fits_perm (allOrders_insertOrder_perm b o).symm⟩

theorem cancel_data {b b' : OrderBook} {id : Nat} {order : Order}
    (hf : assocFind id b.orders_ = some order)
    (hc : b.CancelOrderInternal id = some b') :
    b'.data_ = OnOrderRemoved b.data_ order := by
  unfold OrderBook.CancelOrderInternal at hc
  simp only [hf] at hc
  split_ifs at hc with hs
  · obtain ⟨bids, -, e⟩ := Option.map_eq_some'.1 hc
    rw [← e]
  · obtain ⟨asks, -, e⟩ := Option.map_eq_some'.1 hc
    rw [← e]

theorem fillQueue_zero (o : Order) (X : List Order) :
    fillQueue { o with remainingQuantity_ := o.remainingQuantity_ - o.remainingQuantity_ } X
      = X := by
  simp [fillQueue, Order.IsFilled]

theorem data_cancel {b b' : OrderBook} {id : Nat} (hw : b.WF)
    (h : DataOK b.data_ b.allOrders) (hfit : FitsIn32 b.allOrders)
    (hc : b.CancelOrderInternal id = some b') :
    DataOK b'.data_ b'.allOrders ∧ FitsIn32 b'.allOrders := by
  cases hf : assocFind id b.orders_ with
  | none =>
    unfold OrderBook.CancelOrderInternal at hc
    simp only [hf, Option.some.injEq] at hc
    subst hc
    exact ⟨h, hfit⟩
  | some order =>
    obtain ⟨A, x, B, e1, e2, e3, -⟩ := cancel_allOrders hf hc
    have hx : x = order := by
      have h1 := hw.find_of_mem (show x ∈ b.allOrders by rw [e1]; simp)
      rw [e3, hf] at h1
      exact (Option.some.inj h1).symm
    subst hx
    rw [cancel_data hf hc, e2]
    rw [e1] at h hfit
    have h3 := data_fill (q := x.remainingQuantity_) h hfit rfl (Nat.le_refl _)
    have h4 := fits_fill (q := x.remainingQuantity_) hfit rfl
    rw [fillQueue_zero] at h3 h4
    refine ⟨?_, h4⟩
    have e : OnOrderRemoved b.data_ x
        = OnOrderMatched b.data_ x.side_ x.price_ x.remainingQuantity_
            (Order.IsFilled
              { x with remainingQuantity_ := x.remainingQuantity_ - x.remainingQuantity_ }) := by
      simp [OnOrderRemoved, OnOrderMatched, Order.IsFilled]
    rw [e]
    exact h3

theorem data_matchFront {b b' : OrderBook} {bp ap : Nat} {bid ask : Order}
    {bids asks : List Order} {bl al : Ladder} {t : Trade} (hw : b.WF)
    (h : DataOK b.data_ b.allOrders) (hfit : FitsIn32 b.allOrders)
    (hb : b.bids_ = (bp, bid :: bids) :: bl) (ha : b.asks_ = (ap, ask :: asks) :: al)
    (hm : b.matchFront bp bid bids bl ap ask asks al = some (t, b')) :
    DataOK b'.data_ b'.allOrders ∧ FitsIn32 b'.allOrders := by
  obtain ⟨q, bid1, ask1, g1, g2, g3, -, g5, g6, -, g8⟩ := matchFront_eq hm
  have hbs := (hw.bidsLevel (bp, bid :: bids) (by rw [hb]; simp) bid (by simp)).1
  have has := (hw.asksLevel (ap, ask :: asks) (by rw [ha]; simp) ask (by simp)).1
  have hq1 : q ≤ bid.remainingQuantity_ := by rw [g1]; exact Nat.min_le_left _ _
  have hq2 : q ≤ ask.remainingQuantity_ := by rw [g1]; exact Nat.min_le_right _ _
  have hall : b.allOrders
      = [] ++ bid :: (bids ++ ladderOrders bl ++ (ask :: (asks ++ ladderOrders al))) := by
    simp [OrderBook.allOrders, hb, ha]
  rw [hall] at h hfit
  have d1 := data_fill h hfit g2 hq1
  have f1 := fits_fill hfit g2
  rw [hbs] at d1
  have hall1 : [] ++ fillQueue bid1 (bids ++ ladderOrders bl ++ (ask :: (asks ++ ladderOrders al)))
      = (fillQueue bid1 bids ++ ladderOrders bl) ++ ask :: (asks ++ ladderOrders al) := by
    simp [fillQueue_append]
  rw [hall1] at d1 f1
  have d2 := data_fill d1 f1 g3 hq2
  have f2 := fits_fill f1 g3
  rw [has] at d2
  have hall2 : b'.allOrders
      = (fillQueue bid1 bids ++ ladderOrders bl) ++ fillQueue ask1 (asks ++ ladderOrders al) := by
    simp [OrderBook.allOrders, g5, g6, fillQueue_append]
  rw [hall2, g8]
  exact ⟨d2, f2⟩

theorem eraseZeroLevelData_noop {data : List (Nat × LevelData)} {orders : List Order}
    (h : DataOK data orders)
    (hpos : ∀ o ∈ orders, 0 < o.remainingQuantity_) (p : Nat) :
    eraseZeroLevelData data p = data := by
  unfold eraseZeroLevelData
  rw [h.2 p]
  unfold expectedLevelData
  split_ifs with h1
  · rfl
  · simp only []
    have := levelQuantity_pos (Nat.pos_of_ne_zero h1) hpos
    rw [if_neg (by omega)]

theorem data_afterLevel {b : OrderBook} (h : DataOK b.data_ b.allOrders)
    (hpos : b.Positive) (bp ap : Nat) :
    (b.afterLevel bp ap).data_ = b.data_ := by
  have hp : ∀ o ∈ b.allOrders, 0 < o.remainingQuantity_ := fun o ho => (hpos o ho).1
  unfold OrderBook.afterLevel
  simp only []
  have e : (b.eraseEmptyLevels bp ap).data_ = b.data_ := rfl
  rw [e, eraseZeroLevelData_noop h hp, eraseZeroLevelData_noop h hp]

theorem data_cancelFillAndKill {b b' : OrderBook} {l : Ladder}
    (h : DataOK b.data_ b.allOrders) (hfit : FitsIn32 b.allOrders)
    (hc : b.cancelFillAndKill l = some b') :
    DataOK b'.data_ b'.allOrders ∧ FitsIn32 b'.allOrders := by
  rw [(cancelFillAndKill_eq_some hc).1]
  exact ⟨h, hfit⟩

theorem data_matchLevel {fuel : Nat} {b : OrderBook} {ts : Trades} {r : Trades × OrderBook}
    (hw : b.WF) (h : DataOK b.data_ b.allOrders) (hfit : FitsIn32 b.allOrders)
    (hm : b.matchLevel fuel ts = some r) :
    DataOK r.2.data_ r.2.allOrders ∧ FitsIn32 r.2.allOrders := by
  have key := matchLevel_induct
    (fun b' _ => b'.WF ∧ DataOK b'.data_ b'.allOrders ∧ FitsIn32 b'.allOrders) ?_ fuel b ts r
    ⟨hw, h, hfit⟩ hm
  · exact key.2
  · intro b1 b2 ts1 bp ap bid ask bids asks bl al t hb1 ha1 hp hm1
    exact ⟨wf_matchFront hp.1 hb1 ha1 hm1, data_matchFront hp.1 hp.2.1 hp.2.2 hb1 ha1 hm1⟩

theorem data_matchPass {b : OrderBook} {bp ap fuel : Nat} {ts : Trades}
    {r : Trades × OrderBook} (hw : b.WF) (hpos : b.Positive)
    (h : DataOK b.data_ b.allOrders) (hfit : FitsIn32 b.allOrders)
    (hm : b.matchPass bp ap fuel ts = some r) :
    DataOK r.2.data_ r.2.allOrders ∧ FitsIn32 r.2.allOrders := by
  obtain ⟨r1, b3, h1, h2, h3, -⟩ := matchPass_eq_some hm
  obtain ⟨d1, f1⟩ := data_matchLevel hw h hfit h1
  have w1 := wf_matchLevel hw h1
  have p1 := positive_matchLevel hpos h1
  have d2 : DataOK (r1.2.afterLevel bp ap).data_ (r1.2.afterLevel bp ap).allOrders := by
    rw [data_afterLevel d1 p1, allOrders_afterLevel]; exact d1
  have f2 : FitsIn32 (r1.2.afterLevel bp ap).allOrders := by
    rw [allOrders_afterLevel]; exact f1
  obtain ⟨d3, f3⟩ := data_cancelFillAndKill d2 f2 h2
  exact data_cancelFillAndKill d3 f3 h3

theorem data_matchLoop {fuel : Nat} {b : OrderBook} {ts : Trades} {r : Trades × OrderBook}
    (hw : b.WF) (hpos : b.Positive)
    (h : DataOK b.data_ b.allOrders) (hfit : FitsIn32 b.allOrders)
    (hm : b.matchLoop fuel ts = some r) :
    DataOK r.2.data_ r.2.allOrders ∧ FitsIn32 r.2.allOrders := by
  have key := matchLoop_induct
    (fun b' _ => b'.WF ∧ b'.Positive ∧ DataOK b'.data_ b'.allOrders ∧ FitsIn32 b'.allOrders)
    ?_ fuel b ts r ⟨hw, hpos, h, hfit⟩ hm
  · exact key.2.2
  · intro b1 ts1 bp ap bids asks bl al r1 _ _ _ hp hm1
    exact ⟨wf_matchPass hp.1 hm1, positive_matchPass hp.2.1 hm1,
      data_matchPass hp.1 hp.2.1 hp.2.2.1 hp.2.2.2 hm1⟩

theorem data_AddOrder {b : OrderBook} {o : Order} {r : Trades × OrderBook}
    (hw : b.WF) (hpos : b.Positive) (h : DataOK b.data_ b.allOrders)
    (hfit : FitsIn32 b.allOrders) (hq : 0 < o.remainingQuantity_)
    (hq2 : o.remainingQuantity_ ≤ o.initialQuantity_)
    (hins : ∀ o1, b.Promoted o o1 → FitsIn32 (o1 :: b.allOrders))
    (hadd : b.AddOrder o = some r) :
    DataOK r.2.data_ r.2.allOrders ∧ FitsIn32 r.2.allOrders := by
  rcases AddOrder_eq_some hadd with h3 | ⟨o1, hf, hp, -, hm⟩
  · rw [h3]; exact ⟨h, hfit⟩
  · obtain ⟨e1, e2⟩ := hp.remaining_eq
    obtain ⟨d1, f1⟩ := data_insertOrder h (hins o1 hp)
    exact data_matchLoop (wf_insertOrder hw o1 (by rw [hp.id_eq]; exact hf))
      (positive_insertOrder hpos (by omega) (by omega)) d1 f1 hm

theorem ReachableFit.valid {b : OrderBook} (h : ReachableFit b) : ReachableValid b := by
  induction h with
  | empty => exact ReachableValid.empty
  | add t id s p q _ hq _ h ih => exact ReachableValid.add t id s p q ih hq h
  | cancel id _ h ih => exact ReachableValid.cancel id ih h
  | modify m _ hq _ h ih => exact ReachableValid.modify m ih hq h

theorem ReachableFit.data {b : OrderBook} (h : ReachableFit b) :
    DataOK b.data_ b.allOrders ∧ FitsIn32 b.allOrders := by
  induction h with
  | empty =>
    refine ⟨⟨by simp, fun p => by simp [expectedLevelData, OrderBook.allOrders]⟩, ?_⟩
    intro p
    simp [OrderBook.allOrders]
  | @add b0 b1 ts t id s p q hr hq hins hadd ih =>
    exact data_AddOrder (r := (ts, b1)) hr.valid.reachable.wf_uncrossed.1 hr.valid.positive
      ih.1 ih.2 (by simpa [Order.create] using hq) (by simp [Order.create]) hins hadd
  | cancel id hr h ih => exact data_cancel hr.valid.reachable.wf_uncrossed.1 ih.1 ih.2 h
  | @modify b0 b1 ts m hr hq hins hmod ih =>
    rcases ModifyOrder_eq_some hmod with ⟨-, h1⟩ | ⟨order, b2, hf, h1, h2⟩
    · cases h1; exact ih
    · have hw := hr.valid.reachable.wf_uncrossed.1
      obtain ⟨d2, f2⟩ := data_cancel hw ih.1 ih.2 h1
      have hpos2 : b2.Positive :=
        fun x hx => hr.valid.positive x ((cancel_allOrders_sublist h1).subset hx)
      exact data_AddOrder (r := (ts, b1)) (wf_cancel hw h1) hpos2 d2 f2
        (by simpa [OrderModify.ToOrderPointer, Order.create] using hq)
        (by simp [OrderModify.ToOrderPointer, Order.create])
        (fun o1 ho1 => hins order b2 o1 hf h1 ho1) h2


/-! ## Level totals read on the ladders -/

theorem levelCount_homogeneous {os : List Order} {k p : Nat}
    (h : ∀ o ∈ os, o.price_ = k) : levelCount os p = if k = p then os.length else 0 := by
  induction os with
  | nil => simp
  | cons o os ih =>
    have ho := h o (List.mem_cons_self _ _)
    rw [levelCount_cons, ih (fun x hx => h x (List.mem_cons_of_mem _ hx)), ho]
    split_ifs <;> simp
    omega

theorem levelQuantity_homogeneous {os : List Order} {k p : Nat} {s s' : Side}
    (h : ∀ o ∈ os, o.side_ = s ∧ o.price_ = k) :
    levelQuantity os s' p = if s = s' ∧ k = p then remainingSum os else 0 := by
  induction os with
  | nil => simp
  | cons o os ih =>
    have ho := h o (List.mem_cons_self _ _)
    rw [levelQuantity_cons, ih (fun x hx => h x (List.mem_cons_of_mem _ hx)), ho.1, ho.2,
      remainingSum_cons]
    split_ifs <;> simp

/-- On a ladder with distinct keys whose levels hold orders of side `s` at the
price of the level, the totals at price `p` are those of the queue at `p`. -/
theorem ladder_levelTotals {l : Ladder} {s : Side} (hnd : (l.map Prod.fst).Nodup)
    (hl : ∀ x ∈ l, ∀ o ∈ x.2, o.side_ = s ∧ o.price_ = x.1) (p : Nat) (s' : Side) :
    levelCount (ladderOrders l) p = ((assocFind p l).getD []).length
      ∧ levelQuantity (ladderOrders l) s' p
          = if s = s' then remainingSum ((assocFind p l).getD []) else 0 := by
  induction l with
  | nil => simp
  | cons x l ih =>
    obtain ⟨k, os⟩ := x
    simp only [List.map_cons, List.nodup_cons] at hnd
    have hos := hl (k, os) (List.mem_cons_self _ _)
    obtain ⟨i1, i2⟩ := ih hnd.2 (fun x hx => hl x (List.mem_cons_of_mem _ hx))
    rw [ladderOrders_cons, levelCount_append, levelQuantity_append,
      levelCount_homogeneous (fun o ho => (hos o ho).2), levelQuantity_homogeneous hos,
      assocFind_cons, i1, i2]
    by_cases hk : k = p
    · subst hk
      have hnone : assocFind k l = none := (assocFind_eq_none_iff _ _).2 hnd.1
      simp only [if_true, hnone, Option.getD_none, Option.getD_some, List.length_nil,
        Nat.add_zero, and_true, remainingSum_nil]
      split_ifs <;> simp
    · simp only [hk, if_false, and_false, Nat.zero_add]
      exact ⟨trivial, trivial⟩

/-- The level totals of a consistent book, read on the level queues. -/
theorem OrderBook.WF.levelTotals {b : OrderBook} (hw : b.WF) (p : Nat) :
    levelCount b.allOrders p
        = (b.levelQueue Side.Buy p).length + (b.levelQueue Side.Sell p).length
      ∧ levelQuantity b.allOrders Side.Buy p = remainingSum (b.levelQueue Side.Buy p)
      ∧ levelQuantity b.allOrders Side.Sell p = remainingSum (b.levelQueue Side.Sell p) := by
  have hb := fun s' => ladder_levelTotals (sorted_desc_keys_nodup hw.bidsSorted) hw.bidsLevel p s'
  have ha := fun s' => ladder_levelTotals (sorted_asc_keys_nodup hw.asksSorted) hw.asksLevel p s'
  have hne : ¬ (Side.Sell = Side.Buy) := by decide
  have hne' : ¬ (Side.Buy = Side.Sell) := by decide
  unfold OrderBook.allOrders OrderBook.levelQueue
  simp only [levelCount_append, levelQuantity_append, (hb Side.Buy).1, (ha Side.Buy).1,
    (hb Side.Buy).2, (ha Side.Buy).2, (hb Side.Sell).2, (ha Side.Sell).2, if_true, hne, hne',
    if_false, Nat.add_zero, Nat.zero_add]
  exact ⟨trivial, trivial, trivial⟩

theorem levelCount_le_length (l : List Order) (p : Nat) : levelCount l p ≤ l.length := by
  induction l with
  | nil => simp
  | cons o l ih =>
    rw [levelCount_cons, List.length_cons]
    split_ifs <;> omega

theorem levelQuantity_le_remainingSum (l : List Order) (s : Side) (p : Nat) :
    levelQuantity l s p ≤ remainingSum l := by
  induction l with
  | nil => simp
  | cons o l ih =>
    rw [levelQuantity_cons, remainingSum_cons]
    split_ifs <;> omega

/-- A list of orders that is short and of small total quantity fits. -/
theorem fitsIn32_of_small {l : List Order} (h1 : l.length < 2 ^ 32)
    (h2 : remainingSum l < 2 ^ 32) : FitsIn32 l := by
  intro p
  have := levelCount_le_length l p
  have := levelQuantity_le_remainingSum l Side.Buy p
  have := levelQuantity_le_remainingSum l Side.Sell p
  exact ⟨by omega, by omega, by omega⟩


/-! ## `CanFullyFill` is a sum test -/

@[simp] theorem countedQuantity_nil (side : Side) (price t : Nat) :
    countedQuantity side price t [] = 0 := rfl

theorem countedQuantity_cons (side : Side) (price t : Nat) (e : Nat × LevelData)
    (data : List (Nat × LevelData)) :
    countedQuantity side price t (e :: data)
      = (if side = Side.Buy then (if t ≤ e.1 ∧ e.1 ≤ price then e.2.askQuantity_ else 0)
         else (if price ≤ e.1 ∧ e.1 ≤ t then e.2.bidQuantity_ else 0))
        + countedQuantity side price t data := by
  simp [countedQuantity]

/-- The loop of `CanFullyFill` answers whether the requested quantity is at
most the sum of the quantities it takes into account; its running subtraction
never wraps. -/
theorem canFullyFillLoop_eq (side : Side) (price t : Nat) (data : List (Nat × LevelData)) :
    ∀ (q : Nat), 0 < q → q < 2 ^ 32 →
      canFullyFillLoop side price t data q = decide (q ≤ countedQuantity side price t data) := by
  induction data with
  | nil =>
    intro q hq _
    simp only [canFullyFillLoop, countedQuantity_nil]
    symm
    rw [decide_eq_false_iff_not]
    omega
  | cons e data ih =>
    obtain ⟨k, d⟩ := e
    intro q hq hq2
    have hnb : ¬ (Side.Buy = Side.Sell) := by decide
    have hns : ¬ (Side.Sell = Side.Buy) := by decide
    rw [countedQuantity_cons]
    unfold canFullyFillLoop
    cases side with
    | Buy =>
      simp only [true_and, hnb, false_and, or_false, if_true]
      by_cases h1 : k < t
      · have hterm : (if t ≤ k ∧ k ≤ price then d.askQuantity_ else 0) = 0 := if_neg (by omega)
        rw [if_pos h1, ih q hq hq2, hterm, Nat.zero_add]
      · rw [if_neg h1]
        by_cases h2 : k > price
        · have hterm : (if t ≤ k ∧ k ≤ price then d.askQuantity_ else 0) = 0 := if_neg (by omega)
          rw [if_pos h2, ih q hq hq2, hterm, Nat.zero_add]
        · have hterm : (if t ≤ k ∧ k ≤ price then d.askQuantity_ else 0) = d.askQuantity_ :=
            if_pos ⟨by omega, by omega⟩
          rw [if_neg h2, hterm]
          by_cases h3 : d.askQuantity_ = 0
          · rw [if_pos h3, ih q hq hq2, h3, Nat.zero_add]
          · rw [if_neg h3]
            by_cases h4 : d.askQuantity_ ≥ q
            · rw [if_pos h4]
              symm
              rw [decide_eq_true_iff]
              omega
            · rw [if_neg h4, sub32_eq (by omega) hq2, ih _ (by omega) (by omega)]
              rw [decide_eq_decide]
              omega
    | Sell =>
      simp only [true_and, hns, false_and, false_or, if_false]
      by_cases h1 : k > t
      · have hterm : (if price ≤ k ∧ k ≤ t then d.bidQuantity_ else 0) = 0 := if_neg (by omega)
        rw [if_pos h1, ih q hq hq2, hterm, Nat.zero_add]
      · rw [if_neg h1]
        by_cases h2 : k < price
        · have hterm : (if price ≤ k ∧ k ≤ t then d.bidQuantity_ else 0) = 0 := if_neg (by omega)
          rw [if_pos h2, ih q hq hq2, hterm, Nat.zero_add]
        · have hterm : (if price ≤ k ∧ k ≤ t then d.bidQuantity_ else 0) = d.bidQuantity_ :=
            if_pos ⟨by omega, by omega⟩
          rw [if_neg h2, hterm]
          by_cases h3 : d.bidQuantity_ = 0
          · rw [if_pos h3, ih q hq hq2, h3, Nat.zero_add]
          · rw [if_neg h3]
            by_cases h4 : d.bidQuantity_ ≥ q
            · rw [if_pos h4]
              symm
              rw [decide_eq_true_iff]
              omega
            · rw [if_neg h4, sub32_eq (by omega) hq2, ih _ (by omega) (by omega)]
              rw [decide_eq_decide]
              omega


/-! ## The quantity `CanFullyFill` counts is the crossing liquidity -/

theorem sum_indicator {K : List Nat} (hnd : K.Nodup) (a c : Nat) :
    (K.map fun k => if k = a then c else 0).sum = if a ∈ K then c else 0 := by
  induction K with
  | nil => simp
  | cons k K ih =>
    rw [List.nodup_cons] at hnd
    rw [List.map_cons, List.sum_cons, ih hnd.2]
    by_cases h : k = a
    · subst h
      simp [hnd.1]
    · have h' : ¬ a = k := fun e => h e.symm
      simp [h, h']

theorem sum_map_zero {α : Type} (l : List α) : (l.map fun _ => 0).sum = 0 := by
  induction l with
  | nil => rfl
  | cons x l ih => simp

/-- Summing the level quantities over distinct prices regroups the orders by
price. -/
theorem sum_levelQuantity {K : List Nat} (hnd : K.Nodup) (R : Nat → Prop) [DecidablePred R]
    (s : Side) (l : List Order) :
    (K.map fun k => if R k then levelQuantity l s k else 0).sum
      = (l.map fun o =>
          if o.side_ = s ∧ R o.price_ ∧ o.price_ ∈ K then o.remainingQuantity_ else 0).sum := by
  induction l with
  | nil => simp
  | cons o l ih =>
    rw [List.map_cons, List.sum_cons, ← ih]
    have hsplit : ∀ k, (if R k then levelQuantity (o :: l) s k else 0)
        = (if k = o.price_ then (if o.side_ = s ∧ R o.price_ then o.remainingQuantity_ else 0)
            else 0)
          + (if R k then levelQuantity l s k else 0) := by
      intro k
      rw [levelQuantity_cons]
      by_cases hk : k = o.price_
      · rw [hk]
        by_cases hr : R o.price_
        · by_cases hs : o.side_ = s
          · simp [hr, hs]
          · simp [hr, hs]
        · simp [hr]
      · have hk' : ¬ o.price_ = k := fun e => hk e.symm
        by_cases hr : R k <;> simp [hk, hk', hr]
    rw [List.map_congr_left (fun k _ => hsplit k), List.sum_map_add, sum_indicator hnd]
    congr 1
    by_cases hm : o.price_ ∈ K
    · simp [hm]
    · simp [hm]

theorem levelCount_pos_of_mem {l : List Order} {o : Order} (h : o ∈ l) :
    0 < levelCount l o.price_ := by
  induction l with
  | nil => simp at h
  | cons x l ih =>
    rw [levelCount_cons]
    rcases List.mem_cons.1 h with h | h
    · subst h; simp
    · have := ih h; omega

theorem DataOK.key_of_mem {data : List (Nat × LevelData)} {orders : List Order}
    (h : DataOK data orders) {o : Order} (ho : o ∈ orders) : o.price_ ∈ data.map Prod.fst := by
  have h1 := h.2 o.price_
  unfold expectedLevelData at h1
  rw [if_neg (by have := levelCount_pos_of_mem ho; omega)] at h1
  exact List.mem_map.2 ⟨_, assocFind_mem h1, rfl⟩

theorem DataOK.entry_quantities {data : List (Nat × LevelData)} {orders : List Order}
    (h : DataOK data orders) {e : Nat × LevelData} (he : e ∈ data) :
    e.2.askQuantity_ = levelQuantity orders Side.Sell e.1
      ∧ e.2.bidQuantity_ = levelQuantity orders Side.Buy e.1 := by
  have h1 := assocFind_of_mem h.1 he
  rw [h.2 e.1] at h1
  unfold expectedLevelData at h1
  split_ifs at h1
  simp only [Option.some.injEq] at h1
  rw [← h1]
  exact ⟨rfl, rfl⟩

/-- The crossing part of a ladder, summed order by order. -/
theorem remainingSum_filter_ladder {l : Ladder} (R : Nat → Prop) [DecidablePred R]
    (hl : ∀ x ∈ l, ∀ o ∈ x.2, o.price_ = x.1) :
    remainingSum (ladderOrders (l.filter fun x => decide (R x.1)))
      = ((ladderOrders l).map fun o => if R o.price_ then o.remainingQuantity_ else 0).sum := by
  induction l with
  | nil => simp
  | cons x l ih =>
    obtain ⟨k, os⟩ := x
    have hos := hl (k, os) (List.mem_cons_self _ _)
    have ih' := ih (fun x hx => hl x (List.mem_cons_of_mem _ hx))
    have hmap : (os.map fun o => if R o.price_ then o.remainingQuantity_ else 0).sum
        = if R k then remainingSum os else 0 := by
      rw [List.map_congr_left
        (g := fun o => if R k then o.remainingQuantity_ else 0)
        (fun o ho => by rw [hos o ho])]
      by_cases hr : R k
      · simp [hr, remainingSum]
      · simp [hr]
    rw [ladderOrders_cons, List.map_append, List.sum_append, hmap, ← ih', List.filter_cons]
    by_cases hr : R k
    · simp [hr, remainingSum_append]
    · simp [hr]

theorem sum_map_eq_zero {l : List Order} {f : Order → Nat} (h : ∀ o ∈ l, f o = 0) :
    (l.map f).sum = 0 := by
  induction l with
  | nil => rfl
  | cons x l ih =>
    rw [List.map_cons, List.sum_cons, h x (List.mem_cons_self _ _),
      ih (fun o ho => h o (List.mem_cons_of_mem _ ho))]

/-- With a consistent aggregate index, what `CanFullyFill` counts for a buy is
the crossing liquidity. -/
theorem countedQuantity_buy {b : OrderBook} (hw : b.WF) (hd : DataOK b.data_ b.allOrders)
    {t p : Nat} {aq : List Order} {al : Ladder} (ha : b.asks_ = (t, aq) :: al) :
    countedQuantity Side.Buy p t b.data_ = b.crossingLiquidity Side.Buy p := by
  have h1 : countedQuantity Side.Buy p t b.data_
      = ((b.data_.map Prod.fst).map fun k =>
          if t ≤ k ∧ k ≤ p then levelQuantity b.allOrders Side.Sell k else 0).sum := by
    unfold countedQuantity
    rw [List.map_map]
    congr 1
    apply List.map_congr_left
    intro e he
    simp only [if_true, Function.comp, (hd.entry_quantities he).1]
  rw [h1, sum_levelQuantity hd.1]
  unfold OrderBook.crossingLiquidity
  rw [if_pos rfl, remainingSum_filter_ladder (fun k => k ≤ p)
    (fun x hx o ho => (hw.asksLevel x hx o ho).2)]
  unfold OrderBook.allOrders
  rw [List.map_append, List.sum_append]
  have hb0 : ((ladderOrders b.bids_).map fun o =>
      if o.side_ = Side.Sell ∧ (t ≤ o.price_ ∧ o.price_ ≤ p)
        ∧ o.price_ ∈ b.data_.map Prod.fst then o.remainingQuantity_ else 0).sum = 0 := by
    apply sum_map_eq_zero
    intro o ho
    obtain ⟨x, hx, hox⟩ := mem_ladderOrders.1 ho
    have := (hw.bidsLevel x hx o hox).1
    simp [this]
  rw [hb0, Nat.zero_add]
  congr 1
  apply List.map_congr_left
  intro o ho
  obtain ⟨x, hx, hox⟩ := mem_ladderOrders.1 ho
  obtain ⟨hs, hp⟩ := hw.asksLevel x hx o hox
  have hkey := hd.key_of_mem (show o ∈ b.allOrders from List.mem_append_right _ ho)
  have hsorted := hw.asksSorted
  rw [ha] at hx hsorted
  rw [List.pairwise_cons] at hsorted
  have hge : t ≤ o.price_ := by
    rw [hp]
    rcases List.mem_cons.1 hx with hx | hx
    · rw [hx]
    · exact Nat.le_of_lt (hsorted.1 x hx)
  simp [hs, hkey, hge]

/-- With a consistent aggregate index, what `CanFullyFill` counts for a sell is
the crossing liquidity. -/
theorem countedQuantity_sell {b : OrderBook} (hw : b.WF) (hd : DataOK b.data_ b.allOrders)
    {t p : Nat} {bq : List Order} {bl : Ladder} (hb : b.bids_ = (t, bq) :: bl) :
    countedQuantity Side.Sell p t b.data_ = b.crossingLiquidity Side.Sell p := by
  have hne : ¬ (Side.Sell = Side.Buy) := by decide
  have h1 : countedQuantity Side.Sell p t b.data_
      = ((b.data_.map Prod.fst).map fun k =>
          if p ≤ k ∧ k ≤ t then levelQuantity b.allOrders Side.Buy k else 0).sum := by
    unfold countedQuantity
    rw [List.map_map]
    congr 1
    apply List.map_congr_left
    intro e he
    simp only [hne, if_false, Function.comp, (hd.entry_quantities he).2]
  rw [h1, sum_levelQuantity hd.1]
  unfold OrderBook.crossingLiquidity
  rw [if_neg hne, remainingSum_filter_ladder (fun k => p ≤ k)
    (fun x hx o ho => (hw.bidsLevel x hx o ho).2)]
  unfold OrderBook.allOrders
  rw [List.map_append, List.sum_append]
  have ha0 : ((ladderOrders b.asks_).map fun o =>
      if o.side_ = Side.Buy ∧ (p ≤ o.price_ ∧ o.price_ ≤ t)
        ∧ o.price_ ∈ b.data_.map Prod.fst then o.remainingQuantity_ else 0).sum = 0 := by
    apply sum_map_eq_zero
    intro o ho
    obtain ⟨x, hx, hox⟩ := mem_ladderOrders.1 ho
    have := (hw.asksLevel x hx o hox).1
    simp [this]
  rw [ha0, Nat.add_zero]
  congr 1
  apply List.map_congr_left
  intro o ho
  obtain ⟨x, hx, hox⟩ := mem_ladderOrders.1 ho
  obtain ⟨hs, hp⟩ := hw.bidsLevel x hx o hox
  have hkey := hd.key_of_mem (show o ∈ b.allOrders from List.mem_append_left _ ho)
  have hsorted := hw.bidsSorted
  rw [hb] at hx hsorted
  rw [List.pairwise_cons] at hsorted
  have hge : o.price_ ≤ t := by
    rw [hp]
    rcases List.mem_cons.1 hx with hx | hx
    · rw [hx]
    · exact Nat.le_of_lt (hsorted.1 x hx)
  simp [hs, hkey, hge]

/-- With a consistent aggregate index, `CanFullyFill` holds exactly when the
requested quantity is at most the crossing liquidity. -/
theorem CanFullyFill_iff {b : OrderBook} (hw : b.WF) (hd : DataOK b.data_ b.allOrders)
    (side : Side) (p q : Nat) (hq : 0 < q) (hq2 : q < 2 ^ 32) :
    b.CanFullyFill side p q = true ↔ q ≤ b.crossingLiquidity side p := by
  unfold OrderBook.CanFullyFill
  by_cases hcm : b.CanMatch side p = true
  · rw [if_neg (by simp [hcm])]
    cases side with
    | Buy =>
      obtain ⟨t, aq, al, ha, -⟩ := CanMatch_buy hcm
      simp only [if_true, ha, List.head?_cons, Option.map_some']
      rw [canFullyFillLoop_eq _ _ _ _ q hq hq2, decide_eq_true_iff, countedQuantity_buy hw hd ha]
    | Sell =>
      have hne : ¬ (Side.Sell = Side.Buy) := by decide
      obtain ⟨t, bq, bl, hb, -⟩ := CanMatch_sell hcm
      simp only [hne, if_false, hb, List.head?_cons, Option.map_some']
      rw [canFullyFillLoop_eq _ _ _ _ q hq hq2, decide_eq_true_iff, countedQuantity_sell hw hd hb]
  · rw [if_pos (by simp [hcm])]
    have hz : b.crossingLiquidity side p = 0 := by
      cases side with
      | Buy => exact crossingLiquidity_buy_zero (not_CanMatch_buy hw hcm)
      | Sell => exact crossingLiquidity_sell_zero (not_CanMatch_sell hw hcm)
    rw [hz]
    constructor
    · intro h; exact absurd h (by simp)
    · intro h; omega


/-! ## Runs of the driver, and the `FillOrKill` gate -/

/-- A run of the driver from a reachable state, over instructions whose adds
and modifies carry a positive quantity, ends in a reachable state. -/
theorem ReachableValid.of_executeAll (infos : List Information) :
    ∀ {b b1 : OrderBook}, ReachableValid b →
      (∀ i ∈ infos, i.type_ ≠ ActionType.Cancel → 0 < i.quantity_) →
      b.executeAll infos = some b1 → ReachableValid b1 := by
  induction infos with
  | nil =>
    intro b b1 h _ hr
    simp only [OrderBook.executeAll, Option.some.injEq] at hr
    rw [← hr]; exact h
  | cons i rest ih =>
    intro b b1 h hq hr
    simp only [OrderBook.executeAll] at hr
    cases hx : b.execute i with
    | none => rw [hx] at hr; simp at hr
    | some b2 =>
      rw [hx, Option.some_bind] at hr
      refine ih ?_ (fun j hj => hq j (List.mem_cons_of_mem _ hj)) hr
      have hqi := hq i (List.mem_cons_self _ _)
      unfold OrderBook.execute at hx
      cases ht : i.type_ with
      | Add =>
        rw [ht] at hx hqi
        simp only [Option.map_eq_some', Prod.exists, exists_eq_right] at hx
        obtain ⟨ts, hx⟩ := hx
        exact ReachableValid.add _ _ _ _ _ h (hqi (by decide)) hx
      | Modify =>
        rw [ht] at hx hqi
        simp only [Option.map_eq_some', Prod.exists, exists_eq_right] at hx
        obtain ⟨ts, hx⟩ := hx
        exact ReachableValid.modify (GetModifyOrder i) h (hqi (by decide)) hx
      | Cancel =>
        rw [ht] at hx
        exact ReachableValid.cancel _ h hx

theorem reachableValid_bookTwoAskLevels : ReachableValid bookTwoAskLevels :=
  ReachableValid.of_executeAll traceTwoAskLevels ReachableValid.empty (by decide) rfl

theorem reachableValid_bookTwoLargeAsks : ReachableValid bookTwoLargeAsks :=
  ReachableValid.of_executeAll traceTwoLargeAsks ReachableValid.empty (by decide) rfl

theorem reachableValid_bookStaleAggregate : ReachableValid bookStaleAggregate :=
  ReachableValid.of_executeAll traceStaleAggregate ReachableValid.empty (by decide) rfl

/-- A `FillOrKill` order that `CanFullyFill` refuses is rejected. -/
theorem AddOrder_fillOrKill_reject {b : OrderBook} (orderId : Nat) (side : Side)
    (price quantity : Nat) (h : b.CanFullyFill side price quantity = false) :
    b.AddOrder (Order.create OrderType.FillOrKill orderId side price quantity)
      = some ([], b) := by
  have hm : ¬ ((Order.create OrderType.FillOrKill orderId side price quantity).orderType_
      = OrderType.Market) := by simp [Order.create]
  unfold OrderBook.AddOrder
  rw [if_neg hm]
  split_ifs with h1
  · rfl
  · unfold OrderBook.addGated
    simp [Order.create, h]

/-- A `FillOrKill` order with a fresh id that `CanFullyFill` lets through is
inserted and matched. -/
theorem AddOrder_fillOrKill_accept {b : OrderBook} (orderId : Nat) (side : Side)
    (price quantity : Nat) (hf : assocFind orderId b.orders_ = none)
    (h : b.CanFullyFill side price quantity = true) :
    b.AddOrder (Order.create OrderType.FillOrKill orderId side price quantity)
      = (b.insertOrder (Order.create OrderType.FillOrKill orderId side price quantity)).MatchOrder := by
  unfold OrderBook.AddOrder
  have hf' : assocFind (Order.create OrderType.FillOrKill orderId side price quantity).orderId_
      b.orders_ = none := hf
  rw [hf']
  unfold OrderBook.addGated
  simp [Order.create, h]

/-- In a state reached without overflow, `CanFullyFill` decides whether the
crossing liquidity covers the quantity. -/
theorem ReachableFit.canFullyFill {b : OrderBook} (h : ReachableFit b) (side : Side)
    (price quantity : Nat) (hq : 0 < quantity) (hq2 : quantity < 2 ^ 32) :
    b.CanFullyFill side price quantity = true ↔ quantity ≤ b.crossingLiquidity side price :=
  CanFullyFill_iff h.valid.reachable.wf_uncrossed.1 h.data.1 side price quantity hq hq2


/-! ## Claims C1, C3, C5 -/

theorem reachableValid_bookOneBid : ReachableValid bookOneBid :=
  ReachableValid.add (b := {}) OrderType.GoodTillCancel 1 Side.Buy 100 10
    ReachableValid.empty (by decide) rfl

theorem reachableValid_bookBidAsk : ReachableValid bookBidAsk :=
  ReachableValid.add (b := bookOneBid) OrderType.GoodTillCancel 2 Side.Sell 105 5
    reachableValid_bookOneBid (by decide) rfl

/-- C1: in every book state reachable from the empty book by calls of
`AddOrder`, `CancelOrder` and `ModifyOrder` with orders of positive quantity,
the bid ladder is empty, or the ask ladder is empty, or every bid price (hence
the highest) is strictly below every ask price (hence the lowest). -/
theorem uncrossed_book_invariant {b : OrderBook} (h : ReachableValid b) :
    b.bids_ = [] ∨ b.asks_ = [] ∨ ∀ x ∈ b.bids_, ∀ y ∈ b.asks_, x.1 < y.1 :=
  Or.inr (Or.inr h.reachable.wf_uncrossed.2)

theorem uncrossed_book_invariant_witness :
    ReachableValid bookBidAsk
      ∧ (bookBidAsk.bids_ = [] ∨ bookBidAsk.asks_ = []
          ∨ ∀ x ∈ bookBidAsk.bids_, ∀ y ∈ bookBidAsk.asks_, x.1 < y.1) :=
  ⟨reachableValid_bookBidAsk, uncrossed_book_invariant reachableValid_bookBidAsk⟩

/-- C3: in every state reachable by calls of `AddOrder`, `CancelOrder` and
`ModifyOrder`, the order index and the two ladders hold exactly the same
orders: the index has one entry per id, every id of the index maps to an order
with that id which occurs exactly once in the queue of the level of its side
and price and exactly once in the ladders, every order of a level queue is
indexed under its id, and `Size()` is the number of orders over all levels of
both ladders. -/
theorem index_ladder_consistency {b : OrderBook} (h : Reachable b) :
    (b.orders_.map Prod.fst).Nodup
    ∧ (∀ id o, assocFind id b.orders_ = some o →
        o.orderId_ = id ∧ (b.levelQueue o.side_ o.price_).count o = 1
          ∧ b.allOrders.count o = 1)
    ∧ (∀ o ∈ b.allOrders, assocFind o.orderId_ b.orders_ = some o)
    ∧ b.Size = b.allOrders.length := by
  have hw := h.wf_uncrossed.1
  refine ⟨hw.keysNodup, ?_, fun o ho => hw.find_of_mem ho, hw.size_eq⟩
  intro id o hf
  obtain ⟨hmem, hid⟩ := (hw.index id o).1 hf
  obtain ⟨hq, hsub⟩ := hw.mem_levelQueue hmem
  exact ⟨hid, List.count_eq_one_of_mem (hw.nodup_allOrders.sublist hsub) hq,
    List.count_eq_one_of_mem hw.nodup_allOrders hmem⟩

theorem index_ladder_consistency_witness :
    Reachable bookBidAsk
    ∧ (bookBidAsk.orders_.map Prod.fst).Nodup
    ∧ (∀ id o, assocFind id bookBidAsk.orders_ = some o →
        o.orderId_ = id ∧ (bookBidAsk.levelQueue o.side_ o.price_).count o = 1
          ∧ bookBidAsk.allOrders.count o = 1)
    ∧ (∀ o ∈ bookBidAsk.allOrders, assocFind o.orderId_ bookBidAsk.orders_ = some o)
    ∧ bookBidAsk.Size = bookBidAsk.allOrders.length :=
  ⟨reachableValid_bookBidAsk.reachable,
    index_ladder_consistency reachableValid_bookBidAsk.reachable⟩

/-- No state reached by calls that return holds a `FillAndKill` order, in the
ladders or in the index. -/
theorem Reachable.noFillAndKill {b : OrderBook} (h : Reachable b) : b.NoFillAndKill :=
  ⟨h.noFAK, fun e he => h.noFAK e.2 (h.wf_uncrossed.1.entry he).1⟩

/-- C5 fails in the code: `AddOrder` of a `FillAndKill` order that is only
partially filled does not return, so the order is never taken out of the book.
On the book with the buy 100x10 (id 1) and the sell 105x5 (id 2),
`A B FillAndKill 105 10 3` crosses, is inserted and trades 5 with order 2;
order 3 is then the front of the best bid level, and in the index, with 5
left. The statement of `MatchOrder` that should cancel it calls `CancelOrder`,
which locks the mutex that `AddOrder` holds: neither call returns. -/
theorem partially_filled_fill_and_kill_stays :
    Reachable bookBidAsk
    ∧ assocFind 3 bookBidAsk.orders_ = none
    ∧ bookBidAsk.CanMatch Side.Buy 105 = true
    ∧ ((bookBidAsk.insertOrder (Order.create OrderType.FillAndKill 3 Side.Buy 105 10)).matchLevel
          2 []).map
          (fun r => (r.1, (r.2.afterLevel 105 105).bids_.head?,
            assocFind 3 (r.2.afterLevel 105 105).orders_))
        = some ([{ bidTrade_ := { orderId_ := 3, price_ := 105, quantity_ := 5 },
                   askTrade_ := { orderId_ := 2, price_ := 105, quantity_ := 5 } }],
                some (105, [{ Order.create OrderType.FillAndKill 3 Side.Buy 105 10 with
                               remainingQuantity_ := 5 }]),
                some { Order.create OrderType.FillAndKill 3 Side.Buy 105 10 with
                        remainingQuantity_ := 5 })
    ∧ ((bookBidAsk.insertOrder (Order.create OrderType.FillAndKill 3 Side.Buy 105 10)).matchLevel
          2 []).bind
          (fun r => (r.2.afterLevel 105 105).cancelFillAndKill (r.2.afterLevel 105 105).bids_)
        = none
    ∧ bookBidAsk.AddOrder (Order.create OrderType.FillAndKill 3 Side.Buy 105 10) = none :=
  ⟨reachableValid_bookBidAsk.reachable, rfl, rfl, rfl, rfl, rfl⟩


/-! ## Claim C9 -/

theorem AddOrder_legs {b : OrderBook} {o : Order} {r : Trades × OrderBook}
    (hw : b.WF) (h : b.AddOrder o = some r) :
    ∀ tr ∈ r.1, (∃ o1, b.Promoted o o1 ∧ tr.LegsIn (o1 :: b.allOrders))
      ∧ (b.Positive → 0 < o.remainingQuantity_ →
          o.remainingQuantity_ ≤ o.initialQuantity_ → 0 < tr.bidTrade_.quantity_) := by
  rcases AddOrder_eq_some h with h3 | ⟨o1, hf, hp, -, hm⟩
  · rw [h3]; intro tr htr; simp at htr
  · obtain ⟨e1, e2⟩ := hp.remaining_eq
    have hw1 := wf_insertOrder hw o1 (by rw [hp.id_eq]; exact hf)
    obtain ⟨new, g1, g2, g3⟩ := matchLoop_legs hw1 hm
    simp only [List.nil_append] at g1
    intro tr htr
    rw [g1] at htr
    refine ⟨⟨o1, hp, (g2 tr htr).mono
      (fun x hx => (allOrders_insertOrder_perm b o1).mem_iff.1 hx)⟩, ?_⟩
    intro hpos h1 h2
    exact g3 (positive_insertOrder hpos (o := o1) (by omega) (by omega)) tr htr

/-- C9, as stated for every reachable state, fails: on the book with the one
buy 100x10 (id 1), `A S GoodTillCancel 100 0 2` returns one trade, between
order 1 and order 2, whose quantity is 0 on both legs. -/
theorem trade_of_quantity_zero :
    Reachable bookOneBid
    ∧ bookOneBid.AddOrder (Order.create OrderType.GoodTillCancel 2 Side.Sell 100 0)
        = some ([{ bidTrade_ := { orderId_ := 1, price_ := 100, quantity_ := 0 },
                   askTrade_ := { orderId_ := 2, price_ := 100, quantity_ := 0 } }],
                bookOneBid)
    ∧ ∀ tr ∈ [({ bidTrade_ := { orderId_ := 1, price_ := 100, quantity_ := 0 },
                  askTrade_ := { orderId_ := 2, price_ := 100, quantity_ := 0 } } : Trade)],
        ¬ 0 < tr.bidTrade_.quantity_ :=
  ⟨reachableValid_bookOneBid.reachable, rfl, by decide⟩

/-- C9: for every book state reachable by calls of `AddOrder`, `CancelOrder`
and `ModifyOrder`, each trade returned by `AddOrder` or by `ModifyOrder` has
the same quantity on its two legs, its buy leg carries the id and limit price
of a buy order and its sell leg the id and limit price of a sell order, each
of them the incoming order (as promoted, for a market order) or an order
resting in the book the matching started from, and the buy leg's price is at
least the sell leg's price. The quantity of the trade is positive when the
state was reached with orders of positive quantity and the order added, or the
quantity of the modification, is positive too. -/
theorem trades_well_formed {b : OrderBook} (h : Reachable b) :
    (∀ (orderType : OrderType) (orderId : Nat) (side : Side) (price quantity : Nat)
        (trades : Trades) (b1 : OrderBook),
        b.AddOrder (Order.create orderType orderId side price quantity) = some (trades, b1) →
        ∀ tr ∈ trades,
          (∃ o1, b.Promoted (Order.create orderType orderId side price quantity) o1
            ∧ tr.LegsIn (o1 :: b.allOrders))
          ∧ (ReachableValid b → 0 < quantity → 0 < tr.bidTrade_.quantity_))
    ∧ (∀ (m : OrderModify) (trades : Trades) (b1 : OrderBook),
        b.ModifyOrder m = some (trades, b1) →
        ∀ tr ∈ trades,
          (∃ order b2 o1, assocFind m.orderId_ b.orders_ = some order
            ∧ b.CancelOrder m.orderId_ = some b2
            ∧ b2.Promoted (m.ToOrderPointer order.orderType_) o1
            ∧ tr.LegsIn (o1 :: b2.allOrders))
          ∧ (ReachableValid b → 0 < m.quantity_ → 0 < tr.bidTrade_.quantity_)) := by
  have hw := h.wf_uncrossed.1
  constructor
  · intro orderType orderId side price quantity trades b1 hadd tr htr
    obtain ⟨g1, g2⟩ := AddOrder_legs hw hadd tr htr
    exact ⟨g1, fun hv hq => g2 hv.positive (by simpa [Order.create] using hq)
      (by simp [Order.create])⟩
  · intro m trades b1 hmod tr htr
    rcases ModifyOrder_eq_some hmod with ⟨-, h1⟩ | ⟨order, b2, hf, h1, h2⟩
    · cases h1; simp at htr
    · obtain ⟨⟨o1, hp, hl⟩, g2⟩ := AddOrder_legs (r := (trades, b1)) (wf_cancel hw h1) h2 tr htr
      refine ⟨⟨order, b2, o1, hf, h1, hp, hl⟩, ?_⟩
      intro hv hq
      exact g2 (fun x hx => hv.positive x ((cancel_allOrders_sublist h1).subset hx))
        (by simpa [OrderModify.ToOrderPointer, Order.create] using hq)
        (by simp [OrderModify.ToOrderPointer, Order.create])

theorem trades_well_formed_witness :
    Reachable bookBidAsk
    ∧ ∀ tr ∈ [({ bidTrade_ := { orderId_ := 1, price_ := 100, quantity_ := 4 },
                  askTrade_ := { orderId_ := 3, price_ := 100, quantity_ := 4 } } : Trade)],
        (∃ o1, bookBidAsk.Promoted (Order.create OrderType.GoodTillCancel 3 Side.Sell 100 4) o1
          ∧ tr.LegsIn (o1 :: bookBidAsk.allOrders))
        ∧ (ReachableValid bookBidAsk → 0 < 4 → 0 < tr.bidTrade_.quantity_) :=
  ⟨reachableValid_bookBidAsk.reachable,
    (trades_well_formed reachableValid_bookBidAsk.reachable).1 OrderType.GoodTillCancel 3
      Side.Sell 100 4 _ bookAfterSell rfl⟩


/-! ## Claims C8 and C7 -/

/-- C8: a `GoodTillCancel` or `GoodForDay` order with a fresh id and a positive
quantity `Q`, added to a book state reachable by calls of `AddOrder`,
`CancelOrder` and `ModifyOrder`, is always inserted: `AddOrder` returns, the quantities `T` of its
trades sum to at most `Q`, if `T < Q` the order is afterwards live, indexed
under its id and resting in the queue of the level of its side and price, with
remaining quantity `Q - T`, and if `T = Q` it is neither in the index nor in a
ladder. Buy 100x10 then sell 100x10 leaves size 0 and no level; buy 100x10
then sell 100x4 leaves size 1, one bid level and no ask level. -/
theorem limit_order_residual_rests {b : OrderBook} (h : Reachable b)
    (orderType : OrderType)
    (ht : orderType = OrderType.GoodTillCancel ∨ orderType = OrderType.GoodForDay)
    (orderId : Nat) (side : Side) (price quantity : Nat)
    (hfresh : assocFind orderId b.orders_ = none) (hq : 0 < quantity) :
    (∃ trades b1,
      b.AddOrder (Order.create orderType orderId side price quantity) = some (trades, b1)
      ∧ tradedQuantity trades ≤ quantity
      ∧ (tradedQuantity trades < quantity →
          assocFind orderId b1.orders_
              = some { Order.create orderType orderId side price quantity with
                        remainingQuantity_ := quantity - tradedQuantity trades }
            ∧ { Order.create orderType orderId side price quantity with
                  remainingQuantity_ := quantity - tradedQuantity trades }
                ∈ b1.levelQueue side price)
      ∧ (tradedQuantity trades = quantity →
          assocFind orderId b1.orders_ = none ∧ ∀ x ∈ b1.allOrders, x.orderId_ ≠ orderId))
    ∧ ({} : OrderBook).AddOrder (Order.create OrderType.GoodTillCancel 1 Side.Buy 100 10)
        = some ([], bookOneBid)
    ∧ (bookOneBid.AddOrder (Order.create OrderType.GoodTillCancel 2 Side.Sell 100 10)).map
        (fun r => (r.2.Size, r.2.bids_.length, r.2.asks_.length)) = some (0, 0, 0)
    ∧ (bookOneBid.AddOrder (Order.create OrderType.GoodTillCancel 2 Side.Sell 100 4)).map
        (fun r => (r.2.Size, r.2.bids_.length, r.2.asks_.length)) = some (1, 1, 0) := by
  refine ⟨?_, rfl, rfl, rfl⟩
  have hw := h.wf_uncrossed.1
  have hu := h.wf_uncrossed.2
  have htf : (Order.create orderType orderId side price quantity).orderType_
      ≠ OrderType.FillAndKill := by
    rcases ht with h1 | h1 <;> rw [h1] <;> simp [Order.create]
  obtain ⟨r, hr⟩ := MatchOrder_insert_total h htf
  have hadd : b.AddOrder (Order.create orderType orderId side price quantity)
      = some (r.1, r.2) := by rw [AddOrder_limit ht hfresh, hr]
  obtain ⟨m1, -, -, -⟩ := insert_match hw hu hfresh hq hr
  obtain ⟨m5, m6⟩ := insert_match_rests hw hu hfresh hq hr
  have hle : tradedQuantity r.1 ≤ quantity := by
    rw [m1]; exact Nat.min_le_left _ _
  refine ⟨r.1, r.2, hadd, hle, ?_, ?_⟩
  · intro hlt
    exact m5 hlt
  · intro heq
    exact m6 (by rw [heq]; exact Nat.lt_irrefl _)

theorem limit_order_residual_rests_witness :
    Reachable bookBidAsk
    ∧ (OrderType.GoodTillCancel = OrderType.GoodTillCancel
        ∨ OrderType.GoodTillCancel = OrderType.GoodForDay)
    ∧ assocFind 3 bookBidAsk.orders_ = none ∧ 0 < 4
    ∧ ((∃ trades b1,
        bookBidAsk.AddOrder (Order.create OrderType.GoodTillCancel 3 Side.Sell 100 4)
          = some (trades, b1)
        ∧ tradedQuantity trades ≤ 4
        ∧ (tradedQuantity trades < 4 →
            assocFind 3 b1.orders_
                = some { Order.create OrderType.GoodTillCancel 3 Side.Sell 100 4 with
                          remainingQuantity_ := 4 - tradedQuantity trades }
              ∧ { Order.create OrderType.GoodTillCancel 3 Side.Sell 100 4 with
                    remainingQuantity_ := 4 - tradedQuantity trades }
                  ∈ b1.levelQueue Side.Sell 100)
        ∧ (tradedQuantity trades = 4 →
            assocFind 3 b1.orders_ = none ∧ ∀ x ∈ b1.allOrders, x.orderId_ ≠ 3))
      ∧ ({} : OrderBook).AddOrder (Order.create OrderType.GoodTillCancel 1 Side.Buy 100 10)
          = some ([], bookOneBid)
      ∧ (bookOneBid.AddOrder (Order.create OrderType.GoodTillCancel 2 Side.Sell 100 10)).map
          (fun r => (r.2.Size, r.2.bids_.length, r.2.asks_.length)) = some (0, 0, 0)
      ∧ (bookOneBid.AddOrder (Order.create OrderType.GoodTillCancel 2 Side.Sell 100 4)).map
          (fun r => (r.2.Size, r.2.bids_.length, r.2.asks_.length)) = some (1, 1, 0)) :=
  ⟨reachableValid_bookBidAsk.reachable, Or.inl rfl, rfl, by decide,
    limit_order_residual_rests reachableValid_bookBidAsk.reachable OrderType.GoodTillCancel
      (Or.inl rfl)
      3 Side.Sell 100 4 rfl (by decide)⟩


/-! ## Claim C7 -/

/-- C7: a `Market` order with a fresh id and a positive quantity `Q` arrives
at a book state, reachable by calls of `AddOrder`, `CancelOrder` and
`ModifyOrder`, whose opposite ladder is not empty; `W` is the worst opposite price (the last key of the
opposite ladder: the highest ask for a buy, the lowest bid for a sell) and `L`
the total remaining quantity of the opposite side. Then `AddOrder` returns
trades whose quantities sum to `min Q L`, every trade carries the order's id
and the price `W` on the order's own leg, if `Q > L` the opposite ladder is
empty afterwards and the order rests on its own side at price `W` with type
`GoodTillCancel` and remaining quantity `Q - L`, and if `Q ≤ L` it does not
rest. -/
theorem market_order_promotion {b : OrderBook} (h : Reachable b)
    (orderId : Nat) (side : Side) (price quantity : Nat)
    (hfresh : assocFind orderId b.orders_ = none) (hq : 0 < quantity)
    (W : Nat) (lvl : List Order)
    (hopp : (if side = Side.Buy then b.asks_ else b.bids_).getLast? = some (W, lvl)) :
    (∀ y ∈ (if side = Side.Buy then b.asks_ else b.bids_),
        if side = Side.Buy then y.1 ≤ W else W ≤ y.1)
    ∧ ∃ trades b1,
        b.AddOrder (Order.create OrderType.Market orderId side price quantity) = some (trades, b1)
        ∧ tradedQuantity trades
            = min quantity (remainingSum (ladderOrders
                (if side = Side.Buy then b.asks_ else b.bids_)))
        ∧ (∀ t ∈ trades,
            (if side = Side.Buy then t.bidTrade_ else t.askTrade_).orderId_ = orderId
              ∧ (if side = Side.Buy then t.bidTrade_ else t.askTrade_).price_ = W)
        ∧ (remainingSum (ladderOrders (if side = Side.Buy then b.asks_ else b.bids_)) < quantity →
            (if side = Side.Buy then b1.asks_ else b1.bids_) = []
            ∧ assocFind orderId b1.orders_
                = some { orderType_ := OrderType.GoodTillCancel, orderId_ := orderId,
                         side_ := side, price_ := W, initialQuantity_ := quantity,
                         remainingQuantity_ := quantity - remainingSum (ladderOrders
                           (if side = Side.Buy then b.asks_ else b.bids_)) }
            ∧ ({ orderType_ := OrderType.GoodTillCancel, orderId_ := orderId,
                 side_ := side, price_ := W, initialQuantity_ := quantity,
                 remainingQuantity_ := quantity - remainingSum (ladderOrders
                   (if side = Side.Buy then b.asks_ else b.bids_)) } : Order)
                ∈ b1.levelQueue side W)
        ∧ (quantity ≤ remainingSum (ladderOrders (if side = Side.Buy then b.asks_ else b.bids_)) →
            assocFind orderId b1.orders_ = none ∧ ∀ x ∈ b1.allOrders, x.orderId_ ≠ orderId) := by
  have hw := h.wf_uncrossed.1
  have hu := h.wf_uncrossed.2
  have hsb : ¬ (Side.Sell = Side.Buy) := by decide
  cases side with
  | Buy =>
    simp only [if_true] at hopp ⊢
    have hext := getLast_asc_max hw.asksSorted hopp
    refine ⟨hext, ?_⟩
    have hL := crossingLiquidity_buy_all hext
    have hadd0 : b.AddOrder (Order.create OrderType.Market orderId Side.Buy price quantity)
        = (b.insertOrder ⟨OrderType.GoodTillCancel, orderId, Side.Buy, W, quantity,
            quantity⟩).MatchOrder := AddOrder_market_buy rfl rfl hfresh hopp
    have hf1 : assocFind (⟨OrderType.GoodTillCancel, orderId, Side.Buy, W, quantity,
        quantity⟩ : Order).orderId_ b.orders_ = none := hfresh
    obtain ⟨r, hr⟩ := MatchOrder_insert_total h (o := ⟨OrderType.GoodTillCancel, orderId, Side.Buy,
      W, quantity, quantity⟩) (by simp)
    have hadd : b.AddOrder (Order.create OrderType.Market orderId Side.Buy price quantity)
        = some (r.1, r.2) := by rw [hadd0, hr]
    obtain ⟨m1, m2, -, -⟩ := insert_match hw hu hf1 hq hr
    obtain ⟨m5, m6⟩ := insert_match_rests hw hu hf1 hq hr
    obtain ⟨hw2, hu2⟩ := wf_MatchOrder (wf_insertOrder hw _ hf1) hr
    dsimp only at m1 m2 m5 m6
    rw [hL] at m1
    refine ⟨r.1, r.2, hadd, m1, ?_, ?_, ?_⟩
    · intro t htr
      have := m2 t htr
      simpa using this
    · intro hlt
      have hTL : tradedQuantity r.1 = remainingSum (ladderOrders b.asks_) := by
        rw [m1]; exact Nat.min_eq_right (Nat.le_of_lt hlt)
      obtain ⟨f1, f2⟩ := m5 (by rw [hTL]; exact hlt)
      rw [hTL] at f1 f2
      refine ⟨?_, f1, f2⟩
      obtain ⟨x, hx, hxp⟩ := (hw2.level_of_mem ((hw2.index _ _).1 f1).1).1 rfl
      rw [List.eq_nil_iff_forall_not_mem]
      intro y hy
      have h1 := hu2 x hx y hy
      have hk := (matchLoop_keys hr).2
      obtain ⟨y', hy', ey⟩ := List.mem_map.1 (hk.subset (List.mem_map_of_mem Prod.fst hy))
      have hsame : (b.insertOrder ⟨OrderType.GoodTillCancel, orderId, Side.Buy, W, quantity,
          quantity⟩).asks_ = b.asks_ := by
        unfold OrderBook.insertOrder; simp
      rw [hsame] at hy'
      have h2 := hext y' hy'
      rw [ey] at h2
      dsimp only at hxp
      omega
    · intro hge
      apply m6
      rw [m1, Nat.min_def]
      split_ifs
      omega
  | Sell =>
    simp only [hsb, if_false] at hopp ⊢
    have hext := getLast_desc_min hw.bidsSorted hopp
    refine ⟨hext, ?_⟩
    have hL := crossingLiquidity_sell_all hext
    have hadd0 : b.AddOrder (Order.create OrderType.Market orderId Side.Sell price quantity)
        = (b.insertOrder ⟨OrderType.GoodTillCancel, orderId, Side.Sell, W, quantity,
            quantity⟩).MatchOrder := AddOrder_market_sell rfl rfl hfresh hopp
    have hf1 : assocFind (⟨OrderType.GoodTillCancel, orderId, Side.Sell, W, quantity,
        quantity⟩ : Order).orderId_ b.orders_ = none := hfresh
    obtain ⟨r, hr⟩ := MatchOrder_insert_total h (o := ⟨OrderType.GoodTillCancel, orderId, Side.Sell,
      W, quantity, quantity⟩) (by simp)
    have hadd : b.AddOrder (Order.create OrderType.Market orderId Side.Sell price quantity)
        = some (r.1, r.2) := by rw [hadd0, hr]
    obtain ⟨m1, m2, -, -⟩ := insert_match hw hu hf1 hq hr
    obtain ⟨m5, m6⟩ := insert_match_rests hw hu hf1 hq hr
    obtain ⟨hw2, hu2⟩ := wf_MatchOrder (wf_insertOrder hw _ hf1) hr
    dsimp only at m1 m2 m5 m6
    rw [hL] at m1
    refine ⟨r.1, r.2, hadd, m1, ?_, ?_, ?_⟩
    · intro t htr
      have := m2 t htr
      simpa using this
    · intro hlt
      have hTL : tradedQuantity r.1 = remainingSum (ladderOrders b.bids_) := by
        rw [m1]; exact Nat.min_eq_right (Nat.le_of_lt hlt)
      obtain ⟨f1, f2⟩ := m5 (by rw [hTL]; exact hlt)
      rw [hTL] at f1 f2
      refine ⟨?_, f1, f2⟩
      obtain ⟨x, hx, hxp⟩ := (hw2.level_of_mem ((hw2.index _ _).1 f1).1).2 rfl
      rw [List.eq_nil_iff_forall_not_mem]
      intro y hy
      have h1 := hu2 y hy x hx
      have hk := (matchLoop_keys hr).1
      obtain ⟨y', hy', ey⟩ := List.mem_map.1 (hk.subset (List.mem_map_of_mem Prod.fst hy))
      have hsame : (b.insertOrder ⟨OrderType.GoodTillCancel, orderId, Side.Sell, W, quantity,
          quantity⟩).bids_ = b.bids_ := by
        unfold OrderBook.insertOrder; simp
      rw [hsame] at hy'
      have h2 := hext y' hy'
      rw [ey] at h2
      dsimp only at hxp
      omega
    · intro hge
      apply m6
      rw [m1, Nat.min_def]
      split_ifs
      omega

theorem market_order_promotion_witness :
    Reachable bookBidAsk ∧ assocFind 3 bookBidAsk.orders_ = none ∧ 0 < 20
    ∧ (if Side.Buy = Side.Buy then bookBidAsk.asks_ else bookBidAsk.bids_).getLast?
        = some (105, [Order.create OrderType.GoodTillCancel 2 Side.Sell 105 5])
    ∧ ((∀ y ∈ (if Side.Buy = Side.Buy then bookBidAsk.asks_ else bookBidAsk.bids_),
          if Side.Buy = Side.Buy then y.1 ≤ 105 else 105 ≤ y.1)
      ∧ ∃ trades b1,
          bookBidAsk.AddOrder (Order.create OrderType.Market 3 Side.Buy 0 20) = some (trades, b1)
          ∧ tradedQuantity trades
              = min 20 (remainingSum (ladderOrders
                  (if Side.Buy = Side.Buy then bookBidAsk.asks_ else bookBidAsk.bids_)))
          ∧ (∀ t ∈ trades,
              (if Side.Buy = Side.Buy then t.bidTrade_ else t.askTrade_).orderId_ = 3
                ∧ (if Side.Buy = Side.Buy then t.bidTrade_ else t.askTrade_).price_ = 105)
          ∧ (remainingSum (ladderOrders
                (if Side.Buy = Side.Buy then bookBidAsk.asks_ else bookBidAsk.bids_)) < 20 →
              (if Side.Buy = Side.Buy then b1.asks_ else b1.bids_) = []
              ∧ assocFind 3 b1.orders_
                  = some { orderType_ := OrderType.GoodTillCancel, orderId_ := 3,
                           side_ := Side.Buy, price_ := 105, initialQuantity_ := 20,
                           remainingQuantity_ := 20 - remainingSum (ladderOrders
                             (if Side.Buy = Side.Buy then bookBidAsk.asks_
                              else bookBidAsk.bids_)) }
              ∧ ({ orderType_ := OrderType.GoodTillCancel, orderId_ := 3,
                   side_ := Side.Buy, price_ := 105, initialQuantity_ := 20,
                   remainingQuantity_ := 20 - remainingSum (ladderOrders
                     (if Side.Buy = Side.Buy then bookBidAsk.asks_ else bookBidAsk.bids_)) }
                   : Order) ∈ b1.levelQueue Side.Buy 105)
          ∧ (20 ≤ remainingSum (ladderOrders
                (if Side.Buy = Side.Buy then bookBidAsk.asks_ else bookBidAsk.bids_)) →
              assocFind 3 b1.orders_ = none ∧ ∀ x ∈ b1.allOrders, x.orderId_ ≠ 3)) :=
  ⟨reachableValid_bookBidAsk.reachable, rfl, by decide, rfl,
    market_order_promotion reachableValid_bookBidAsk.reachable 3 Side.Buy 0 20 rfl (by decide) 105
      [Order.create OrderType.GoodTillCancel 2 Side.Sell 105 5] rfl⟩


/-! ## Claim C2 -/

theorem reachableFit_bookOneBid : ReachableFit bookOneBid :=
  ReachableFit.add (b := {}) OrderType.GoodTillCancel 1 Side.Buy 100 10
    ReachableFit.empty (by decide)
    (fun o1 ho1 => by
      rcases ho1 with ⟨-, rfl⟩ | ⟨h, -⟩
      · exact fitsIn32_of_small (by decide) (by decide)
      · exact absurd h (by decide)) rfl

theorem reachableFit_bookBidAsk : ReachableFit bookBidAsk :=
  ReachableFit.add (b := bookOneBid) OrderType.GoodTillCancel 2 Side.Sell 105 5
    reachableFit_bookOneBid (by decide)
    (fun o1 ho1 => by
      rcases ho1 with ⟨-, rfl⟩ | ⟨h, -⟩
      · exact fitsIn32_of_small (by decide) (by decide)
      · exact absurd h (by decide)) rfl

/-- C2: in every state reachable by calls of `AddOrder`, `CancelOrder` and
`ModifyOrder` with positive quantities and without 32-bit overflow of a level
total, the aggregate map `data_` has one entry per key, it has an entry at a
price `p` exactly when an order rests at `p` on either side, the entry's
`count_` is the number of orders resting at `p` on both sides, its
`bidQuantity_` the sum of the remaining quantities of the buys at `p`, its
`askQuantity_` that of the sells at `p`, and no entry has `count_ = 0`. -/
theorem aggregate_index_consistency {b : OrderBook} (h : ReachableFit b) :
    (b.data_.map Prod.fst).Nodup
    ∧ (∀ p, (assocFind p b.data_ = none
              ↔ b.levelQueue Side.Buy p = [] ∧ b.levelQueue Side.Sell p = []))
    ∧ (∀ p d, assocFind p b.data_ = some d →
        d.count_ = (b.levelQueue Side.Buy p).length + (b.levelQueue Side.Sell p).length
          ∧ d.bidQuantity_ = remainingSum (b.levelQueue Side.Buy p)
          ∧ d.askQuantity_ = remainingSum (b.levelQueue Side.Sell p))
    ∧ (∀ e ∈ b.data_, e.2.count_ ≠ 0) := by
  have hw := h.valid.reachable.wf_uncrossed.1
  obtain ⟨hd, -⟩ := h.data
  have key : ∀ p d, assocFind p b.data_ = some d →
      d.count_ = (b.levelQueue Side.Buy p).length + (b.levelQueue Side.Sell p).length
        ∧ d.bidQuantity_ = remainingSum (b.levelQueue Side.Buy p)
        ∧ d.askQuantity_ = remainingSum (b.levelQueue Side.Sell p) ∧ d.count_ ≠ 0 := by
    intro p d hf
    obtain ⟨t1, t2, t3⟩ := hw.levelTotals p
    rw [hd.2 p] at hf
    unfold expectedLevelData at hf
    split_ifs at hf with hc
    simp only [Option.some.injEq] at hf
    rw [← hf]
    exact ⟨t1, t2, t3, hc⟩
  refine ⟨hd.1, ?_, fun p d hf => ⟨(key p d hf).1, (key p d hf).2.1, (key p d hf).2.2.1⟩, ?_⟩
  · intro p
    obtain ⟨t1, -, -⟩ := hw.levelTotals p
    rw [hd.2 p]
    unfold expectedLevelData
    rw [t1]
    constructor
    · intro h1
      split_ifs at h1 with hc
      exact ⟨List.length_eq_zero.1 (by omega), List.length_eq_zero.1 (by omega)⟩
    · rintro ⟨h1, h2⟩
      rw [h1, h2]
      simp
  · intro e he
    exact (key e.1 e.2 (assocFind_of_mem hd.1 he)).2.2.2

theorem aggregate_index_consistency_witness :
    ReachableFit bookBidAsk
    ∧ (bookBidAsk.data_.map Prod.fst).Nodup
    ∧ (∀ p, (assocFind p bookBidAsk.data_ = none
              ↔ bookBidAsk.levelQueue Side.Buy p = [] ∧ bookBidAsk.levelQueue Side.Sell p = []))
    ∧ (∀ p d, assocFind p bookBidAsk.data_ = some d →
        d.count_ = (bookBidAsk.levelQueue Side.Buy p).length
            + (bookBidAsk.levelQueue Side.Sell p).length
          ∧ d.bidQuantity_ = remainingSum (bookBidAsk.levelQueue Side.Buy p)
          ∧ d.askQuantity_ = remainingSum (bookBidAsk.levelQueue Side.Sell p))
    ∧ (∀ e ∈ bookBidAsk.data_, e.2.count_ ≠ 0) :=
  ⟨reachableFit_bookBidAsk, aggregate_index_consistency reachableFit_bookBidAsk⟩


/-! ## Claim C4 -/

/-- C4: in every book state reached with positive quantities and without
32-bit overflow of a level total, a `FillOrKill` order with a fresh id, limit
price `P` and quantity `0 < Q < 2 ^ 32` is all-or-nothing. `AddOrder` returns;
with `L` the total remaining quantity of the opposite orders at acceptable
prices, if `L < Q` it returns no trade and the book is unchanged, if `Q ≤ L`
the quantities of the returned trades sum to exactly `Q` and the order is
afterwards neither in the index nor in a ladder; the rejection happens exactly
when `L < Q`. -/
theorem fill_or_kill_all_or_nothing {b : OrderBook} (h : ReachableFit b)
    (orderId : Nat) (side : Side) (price quantity : Nat)
    (hfresh : assocFind orderId b.orders_ = none) (hq : 0 < quantity)
    (hq2 : quantity < 2 ^ 32) :
    ∃ trades b1,
      b.AddOrder (Order.create OrderType.FillOrKill orderId side price quantity)
        = some (trades, b1)
      ∧ (b.crossingLiquidity side price < quantity → trades = [] ∧ b1 = b)
      ∧ (quantity ≤ b.crossingLiquidity side price →
          tradedQuantity trades = quantity ∧ assocFind orderId b1.orders_ = none
            ∧ ∀ x ∈ b1.allOrders, x.orderId_ ≠ orderId)
      ∧ ((trades = [] ∧ b1 = b) ↔ b.crossingLiquidity side price < quantity) := by
  have hw := h.valid.reachable.wf_uncrossed.1
  have hu := h.valid.reachable.wf_uncrossed.2
  have hiff := h.canFullyFill side price quantity hq hq2
  by_cases hl : quantity ≤ b.crossingLiquidity side price
  · have hc := hiff.2 hl
    have htf : (Order.create OrderType.FillOrKill orderId side price quantity).orderType_
        ≠ OrderType.FillAndKill := by simp [Order.create]
    obtain ⟨r, hr⟩ := MatchOrder_insert_total h.valid.reachable htf
    have hadd : b.AddOrder (Order.create OrderType.FillOrKill orderId side price quantity)
        = some (r.1, r.2) := by
      rw [AddOrder_fillOrKill_accept orderId side price quantity hfresh hc, hr]
    obtain ⟨m1, -, -, -⟩ := insert_match hw hu hfresh hq hr
    obtain ⟨-, m6⟩ := insert_match_rests hw hu hfresh hq hr
    have hsum : tradedQuantity r.1 = quantity := by
      rw [m1]; exact Nat.min_eq_left hl
    refine ⟨r.1, r.2, hadd, ?_, ?_, ?_⟩
    · intro hlt; omega
    · intro _
      exact ⟨hsum, m6 (by rw [hsum]; exact Nat.lt_irrefl _)⟩
    · constructor
      · rintro ⟨ht, -⟩
        rw [ht] at hsum
        simp [tradedQuantity] at hsum
        omega
      · intro hlt; omega
  · have hc : b.CanFullyFill side price quantity = false := by
      cases hx : b.CanFullyFill side price quantity with
      | false => rfl
      | true => exact absurd (hiff.1 hx) hl
    refine ⟨[], b, AddOrder_fillOrKill_reject orderId side price quantity hc, ?_, ?_, ?_⟩
    · intro _; exact ⟨rfl, rfl⟩
    · intro hge; exact absurd hge hl
    · constructor
      · intro _; omega
      · intro _; exact ⟨rfl, rfl⟩

theorem fill_or_kill_all_or_nothing_witness :
    ReachableFit bookBidAsk ∧ assocFind 3 bookBidAsk.orders_ = none ∧ 0 < 5 ∧ 5 < 2 ^ 32
    ∧ ∃ trades b1,
      bookBidAsk.AddOrder (Order.create OrderType.FillOrKill 3 Side.Buy 105 5)
        = some (trades, b1)
      ∧ (bookBidAsk.crossingLiquidity Side.Buy 105 < 5 → trades = [] ∧ b1 = bookBidAsk)
      ∧ (5 ≤ bookBidAsk.crossingLiquidity Side.Buy 105 →
          tradedQuantity trades = 5 ∧ assocFind 3 b1.orders_ = none
            ∧ ∀ x ∈ b1.allOrders, x.orderId_ ≠ 3)
      ∧ ((trades = [] ∧ b1 = bookBidAsk) ↔ bookBidAsk.crossingLiquidity Side.Buy 105 < 5) :=
  ⟨reachableFit_bookBidAsk, rfl, by decide, by decide,
    fill_or_kill_all_or_nothing reachableFit_bookBidAsk 3 Side.Buy 105 5 rfl (by decide)
      (by decide)⟩

/-- C4, as stated for every reachable state, fails: after
`A S GoodTillCancel 100 2147483648 1` and `A S GoodTillCancel 100 2147483648 2`
the 32-bit ask total of the level at 100 is 0, and `A B FillOrKill 100 5 3` is
rejected although 4294967296 units rest at an acceptable price. -/
theorem fill_or_kill_rejected_despite_liquidity :
    ({} : OrderBook).executeAll traceTwoLargeAsks = some bookTwoLargeAsks
    ∧ ReachableValid bookTwoLargeAsks
    ∧ assocFind 3 bookTwoLargeAsks.orders_ = none
    ∧ bookTwoLargeAsks.crossingLiquidity Side.Buy 100 = 4294967296
    ∧ ¬ (bookTwoLargeAsks.crossingLiquidity Side.Buy 100 < 5)
    ∧ bookTwoLargeAsks.AddOrder (Order.create OrderType.FillOrKill 3 Side.Buy 100 5)
        = some ([], bookTwoLargeAsks) :=
  ⟨rfl, reachableValid_bookTwoLargeAsks, rfl, rfl, by decide, rfl⟩


/-! ## Claim C6 -/

/-- A `FillAndKill` order with a fresh id whose price crosses is inserted and
matched. -/
theorem AddOrder_fillAndKill_accept {b : OrderBook} (orderId : Nat) (side : Side)
    (price quantity : Nat) (hf : assocFind orderId b.orders_ = none)
    (h : b.CanMatch side price = true) :
    b.AddOrder (Order.create OrderType.FillAndKill orderId side price quantity)
      = (b.insertOrder
          (Order.create OrderType.FillAndKill orderId side price quantity)).MatchOrder := by
  unfold OrderBook.AddOrder
  have hf' : assocFind (Order.create OrderType.FillAndKill orderId side price quantity).orderId_
      b.orders_ = none := hf
  rw [hf']
  unfold OrderBook.addGated
  simp [Order.create, h]

/-- A pass of the outer loop returns when its inner loop leaves no
`FillAndKill` order in the book. -/
theorem matchPass_of_noFAK {b : OrderBook} (ts : Trades)
    {bp ap : Nat} {bq aq : List Order} {bl al : Ladder} {r1 : Trades × OrderBook}
    (hne : b.NoEmptyLevels) (hb : b.bids_ = (bp, bq) :: bl) (ha : b.asks_ = (ap, aq) :: al)
    (h1 : b.matchLevel (bq.length + aq.length) ts = some r1)
    (hn1 : ∀ x ∈ r1.2.allOrders, x.orderType_ ≠ OrderType.FillAndKill) :
    b.matchPass bp ap (bq.length + aq.length) ts = some (r1.1, r1.2.afterLevel bp ap) := by
  obtain ⟨p1, -⟩ := afterLevel_props hne hb ha h1
  have hn2 : ∀ x ∈ (r1.2.afterLevel bp ap).allOrders,
      x.orderType_ ≠ OrderType.FillAndKill := by
    intro x hx
    rw [allOrders_afterLevel] at hx
    exact hn1 x hx
  have h2 := cancelFillAndKill_total (r1.2.afterLevel bp ap) p1.1
    (fun x hx => hn2 x (List.mem_append_left _ hx))
  have h3 := cancelFillAndKill_total (r1.2.afterLevel bp ap) p1.2
    (fun x hx => hn2 x (List.mem_append_right _ hx))
  unfold OrderBook.matchPass
  simp only [h1, Option.some_bind]
  simp only [h2, Option.some_bind, h3]

/-- `MatchOrder` returns when the inner loop of its first pass leaves no
`FillAndKill` order in the book. -/
theorem MatchOrder_of_first_pass {b : OrderBook} {bp ap : Nat} {bq aq : List Order}
    {bl al : Ladder} (hne : b.NoEmptyLevels) (hb : b.bids_ = (bp, bq) :: bl)
    (ha : b.asks_ = (ap, aq) :: al) (hx : ¬ bp < ap)
    (hpass : ∀ r1, b.matchLevel (bq.length + aq.length) [] = some r1 →
      ∀ x ∈ r1.2.allOrders, x.orderType_ ≠ OrderType.FillAndKill) :
    ∃ r, b.MatchOrder = some r := by
  obtain ⟨r1, h1⟩ := matchLevel_total (bq.length + aq.length) b []
    (by simp [OrderBook.headLen, hb, ha])
  have hn1 := hpass r1 h1
  have hp := matchPass_of_noFAK [] hne hb ha h1 hn1
  obtain ⟨p1, p2⟩ := matchPass_props hne hb ha hp
  unfold OrderBook.MatchOrder
  rw [matchLoop_succ_crossed hb ha hx, hp, Option.some_bind]
  refine matchLoop_total _ _ _ p1 ?_ (by unfold OrderBook.levels at p2 ⊢; omega)
  intro x hx
  rw [allOrders_afterLevel] at hx
  exact hn1 x hx

/-- `MatchOrder` returns after the insertion, into a reachable book, of a
crossing order whose quantity the best opposite level covers: the order is
used up in the first pass. -/
theorem MatchOrder_insert_covered {b : OrderBook} (h : Reachable b) {o : Order}
    (hq : 0 < o.remainingQuantity_) (hc : b.CanMatch o.side_ o.price_ = true)
    (hl : o.remainingQuantity_ ≤ b.bestOppositeQuantity o.side_) :
    ∃ r, (b.insertOrder o).MatchOrder = some r := by
  obtain ⟨hw, hu⟩ := h.wf_uncrossed
  have hnf := h.noFAK
  have hne := noEmpty_insertOrder h.noEmpty o
  cases hs : o.side_ with
  | Buy =>
    rw [hs] at hc hl
    obtain ⟨ap, aq, al, ha, hle⟩ := CanMatch_buy hc
    obtain ⟨e1, e2⟩ := insertOrder_buy_crossing hu hs ha hle
    have hl' : o.remainingQuantity_ ≤ remainingSum aq := by
      simpa [OrderBook.bestOppositeQuantity, ha] using hl
    refine MatchOrder_of_first_pass hne e1 (e2.trans ha) (by omega) ?_
    intro r1 h1 x hx
    obtain ⟨bq', aq', new, f1, f2, -, f4, f5, f6, f7, -, -⟩ :=
      matchLevel_trades e1 (e2.trans ha) h1
    obtain ⟨bq2, aq2, l1, -, l3, -⟩ := matchLevel_left e1 (e2.trans ha) h1
    obtain ⟨bq3, aq3, s1, s2, s3⟩ := matchLevel_shape _ _ _ _ _ _ _ _ _ _ e1 (e2.trans ha) h1
    rw [f1] at l1 s1
    rw [f2] at s2
    simp only [List.cons.injEq, Prod.mk.injEq, true_and, and_true] at l1 s1 s2
    subst l1 s1 s2
    have hbq : bq' = [] := by
      rcases suffix_singleton f4 with h5 | ⟨o', h5, -⟩
      · exact h5
      · exfalso
        subst h5
        have hpos : 0 < o'.remainingQuantity_ := by
          rcases l3 o' (by simp) with h7 | h7
          · exact h7
          · simp only [List.mem_singleton] at h7
            rw [h7]; exact hq
        simp only [remainingSum_cons, remainingSum_nil] at f6
        rcases s3 with h8 | h8
        · simp at h8
        · rw [h8] at f7
          simp only [remainingSum_nil] at f7
          omega
    simp only [OrderBook.allOrders, f1, f2, hbq, ladderOrders_cons, List.nil_append,
      List.mem_append] at hx
    rcases hx with hx | hx | hx
    · exact hnf x (List.mem_append_left _ hx)
    · obtain ⟨y, hy, e⟩ := mem_of_ident_suffix f5 hx
      rw [Order.type_of_ident e]
      exact hnf y (List.mem_append_right _ (by rw [ha, ladderOrders_cons]; simp [hy]))
    · exact hnf x (List.mem_append_right _ (by rw [ha, ladderOrders_cons]; simp [hx]))
  | Sell =>
    rw [hs] at hc hl
    obtain ⟨bp, bq, bl, hb, hle⟩ := CanMatch_sell hc
    obtain ⟨e1, e2⟩ := insertOrder_sell_crossing hu hs hb hle
    have hl' : o.remainingQuantity_ ≤ remainingSum bq := by
      have hns : ¬ (Side.Sell = Side.Buy) := by decide
      simpa [OrderBook.bestOppositeQuantity, hb, hns] using hl
    refine MatchOrder_of_first_pass hne (e1.trans hb) e2 (by omega) ?_
    intro r1 h1 x hx
    obtain ⟨bq', aq', new, f1, f2, -, f4, f5, f6, f7, -, -⟩ :=
      matchLevel_trades (e1.trans hb) e2 h1
    obtain ⟨bq2, aq2, -, l2, -, l4⟩ := matchLevel_left (e1.trans hb) e2 h1
    obtain ⟨bq3, aq3, s1, s2, s3⟩ := matchLevel_shape _ _ _ _ _ _ _ _ _ _ (e1.trans hb) e2 h1
    rw [f2] at l2 s2
    rw [f1] at s1
    simp only [List.cons.injEq, Prod.mk.injEq, true_and, and_true] at l2 s1 s2
    subst l2 s1 s2
    have haq : aq' = [] := by
      rcases suffix_singleton f5 with h5 | ⟨o', h5, -⟩
      · exact h5
      · exfalso
        subst h5
        have hpos : 0 < o'.remainingQuantity_ := by
          rcases l4 o' (by simp) with h7 | h7
          · exact h7
          · simp only [List.mem_singleton] at h7
            rw [h7]; exact hq
        simp only [remainingSum_cons, remainingSum_nil] at f7
        rcases s3 with h8 | h8
        · rw [h8] at f6
          simp only [remainingSum_nil] at f6
          omega
        · simp at h8
    simp only [OrderBook.allOrders, f1, f2, haq, ladderOrders_cons, List.nil_append,
      List.mem_append] at hx
    rcases hx with (hx | hx) | hx
    · obtain ⟨y, hy, e⟩ := mem_of_ident_suffix f4 hx
      rw [Order.type_of_ident e]
      exact hnf y (List.mem_append_left _ (by rw [hb, ladderOrders_cons]; simp [hy]))
    · exact hnf x (List.mem_append_left _ (by rw [hb, ladderOrders_cons]; simp [hx]))
    · exact hnf x (List.mem_append_right _ hx)

/-- `MatchOrder` does not return after the insertion, into a reachable book, of
a crossing `FillAndKill` order whose quantity exceeds the best opposite level:
what is left of the order after the first pass is at the front of its level,
and cancelling it takes the mutex a second time. -/
theorem MatchOrder_insert_blocks {b : OrderBook} (h : Reachable b) {o : Order}
    (ht : o.orderType_ = OrderType.FillAndKill)
    (hc : b.CanMatch o.side_ o.price_ = true)
    (hl : b.bestOppositeQuantity o.side_ < o.remainingQuantity_) :
    (b.insertOrder o).MatchOrder = none := by
  obtain ⟨hw, hu⟩ := h.wf_uncrossed
  have hnf := h.noFAK
  have hne := noEmpty_insertOrder h.noEmpty o
  cases hs : o.side_ with
  | Buy =>
    rw [hs] at hc hl
    obtain ⟨ap, aq, al, ha, hle⟩ := CanMatch_buy hc
    obtain ⟨e1, e2⟩ := insertOrder_buy_crossing hu hs ha hle
    have hl' : remainingSum aq < o.remainingQuantity_ := by
      simpa [OrderBook.bestOppositeQuantity, ha] using hl
    obtain ⟨r1, h1⟩ := matchLevel_total ([o].length + aq.length) (b.insertOrder o) []
      (by simp [OrderBook.headLen, e1, e2, ha])
    obtain ⟨bq', aq', new, f1, f2, -, f4, -, f6, f7, -, -⟩ :=
      matchLevel_trades e1 (e2.trans ha) h1
    obtain ⟨g1, -, -⟩ := @afterLevel_shape r1.2 o.price_ ap _ _ _ _ f1 f2
    obtain ⟨o', h5, h6⟩ : ∃ o', bq' = [o'] ∧ o'.ident = o.ident := by
      rcases suffix_singleton f4 with h5 | h5
      · exfalso
        rw [h5] at f6
        simp only [remainingSum_nil, remainingSum_cons] at f6
        omega
      · exact h5
    subst h5
    rw [if_neg (List.cons_ne_nil _ _)] at g1
    have ht' : o'.orderType_ = OrderType.FillAndKill := by
      rw [Order.type_of_ident h6]; exact ht
    have hcancel : (r1.2.afterLevel o.price_ ap).cancelFillAndKill
        (r1.2.afterLevel o.price_ ap).bids_ = none := by
      rw [g1]
      unfold OrderBook.cancelFillAndKill
      simp only [ht', if_true]
      rfl
    unfold OrderBook.MatchOrder
    rw [matchLoop_succ_crossed e1 (e2.trans ha) (by omega)]
    unfold OrderBook.matchPass
    simp only [h1, Option.some_bind]
    simp only [hcancel, Option.none_bind]
  | Sell =>
    rw [hs] at hc hl
    obtain ⟨bp, bq, bl, hb, hle⟩ := CanMatch_sell hc
    obtain ⟨e1, e2⟩ := insertOrder_sell_crossing hu hs hb hle
    have hl' : remainingSum bq < o.remainingQuantity_ := by
      have hns : ¬ (Side.Sell = Side.Buy) := by decide
      simpa [OrderBook.bestOppositeQuantity, hb, hns] using hl
    obtain ⟨r1, h1⟩ := matchLevel_total (bq.length + [o].length) (b.insertOrder o) []
      (by simp [OrderBook.headLen, e1, e2, hb])
    obtain ⟨bq', aq', new, f1, f2, -, f4, f5, f6, f7, -, -⟩ :=
      matchLevel_trades (e1.trans hb) e2 h1
    obtain ⟨p1, -⟩ := afterLevel_props hne (e1.trans hb) e2 h1
    obtain ⟨g1, g2, -⟩ := @afterLevel_shape r1.2 bp o.price_ _ _ _ _ f1 f2
    obtain ⟨o', h5, h6⟩ : ∃ o', aq' = [o'] ∧ o'.ident = o.ident := by
      rcases suffix_singleton f5 with h5 | h5
      · exfalso
        rw [h5] at f7
        simp only [remainingSum_nil, remainingSum_cons] at f7
        omega
      · exact h5
    subst h5
    rw [if_neg (List.cons_ne_nil _ _)] at g2
    have ht' : o'.orderType_ = OrderType.FillAndKill := by
      rw [Order.type_of_ident h6]; exact ht
    have hbids : (r1.2.afterLevel bp o.price_).cancelFillAndKill
        (r1.2.afterLevel bp o.price_).bids_ = some (r1.2.afterLevel bp o.price_) := by
      apply cancelFillAndKill_total _ p1.1
      intro x hx
      rw [g1] at hx
      have hx' : x ∈ bq' ++ ladderOrders bl := by
        split_ifs at hx with h7
        · exact List.mem_append_right _ hx
        · simpa [ladderOrders_cons] using hx
      rcases List.mem_append.1 hx' with hx1 | hx1
      · obtain ⟨y, hy, e⟩ := mem_of_ident_suffix f4 hx1
        rw [Order.type_of_ident e]
        exact hnf y (List.mem_append_left _ (by rw [hb, ladderOrders_cons]; simp [hy]))
      · exact hnf x (List.mem_append_left _ (by rw [hb, ladderOrders_cons]; simp [hx1]))
    have hcancel : (r1.2.afterLevel bp o.price_).cancelFillAndKill
        (r1.2.afterLevel bp o.price_).asks_ = none := by
      rw [g2]
      unfold OrderBook.cancelFillAndKill
      simp only [ht', if_true]
      rfl
    unfold OrderBook.MatchOrder
    rw [matchLoop_succ_crossed (e1.trans hb) e2 (by omega)]
    unfold OrderBook.matchPass
    simp only [h1, Option.some_bind]
    simp only [hbids, Option.some_bind, hcancel, Option.none_bind]

/-- `AddOrder` of a `FillAndKill` order with a fresh id that crosses and is
larger than the best opposite level does not return. -/
theorem AddOrder_fillAndKill_blocks {b : OrderBook} (h : Reachable b) (orderId : Nat)
    (side : Side) (price quantity : Nat) (hf : assocFind orderId b.orders_ = none)
    (hc : b.CanMatch side price = true) (hl : b.bestOppositeQuantity side < quantity) :
    b.AddOrder (Order.create OrderType.FillAndKill orderId side price quantity) = none := by
  rw [AddOrder_fillAndKill_accept orderId side price quantity hf hc]
  exact MatchOrder_insert_blocks h
    (o := Order.create OrderType.FillAndKill orderId side price quantity) rfl hc hl

/-- The best opposite level is part of the crossing liquidity. -/
theorem bestOppositeQuantity_le {b : OrderBook} {side : Side} {price : Nat}
    (hc : b.CanMatch side price = true) :
    b.bestOppositeQuantity side ≤ b.crossingLiquidity side price := by
  cases side with
  | Buy =>
    obtain ⟨ap, aq, al, ha, hle⟩ := CanMatch_buy hc
    rw [crossingLiquidity_buy_cons ha hle]
    simp [OrderBook.bestOppositeQuantity, ha]
  | Sell =>
    obtain ⟨bp, bq, bl, hb, hle⟩ := CanMatch_sell hc
    have hns : ¬ (Side.Sell = Side.Buy) := by decide
    rw [crossingLiquidity_sell_cons hb hle]
    simp [OrderBook.bestOppositeQuantity, hb, hns]

/-- C6, as stated, fails: the quantity beyond the best opposite level is not
traded. In the book with the asks 100x3 (id 1) and 105x4 (id 2), reached by
two adds, the buy `FillAndKill` 105x10 with the fresh id 3 crosses and `L = 7`
units rest at acceptable prices. The first pass of `MatchOrder` trades 3 with
order 1; the statement that cancels a `FillAndKill` order at the top of the
book comes next, inside the loop, and finds order 3 with 7 left while the ask
105x4 is still in the book and still crossed. That cancel is a call of
`CancelOrder` under the lock of `AddOrder`, so that `AddOrder` returns no
trade list at all. -/
theorem fill_and_kill_beyond_best_level :
    ({} : OrderBook).executeAll traceTwoAskLevels = some bookTwoAskLevels
    ∧ Reachable bookTwoAskLevels
    ∧ assocFind 3 bookTwoAskLevels.orders_ = none
    ∧ bookTwoAskLevels.CanMatch Side.Buy 105 = true
    ∧ bookTwoAskLevels.crossingLiquidity Side.Buy 105 = 7
    ∧ bookTwoAskLevels.bestOppositeQuantity Side.Buy = 3
    ∧ ((bookTwoAskLevels.insertOrder
          (Order.create OrderType.FillAndKill 3 Side.Buy 105 10)).matchLevel 2 []).map
          (fun r => (r.1, (r.2.afterLevel 105 100).bids_, (r.2.afterLevel 105 100).asks_))
        = some ([{ bidTrade_ := { orderId_ := 3, price_ := 105, quantity_ := 3 },
                   askTrade_ := { orderId_ := 1, price_ := 100, quantity_ := 3 } }],
                [(105, [{ Order.create OrderType.FillAndKill 3 Side.Buy 105 10 with
                           remainingQuantity_ := 7 }])],
                [(105, [Order.create OrderType.GoodTillCancel 2 Side.Sell 105 4])])
    ∧ bookTwoAskLevels.AddOrder (Order.create OrderType.FillAndKill 3 Side.Buy 105 10) = none
    ∧ ¬ ∃ trades b1,
        bookTwoAskLevels.AddOrder (Order.create OrderType.FillAndKill 3 Side.Buy 105 10)
          = some (trades, b1)
        ∧ tradedQuantity trades = min 10 (bookTwoAskLevels.crossingLiquidity Side.Buy 105) :=
  ⟨rfl, reachableValid_bookTwoAskLevels.reachable, rfl, rfl, rfl, rfl, rfl, rfl,
    fun ⟨_, _, h, _⟩ => Option.noConfusion h⟩

/-- C6: for every reachable book state and every `FillAndKill` order with a
fresh id, limit price `P` and quantity `Q > 0` whose price crosses, if `Q` is
at most the total remaining quantity at the best opposite price, `AddOrder`
returns trades whose quantities sum to `min Q L`, with `L` the total remaining
quantity of the opposite orders at acceptable prices; this sum is `Q`, nothing
of the order is cancelled and the order is afterwards neither in the index nor
in a ladder. -/
theorem fill_and_kill_within_best_level {b : OrderBook} (h : Reachable b)
    (orderId : Nat) (side : Side) (price quantity : Nat)
    (hfresh : assocFind orderId b.orders_ = none) (hq : 0 < quantity)
    (hcross : b.CanMatch side price = true)
    (hbest : quantity ≤ b.bestOppositeQuantity side) :
    ∃ trades b1,
      b.AddOrder (Order.create OrderType.FillAndKill orderId side price quantity)
        = some (trades, b1)
      ∧ tradedQuantity trades = min quantity (b.crossingLiquidity side price)
      ∧ tradedQuantity trades = quantity
      ∧ assocFind orderId b1.orders_ = none
      ∧ ∀ x ∈ b1.allOrders, x.orderId_ ≠ orderId := by
  obtain ⟨hw, hu⟩ := h.wf_uncrossed
  obtain ⟨r, hr⟩ := MatchOrder_insert_covered h
    (o := Order.create OrderType.FillAndKill orderId side price quantity) hq hcross hbest
  have hadd := AddOrder_fillAndKill_accept orderId side price quantity hfresh hcross
  rw [hr] at hadd
  obtain ⟨m1, -, -, -⟩ := insert_match hw hu
    (o := Order.create OrderType.FillAndKill orderId side price quantity) hfresh hq hr
  obtain ⟨-, m6⟩ := insert_match_rests hw hu
    (o := Order.create OrderType.FillAndKill orderId side price quantity) hfresh hq hr
  have hle := bestOppositeQuantity_le hcross
  have hsum : tradedQuantity r.1 = quantity := by
    rw [m1]
    exact Nat.min_eq_left (le_trans hbest hle)
  refine ⟨r.1, r.2, hadd, m1, hsum, ?_⟩
  exact m6 (by rw [hsum]; exact Nat.lt_irrefl _)

theorem fill_and_kill_within_best_level_witness :
    Reachable bookTwoAskLevels
    ∧ assocFind 3 bookTwoAskLevels.orders_ = none ∧ 0 < 3
    ∧ bookTwoAskLevels.CanMatch Side.Buy 105 = true
    ∧ 3 ≤ bookTwoAskLevels.bestOppositeQuantity Side.Buy
    ∧ (∃ trades b1,
        bookTwoAskLevels.AddOrder (Order.create OrderType.FillAndKill 3 Side.Buy 105 3)
          = some (trades, b1)
        ∧ tradedQuantity trades = min 3 (bookTwoAskLevels.crossingLiquidity Side.Buy 105)
        ∧ tradedQuantity trades = 3
        ∧ assocFind 3 b1.orders_ = none
        ∧ ∀ x ∈ b1.allOrders, x.orderId_ ≠ 3)
    ∧ (bookTwoAskLevels.AddOrder (Order.create OrderType.FillAndKill 3 Side.Buy 105 3)).map
        (fun r => (r.1, r.2.bids_, r.2.asks_))
        = some ([{ bidTrade_ := { orderId_ := 3, price_ := 105, quantity_ := 3 },
                   askTrade_ := { orderId_ := 1, price_ := 100, quantity_ := 3 } }],
                [],
                [(105, [Order.create OrderType.GoodTillCancel 2 Side.Sell 105 4])]) :=
  ⟨reachableValid_bookTwoAskLevels.reachable, rfl, by decide, rfl, by decide,
    fill_and_kill_within_best_level reachableValid_bookTwoAskLevels.reachable 3 Side.Buy 105 3
      rfl (by decide) rfl (by decide),
    rfl⟩


/-! ## Claim C10 -/

/-- C10: in every reachable book state each of these calls returns, with an
empty trade list for the adds and the modify, and leaves the book (`bids_`,
`asks_`, `orders_` and `data_`) exactly as it was: (1) `AddOrder` of an order
whose id is in the index; (2) `AddOrder` of a `Market` order when the opposite
ladder is empty; (3) `AddOrder` of a `FillAndKill` order whose price does not
cross the best opposite price; (4) in a state reached with positive quantities
and without 32-bit overflow of a level total, `AddOrder` of a `FillOrKill`
order of quantity `Q < 2 ^ 32` when the total remaining quantity of the
opposite orders at acceptable prices is less than `Q`; (5) `ModifyOrder` of an
id not in the index; (6) `CancelOrder` of an id not in the index. -/
theorem domain_rejections_are_noops {b : OrderBook} (h : Reachable b) :
    (∀ order : Order, (∃ x, assocFind order.orderId_ b.orders_ = some x) →
        b.AddOrder order = some ([], b))
    ∧ (∀ (orderId : Nat) (side : Side) (price quantity : Nat),
        (side = Side.Buy → b.asks_ = []) → (side = Side.Sell → b.bids_ = []) →
        b.AddOrder (Order.create OrderType.Market orderId side price quantity)
          = some ([], b))
    ∧ (∀ (orderId : Nat) (side : Side) (price quantity : Nat),
        (side = Side.Buy → ∀ y ∈ b.asks_.head?, price < y.1) →
        (side = Side.Sell → ∀ y ∈ b.bids_.head?, y.1 < price) →
        b.AddOrder (Order.create OrderType.FillAndKill orderId side price quantity)
          = some ([], b))
    ∧ (ReachableFit b → ∀ (orderId : Nat) (side : Side) (price quantity : Nat),
        quantity < 2 ^ 32 → b.crossingLiquidity side price < quantity →
        b.AddOrder (Order.create OrderType.FillOrKill orderId side price quantity)
          = some ([], b))
    ∧ (∀ orderModify : OrderModify, assocFind orderModify.orderId_ b.orders_ = none →
        b.ModifyOrder orderModify = some ([], b))
    ∧ (∀ orderId : Nat, assocFind orderId b.orders_ = none → b.CancelOrder orderId = some b) := by
  refine ⟨?_, ?_, ?_, ?_, ?_, ?_⟩
  · rintro order ⟨x, hx⟩
    unfold OrderBook.AddOrder
    rw [hx]
    rfl
  · intro orderId side price quantity hb hs
    unfold OrderBook.AddOrder
    split_ifs with h1 h2 h3 h4
    · rfl
    · exact absurd (hb h3.1) h3.2
    · exact absurd (hs h4.1) h4.2
    · rfl
    · exact absurd rfl h2
  · intro orderId side price quantity hb hs
    have hm : ¬ ((Order.create OrderType.FillAndKill orderId side price quantity).orderType_
        = OrderType.Market) := by simp [Order.create]
    have hc : b.CanMatch side price = false := by
      unfold OrderBook.CanMatch
      cases side with
      | Buy =>
        have hb' := hb rfl
        cases ha : b.asks_ with
        | nil => simp
        | cons y ys =>
          rw [ha] at hb'
          have := hb' y (by simp)
          obtain ⟨k, lvl⟩ := y
          simp only [if_true, decide_eq_false_iff_not, Nat.not_le]
          exact this
      | Sell =>
        have hs' := hs rfl
        have hne : ¬ (Side.Sell = Side.Buy) := by decide
        cases ha : b.bids_ with
        | nil => simp [hne]
        | cons y ys =>
          rw [ha] at hs'
          have := hs' y (by simp)
          obtain ⟨k, lvl⟩ := y
          simp only [hne, if_false, decide_eq_false_iff_not, Nat.not_le]
          exact this
    unfold OrderBook.AddOrder
    rw [if_neg hm]
    split_ifs with h1
    · rfl
    · unfold OrderBook.addGated
      simp [Order.create, hc]
  · intro hfit orderId side price quantity hq2 hl
    have hiff := CanFullyFill_iff h.wf_uncrossed.1 hfit.data.1 side price quantity
      (by omega) hq2
    have hc : b.CanFullyFill side price quantity = false := by
      cases hx : b.CanFullyFill side price quantity with
      | false => rfl
      | true => have := hiff.1 hx; omega
    exact AddOrder_fillOrKill_reject orderId side price quantity hc
  · intro orderModify hf
    unfold OrderBook.ModifyOrder
    rw [hf]
  · intro orderId hf
    rw [CancelOrder_eq_internal]
    unfold OrderBook.CancelOrderInternal
    rw [hf]

theorem domain_rejections_are_noops_witness :
    Reachable bookBidAsk
    ∧ ((∀ order : Order, (∃ x, assocFind order.orderId_ bookBidAsk.orders_ = some x) →
        bookBidAsk.AddOrder order = some ([], bookBidAsk))
      ∧ (∀ (orderId : Nat) (side : Side) (price quantity : Nat),
          (side = Side.Buy → bookBidAsk.asks_ = []) →
          (side = Side.Sell → bookBidAsk.bids_ = []) →
          bookBidAsk.AddOrder (Order.create OrderType.Market orderId side price quantity)
            = some ([], bookBidAsk))
      ∧ (∀ (orderId : Nat) (side : Side) (price quantity : Nat),
          (side = Side.Buy → ∀ y ∈ bookBidAsk.asks_.head?, price < y.1) →
          (side = Side.Sell → ∀ y ∈ bookBidAsk.bids_.head?, y.1 < price) →
          bookBidAsk.AddOrder (Order.create OrderType.FillAndKill orderId side price quantity)
            = some ([], bookBidAsk))
      ∧ (ReachableFit bookBidAsk →
          ∀ (orderId : Nat) (side : Side) (price quantity : Nat),
          quantity < 2 ^ 32 → bookBidAsk.crossingLiquidity side price < quantity →
          bookBidAsk.AddOrder (Order.create OrderType.FillOrKill orderId side price quantity)
            = some ([], bookBidAsk))
      ∧ (∀ orderModify : OrderModify,
          assocFind orderModify.orderId_ bookBidAsk.orders_ = none →
          bookBidAsk.ModifyOrder orderModify = some ([], bookBidAsk))
      ∧ (∀ orderId : Nat, assocFind orderId bookBidAsk.orders_ = none →
          bookBidAsk.CancelOrder orderId = some bookBidAsk))
    ∧ ReachableFit bookBidAsk ∧ 7 < 2 ^ 32 ∧ bookBidAsk.crossingLiquidity Side.Buy 105 < 7
    ∧ bookBidAsk.AddOrder (Order.create OrderType.FillOrKill 3 Side.Buy 105 7)
        = some ([], bookBidAsk) :=
  ⟨reachableValid_bookBidAsk.reachable,
    domain_rejections_are_noops reachableValid_bookBidAsk.reachable,
    reachableFit_bookBidAsk, by decide, by decide,
    (domain_rejections_are_noops reachableValid_bookBidAsk.reachable).2.2.2.1
      reachableFit_bookBidAsk 3 Side.Buy 105 7 (by decide) (by decide)⟩

/-- C10, item (4) as stated for every reachable state, fails: after the six
instructions of `traceStaleAggregate` one ask of quantity 1 rests at 100 while
the aggregate of that level holds an ask total of 2147483643; the order
`A B FillOrKill 100 100 7`, for which only 1 unit rests at an acceptable
price, is let through, trades 1 with order 4 and rests with 99 remaining. -/
theorem fill_or_kill_accepted_without_liquidity :
    ({} : OrderBook).executeAll traceStaleAggregate = some bookStaleAggregate
    ∧ ReachableValid bookStaleAggregate
    ∧ assocFind 7 bookStaleAggregate.orders_ = none
    ∧ bookStaleAggregate.crossingLiquidity Side.Buy 100 = 1
    ∧ bookStaleAggregate.AddOrder (Order.create OrderType.FillOrKill 7 Side.Buy 100 100)
        = some ([{ bidTrade_ := { orderId_ := 7, price_ := 100, quantity_ := 1 },
                   askTrade_ := { orderId_ := 4, price_ := 100, quantity_ := 1 } }],
                bookAfterFillOrKill)
    ∧ bookAfterFillOrKill ≠ bookStaleAggregate :=
  ⟨rfl, reachableValid_bookStaleAggregate, rfl, rfl, rfl, by decide⟩


/-! ## The level queues across the operations -/

theorem assocFind_mid {β : Type} {k : Nat} (v : β) {L1 L2 : List (Nat × β)}
    (h : ∀ x ∈ L1, x.1 ≠ k) (k' : Nat) :
    assocFind k' (L1 ++ (k, v) :: L2)
      = if k' = k then some v else assocFind k' (L1 ++ L2) := by
  induction L1 with
  | nil =>
    simp only [List.nil_append, assocFind]
    by_cases hk : k = k'
    · simp [hk]
    · have hk' : ¬ k' = k := fun e => hk e.symm
      simp [hk, hk']
  | cons x L1 ih =>
    obtain ⟨kx, vx⟩ := x
    have hx : kx ≠ k := h (kx, vx) (List.mem_cons_self _ _)
    have ih' := ih (fun y hy => h y (List.mem_cons_of_mem _ hy))
    rw [List.cons_append, List.cons_append, assocFind_cons, assocFind_cons]
    by_cases e : kx = k'
    · have : ¬ k' = k := fun e2 => hx (e.trans e2)
      simp [e, this]
    · rw [if_neg e, if_neg e, ih']

theorem assocFind_append_none {β : Type} {k : Nat} {L1 L2 : List (Nat × β)}
    (h1 : ∀ x ∈ L1, x.1 ≠ k) (h2 : k ∉ L2.map Prod.fst) : assocFind k (L1 ++ L2) = none := by
  rw [assocFind_eq_none_iff]
  intro hm
  rw [List.map_append, List.mem_append] at hm
  rcases hm with hm | hm
  · obtain ⟨x, hx, e⟩ := List.mem_map.1 hm
    exact h1 x hx e
  · exact h2 hm

/-- What `cancelInLadder` does to the queues, level by level. -/
theorem ladder_cancel_queue {l l' : Ladder} {price id : Nat} (hnd : (l.map Prod.fst).Nodup)
    (h : cancelInLadder l price id = some l') :
    ∃ q1 o q2, assocFind price l = some (q1 ++ o :: q2) ∧ o.orderId_ = id
      ∧ (∀ x ∈ q1, x.orderId_ ≠ id)
      ∧ (assocFind price l' = if q1 ++ q2 = [] then none else some (q1 ++ q2))
      ∧ (∀ p, p ≠ price → assocFind p l' = assocFind p l) := by
  obtain ⟨L1, q1, o, q2, L2, hl, hid, hL1, hq1, hl'⟩ := cancelInLadder_split h
  have hnd2 : price ∉ L2.map Prod.fst := by
    rw [hl, List.map_append, List.map_cons] at hnd
    have := (List.nodup_append.1 hnd).2.1
    exact (List.nodup_cons.1 this).1
  refine ⟨q1, o, q2, ?_, hid, hq1, ?_, ?_⟩
  · rw [hl, assocFind_mid _ hL1, if_pos rfl]
  · rw [hl']
    by_cases he : q1 ++ q2 = []
    · rw [if_pos he, if_pos he]
      exact assocFind_append_none hL1 hnd2
    · rw [if_neg he, if_neg he, assocFind_mid _ hL1, if_pos rfl]
  · intro p hp
    rw [hl', hl, assocFind_mid _ hL1, if_neg hp]
    by_cases he : q1 ++ q2 = []
    · rw [if_pos he]
    · rw [if_neg he, assocFind_mid _ hL1, if_neg hp]

theorem OrderBook.WF.bidKeys {b : OrderBook} (hw : b.WF) : (b.bids_.map Prod.fst).Nodup :=
  sorted_desc_keys_nodup hw.bidsSorted

theorem OrderBook.WF.askKeys {b : OrderBook} (hw : b.WF) : (b.asks_.map Prod.fst).Nodup :=
  sorted_asc_keys_nodup hw.asksSorted

/-- An order of a level queue rests in the book, on the side and at the price
of the level. -/
theorem OrderBook.WF.of_mem_levelQueue {b : OrderBook} (hw : b.WF) {s : Side} {p : Nat}
    {o : Order} (ho : o ∈ b.levelQueue s p) :
    o ∈ b.allOrders ∧ o.side_ = s ∧ o.price_ = p := by
  unfold OrderBook.levelQueue at ho
  by_cases hs : s = Side.Buy
  · rw [if_pos hs] at ho
    cases hf : assocFind p b.bids_ with
    | none => rw [hf] at ho; simp at ho
    | some q =>
      rw [hf] at ho
      simp only [Option.getD_some] at ho
      have hm := assocFind_mem hf
      have := hw.bidsLevel _ hm o ho
      refine ⟨?_, this.1.trans hs.symm, this.2⟩
      exact List.mem_append_left _ (mem_ladderOrders.2 ⟨_, hm, ho⟩)
  · rw [if_neg hs] at ho
    cases hf : assocFind p b.asks_ with
    | none => rw [hf] at ho; simp at ho
    | some q =>
      rw [hf] at ho
      simp only [Option.getD_some] at ho
      have hm := assocFind_mem hf
      have := hw.asksLevel _ hm o ho
      refine ⟨?_, this.1.trans (Side.eq_sell_of_ne_buy hs).symm, this.2⟩
      exact List.mem_append_right _ (mem_ladderOrders.2 ⟨_, hm, ho⟩)

/-- The cancelled order leaves its level queue; every other queue stays. -/
theorem cancel_levelQueue {b b1 : OrderBook} (hw : b.WF) {id : Nat} {o : Order}
    (hf : assocFind id b.orders_ = some o) (hc : b.CancelOrderInternal id = some b1) :
    ∀ s p, b1.levelQueue s p
      = if s = o.side_ ∧ p = o.price_ then (b.levelQueue s p).erase o else b.levelQueue s p := by
  have hmem := (hw.index id o).1 hf
  unfold OrderBook.CancelOrderInternal at hc
  rw [hf] at hc
  simp only [] at hc
  by_cases hs : o.side_ = Side.Buy
  · rw [if_pos hs] at hc
    cases hx : cancelInLadder b.bids_ o.price_ id with
    | none => rw [hx] at hc; simp at hc
    | some bids =>
      rw [hx] at hc
      simp only [Option.map_some', Option.some.injEq] at hc
      obtain ⟨q1, x, q2, h1, h2, h3, h4, h5⟩ := ladder_cancel_queue hw.bidKeys hx
      have hxo : x = o := by
        have hxm : x ∈ b.allOrders :=
          List.mem_append_left _ (mem_ladderOrders.2 ⟨_, assocFind_mem h1, by simp⟩)
        have := (hw.index id x).2 ⟨hxm, h2⟩
        rw [hf] at this
        exact (Option.some.inj this).symm
      subst hxo
      have hnot : x ∉ q1 := fun hm => h3 x hm h2
      intro s p
      rw [← hc]
      unfold OrderBook.levelQueue
      simp only []
      by_cases hsb : s = Side.Buy
      · rw [if_pos hsb, if_pos hsb]
        by_cases hp : p = x.price_
        · subst hp
          rw [if_pos ⟨hsb.trans hs.symm, rfl⟩, h4, h1]
          simp only [Option.getD_some]
          rw [List.erase_append_right _ hnot, List.erase_cons_head]
          by_cases he : q1 ++ q2 = []
          · rw [if_pos he, he]; rfl
          · rw [if_neg he]; rfl
        · rw [if_neg (fun h => hp h.2), h5 p hp]
      · rw [if_neg hsb, if_neg hsb, if_neg (fun h => hsb (h.1.trans hs))]
  · rw [if_neg hs] at hc
    have hss := Side.eq_sell_of_ne_buy hs
    cases hx : cancelInLadder b.asks_ o.price_ id with
    | none => rw [hx] at hc; simp at hc
    | some asks =>
      rw [hx] at hc
      simp only [Option.map_some', Option.some.injEq] at hc
      obtain ⟨q1, x, q2, h1, h2, h3, h4, h5⟩ := ladder_cancel_queue hw.askKeys hx
      have hxo : x = o := by
        have hxm : x ∈ b.allOrders :=
          List.mem_append_right _ (mem_ladderOrders.2 ⟨_, assocFind_mem h1, by simp⟩)
        have := (hw.index id x).2 ⟨hxm, h2⟩
        rw [hf] at this
        exact (Option.some.inj this).symm
      subst hxo
      have hnot : x ∉ q1 := fun hm => h3 x hm h2
      intro s p
      rw [← hc]
      unfold OrderBook.levelQueue
      simp only []
      by_cases hsb : s = Side.Buy
      · rw [if_pos hsb, if_pos hsb, if_neg (fun h => hs (h.1.symm.trans hsb))]
      · rw [if_neg hsb, if_neg hsb]
        have hs2 := Side.eq_sell_of_ne_buy hsb
        by_cases hp : p = x.price_
        · subst hp
          rw [if_pos ⟨hs2.trans hss.symm, rfl⟩, h4, h1]
          simp only [Option.getD_some]
          rw [List.erase_append_right _ hnot, List.erase_cons_head]
          by_cases he : q1 ++ q2 = []
          · rw [if_pos he, he]; rfl
          · rw [if_neg he]; rfl
        · rw [if_neg (fun h => hp h.2), h5 p hp]


/-! ## The level queues across insertion and matching -/

theorem assocFind_pushBack (before : Nat → Nat → Bool)
    (htr : ∀ a b c, before a b = true → before b c = true → before a c = true)
    (hir : ∀ a, before a a = false) (p : Nat) (o : Order) (l : Ladder)
    (hs : l.Pairwise (fun x y => before x.1 y.1 = true)) (p' : Nat) :
    assocFind p' (ladderPushBack before p o l)
      = if p' = p then some ((assocFind p l).getD [] ++ [o]) else assocFind p' l := by
  induction l with
  | nil =>
    simp only [ladderPushBack, assocFind_cons, assocFind_nil]
    by_cases e : p = p'
    · simp [e]
    · have e' : ¬ p' = p := fun h => e h.symm
      simp [e, e']
  | cons x l ih =>
    obtain ⟨k, q⟩ := x
    rw [List.pairwise_cons] at hs
    have ih' := ih hs.2
    unfold ladderPushBack
    by_cases hk : k = p
    · rw [if_pos hk]
      subst hk
      rw [assocFind_cons, assocFind_cons, assocFind_cons, if_pos rfl]
      by_cases e : k = p'
      · simp [e]
      · have e' : ¬ p' = k := fun h => e h.symm
        simp [e, e']
    · rw [if_neg hk]
      by_cases hb : before p k = true
      · rw [if_pos hb, assocFind_cons]
        have hnone : assocFind p ((k, q) :: l) = none := by
          rw [assocFind_eq_none_iff]
          intro hm
          rw [List.map_cons, List.mem_cons] at hm
          rcases hm with hm | hm
          · exact hk hm.symm
          · obtain ⟨y, hy, e⟩ := List.mem_map.1 hm
            have h1 := hs.1 y hy
            have h2 := htr p k y.1 hb h1
            rw [e, hir] at h2
            exact absurd h2 (by simp)
        rw [hnone]
        by_cases e : p = p'
        · simp [e]
        · have e' : ¬ p' = p := fun h => e h.symm
          rw [if_neg e, if_neg e']
      · rw [if_neg hb, assocFind_cons, ih', assocFind_cons, assocFind_cons, if_neg hk]
        by_cases e : k = p'
        · have e' : ¬ p' = p := fun h => hk (e.trans h)
          rw [if_pos e, if_neg e', if_pos e]
        · rw [if_neg e, if_neg e]

/-- The inserted order joins the back of the queue of its level; every other
queue stays. -/
theorem levelQueue_insertOrder {b : OrderBook} (hw : b.WF) (o : Order) :
    ∀ s p, (b.insertOrder o).levelQueue s p
      = if s = o.side_ ∧ p = o.price_ then b.levelQueue s p ++ [o] else b.levelQueue s p := by
  intro s p
  unfold OrderBook.levelQueue OrderBook.insertOrder
  simp only []
  by_cases hs : s = Side.Buy
  · rw [if_pos hs, if_pos hs]
    by_cases ho : o.side_ = Side.Buy
    · rw [if_pos ho, assocFind_pushBack _ (fun a b c h1 h2 => by simp at h1 h2 ⊢; omega)
        (fun a => by simp) _ _ _ (hw.bidsSorted.imp (fun h => by simpa using h))]
      by_cases hp : p = o.price_
      · rw [if_pos hp, if_pos ⟨hs.trans ho.symm, hp⟩, hp]; rfl
      · rw [if_neg hp, if_neg (fun h => hp h.2)]
    · rw [if_neg ho, if_neg (fun h => ho (h.1.symm.trans hs))]
  · rw [if_neg hs, if_neg hs]
    by_cases ho : o.side_ = Side.Buy
    · rw [if_pos ho, if_neg (fun h => hs (h.1.trans ho))]
    · rw [if_neg ho, assocFind_pushBack _ (fun a b c h1 h2 => by simp at h1 h2 ⊢; omega)
        (fun a => by simp) _ _ _ (hw.asksSorted.imp (fun h => by simpa using h))]
      by_cases hp : p = o.price_
      · rw [if_pos hp, if_pos ⟨(Side.eq_sell_of_ne_buy hs).trans
          (Side.eq_sell_of_ne_buy ho).symm, hp⟩, hp]; rfl
      · rw [if_neg hp, if_neg (fun h => hp h.2)]

/-- The removal of emptied levels leaves every level queue as it is. -/
theorem levelQueue_afterLevel {b : OrderBook} (hw : b.WF) (bp ap : Nat) :
    ∀ s p, (b.afterLevel bp ap).levelQueue s p = b.levelQueue s p := by
  intro s p
  have key : ∀ (l : Ladder) (k : Nat), (l.map Prod.fst).Nodup →
      (assocFind p (if assocFind k l = some [] then assocErase k l else l)).getD []
        = (assocFind p l).getD [] := by
    intro l k hnd
    by_cases h : assocFind k l = some []
    · rw [if_pos h, assocFind_assocErase k p l hnd]
      by_cases e : p = k
      · rw [if_pos e, e, h]; rfl
      · rw [if_neg e]
    · rw [if_neg h]
  unfold OrderBook.levelQueue OrderBook.afterLevel OrderBook.eraseEmptyLevels
  simp only []
  by_cases hs : s = Side.Buy
  · rw [if_pos hs, if_pos hs]; exact key _ _ hw.bidKeys
  · rw [if_neg hs, if_neg hs]; exact key _ _ hw.askKeys

theorem queuesShrink_refl (b : OrderBook) : QueuesShrink b b :=
  fun _ _ => List.Sublist.refl _

theorem queuesShrink_trans {b1 b2 b3 : OrderBook} (h1 : QueuesShrink b1 b2)
    (h2 : QueuesShrink b2 b3) : QueuesShrink b1 b3 :=
  fun s p => (h2 s p).trans (h1 s p)

theorem queuesShrink_of_eq {b b' : OrderBook}
    (h : ∀ s p, b'.levelQueue s p = b.levelQueue s p) : QueuesShrink b b' := by
  intro s p
  unfold OrderBook.levelIds
  rw [h s p]

theorem queuesShrink_cancel {b b1 : OrderBook} (hw : b.WF) {id : Nat}
    (hc : b.CancelOrderInternal id = some b1) : QueuesShrink b b1 := by
  cases hf : assocFind id b.orders_ with
  | none =>
    unfold OrderBook.CancelOrderInternal at hc
    rw [hf] at hc
    simp only [Option.some.injEq] at hc
    rw [← hc]; exact queuesShrink_refl b
  | some o =>
    intro s p
    unfold OrderBook.levelIds
    rw [cancel_levelQueue hw hf hc s p]
    split_ifs
    · exact (List.erase_sublist _ _).map _
    · exact List.Sublist.refl _

theorem queuesShrink_cancelFillAndKill {b b1 : OrderBook} {l : Ladder}
    (hc : b.cancelFillAndKill l = some b1) : QueuesShrink b b1 := by
  rw [(cancelFillAndKill_eq_some hc).1]
  exact queuesShrink_refl b

theorem fillQueue_ids_sublist {o o1 : Order} (X : List Order) (h : o1.orderId_ = o.orderId_) :
    List.Sublist ((fillQueue o1 X).map Order.orderId_) ((o :: X).map Order.orderId_) := by
  unfold fillQueue
  split_ifs
  · exact (List.sublist_cons_self _ _).map _
  · rw [List.map_cons, List.map_cons, h]

theorem queuesShrink_matchFront {b b' : OrderBook} {bp ap : Nat} {bid ask : Order}
    {bids asks : List Order} {bl al : Ladder} {t : Trade}
    (hb : b.bids_ = (bp, bid :: bids) :: bl) (ha : b.asks_ = (ap, ask :: asks) :: al)
    (h : b.matchFront bp bid bids bl ap ask asks al = some (t, b')) : QueuesShrink b b' := by
  obtain ⟨q, bid1, ask1, -, hb1, ha1, -, hb', ha', -, -⟩ := matchFront_eq h
  intro s p
  unfold OrderBook.levelIds OrderBook.levelQueue
  by_cases hs : s = Side.Buy
  · rw [if_pos hs, if_pos hs, hb', hb, assocFind_cons, assocFind_cons]
    by_cases e : bp = p
    · rw [if_pos e, if_pos e]
      exact fillQueue_ids_sublist bids (by rw [hb1])
    · rw [if_neg e, if_neg e]
  · rw [if_neg hs, if_neg hs, ha', ha, assocFind_cons, assocFind_cons]
    by_cases e : ap = p
    · rw [if_pos e, if_pos e]
      exact fillQueue_ids_sublist asks (by rw [ha1])
    · rw [if_neg e, if_neg e]

theorem queuesShrink_matchLevel {fuel : Nat} {b : OrderBook} {ts : Trades}
    {r : Trades × OrderBook} (h : b.matchLevel fuel ts = some r) : QueuesShrink b r.2 :=
  matchLevel_induct (fun b' _ => QueuesShrink b b')
    (fun _ _ _ _ _ _ _ _ _ _ _ _ hb ha hP hm =>
      queuesShrink_trans hP (queuesShrink_matchFront hb ha hm))
    fuel b ts r (queuesShrink_refl b) h

theorem queuesShrink_matchPass {b : OrderBook} {bp ap fuel : Nat} {ts : Trades}
    {r : Trades × OrderBook} (hw : b.WF) (h : b.matchPass bp ap fuel ts = some r) :
    QueuesShrink b r.2 := by
  obtain ⟨r1, b3, h1, h2, h3, -⟩ := matchPass_eq_some h
  have w1 := wf_matchLevel hw h1
  exact queuesShrink_trans (queuesShrink_trans (queuesShrink_trans
    (queuesShrink_matchLevel h1) (queuesShrink_of_eq (levelQueue_afterLevel w1 bp ap)))
    (queuesShrink_cancelFillAndKill h2)) (queuesShrink_cancelFillAndKill h3)

theorem queuesShrink_matchLoop {fuel : Nat} {b : OrderBook} {ts : Trades}
    {r : Trades × OrderBook} (hw : b.WF) (h : b.matchLoop fuel ts = some r) :
    QueuesShrink b r.2 :=
  (matchLoop_induct (fun b' _ => b'.WF ∧ QueuesShrink b b')
    (fun _ _ _ _ _ _ _ _ _ _ _ _ hP hm =>
      ⟨wf_matchPass hP.1 hm, queuesShrink_trans hP.2 (queuesShrink_matchPass hP.1 hm)⟩)
    fuel b ts r ⟨hw, queuesShrink_refl b⟩ h).2


/-! ## Relative order in the level queues -/

/-- Two elements that come in this order in a duplicate-free list come in the
same order in every sublist that keeps both. -/
theorem sublist_pair_of_sublist {l' l : List Nat} (h : List.Sublist l' l) :
    l.Nodup → ∀ {a c : Nat}, a ∈ l' → c ∈ l' → List.Sublist [a, c] l → List.Sublist [a, c] l' := by
  induction h with
  | slnil => intro _ a c ha; simp at ha
  | @cons l1 l2 x h ih =>
    intro hnd a c ha hc hp
    rw [List.nodup_cons] at hnd
    rcases List.sublist_cons_iff.1 hp with hp | ⟨r, e, -⟩
    · exact ih hnd.2 ha hc hp
    · have : a = x := by
        simp only [List.cons.injEq] at e; exact e.1
      exact absurd (h.subset ha) (this ▸ hnd.1)
  | @cons₂ l1 l2 x h ih =>
    intro hnd a c ha hc hp
    rw [List.nodup_cons] at hnd
    rcases List.sublist_cons_iff.1 hp with hp | ⟨r, e, hr⟩
    · have ha2 : a ∈ l2 := hp.subset (by simp)
      have hc2 : c ∈ l2 := hp.subset (by simp)
      have hax : a ≠ x := fun e => hnd.1 (e ▸ ha2)
      have hcx : c ≠ x := fun e => hnd.1 (e ▸ hc2)
      have ha1 : a ∈ l1 := by
        rcases List.mem_cons.1 ha with h1 | h1
        · exact absurd h1 hax
        · exact h1
      have hc1 : c ∈ l1 := by
        rcases List.mem_cons.1 hc with h1 | h1
        · exact absurd h1 hcx
        · exact h1
      exact (ih hnd.2 ha1 hc1 hp).cons x
    · simp only [List.cons.injEq] at e
      obtain ⟨e1, e2⟩ := e
      subst e2
      have hc2 : c ∈ l2 := hr.subset (by simp)
      have hcx : c ≠ x := fun e => hnd.1 (e ▸ hc2)
      have hc1 : c ∈ l1 := by
        rcases List.mem_cons.1 hc with h1 | h1
        · exact absurd h1 hcx
        · exact h1
      rw [e1]
      exact (List.singleton_sublist.2 hc1).cons₂ x

/-- A sublist of `X ++ [a]` that holds `a`, which is not in `X`, ends in `a`. -/
theorem sublist_append_singleton_last {l X : List Nat} {a : Nat}
    (h : List.Sublist l (X ++ [a])) (ha : a ∈ l) (hX : a ∉ X) : l.getLast? = some a := by
  obtain ⟨l1, l2, e, h1, h2⟩ := List.sublist_append_iff.1 h
  rcases List.sublist_singleton.1 h2 with h3 | h3
  · rw [h3, List.append_nil] at e
    rw [e] at ha
    exact absurd (h1.subset ha) hX
  · rw [e, h3]
    simp

theorem levelQueue_sublist (b : OrderBook) (s : Side) (p : Nat) :
    List.Sublist (b.levelQueue s p) b.allOrders := by
  unfold OrderBook.levelQueue OrderBook.allOrders
  by_cases hs : s = Side.Buy
  · rw [if_pos hs]
    cases hf : assocFind p b.bids_ with
    | none => simp
    | some q =>
      exact (level_sublist (assocFind_mem hf)).trans (List.sublist_append_left _ _)
  · rw [if_neg hs]
    cases hf : assocFind p b.asks_ with
    | none => simp
    | some q =>
      exact (level_sublist (assocFind_mem hf)).trans (List.sublist_append_right _ _)

theorem levelIds_sublist (b : OrderBook) (s : Side) (p : Nat) :
    List.Sublist (b.levelIds s p) b.bookIds :=
  (levelQueue_sublist b s p).map _

theorem OrderBook.WF.levelIds_nodup {b : OrderBook} (hw : b.WF) (s : Side) (p : Nat) :
    (b.levelIds s p).Nodup :=
  (levelIds_sublist b s p).nodup hw.idsNodup

/-- An id sits in one level queue only. -/
theorem OrderBook.WF.levelIds_unique {b : OrderBook} (hw : b.WF) {s s' : Side} {p p' a : Nat}
    (h : a ∈ b.levelIds s p) (h' : a ∈ b.levelIds s' p') : s = s' ∧ p = p' := by
  obtain ⟨x, hx, ex⟩ := List.mem_map.1 h
  obtain ⟨y, hy, ey⟩ := List.mem_map.1 h'
  obtain ⟨x1, x2, x3⟩ := hw.of_mem_levelQueue hx
  obtain ⟨y1, y2, y3⟩ := hw.of_mem_levelQueue hy
  have hxy : x = y := by
    have h1 := (hw.index a x).2 ⟨x1, ex⟩
    have h2 := (hw.index a y).2 ⟨y1, ey⟩
    rw [h1] at h2
    exact Option.some.inj h2
  subst hxy
  exact ⟨x2.symm.trans y2, x3.symm.trans y3⟩

theorem OrderBook.WF.mem_levelIds {b : OrderBook} (hw : b.WF) {a : Nat} (h : a ∈ b.bookIds) :
    ∃ s p, a ∈ b.levelIds s p := by
  obtain ⟨x, hx, ex⟩ := List.mem_map.1 h
  exact ⟨x.side_, x.price_, List.mem_map.2 ⟨x, (hw.mem_levelQueue hx).1, ex⟩⟩

/-- When the queues only shrink, two orders of a queue that both stay in the
book keep their relative order in that queue. -/
theorem pair_preserved {b b' : OrderBook} (hw : b.WF) (hw' : b'.WF) (hsh : QueuesShrink b b')
    {s : Side} {p a c : Nat} (hp : List.Sublist [a, c] (b.levelIds s p))
    (ha : a ∈ b'.bookIds) (hc : c ∈ b'.bookIds) : List.Sublist [a, c] (b'.levelIds s p) := by
  have loc : ∀ x, x ∈ [a, c] → x ∈ b'.bookIds → x ∈ b'.levelIds s p := by
    intro x hx hxb
    obtain ⟨s', p', h1⟩ := hw'.mem_levelIds hxb
    have h2 := (hsh s' p').subset h1
    have h3 := hp.subset hx
    obtain ⟨e1, e2⟩ := hw.levelIds_unique h2 h3
    rw [← e1, ← e2]; exact h1
  exact sublist_pair_of_sublist (hsh s p) (hw.levelIds_nodup s p)
    (loc a (by simp) ha) (loc c (by simp) hc) hp


/-! ## Arrival order across `AddOrder`, `CancelOrder` and `ModifyOrder` -/

theorem levelIds_insertOrder {b : OrderBook} (hw : b.WF) (o : Order) (s : Side) (p : Nat) :
    (b.insertOrder o).levelIds s p
      = if s = o.side_ ∧ p = o.price_ then b.levelIds s p ++ [o.orderId_] else b.levelIds s p := by
  unfold OrderBook.levelIds
  rw [levelQueue_insertOrder hw o s p]
  split_ifs
  · simp
  · rfl

theorem OrderBook.WF.fresh_levelIds {b : OrderBook} (hw : b.WF) {id : Nat}
    (hf : assocFind id b.orders_ = none) (s : Side) (p : Nat) : id ∉ b.levelIds s p :=
  fun h => hw.not_mem_of_fresh hf ((levelIds_sublist b s p).subset h)

/-- Insertion followed by `MatchOrder`: the queues of the book before only
shrink, apart from the inserted order, which is the last of its queue if it is
still in the book. -/
theorem insert_match_queues {b : OrderBook} {o1 : Order} {r : Trades × OrderBook}
    (hw : b.WF) (hf : assocFind o1.orderId_ b.orders_ = none)
    (h : (b.insertOrder o1).MatchOrder = some r) :
    (∀ s p a c, List.Sublist [a, c] (b.levelIds s p) → a ∈ r.2.bookIds → c ∈ r.2.bookIds →
        List.Sublist [a, c] (r.2.levelIds s p))
      ∧ (∀ s p, o1.orderId_ ∈ r.2.levelIds s p → (r.2.levelIds s p).getLast? = some o1.orderId_)
      ∧ (∀ a ∈ r.2.bookIds, a ∈ b.bookIds ∨ a = o1.orderId_) := by
  have hwi := wf_insertOrder hw o1 hf
  have hw' := (wf_MatchOrder hwi h).1
  have hsh : QueuesShrink (b.insertOrder o1) r.2 := queuesShrink_matchLoop hwi h
  refine ⟨?_, ?_, ?_⟩
  · intro s p a c hp ha hc
    refine pair_preserved hwi hw' hsh ?_ ha hc
    rw [levelIds_insertOrder hw o1 s p]
    split_ifs
    · exact hp.trans (List.sublist_append_left _ _)
    · exact hp
  · intro s p hm
    have h1 := hsh s p
    have h2 := h1.subset hm
    rw [levelIds_insertOrder hw o1 s p] at h1 h2
    by_cases hc : s = o1.side_ ∧ p = o1.price_
    · rw [if_pos hc] at h1
      exact sublist_append_singleton_last h1 hm (hw.fresh_levelIds hf s p)
    · rw [if_neg hc] at h2
      exact absurd h2 (hw.fresh_levelIds hf s p)
  · intro a ha
    obtain ⟨s, p, h1⟩ := hw'.mem_levelIds ha
    have h2 := (hsh s p).subset h1
    rw [levelIds_insertOrder hw o1 s p] at h2
    split_ifs at h2
    · rcases List.mem_append.1 h2 with h3 | h3
      · exact Or.inl ((levelIds_sublist b s p).subset h3)
      · right; simpa using h3
    · exact Or.inl ((levelIds_sublist b s p).subset h2)

theorem AddOrder_queues {b : OrderBook} {o : Order} {r : Trades × OrderBook}
    (hw : b.WF) (h : b.AddOrder o = some r) :
    (∀ s p a c, List.Sublist [a, c] (b.levelIds s p) → a ∈ r.2.bookIds → c ∈ r.2.bookIds →
        List.Sublist [a, c] (r.2.levelIds s p))
      ∧ (assocFind o.orderId_ b.orders_ = none →
          ∀ s p, o.orderId_ ∈ r.2.levelIds s p → (r.2.levelIds s p).getLast? = some o.orderId_)
      ∧ (∀ a ∈ r.2.bookIds, a ∈ b.bookIds ∨ a = o.orderId_) := by
  rcases AddOrder_eq_some h with h1 | ⟨o1, hf, hp, -, hm⟩
  · rw [h1]
    refine ⟨fun s p a c hp _ _ => hp, ?_, fun a ha => Or.inl ha⟩
    intro hf s p hm
    exact absurd hm (hw.fresh_levelIds hf s p)
  · have hid := hp.id_eq
    have := insert_match_queues hw (by rw [hid]; exact hf) hm
    rw [hid] at this
    exact ⟨this.1, fun _ => this.2.1, this.2.2⟩

theorem CancelOrder_queues {b b1 : OrderBook} {id : Nat} (hw : b.WF)
    (h : b.CancelOrder id = some b1) :
    (∀ s p a c, List.Sublist [a, c] (b.levelIds s p) → a ∈ b1.bookIds → c ∈ b1.bookIds →
        List.Sublist [a, c] (b1.levelIds s p))
      ∧ (∀ a ∈ b1.bookIds, a ∈ b.bookIds) := by
  have hw1 := wf_cancel hw h
  refine ⟨fun s p a c hp ha hc => pair_preserved hw hw1 (queuesShrink_cancel hw h) hp ha hc, ?_⟩
  intro a ha
  exact ((cancel_allOrders_sublist h).map _).subset ha

theorem cancel_fresh {b b1 : OrderBook} {id : Nat} (hw : b.WF)
    (h : b.CancelOrderInternal id = some b1) : assocFind id b1.orders_ = none := by
  cases hf : assocFind id b.orders_ with
  | none =>
    unfold OrderBook.CancelOrderInternal at h
    rw [hf] at h
    simp only [Option.some.injEq] at h
    rw [← h]; exact hf
  | some o =>
    obtain ⟨-, -, -, -, -, -, ho⟩ := cancel_allOrders hf h
    rw [ho]
    exact assocFind_assocErase_self id _ hw.keysNodup

theorem ModifyOrder_queues {b : OrderBook} {m : OrderModify} {r : Trades × OrderBook}
    (hw : b.WF) (h : b.ModifyOrder m = some r) :
    (∀ s p a c, a ≠ m.orderId_ → c ≠ m.orderId_ → List.Sublist [a, c] (b.levelIds s p) →
        a ∈ r.2.bookIds → c ∈ r.2.bookIds → List.Sublist [a, c] (r.2.levelIds s p))
      ∧ (∀ s p, m.orderId_ ∈ r.2.levelIds s p →
          (r.2.levelIds s p).getLast? = some m.orderId_) := by
  rcases ModifyOrder_eq_some h with ⟨hf, h1⟩ | ⟨order, b2, hf, hc, ha⟩
  · rw [h1]
    exact ⟨fun s p a c _ _ hp _ _ => hp, fun s p hm => absurd hm (hw.fresh_levelIds hf s p)⟩
  · have hw2 := wf_cancel hw hc
    have hfresh := cancel_fresh hw hc
    obtain ⟨c1, c2⟩ := CancelOrder_queues hw hc
    have hid : (m.ToOrderPointer order.orderType_).orderId_ = m.orderId_ := rfl
    obtain ⟨a1, a2, a3⟩ := AddOrder_queues hw2 ha
    rw [hid] at a2 a3
    refine ⟨?_, a2 hfresh⟩
    intro s p a c hane hcne hp hab hcb
    have ha2 : a ∈ b2.bookIds := by
      rcases a3 a hab with h3 | h3
      · exact h3
      · exact absurd h3 hane
    have hc2 : c ∈ b2.bookIds := by
      rcases a3 c hcb with h3 | h3
      · exact h3
      · exact absurd h3 hcne
    exact a1 s p a c (c1 s p a c hp ha2 hc2) hab hcb

/-- `AddOrder` of an order that is not `FillAndKill` returns. -/
theorem AddOrder_total {b : OrderBook} (h : Reachable b) {o : Order}
    (ht : o.orderType_ ≠ OrderType.FillAndKill) : ∃ r, b.AddOrder o = some r := by
  have gated : ∀ o1 : Order, o1.orderType_ ≠ OrderType.FillAndKill →
      ∃ r, b.addGated o1 = some r := by
    intro o1 ht1
    unfold OrderBook.addGated
    split_ifs
    · exact ⟨_, rfl⟩
    · exact ⟨_, rfl⟩
    · exact MatchOrder_insert_total h ht1
  unfold OrderBook.AddOrder
  split_ifs with h1 h2 h3 h4
  · exact ⟨_, rfl⟩
  · cases hl : b.asks_.getLast? with
    | none => exact absurd (List.getLast?_eq_none_iff.1 hl) h3.2
    | some w =>
      obtain ⟨wp, wq⟩ := w
      simp only [Order.ToGoodTillCancel, h2, ne_eq, not_true_eq_false, if_false,
        Option.some_bind]
      exact gated _ (by simp)
  · cases hl : b.bids_.getLast? with
    | none => exact absurd (List.getLast?_eq_none_iff.1 hl) h4.2
    | some w =>
      obtain ⟨wp, wq⟩ := w
      simp only [Order.ToGoodTillCancel, h2, ne_eq, not_true_eq_false, if_false,
        Option.some_bind]
      exact gated _ (by simp)
  · exact ⟨_, rfl⟩
  · exact gated o ht


/-! ## Further example states are reachable -/

theorem reachableValid_bookTwoBuys : ReachableValid bookTwoBuys :=
  ReachableValid.of_executeAll traceTwoBuys ReachableValid.empty (by decide) rfl

theorem reachableValid_bookErasedAggregate : ReachableValid bookErasedAggregate :=
  ReachableValid.of_executeAll traceErasedAggregate ReachableValid.empty (by decide) rfl

/-- An order of the index whose id is the last id of its level queue is the
last order of that queue. -/
theorem OrderBook.WF.last_of_lastId {b : OrderBook} (hw : b.WF) {id : Nat} {o : Order}
    (hf : assocFind id b.orders_ = some o)
    (hl : (b.levelIds o.side_ o.price_).getLast? = some id) :
    (b.levelQueue o.side_ o.price_).getLast? = some o := by
  unfold OrderBook.levelIds at hl
  rw [List.getLast?_map] at hl
  cases hq : (b.levelQueue o.side_ o.price_).getLast? with
  | none => rw [hq] at hl; simp at hl
  | some x =>
    rw [hq] at hl
    simp only [Option.map_some', Option.some.injEq] at hl
    have hx : x ∈ b.levelQueue o.side_ o.price_ := List.mem_of_getLast?_eq_some hq
    have := (hw.index id x).2 ⟨(hw.of_mem_levelQueue hx).1, hl⟩
    rw [hf] at this
    rw [Option.some.inj this]


/-! ## What `CancelOrder` changes -/

theorem levelQueue_eq_ladder (b : OrderBook) (s : Side) (p : Nat) :
    b.levelQueue s p = (assocFind p (b.ladder s)).getD [] := by
  unfold OrderBook.levelQueue OrderBook.ladder
  split_ifs <;> rfl

/-- The ladders after the cancellation of a live order. -/
theorem cancel_ladder {b b1 : OrderBook} (hw : b.WF) {id : Nat} {o : Order}
    (hf : assocFind id b.orders_ = some o) (hc : b.CancelOrderInternal id = some b1) :
    (∀ s, s ≠ o.side_ → b1.ladder s = b.ladder s)
      ∧ assocFind o.price_ (b1.ladder o.side_)
          = (if (b.levelQueue o.side_ o.price_).erase o = [] then none
             else some ((b.levelQueue o.side_ o.price_).erase o))
      ∧ (∀ p, p ≠ o.price_ → assocFind p (b1.ladder o.side_) = assocFind p (b.ladder o.side_))
      ∧ o ∈ b.levelQueue o.side_ o.price_ := by
  have hmem := (hw.index id o).1 hf
  have hin := (hw.mem_levelQueue hmem.1).1
  have hq := cancel_levelQueue hw hf hc o.side_ o.price_
  rw [if_pos ⟨rfl, rfl⟩] at hq
  unfold OrderBook.CancelOrderInternal at hc
  rw [hf] at hc
  simp only [] at hc
  by_cases hs : o.side_ = Side.Buy
  · rw [if_pos hs] at hc
    cases hx : cancelInLadder b.bids_ o.price_ id with
    | none => rw [hx] at hc; simp at hc
    | some bids =>
      rw [hx] at hc
      simp only [Option.map_some', Option.some.injEq] at hc
      obtain ⟨q1, x, q2, h1, h2, h3, h4, h5⟩ := ladder_cancel_queue hw.bidKeys hx
      have hb1 : b1.ladder o.side_ = bids := by
        rw [← hc]; unfold OrderBook.ladder; rw [if_pos hs]
      have hb0 : b.ladder o.side_ = b.bids_ := by
        unfold OrderBook.ladder; rw [if_pos hs]
      have hQ : b.levelQueue o.side_ o.price_ = q1 ++ x :: q2 := by
        rw [levelQueue_eq_ladder, hb0, h1]; rfl
      have hQ1 : b1.levelQueue o.side_ o.price_ = q1 ++ q2 := by
        rw [levelQueue_eq_ladder, hb1, h4]
        by_cases he : q1 ++ q2 = []
        · rw [if_pos he, he]; rfl
        · rw [if_neg he]; rfl
      refine ⟨?_, ?_, ?_, hin⟩
      · intro s hne
        have : ¬ s = Side.Buy := fun e => hne (e.trans hs.symm)
        rw [← hc]; unfold OrderBook.ladder; rw [if_neg this, if_neg this]
      · rw [hb1, h4, ← hq, hQ1]
      · intro p hp
        rw [hb1, hb0]; exact h5 p hp
  · rw [if_neg hs] at hc
    cases hx : cancelInLadder b.asks_ o.price_ id with
    | none => rw [hx] at hc; simp at hc
    | some asks =>
      rw [hx] at hc
      simp only [Option.map_some', Option.some.injEq] at hc
      obtain ⟨q1, x, q2, h1, h2, h3, h4, h5⟩ := ladder_cancel_queue hw.askKeys hx
      have hb1 : b1.ladder o.side_ = asks := by
        rw [← hc]; unfold OrderBook.ladder; rw [if_neg hs]
      have hb0 : b.ladder o.side_ = b.asks_ := by
        unfold OrderBook.ladder; rw [if_neg hs]
      have hQ1 : b1.levelQueue o.side_ o.price_ = q1 ++ q2 := by
        rw [levelQueue_eq_ladder, hb1, h4]
        by_cases he : q1 ++ q2 = []
        · rw [if_pos he, he]; rfl
        · rw [if_neg he]; rfl
      refine ⟨?_, ?_, ?_, hin⟩
      · intro s hne
        have : s = Side.Buy := by
          by_contra hsb
          exact hne ((Side.eq_sell_of_ne_buy hsb).trans (Side.eq_sell_of_ne_buy hs).symm)
        rw [← hc]; unfold OrderBook.ladder; rw [if_pos this, if_pos this]
      · rw [hb1, h4, ← hq, hQ1]
      · intro p hp
        rw [hb1, hb0]; exact h5 p hp

theorem remainingSum_erase {Q : List Order} {o : Order} (h : o ∈ Q) :
    remainingSum (Q.erase o) + o.remainingQuantity_ = remainingSum Q := by
  induction Q with
  | nil => simp at h
  | cons x Q ih =>
    by_cases e : x = o
    · subst e
      rw [List.erase_cons_head, remainingSum_cons]; omega
    · have hm : o ∈ Q := by
        rcases List.mem_cons.1 h with h1 | h1
        · exact absurd h1.symm e
        · exact h1
      have hne : ¬ (x == o) = true := by simpa using e
      rw [List.erase_cons_tail hne, remainingSum_cons, remainingSum_cons]
      have := ih hm
      omega

/-- The aggregate entry of a price, read off the two level queues, where the
index is the one the resting orders call for. -/
theorem levelData_eq {b : OrderBook} (hw : b.WF) (hd : DataOK b.data_ b.allOrders) (p : Nat) :
    b.levelData p
      = { askQuantity_ := remainingSum (b.levelQueue Side.Sell p),
          bidQuantity_ := remainingSum (b.levelQueue Side.Buy p),
          count_ := (b.levelQueue Side.Buy p).length + (b.levelQueue Side.Sell p).length } := by
  unfold OrderBook.levelData
  obtain ⟨h1, h2, h3⟩ := hw.levelTotals p
  rw [hd.getD p, h1, h2, h3]

theorem data_entry_iff {b : OrderBook} (hw : b.WF) (hd : DataOK b.data_ b.allOrders) (p : Nat) :
    assocFind p b.data_
      = if (b.levelQueue Side.Buy p).length + (b.levelQueue Side.Sell p).length = 0 then none
        else some (b.levelData p) := by
  have h := hd.2 p
  unfold expectedLevelData at h
  obtain ⟨h1, h2, h3⟩ := hw.levelTotals p
  rw [h1] at h
  split_ifs at h ⊢ with hc
  · exact h
  · unfold OrderBook.levelData
    rw [h]; rfl


/-! ## Adding an order that does not trade, then cancelling it -/

theorem matchLevel_prefix {fuel : Nat} {b : OrderBook} {ts : Trades} {r : Trades × OrderBook}
    (h : b.matchLevel fuel ts = some r) : ∃ new, r.1 = ts ++ new :=
  matchLevel_induct (fun _ ts' => ∃ new, ts' = ts ++ new)
    (fun _ _ _ _ _ _ _ _ _ _ _ t _ _ hP _ => by
      obtain ⟨new, e⟩ := hP
      exact ⟨new ++ [t], by rw [e, List.append_assoc]⟩)
    fuel b ts r ⟨[], by simp⟩ h

/-- The inner loop emits a trade when both best queues hold an order. -/
theorem matchLevel_emits {fuel : Nat} {b : OrderBook} {ts : Trades} {r : Trades × OrderBook}
    {bp ap : Nat} {bid ask : Order} {bids asks : List Order} {bl al : Ladder}
    (hb : b.bids_ = (bp, bid :: bids) :: bl) (ha : b.asks_ = (ap, ask :: asks) :: al)
    (h : b.matchLevel fuel ts = some r) : ∃ t new, r.1 = ts ++ t :: new := by
  unfold OrderBook.matchLevel at h
  rw [hb, ha] at h
  simp only [] at h
  cases fuel with
  | zero => simp at h
  | succ n =>
    simp only [] at h
    cases hm : b.matchFront bp bid bids bl ap ask asks al with
    | none => rw [hm] at h; simp at h
    | some x =>
      rw [hm, Option.some_bind] at h
      obtain ⟨new, e⟩ := matchLevel_prefix h
      exact ⟨x.1, new, by rw [e, List.append_assoc]; rfl⟩

theorem matchLoop_prefix {fuel : Nat} {b : OrderBook} {ts : Trades} {r : Trades × OrderBook}
    (h : b.matchLoop fuel ts = some r) : ∃ new, r.1 = ts ++ new :=
  matchLoop_induct (fun _ ts' => ∃ new, ts' = ts ++ new)
    (fun _ _ _ _ _ _ _ _ r' _ _ _ hP hm => by
      obtain ⟨new, e⟩ := hP
      obtain ⟨r1, -, h1, -, -, e1⟩ := matchPass_eq_some hm
      obtain ⟨new1, e2⟩ := matchLevel_prefix h1
      exact ⟨new ++ new1, by rw [e1, e2, e, List.append_assoc]⟩)
    fuel b ts r ⟨[], by simp⟩ h

/-- When `MatchOrder` returns no trade it has left the book as it was. -/
theorem MatchOrder_no_trades {b b1 : OrderBook} (hne : b.NoEmptyLevels)
    (h : b.MatchOrder = some ([], b1)) : b1 = b := by
  unfold OrderBook.MatchOrder at h
  cases hb : b.bids_ with
  | nil =>
    rw [matchLoop_succ_uncrossed (by unfold OrderBook.HeadUncrossed; rw [hb]; trivial)] at h
    simp only [Option.some.injEq, Prod.mk.injEq, true_and] at h
    exact h.symm
  | cons x bl =>
    obtain ⟨bp, bq⟩ := x
    cases ha : b.asks_ with
    | nil =>
      rw [matchLoop_succ_uncrossed (by unfold OrderBook.HeadUncrossed; rw [hb, ha]; trivial)] at h
      simp only [Option.some.injEq, Prod.mk.injEq, true_and] at h
      exact h.symm
    | cons y al =>
      obtain ⟨ap, aq⟩ := y
      by_cases hx : bp < ap
      · rw [matchLoop_succ_uncrossed (by unfold OrderBook.HeadUncrossed; rw [hb, ha]; exact hx)] at h
        simp only [Option.some.injEq, Prod.mk.injEq, true_and] at h
        exact h.symm
      · exfalso
        rw [matchLoop_succ_crossed hb ha hx] at h
        cases hp : b.matchPass bp ap (bq.length + aq.length) [] with
        | none => rw [hp] at h; simp at h
        | some r' =>
          rw [hp, Option.some_bind] at h
          obtain ⟨r1, -, h1, -, -, e1⟩ := matchPass_eq_some hp
          have hbq : bq ≠ [] := hne.1 (bp, bq) (by rw [hb]; simp)
          have haq : aq ≠ [] := hne.2 (ap, aq) (by rw [ha]; simp)
          obtain ⟨bid, bids, rfl⟩ := List.exists_cons_of_ne_nil hbq
          obtain ⟨ask, asks, rfl⟩ := List.exists_cons_of_ne_nil haq
          obtain ⟨t, new, e2⟩ := matchLevel_emits hb ha h1
          obtain ⟨new', e3⟩ := matchLoop_prefix h
          rw [e1, e2] at e3
          simp at e3

theorem cancelInLadder_cons_ne {k p id : Nat} {q : List Order} {l : Ladder} (h : k ≠ p) :
    cancelInLadder ((k, q) :: l) p id = (cancelInLadder l p id).map (fun x => (k, q) :: x) := by
  unfold cancelInLadder
  rw [assocFind_cons, if_neg h]
  cases assocFind p l with
  | none => rfl
  | some orders =>
    simp only []
    cases eraseOrder id orders with
    | none => rfl
    | some orders1 =>
      simp only []
      split_ifs
      · simp [assocErase, h]
      · simp [assocReplace, h]

theorem eraseOrder_append_last {id : Nat} {q : List Order} {o : Order}
    (hq : ∀ x ∈ q, x.orderId_ ≠ id) (ho : o.orderId_ = id) :
    eraseOrder id (q ++ [o]) = some q := by
  induction q with
  | nil => simp [eraseOrder, ho]
  | cons x q ih =>
    have hx := hq x (List.mem_cons_self _ _)
    rw [List.cons_append, eraseOrder, if_neg hx, ih (fun y hy => hq y (List.mem_cons_of_mem _ hy))]
    rfl

/-- Cancelling the order that was just pushed to the back of its level gives
the ladder back. -/
theorem cancelInLadder_pushBack (before : Nat → Nat → Bool) (p : Nat) (o : Order) (l : Ladder)
    (hid : ∀ x ∈ l, ∀ y ∈ x.2, y.orderId_ ≠ o.orderId_) (hne : ladderNoEmpty l) :
    cancelInLadder (ladderPushBack before p o l) p o.orderId_ = some l := by
  induction l with
  | nil =>
    simp [ladderPushBack, cancelInLadder, eraseOrder, assocErase]
  | cons x l ih =>
    obtain ⟨k, q⟩ := x
    have hq := hid (k, q) (List.mem_cons_self _ _)
    have hqne : q ≠ [] := hne (k, q) (List.mem_cons_self _ _)
    unfold ladderPushBack
    by_cases hk : k = p
    · rw [if_pos hk]
      subst hk
      unfold cancelInLadder
      rw [assocFind_cons, if_pos rfl]
      simp only []
      rw [eraseOrder_append_last hq rfl]
      simp only []
      rw [if_neg hqne]
      simp [assocReplace]
    · rw [if_neg hk]
      by_cases hb : before p k = true
      · rw [if_pos hb]
        unfold cancelInLadder
        rw [assocFind_cons, if_pos rfl]
        simp [eraseOrder, assocErase]
      · rw [if_neg hb, cancelInLadder_cons_ne hk,
          ih (fun y hy => hid y (List.mem_cons_of_mem _ hy)) (ladderNoEmpty_tail hne)]
        rfl

theorem assocSet_of_not_mem {β : Type} {k : Nat} (v : β) {l : List (Nat × β)}
    (h : assocFind k l = none) : assocSet k v l = l ++ [(k, v)] := by
  induction l with
  | nil => rfl
  | cons x l ih =>
    obtain ⟨k', v'⟩ := x
    rw [assocFind_cons] at h
    split_ifs at h with e
    rw [assocSet, if_neg e, ih h]
    rfl

theorem assocErase_append_last {β : Type} {k : Nat} (v : β) {l : List (Nat × β)}
    (h : assocFind k l = none) : assocErase k (l ++ [(k, v)]) = l := by
  induction l with
  | nil => simp [assocErase]
  | cons x l ih =>
    obtain ⟨k', v'⟩ := x
    rw [assocFind_cons] at h
    split_ifs at h with e
    rw [List.cons_append, assocErase, if_neg e, ih h]

theorem assocSet_assocSet {β : Type} (k : Nat) (v v' : β) (l : List (Nat × β)) :
    assocSet k v (assocSet k v' l) = assocSet k v l := by
  induction l with
  | nil => simp [assocSet]
  | cons x l ih =>
    obtain ⟨k', w⟩ := x
    by_cases e : k' = k
    · simp [assocSet, e]
    · simp [assocSet, e, ih]

theorem assocSet_self {β : Type} {k : Nat} {v : β} {l : List (Nat × β)}
    (h : assocFind k l = some v) : assocSet k v l = l := by
  induction l with
  | nil => simp at h
  | cons x l ih =>
    obtain ⟨k', w⟩ := x
    rw [assocFind_cons] at h
    by_cases e : k' = k
    · rw [if_pos e] at h
      simp only [Option.some.injEq] at h
      rw [assocSet, if_pos e, h, e]
    · rw [if_neg e] at h
      rw [assocSet, if_neg e, ih h]

theorem sub32_add32 {x q : Nat} (hx : x < 2 ^ 32) : sub32 (add32 x q) q = x := by
  unfold sub32 add32
  omega


/-! ## The round trip on the aggregate index and on the book -/

theorem update_add_count (e : LevelData) (s : Side) (q : Nat) :
    (e.update s q LevelData.Action.Add).count_ = add32 e.count_ 1 := by
  unfold LevelData.update
  cases s <;> simp

theorem update_add_remove (e : LevelData) (s : Side) (q : Nat) (hc : e.count_ < 2 ^ 32)
    (hb : e.bidQuantity_ < 2 ^ 32) (ha : e.askQuantity_ < 2 ^ 32) :
    (e.update s q LevelData.Action.Add).update s q LevelData.Action.Remove = e := by
  unfold LevelData.update
  cases s
  · simp only [if_true, reduceCtorEq, if_false]
    rw [sub32_add32 hc, sub32_add32 hb]
  · simp only [if_true, reduceCtorEq, if_false]
    rw [sub32_add32 hc, sub32_add32 ha]

/-- `OnOrderAdded` followed by `OnOrderRemoved` for the same order gives the
aggregate index back, when the entry of the price, if there is one, holds
32-bit values and a count that is neither 0 nor `2 ^ 32 - 1`. -/
theorem data_add_remove {data : List (Nat × LevelData)} (s : Side) (p q : Nat)
    (hentry : ∀ e, assocFind p data = some e →
      e.count_ ≠ 0 ∧ e.count_ + 1 < 2 ^ 32 ∧ e.bidQuantity_ < 2 ^ 32
        ∧ e.askQuantity_ < 2 ^ 32) :
    UpdateLevelData (UpdateLevelData data s p q LevelData.Action.Add) s p q
      LevelData.Action.Remove = data := by
  cases hf : assocFind p data with
  | none =>
    have h1 : UpdateLevelData data s p q LevelData.Action.Add
        = data ++ [(p, ({} : LevelData).update s q LevelData.Action.Add)] := by
      unfold UpdateLevelData
      rw [hf]
      simp only [Option.getD_none]
      rw [if_neg (by rw [update_add_count]; decide)]
      exact assocSet_of_not_mem _ hf
    rw [h1]
    unfold UpdateLevelData
    rw [assocFind_append, hf]
    simp only [Option.orElse, assocFind_cons, if_true, Option.getD_some]
    rw [update_add_remove _ s q (by decide) (by decide) (by decide)]
    simp only [if_true]
    exact assocErase_append_last _ hf
  | some e =>
    obtain ⟨c0, c1, hb, ha⟩ := hentry e hf
    have hc1 : (e.update s q LevelData.Action.Add).count_ ≠ 0 := by
      rw [update_add_count, add32_eq c1]; omega
    have h1 : UpdateLevelData data s p q LevelData.Action.Add
        = assocSet p (e.update s q LevelData.Action.Add) data := by
      unfold UpdateLevelData
      rw [hf]
      simp only [Option.getD_some]
      rw [if_neg hc1]
    rw [h1]
    unfold UpdateLevelData
    rw [assocFind_assocSet, if_pos rfl]
    simp only [Option.getD_some]
    rw [update_add_remove e s q (by omega) hb ha, if_neg c0, assocSet_assocSet, assocSet_self hf]

theorem OrderBook.WF.fresh_ladder {b : OrderBook} (hw : b.WF) {id : Nat}
    (hf : assocFind id b.orders_ = none) :
    (∀ x ∈ b.bids_, ∀ y ∈ x.2, y.orderId_ ≠ id) ∧ (∀ x ∈ b.asks_, ∀ y ∈ x.2, y.orderId_ ≠ id) := by
  have hn := hw.not_mem_of_fresh hf
  constructor
  · intro x hx y hy e
    exact hn (List.mem_map.2 ⟨y, List.mem_append_left _ (mem_ladderOrders.2 ⟨x, hx, hy⟩), e⟩)
  · intro x hx y hy e
    exact hn (List.mem_map.2 ⟨y, List.mem_append_right _ (mem_ladderOrders.2 ⟨x, hx, hy⟩), e⟩)

/-- Cancelling the order that was just inserted gives the ladders and the
order index back; the aggregate index has gone through `OnOrderAdded` and
`OnOrderRemoved`. -/
theorem cancel_insertOrder {b : OrderBook} (hw : b.WF) (hne : b.NoEmptyLevels) {o : Order}
    (hf : assocFind o.orderId_ b.orders_ = none) :
    (b.insertOrder o).CancelOrderInternal o.orderId_
      = some { b with
          data_ := (UpdateLevelData
            (UpdateLevelData b.data_ o.side_ o.price_ o.remainingQuantity_ LevelData.Action.Add)
            o.side_ o.price_ o.remainingQuantity_ LevelData.Action.Remove) } := by
  obtain ⟨hfb, hfa⟩ := hw.fresh_ladder hf
  have hfind : assocFind o.orderId_ (b.orders_ ++ [(o.orderId_, o)]) = some o := by
    rw [assocFind_append, hf]; simp
  unfold OrderBook.CancelOrderInternal OrderBook.insertOrder
  simp only []
  rw [hfind]
  simp only [OnOrderRemoved, OnOrderAdded]
  by_cases hs : o.side_ = Side.Buy
  · rw [if_pos hs, if_pos hs, if_pos hs, cancelInLadder_pushBack _ _ _ _ hfb hne.1]
    simp only [Option.map_some', Option.some.injEq]
    rw [assocErase_append_last _ hf]
  · rw [if_neg hs, if_neg hs, if_neg hs, cancelInLadder_pushBack _ _ _ _ hfa hne.2]
    simp only [Option.map_some', Option.some.injEq]
    rw [assocErase_append_last _ hf]

/-- The entries of a consistent index that fits in 32 bits. -/
theorem DataOK.entry_bounds {data : List (Nat × LevelData)} {orders : List Order}
    (hd : DataOK data orders) (hfit : FitsIn32 orders) {p : Nat} {e : LevelData}
    (he : assocFind p data = some e) :
    e.count_ = levelCount orders p ∧ e.count_ ≠ 0 ∧ e.bidQuantity_ < 2 ^ 32
      ∧ e.askQuantity_ < 2 ^ 32 := by
  have h := hd.2 p
  rw [he] at h
  unfold expectedLevelData at h
  split_ifs at h with hc
  simp only [Option.some.injEq] at h
  obtain ⟨f1, f2, f3⟩ := hfit p
  rw [h]
  exact ⟨rfl, hc, f2, f3⟩


/-! ## The snapshot `GetOrderInfos` -/

theorem foldl_add32 (l : List Order) : ∀ a : Nat, a < 2 ^ 32 →
    l.foldl (fun runningSum order => add32 runningSum order.remainingQuantity_) a
      = (a + remainingSum l) % 2 ^ 32 := by
  induction l with
  | nil =>
    intro a ha
    simp only [List.foldl_nil, remainingSum_nil, Nat.add_zero]
    omega
  | cons x l ih =>
    intro a ha
    have hlt : add32 a x.remainingQuantity_ < 2 ^ 32 := by unfold add32; omega
    rw [List.foldl_cons, ih _ hlt, remainingSum_cons]
    unfold add32
    omega

theorem CreateLevelInfos_eq (price : Nat) (orders : List Order) :
    CreateLevelInfos price orders = (price, remainingSum orders % 2 ^ 32) := by
  unfold CreateLevelInfos
  rw [foldl_add32 orders 0 (by decide), Nat.zero_add]

theorem OrderBook.WF.levelQueue_of_mem {b : OrderBook} (hw : b.WF) {s : Side}
    {x : Nat × List Order} (hx : x ∈ b.ladder s) : b.levelQueue s x.1 = x.2 := by
  rw [levelQueue_eq_ladder]
  have hnd : ((b.ladder s).map Prod.fst).Nodup := by
    unfold OrderBook.ladder
    split_ifs
    · exact hw.bidKeys
    · exact hw.askKeys
  rw [assocFind_of_mem hnd (show (x.1, x.2) ∈ b.ladder s from hx)]
  rfl

/-- The prices of a ladder are the prices at which an order of its side rests. -/
theorem ladder_keys_iff {b : OrderBook} (hw : b.WF) (hne : b.NoEmptyLevels) (s : Side) (p : Nat) :
    p ∈ (b.ladder s).map Prod.fst ↔ ∃ o ∈ b.allOrders, o.side_ = s ∧ o.price_ = p := by
  constructor
  · intro hp
    obtain ⟨x, hx, e⟩ := List.mem_map.1 hp
    have hq := hw.levelQueue_of_mem hx
    have hxne : x.2 ≠ [] := by
      unfold OrderBook.ladder at hx
      split_ifs at hx
      · exact hne.1 x hx
      · exact hne.2 x hx
    obtain ⟨o, q, ho⟩ := List.exists_cons_of_ne_nil hxne
    have hm : o ∈ b.levelQueue s x.1 := by rw [hq, ho]; simp
    obtain ⟨h1, h2, h3⟩ := hw.of_mem_levelQueue hm
    exact ⟨o, h1, h2, h3.trans e⟩
  · rintro ⟨o, ho, hs, hp⟩
    have hm := (hw.mem_levelQueue ho).1
    rw [hs, hp, levelQueue_eq_ladder] at hm
    cases hf : assocFind p (b.ladder s) with
    | none => rw [hf] at hm; simp at hm
    | some q => exact List.mem_map.2 ⟨(p, q), assocFind_mem hf, rfl⟩


/-! ## Claims C14 and C12 -/

/-- C14: in every reachable book state, for each call of `AddOrder`,
`CancelOrder` or `ModifyOrder` that returns: two orders (ids `a`, `c`) that
are in this order in the queue of a level before the call and are both in the
book after it (for `ModifyOrder`, other than the modified order) are in the
same order in the queue of that level afterwards; an order with a fresh id
that `AddOrder` leaves in a level, and the order that `ModifyOrder` leaves in
a level, is the last of that queue. -/
theorem arrival_order_preserved {b : OrderBook} (h : Reachable b) :
    (∀ (o : Order) (trades : Trades) (b1 : OrderBook), b.AddOrder o = some (trades, b1) →
        (∀ s p a c, List.Sublist [a, c] (b.levelIds s p) → a ∈ b1.bookIds → c ∈ b1.bookIds →
          List.Sublist [a, c] (b1.levelIds s p))
        ∧ (assocFind o.orderId_ b.orders_ = none → ∀ s p, o.orderId_ ∈ b1.levelIds s p →
            (b1.levelIds s p).getLast? = some o.orderId_))
    ∧ (∀ (orderId : Nat) (b1 : OrderBook), b.CancelOrder orderId = some b1 →
        ∀ s p a c, List.Sublist [a, c] (b.levelIds s p) → a ∈ b1.bookIds → c ∈ b1.bookIds →
          List.Sublist [a, c] (b1.levelIds s p))
    ∧ (∀ (m : OrderModify) (trades : Trades) (b1 : OrderBook),
        b.ModifyOrder m = some (trades, b1) →
        (∀ s p a c, a ≠ m.orderId_ → c ≠ m.orderId_ → List.Sublist [a, c] (b.levelIds s p) →
          a ∈ b1.bookIds → c ∈ b1.bookIds → List.Sublist [a, c] (b1.levelIds s p))
        ∧ (∀ s p, m.orderId_ ∈ b1.levelIds s p →
            (b1.levelIds s p).getLast? = some m.orderId_)) := by
  have hw := h.wf_uncrossed.1
  refine ⟨?_, ?_, ?_⟩
  · intro o trades b1 ha
    have := AddOrder_queues hw ha
    exact ⟨this.1, this.2.1⟩
  · intro orderId b1 hc
    exact (CancelOrder_queues hw hc).1
  · intro m trades b1 hm
    exact ModifyOrder_queues hw hm

theorem arrival_order_preserved_witness :
    Reachable bookTwoBuys
    ∧ ((∀ (o : Order) (trades : Trades) (b1 : OrderBook),
          bookTwoBuys.AddOrder o = some (trades, b1) →
          (∀ s p a c, List.Sublist [a, c] (bookTwoBuys.levelIds s p) → a ∈ b1.bookIds →
            c ∈ b1.bookIds → List.Sublist [a, c] (b1.levelIds s p))
          ∧ (assocFind o.orderId_ bookTwoBuys.orders_ = none →
              ∀ s p, o.orderId_ ∈ b1.levelIds s p →
              (b1.levelIds s p).getLast? = some o.orderId_))
      ∧ (∀ (orderId : Nat) (b1 : OrderBook), bookTwoBuys.CancelOrder orderId = some b1 →
          ∀ s p a c, List.Sublist [a, c] (bookTwoBuys.levelIds s p) → a ∈ b1.bookIds →
            c ∈ b1.bookIds → List.Sublist [a, c] (b1.levelIds s p))
      ∧ (∀ (m : OrderModify) (trades : Trades) (b1 : OrderBook),
          bookTwoBuys.ModifyOrder m = some (trades, b1) →
          (∀ s p a c, a ≠ m.orderId_ → c ≠ m.orderId_ →
            List.Sublist [a, c] (bookTwoBuys.levelIds s p) →
            a ∈ b1.bookIds → c ∈ b1.bookIds → List.Sublist [a, c] (b1.levelIds s p))
          ∧ (∀ s p, m.orderId_ ∈ b1.levelIds s p →
              (b1.levelIds s p).getLast? = some m.orderId_)))
    ∧ List.Sublist [1, 2] (bookTwoBuys.levelIds Side.Buy 100)
    ∧ bookTwoBuys.AddOrder (Order.create OrderType.GoodTillCancel 3 Side.Buy 100 7)
        = some ([], bookTwoBuys.insertOrder (Order.create OrderType.GoodTillCancel 3 Side.Buy 100 7))
    ∧ (bookTwoBuys.insertOrder
        (Order.create OrderType.GoodTillCancel 3 Side.Buy 100 7)).levelIds Side.Buy 100
        = [1, 2, 3] :=
  ⟨reachableValid_bookTwoBuys.reachable,
    arrival_order_preserved reachableValid_bookTwoBuys.reachable, by decide, rfl, rfl⟩

/-- C12: in every reachable book state, for a live id, `ModifyOrder` of that
id to a side, price and quantity is `CancelOrder` of the id followed by
`AddOrder` of a freshly constructed order with that id, side, price and
quantity and the type of the existing order: both return, with the same
trades and the same final state, and the id is not in the book between the
two steps. If the new order rests it is the last order of the queue of its
level. With buys 1 and 2 at 100x5, modifying 1 to the same values puts it
behind 2, and a sell 100x5 then trades against order 2. -/
theorem modify_is_cancel_then_add {b : OrderBook} (h : Reachable b) (orderId : Nat)
    (side : Side) (price quantity : Nat) (order : Order)
    (hlive : assocFind orderId b.orders_ = some order) :
    b.ModifyOrder { orderId_ := orderId, side_ := side, price_ := price, quantity_ := quantity }
        = (b.CancelOrder orderId).bind
            (fun b2 => b2.AddOrder (Order.create order.orderType_ orderId side price quantity))
    ∧ (∃ b2 trades b1, b.CancelOrder orderId = some b2 ∧ assocFind orderId b2.orders_ = none
        ∧ b2.AddOrder (Order.create order.orderType_ orderId side price quantity)
            = some (trades, b1)
        ∧ b.ModifyOrder
            { orderId_ := orderId, side_ := side, price_ := price, quantity_ := quantity }
            = some (trades, b1)
        ∧ (∀ o1, assocFind orderId b1.orders_ = some o1 →
            (b1.levelQueue o1.side_ o1.price_).getLast? = some o1))
    ∧ bookTwoBuys.ModifyOrder { orderId_ := 1, side_ := Side.Buy, price_ := 100, quantity_ := 5 }
        = some ([], bookTwoBuysModified)
    ∧ bookTwoBuysModified.levelIds Side.Buy 100 = [2, 1]
    ∧ (bookTwoBuysModified.AddOrder (Order.create OrderType.GoodTillCancel 3 Side.Sell 100 5)).map
        Prod.fst
        = some [{ bidTrade_ := { orderId_ := 2, price_ := 100, quantity_ := 5 },
                  askTrade_ := { orderId_ := 3, price_ := 100, quantity_ := 5 } }] := by
  have hw := h.wf_uncrossed.1
  have heq : b.ModifyOrder
      { orderId_ := orderId, side_ := side, price_ := price, quantity_ := quantity }
        = (b.CancelOrder orderId).bind
            (fun b2 => b2.AddOrder (Order.create order.orderType_ orderId side price quantity)) := by
    unfold OrderBook.ModifyOrder
    simp only []
    rw [hlive]
    rfl
  refine ⟨heq, ?_, rfl, rfl, rfl⟩
  obtain ⟨b2, hc⟩ := cancel_total hw orderId
  have hr2 : Reachable b2 := Reachable.cancel orderId h hc
  obtain ⟨r, ha⟩ := AddOrder_total hr2
    (o := Order.create order.orderType_ orderId side price quantity)
    (h.noFAK order ((hw.index orderId order).1 hlive).1)
  have hc' : b.CancelOrder orderId = some b2 := hc
  have hm : b.ModifyOrder
      { orderId_ := orderId, side_ := side, price_ := price, quantity_ := quantity }
        = some (r.1, r.2) := by
    rw [heq, hc', Option.some_bind, ha]
  refine ⟨b2, r.1, r.2, hc, cancel_fresh hw hc, ha, hm, ?_⟩
  intro o1 ho1
  have hw1 := (wf_ModifyOrder hw h.wf_uncrossed.2 hm).1
  have hmem := (hw1.index orderId o1).1 ho1
  have hq := (ModifyOrder_queues hw hm).2 o1.side_ o1.price_
    (List.mem_map.2 ⟨o1, (hw1.mem_levelQueue hmem.1).1, hmem.2⟩)
  exact hw1.last_of_lastId ho1 hq

theorem modify_is_cancel_then_add_witness :
    Reachable bookTwoBuys
    ∧ assocFind 1 bookTwoBuys.orders_
        = some (Order.create OrderType.GoodTillCancel 1 Side.Buy 100 5)
    ∧ (bookTwoBuys.ModifyOrder
          { orderId_ := 1, side_ := Side.Buy, price_ := 101, quantity_ := 6 }
        = (bookTwoBuys.CancelOrder 1).bind
            (fun b2 => b2.AddOrder
              (Order.create (Order.create OrderType.GoodTillCancel 1 Side.Buy 100 5).orderType_
                1 Side.Buy 101 6))
      ∧ (∃ b2 trades b1, bookTwoBuys.CancelOrder 1 = some b2 ∧ assocFind 1 b2.orders_ = none
          ∧ b2.AddOrder
              (Order.create (Order.create OrderType.GoodTillCancel 1 Side.Buy 100 5).orderType_
                1 Side.Buy 101 6) = some (trades, b1)
          ∧ bookTwoBuys.ModifyOrder
              { orderId_ := 1, side_ := Side.Buy, price_ := 101, quantity_ := 6 }
              = some (trades, b1)
          ∧ (∀ o1, assocFind 1 b1.orders_ = some o1 →
              (b1.levelQueue o1.side_ o1.price_).getLast? = some o1))
      ∧ bookTwoBuys.ModifyOrder
          { orderId_ := 1, side_ := Side.Buy, price_ := 100, quantity_ := 5 }
          = some ([], bookTwoBuysModified)
      ∧ bookTwoBuysModified.levelIds Side.Buy 100 = [2, 1]
      ∧ (bookTwoBuysModified.AddOrder
          (Order.create OrderType.GoodTillCancel 3 Side.Sell 100 5)).map Prod.fst
          = some [{ bidTrade_ := { orderId_ := 2, price_ := 100, quantity_ := 5 },
                    askTrade_ := { orderId_ := 3, price_ := 100, quantity_ := 5 } }]) :=
  ⟨reachableValid_bookTwoBuys.reachable, rfl,
    modify_is_cancel_then_add reachableValid_bookTwoBuys.reachable 1 Side.Buy 101 6
      (Order.create OrderType.GoodTillCancel 1 Side.Buy 100 5) rfl⟩


/-! ## Claims C15 and C17 -/

/-- C15: in every state reachable by calls of `AddOrder`, `CancelOrder` and
`ModifyOrder` with orders of positive quantity, every order of a ladder and
every order of the index has `0 < remaining ≤ initial`, and an order whose
remaining quantity is 0 is neither in a level of a ladder nor in `orders_`. -/
theorem remaining_quantity_bounds {b : OrderBook} (h : ReachableValid b) :
    (∀ o ∈ b.allOrders, 0 < o.remainingQuantity_ ∧ o.remainingQuantity_ ≤ o.initialQuantity_)
    ∧ (∀ id o, assocFind id b.orders_ = some o →
        0 < o.remainingQuantity_ ∧ o.remainingQuantity_ ≤ o.initialQuantity_)
    ∧ (∀ o : Order, o.remainingQuantity_ = 0 →
        o ∉ b.allOrders ∧ ∀ id, assocFind id b.orders_ ≠ some o) := by
  have hpos := h.positive
  have hw := h.reachable.wf_uncrossed.1
  have hidx : ∀ id o, assocFind id b.orders_ = some o →
      0 < o.remainingQuantity_ ∧ o.remainingQuantity_ ≤ o.initialQuantity_ :=
    fun id o hf => hpos o ((hw.index id o).1 hf).1
  refine ⟨hpos, hidx, ?_⟩
  intro o ho
  constructor
  · intro hm
    have := (hpos o hm).1
    omega
  · intro id hf
    have := (hidx id o hf).1
    omega

theorem remaining_quantity_bounds_witness :
    ReachableValid bookAfterSell
    ∧ ((∀ o ∈ bookAfterSell.allOrders,
          0 < o.remainingQuantity_ ∧ o.remainingQuantity_ ≤ o.initialQuantity_)
      ∧ (∀ id o, assocFind id bookAfterSell.orders_ = some o →
          0 < o.remainingQuantity_ ∧ o.remainingQuantity_ ≤ o.initialQuantity_)
      ∧ (∀ o : Order, o.remainingQuantity_ = 0 →
          o ∉ bookAfterSell.allOrders ∧ ∀ id, assocFind id bookAfterSell.orders_ ≠ some o))
    ∧ assocFind 3 bookAfterSell.orders_ = none
    ∧ assocFind 1 bookAfterSell.orders_
        = some { Order.create OrderType.GoodTillCancel 1 Side.Buy 100 10 with
                 remainingQuantity_ := 6 } :=
  ⟨ReachableValid.add OrderType.GoodTillCancel 3 Side.Sell 100 4 reachableValid_bookBidAsk
      (by decide) (rfl : bookBidAsk.AddOrder
        (Order.create OrderType.GoodTillCancel 3 Side.Sell 100 4)
          = some ([{ bidTrade_ := { orderId_ := 1, price_ := 100, quantity_ := 4 },
                     askTrade_ := { orderId_ := 3, price_ := 100, quantity_ := 4 } }],
                  bookAfterSell)),
    remaining_quantity_bounds
      (ReachableValid.add OrderType.GoodTillCancel 3 Side.Sell 100 4 reachableValid_bookBidAsk
        (by decide) (rfl : bookBidAsk.AddOrder
          (Order.create OrderType.GoodTillCancel 3 Side.Sell 100 4)
            = some ([{ bidTrade_ := { orderId_ := 1, price_ := 100, quantity_ := 4 },
                       askTrade_ := { orderId_ := 3, price_ := 100, quantity_ := 4 } }],
                    bookAfterSell))),
    rfl, rfl⟩

/-- C17: for every order and every `q`, `Fill(q)` throws exactly when `q` is
above the remaining quantity, and then the order is unchanged; otherwise it
returns, the remaining quantity is lower by exactly `q`, no other field
changes, and the filled quantity `initial - remaining` (of an order with
`remaining ≤ initial`) is higher by `q`. `ToGoodTillCancel(p)` throws exactly
when the type is not `Market`, and then the order is unchanged; otherwise it
returns, the price is `p`, the type is `GoodTillCancel` and no other field
changes. -/
theorem order_mutation_contract (o : Order) (q p : Nat) :
    (o.Fill q = none ↔ q > o.remainingQuantity_)
    ∧ (q > o.remainingQuantity_ → o.afterFill q = o)
    ∧ (q ≤ o.remainingQuantity_ →
        o.Fill q = some (o.afterFill q)
        ∧ o.afterFill q = { o with remainingQuantity_ := o.remainingQuantity_ - q }
        ∧ (o.afterFill q).remainingQuantity_ + q = o.remainingQuantity_
        ∧ (o.remainingQuantity_ ≤ o.initialQuantity_ →
            (o.afterFill q).GetFilledQuantity = o.GetFilledQuantity + q))
    ∧ (o.ToGoodTillCancel p = none ↔ o.orderType_ ≠ OrderType.Market)
    ∧ (o.orderType_ ≠ OrderType.Market → o.afterToGoodTillCancel p = o)
    ∧ (o.orderType_ = OrderType.Market →
        o.ToGoodTillCancel p = some (o.afterToGoodTillCancel p)
        ∧ o.afterToGoodTillCancel p
            = { o with price_ := p, orderType_ := OrderType.GoodTillCancel }) := by
  refine ⟨?_, ?_, ?_, ?_, ?_, ?_⟩
  · unfold Order.Fill
    split_ifs with h
    · simp [h]
    · simp [h]
  · intro h
    unfold Order.afterFill
    rw [if_pos h]
  · intro h
    have hn : ¬ q > o.remainingQuantity_ := by omega
    unfold Order.Fill Order.afterFill Order.GetFilledQuantity
    rw [if_neg hn, if_neg hn]
    refine ⟨rfl, rfl, ?_, ?_⟩
    · show o.remainingQuantity_ - q + q = o.remainingQuantity_
      omega
    · intro hle
      show o.initialQuantity_ - (o.remainingQuantity_ - q)
        = o.initialQuantity_ - o.remainingQuantity_ + q
      omega
  · unfold Order.ToGoodTillCancel
    split_ifs with h
    · simp [h]
    · simp only [ne_eq, not_not] at h
      simp [h]
  · intro h
    unfold Order.afterToGoodTillCancel
    rw [if_pos h]
  · intro h
    have hn : ¬ (o.orderType_ ≠ OrderType.Market) := by simp [h]
    unfold Order.ToGoodTillCancel Order.afterToGoodTillCancel
    rw [if_neg hn, if_neg hn]
    exact ⟨rfl, rfl⟩

theorem order_mutation_contract_witness :
    (Order.create OrderType.Market 1 Side.Buy 0 10).afterFill 11
        = Order.create OrderType.Market 1 Side.Buy 0 10
    ∧ (Order.create OrderType.Market 1 Side.Buy 0 10).Fill 4
        = some { Order.create OrderType.Market 1 Side.Buy 0 10 with remainingQuantity_ := 6 }
    ∧ (Order.create OrderType.GoodForDay 2 Side.Sell 100 10).afterToGoodTillCancel 105
        = Order.create OrderType.GoodForDay 2 Side.Sell 100 10
    ∧ (Order.create OrderType.Market 1 Side.Buy 0 10).ToGoodTillCancel 105
        = some (Order.create OrderType.GoodTillCancel 1 Side.Buy 105 10) :=
  ⟨(order_mutation_contract (Order.create OrderType.Market 1 Side.Buy 0 10) 11 0).2.1
      (by decide),
    ((order_mutation_contract (Order.create OrderType.Market 1 Side.Buy 0 10) 4 0).2.2.1
      (by decide)).1,
    (order_mutation_contract (Order.create OrderType.GoodForDay 2 Side.Sell 100 10) 0 105).2.2.2.2.1
      (by decide),
    ((order_mutation_contract (Order.create OrderType.Market 1 Side.Buy 0 10) 0 105).2.2.2.2.2
      rfl).1⟩


/-! ## Claim C13 -/

/-- C13: in every reachable book state, for a live id, `CancelOrder(id)`
returns and afterwards: the id is not in `orders_` and every other entry of
`orders_` is as before; the queue of the order's level is the previous queue
with that one order deleted, the level is in its ladder exactly when that
queue is not empty, and every other level of either ladder is as before.
Where the state was reached with positive quantities and without 32-bit
overflow of a level total, the aggregate entry at the order's price existed,
and now reads (all zero when erased) a `count_` lower by 1 and a quantity of
the order's side lower by the order's remaining quantity, the other quantity
being as before, the entry being erased exactly when `count_` was 1; every
other aggregate entry is as before. -/
theorem cancel_removes_exactly_one {b : OrderBook} (h : Reachable b) (orderId : Nat)
    (order : Order) (hlive : assocFind orderId b.orders_ = some order) :
    ∃ b1, b.CancelOrder orderId = some b1
      ∧ assocFind orderId b1.orders_ = none
      ∧ (∀ id, id ≠ orderId → assocFind id b1.orders_ = assocFind id b.orders_)
      ∧ order ∈ b.levelQueue order.side_ order.price_
      ∧ b1.levelQueue order.side_ order.price_
          = (b.levelQueue order.side_ order.price_).erase order
      ∧ (order.price_ ∈ (b1.ladder order.side_).map Prod.fst
          ↔ (b.levelQueue order.side_ order.price_).erase order ≠ [])
      ∧ (∀ p, p ≠ order.price_ →
          assocFind p (b1.ladder order.side_) = assocFind p (b.ladder order.side_))
      ∧ (∀ s, s ≠ order.side_ → b1.ladder s = b.ladder s)
      ∧ (ReachableFit b →
          (∃ e, assocFind order.price_ b.data_ = some e ∧ 1 ≤ e.count_
            ∧ order.remainingQuantity_
                ≤ (if order.side_ = Side.Buy then e.bidQuantity_ else e.askQuantity_)
            ∧ b1.levelData order.price_
                = (if order.side_ = Side.Buy then
                    { e with count_ := e.count_ - 1,
                             bidQuantity_ := e.bidQuantity_ - order.remainingQuantity_ }
                   else
                    { e with count_ := e.count_ - 1,
                             askQuantity_ := e.askQuantity_ - order.remainingQuantity_ })
            ∧ (assocFind order.price_ b1.data_ = none ↔ e.count_ = 1))
          ∧ (∀ p, p ≠ order.price_ → assocFind p b1.data_ = assocFind p b.data_)) := by
  have hw := h.wf_uncrossed.1
  obtain ⟨b1, hc⟩ := cancel_total hw orderId
  have hw1 := wf_cancel hw hc
  obtain ⟨l1, l2, l3, l4⟩ := cancel_ladder hw hlive hc
  have hq := cancel_levelQueue hw hlive hc
  have hqown := hq order.side_ order.price_
  rw [if_pos ⟨rfl, rfl⟩] at hqown
  obtain ⟨-, -, -, -, -, -, ho⟩ := cancel_allOrders hlive hc
  have hlen := List.length_erase_of_mem l4
  have hsum := remainingSum_erase l4
  have hpos : 0 < (b.levelQueue order.side_ order.price_).length := List.length_pos_of_mem l4
  refine ⟨b1, hc, cancel_fresh hw hc, ?_, l4, hqown, ?_, l3, l1, ?_⟩
  · intro id hid
    rw [ho]; exact assocFind_assocErase_ne hid _
  · rw [← not_iff_not, ← assocFind_eq_none_iff, l2]
    by_cases he : (b.levelQueue order.side_ order.price_).erase order = []
    · simp [he]
    · simp [he]
  intro hfit
  have hd := hfit.data.1
  have hd1 := (ReachableFit.cancel orderId hfit hc).data.1
  constructor
  · have e0 := data_entry_iff hw hd order.price_
    have e1 := data_entry_iff hw1 hd1 order.price_
    have v0 := levelData_eq hw hd order.price_
    have v1 := levelData_eq hw1 hd1 order.price_
    by_cases hs : order.side_ = Side.Buy
    · have hother := hq Side.Sell order.price_
      rw [if_neg (fun x => by rw [hs] at x; exact absurd x.1 (by decide))] at hother
      rw [hs] at hqown hlen hsum hpos
      rw [hqown, hother] at v1 e1
      rw [if_neg (by omega)] at e0
      refine ⟨b.levelData order.price_, e0, ?_, ?_, ?_, ?_⟩
      · rw [v0]; show 1 ≤ _ + _; omega
      · rw [if_pos hs, v0]; show _ ≤ remainingSum _; omega
      · rw [if_pos hs, v1, v0]
        simp only [LevelData.mk.injEq, true_and]
        constructor <;> omega
      · rw [e1, v0]
        simp only []
        constructor
        · intro hx
          split_ifs at hx with hz
          omega
        · intro hx
          rw [if_pos (by omega)]
    · have hss := Side.eq_sell_of_ne_buy hs
      have hother := hq Side.Buy order.price_
      rw [if_neg (fun x => hs x.1.symm)] at hother
      rw [hss] at hqown hlen hsum hpos
      rw [hqown, hother] at v1 e1
      rw [if_neg (by omega)] at e0
      refine ⟨b.levelData order.price_, e0, ?_, ?_, ?_, ?_⟩
      · rw [v0]; show 1 ≤ _ + _; omega
      · rw [if_neg hs, v0]; show _ ≤ remainingSum _; omega
      · rw [if_neg hs, v1, v0]
        simp only [LevelData.mk.injEq, true_and]
        constructor <;> omega
      · rw [e1, v0]
        simp only []
        constructor
        · intro hx
          split_ifs at hx with hz
          omega
        · intro hx
          rw [if_pos (by omega)]
  · intro p hp
    have e0 := data_entry_iff hw hd p
    have e1 := data_entry_iff hw1 hd1 p
    have v0 := levelData_eq hw hd p
    have v1 := levelData_eq hw1 hd1 p
    have hb := hq Side.Buy p
    have hs := hq Side.Sell p
    rw [if_neg (fun x => hp x.2)] at hb hs
    rw [hb, hs] at e1 v1
    rw [e0, e1, v0, v1]

theorem cancel_removes_exactly_one_witness :
    Reachable bookBidAsk
    ∧ assocFind 1 bookBidAsk.orders_
        = some (Order.create OrderType.GoodTillCancel 1 Side.Buy 100 10)
    ∧ ReachableFit bookBidAsk
    ∧ bookBidAsk.CancelOrder 1
        = some { data_ := [(105, { askQuantity_ := 5, bidQuantity_ := 0, count_ := 1 })],
                 bids_ := [],
                 asks_ := [(105, [Order.create OrderType.GoodTillCancel 2 Side.Sell 105 5])],
                 orders_ := [(2, Order.create OrderType.GoodTillCancel 2 Side.Sell 105 5)] }
    ∧ ∃ b1, bookBidAsk.CancelOrder 1 = some b1
      ∧ assocFind 1 b1.orders_ = none
      ∧ (∀ id, id ≠ 1 → assocFind id b1.orders_ = assocFind id bookBidAsk.orders_)
      ∧ b1.levelQueue Side.Buy 100
          = (bookBidAsk.levelQueue Side.Buy 100).erase
              (Order.create OrderType.GoodTillCancel 1 Side.Buy 100 10)
      ∧ (∀ s, s ≠ Side.Buy → b1.ladder s = bookBidAsk.ladder s)
      ∧ (∀ p, p ≠ 100 → assocFind p b1.data_ = assocFind p bookBidAsk.data_) :=
  ⟨reachableValid_bookBidAsk.reachable, rfl, reachableFit_bookBidAsk, rfl,
    (cancel_removes_exactly_one reachableValid_bookBidAsk.reachable 1
      (Order.create OrderType.GoodTillCancel 1 Side.Buy 100 10) rfl).imp
      (fun _ hb1 => ⟨hb1.1, hb1.2.1, hb1.2.2.1, hb1.2.2.2.2.1, hb1.2.2.2.2.2.2.2.1,
        (hb1.2.2.2.2.2.2.2.2 reachableFit_bookBidAsk).2⟩)⟩

/-- C13, as stated for every reachable state, fails: after
`A S GoodForDay 100 2147483648 1`, `A S GoodForDay 100 2147483653 2` and
`A B GoodTillCancel 100 5 3` the two asks rest at 100 and the aggregate index
has no entry at 100; `C 1` then leaves an entry at 100 with `count_`
4294967295 and `askQuantity_` 2147483653. -/
theorem cancel_creates_aggregate_entry :
    ({} : OrderBook).executeAll traceErasedAggregate = some bookErasedAggregate
    ∧ ReachableValid bookErasedAggregate
    ∧ assocFind 1 bookErasedAggregate.orders_
        = some { Order.create OrderType.GoodForDay 1 Side.Sell 100 2147483648 with
                 remainingQuantity_ := 2147483643 }
    ∧ assocFind 100 bookErasedAggregate.data_ = none
    ∧ (bookErasedAggregate.CancelOrder 1).map (fun b1 => b1.data_)
        = some [(100, { askQuantity_ := 2147483653, bidQuantity_ := 0, count_ := 4294967295 })] :=
  ⟨rfl, reachableValid_bookErasedAggregate, rfl, rfl, rfl⟩


/-! ## Claim C11 -/

/-- C11: in every reachable book state, for an order `o` with a fresh id for
which `AddOrder(o)` returns no trade, `CancelOrder(o.id)` after that
`AddOrder` returns and leaves `bids_`, `asks_` and `orders_` exactly as they
were before the `AddOrder`; it leaves `data_` exactly as it was too where the
state was reached with positive quantities and without 32-bit overflow of a
level total and no level holds `2 ^ 32 - 1` orders. -/
theorem add_cancel_round_trip {b : OrderBook} (h : Reachable b) (o : Order)
    (hfresh : assocFind o.orderId_ b.orders_ = none)
    (b1 : OrderBook) (hadd : b.AddOrder o = some ([], b1)) :
    ∃ b2, b1.CancelOrder o.orderId_ = some b2 ∧ b2.bids_ = b.bids_ ∧ b2.asks_ = b.asks_
      ∧ b2.orders_ = b.orders_
      ∧ (ReachableFit b → (∀ p, levelCount b.allOrders p + 1 < 2 ^ 32) →
          b2.data_ = b.data_) := by
  have hw := h.wf_uncrossed.1
  have hne := h.noEmpty
  rcases AddOrder_eq_some hadd with h1 | ⟨o1, -, hp, -, hm⟩
  · simp only [Prod.mk.injEq, true_and] at h1
    refine ⟨b, ?_, rfl, rfl, rfl, fun _ _ => rfl⟩
    rw [h1]
    rw [CancelOrder_eq_internal]
    unfold OrderBook.CancelOrderInternal
    rw [hfresh]
  · have hid := hp.id_eq
    have hb1 := MatchOrder_no_trades (noEmpty_insertOrder hne o1) hm
    have hcancel := cancel_insertOrder hw hne (show assocFind o1.orderId_ b.orders_ = none by
      rw [hid]; exact hfresh)
    rw [hid, ← hb1] at hcancel
    refine ⟨_, hcancel, rfl, rfl, rfl, ?_⟩
    · intro hfit hroom
      obtain ⟨hd, hf32⟩ := hfit.data
      show UpdateLevelData (UpdateLevelData b.data_ o1.side_ o1.price_ o1.remainingQuantity_
        LevelData.Action.Add) o1.side_ o1.price_ o1.remainingQuantity_ LevelData.Action.Remove
          = b.data_
      apply data_add_remove
      intro e he
      obtain ⟨e1, e2, e3, e4⟩ := hd.entry_bounds hf32 he
      refine ⟨e2, ?_, e3, e4⟩
      rw [e1]; exact hroom _

theorem add_cancel_round_trip_witness :
    Reachable bookBidAsk
    ∧ assocFind (Order.create OrderType.GoodTillCancel 3 Side.Buy 99 5).orderId_
        bookBidAsk.orders_ = none
    ∧ bookBidAsk.AddOrder (Order.create OrderType.GoodTillCancel 3 Side.Buy 99 5)
        = some ([], bookBidAsk.insertOrder (Order.create OrderType.GoodTillCancel 3 Side.Buy 99 5))
    ∧ (∃ b2, (bookBidAsk.insertOrder
          (Order.create OrderType.GoodTillCancel 3 Side.Buy 99 5)).CancelOrder
          (Order.create OrderType.GoodTillCancel 3 Side.Buy 99 5).orderId_ = some b2
        ∧ b2.bids_ = bookBidAsk.bids_ ∧ b2.asks_ = bookBidAsk.asks_
        ∧ b2.orders_ = bookBidAsk.orders_
        ∧ (ReachableFit bookBidAsk → (∀ p, levelCount bookBidAsk.allOrders p + 1 < 2 ^ 32) →
            b2.data_ = bookBidAsk.data_))
    ∧ ReachableFit bookBidAsk
    ∧ (∀ p, levelCount bookBidAsk.allOrders p + 1 < 2 ^ 32)
    ∧ (bookBidAsk.insertOrder
          (Order.create OrderType.GoodTillCancel 3 Side.Buy 99 5)).CancelOrder 3
        = some bookBidAsk :=
  ⟨reachableValid_bookBidAsk.reachable, rfl, rfl,
    add_cancel_round_trip reachableValid_bookBidAsk.reachable
      (Order.create OrderType.GoodTillCancel 3 Side.Buy 99 5) rfl
      (bookBidAsk.insertOrder (Order.create OrderType.GoodTillCancel 3 Side.Buy 99 5)) rfl,
    reachableFit_bookBidAsk,
    fun p => by
      have h1 := levelCount_le_length bookBidAsk.allOrders p
      have h2 : bookBidAsk.allOrders.length = 2 := rfl
      omega,
    rfl⟩

/-- C11, as stated, fails. In the book with the bid 100x10 (id 1) and the ask
105x5 (id 2), `A S GoodTillCancel 100 4 3` trades 4 against order 1 and is
filled, so `C 3` finds nothing to cancel and order 1 stays at remaining 6.
And after the six instructions of `traceStaleAggregate`, where the aggregate
of level 100 holds `count_` 4294967295, `A S GoodTillCancel 100 1 9` returns
no trade, wraps that count to 0 and erases the entry, and `C 9` then leaves an
entry with `askQuantity_` 4294967295 where 2147483643 was. -/
theorem add_cancel_changes_book :
    ReachableValid bookBidAsk
    ∧ assocFind 3 bookBidAsk.orders_ = none
    ∧ (bookBidAsk.AddOrder (Order.create OrderType.GoodTillCancel 3 Side.Sell 100 4)).bind
        (fun r => r.2.CancelOrder 3) = some bookAfterSell
    ∧ bookAfterSell.bids_ ≠ bookBidAsk.bids_
    ∧ bookAfterSell.orders_ ≠ bookBidAsk.orders_
    ∧ bookAfterSell.data_ ≠ bookBidAsk.data_
    ∧ ReachableValid bookStaleAggregate
    ∧ assocFind 9 bookStaleAggregate.orders_ = none
    ∧ (bookStaleAggregate.AddOrder (Order.create OrderType.GoodTillCancel 9 Side.Sell 100 1)).map
        Prod.fst = some []
    ∧ ((bookStaleAggregate.AddOrder (Order.create OrderType.GoodTillCancel 9 Side.Sell 100 1)).bind
        (fun r => r.2.CancelOrder 9)).map (fun b2 => b2.data_)
        = some [(100, { askQuantity_ := 4294967295, bidQuantity_ := 0, count_ := 4294967295 })]
    ∧ bookStaleAggregate.data_
        = [(100, { askQuantity_ := 2147483643, bidQuantity_ := 0, count_ := 4294967295 })] :=
  ⟨reachableValid_bookBidAsk, rfl, rfl, by decide, by decide, by decide,
    reachableValid_bookStaleAggregate, rfl, rfl, rfl, rfl⟩


/-! ## Claim C16 -/

theorem remainingSum_pos {l : List Order} (hne : l ≠ [])
    (hpos : ∀ o ∈ l, 0 < o.remainingQuantity_) : 0 < remainingSum l := by
  obtain ⟨o, q, rfl⟩ := List.exists_cons_of_ne_nil hne
  rw [remainingSum_cons]
  have := hpos o (List.mem_cons_self _ _)
  omega

/-- The entries that `GetOrderInfos` reports for one ladder. -/
theorem snapshot_entries {b : OrderBook} (h : ReachableFit b) (s : Side)
    {e : Nat × Nat} (he : e ∈ (b.ladder s).map (fun l => CreateLevelInfos l.1 l.2)) :
    e.2 = remainingSum (b.levelQueue s e.1) ∧ 0 < e.2 := by
  have hw := h.valid.reachable.wf_uncrossed.1
  have hne := h.valid.reachable.noEmpty
  have hpos := h.valid.positive
  obtain ⟨x, hx, rfl⟩ := List.mem_map.1 he
  rw [CreateLevelInfos_eq]
  simp only []
  have hq := hw.levelQueue_of_mem hx
  rw [hq]
  have hxne : x.2 ≠ [] := by
    unfold OrderBook.ladder at hx
    split_ifs at hx
    · exact hne.1 x hx
    · exact hne.2 x hx
  have hxpos : ∀ o ∈ x.2, 0 < o.remainingQuantity_ := by
    intro o ho
    have : o ∈ b.levelQueue s x.1 := by rw [hq]; exact ho
    exact (hpos o (hw.of_mem_levelQueue this).1).1
  have hlt : remainingSum x.2 < 2 ^ 32 := by
    obtain ⟨-, f2, f3⟩ := h.data.2 x.1
    obtain ⟨-, t2, t3⟩ := hw.levelTotals x.1
    rw [← hq]
    cases s
    · rw [← t2]; exact f2
    · rw [← t3]; exact f3
  rw [Nat.mod_eq_of_lt hlt]
  exact ⟨rfl, remainingSum_pos hxne hxpos⟩

/-- C16: in every reachable book state `GetOrderInfos` returns bid entries in
strictly descending price order and ask entries in strictly ascending price
order (so at most one entry per price); a price has a bid entry exactly when a
live buy rests at it and an ask entry exactly when a live sell rests at it.
Where the state was reached with positive quantities and without 32-bit
overflow of a level total, the quantity of each entry is the sum of the
remaining quantities of the orders of that level and is greater than 0. -/
theorem level_snapshot {b : OrderBook} (h : Reachable b) :
    b.GetOrderInfos.1.Pairwise (fun x y => x.1 > y.1)
    ∧ b.GetOrderInfos.2.Pairwise (fun x y => x.1 < y.1)
    ∧ (∀ p, p ∈ b.GetOrderInfos.1.map Prod.fst
        ↔ ∃ o ∈ b.allOrders, o.side_ = Side.Buy ∧ o.price_ = p)
    ∧ (∀ p, p ∈ b.GetOrderInfos.2.map Prod.fst
        ↔ ∃ o ∈ b.allOrders, o.side_ = Side.Sell ∧ o.price_ = p)
    ∧ (ReachableFit b →
        (∀ e ∈ b.GetOrderInfos.1, e.2 = remainingSum (b.levelQueue Side.Buy e.1) ∧ 0 < e.2)
        ∧ (∀ e ∈ b.GetOrderInfos.2,
            e.2 = remainingSum (b.levelQueue Side.Sell e.1) ∧ 0 < e.2)) := by
  have hw := h.wf_uncrossed.1
  have hne := h.noEmpty
  have hb : b.ladder Side.Buy = b.bids_ := rfl
  have ha : b.ladder Side.Sell = b.asks_ := rfl
  have k1 : b.GetOrderInfos.1.map Prod.fst = b.bids_.map Prod.fst := by
    unfold OrderBook.GetOrderInfos
    simp only [List.map_map]
    apply List.map_congr_left
    intro x _
    simp [CreateLevelInfos]
  have k2 : b.GetOrderInfos.2.map Prod.fst = b.asks_.map Prod.fst := by
    unfold OrderBook.GetOrderInfos
    simp only [List.map_map]
    apply List.map_congr_left
    intro x _
    simp [CreateLevelInfos]
  refine ⟨?_, ?_, ?_, ?_, ?_⟩
  · have := (List.pairwise_map (f := Prod.fst) (R := fun x y => x > y)).2 hw.bidsSorted
    rw [← k1] at this
    exact List.pairwise_map.1 this
  · have := (List.pairwise_map (f := Prod.fst) (R := fun x y => x < y)).2 hw.asksSorted
    rw [← k2] at this
    exact List.pairwise_map.1 this
  · intro p
    rw [k1, ← hb]
    exact ladder_keys_iff hw hne Side.Buy p
  · intro p
    rw [k2, ← ha]
    exact ladder_keys_iff hw hne Side.Sell p
  · intro hfit
    exact ⟨fun e he => snapshot_entries hfit Side.Buy he,
      fun e he => snapshot_entries hfit Side.Sell he⟩

theorem level_snapshot_witness :
    Reachable bookBidAsk
    ∧ (bookBidAsk.GetOrderInfos.1.Pairwise (fun x y => x.1 > y.1)
      ∧ bookBidAsk.GetOrderInfos.2.Pairwise (fun x y => x.1 < y.1)
      ∧ (∀ p, p ∈ bookBidAsk.GetOrderInfos.1.map Prod.fst
          ↔ ∃ o ∈ bookBidAsk.allOrders, o.side_ = Side.Buy ∧ o.price_ = p)
      ∧ (∀ p, p ∈ bookBidAsk.GetOrderInfos.2.map Prod.fst
          ↔ ∃ o ∈ bookBidAsk.allOrders, o.side_ = Side.Sell ∧ o.price_ = p)
      ∧ (ReachableFit bookBidAsk →
          (∀ e ∈ bookBidAsk.GetOrderInfos.1,
            e.2 = remainingSum (bookBidAsk.levelQueue Side.Buy e.1) ∧ 0 < e.2)
          ∧ (∀ e ∈ bookBidAsk.GetOrderInfos.2,
              e.2 = remainingSum (bookBidAsk.levelQueue Side.Sell e.1) ∧ 0 < e.2)))
    ∧ ReachableFit bookBidAsk
    ∧ bookBidAsk.GetOrderInfos = ([(100, 10)], [(105, 5)]) :=
  ⟨reachableValid_bookBidAsk.reachable, level_snapshot reachableValid_bookBidAsk.reachable,
    reachableFit_bookBidAsk, rfl⟩

/-- C16, as stated for every reachable state, fails: after
`A S GoodTillCancel 100 2147483648 1` and `A S GoodTillCancel 100 2147483648 2`
the level at 100 holds 4294967296 units and `GetOrderInfos` reports the ask
entry `(100, 0)`. -/
theorem snapshot_quantity_wraps :
    ({} : OrderBook).executeAll traceTwoLargeAsks = some bookTwoLargeAsks
    ∧ ReachableValid bookTwoLargeAsks
    ∧ bookTwoLargeAsks.GetOrderInfos = ([], [(100, 0)])
    ∧ remainingSum (bookTwoLargeAsks.levelQueue Side.Sell 100) = 4294967296 :=
  ⟨rfl, reachableValid_bookTwoLargeAsks, rfl, rfl⟩


/-! ## The batch cancel `CancelOrders` and the day-expiry step -/

theorem erase_eq_filter {l : List Order} {o : Order} (hnd : (l.map Order.orderId_).Nodup)
    (ho : o ∈ l) : l.erase o = l.filter (fun x => decide (x.orderId_ ≠ o.orderId_)) := by
  induction l with
  | nil => simp at ho
  | cons x l ih =>
    rw [List.map_cons, List.nodup_cons] at hnd
    by_cases e : x = o
    · subst e
      rw [List.erase_cons_head, List.filter_cons]
      simp only [ne_eq, not_true_eq_false, decide_False, Bool.false_eq_true, if_false]
      symm
      rw [List.filter_eq_self]
      intro y hy
      have : y.orderId_ ≠ x.orderId_ := fun e => hnd.1 (List.mem_map.2 ⟨y, hy, e⟩)
      simpa using this
    · have hm : o ∈ l := by
        rcases List.mem_cons.1 ho with h1 | h1
        · exact absurd h1.symm e
        · exact h1
      have hne : ¬ (x == o) = true := by simpa using e
      have hid : x.orderId_ ≠ o.orderId_ := fun e2 => hnd.1 (List.mem_map.2 ⟨o, hm, e2.symm⟩)
      rw [List.erase_cons_tail hne, List.filter_cons, ih hnd.2 hm]
      simp [hid]

/-- After `CancelOrderInternal(id)` every level queue is the previous queue
without the order of that id. -/
theorem cancel_levelQueue_filter {b b1 : OrderBook} (hw : b.WF) {id : Nat}
    (hc : b.CancelOrderInternal id = some b1) (s : Side) (p : Nat) :
    b1.levelQueue s p = (b.levelQueue s p).filter (fun x => decide (x.orderId_ ≠ id)) := by
  cases hf : assocFind id b.orders_ with
  | none =>
    unfold OrderBook.CancelOrderInternal at hc
    rw [hf] at hc
    simp only [Option.some.injEq] at hc
    rw [← hc]
    symm
    rw [List.filter_eq_self]
    intro y hy
    have := hw.fresh_levelIds hf s p
    have hne : y.orderId_ ≠ id := fun e => this (List.mem_map.2 ⟨y, hy, e⟩)
    simpa using hne
  | some o =>
    have hid := ((hw.index id o).1 hf).2
    rw [cancel_levelQueue hw hf hc s p]
    by_cases hown : s = o.side_ ∧ p = o.price_
    · rw [if_pos hown, hown.1, hown.2, ← hid]
      exact erase_eq_filter (hw.levelIds_nodup o.side_ o.price_)
        (hw.mem_levelQueue ((hw.index id o).1 hf).1).1
    · rw [if_neg hown]
      symm
      rw [List.filter_eq_self]
      intro y hy
      have hne : y.orderId_ ≠ id := by
        intro e
        obtain ⟨y1, y2, y3⟩ := hw.of_mem_levelQueue hy
        have := (hw.index id y).2 ⟨y1, e⟩
        rw [hf] at this
        have hyo : o = y := Option.some.inj this
        exact hown ⟨by rw [hyo, y2], by rw [hyo, y3]⟩
      simpa using hne

/-- `CancelOrders` returns, and afterwards every level queue is the previous
queue without the orders of the listed ids. -/
theorem CancelOrders_queues : ∀ (ids : List Nat) {b : OrderBook}, b.WF →
    ∃ b1, b.CancelOrders ids = some b1 ∧ b1.WF
      ∧ ∀ s p, b1.levelQueue s p
          = (b.levelQueue s p).filter (fun x => decide (x.orderId_ ∉ ids)) := by
  intro ids
  induction ids with
  | nil =>
    intro b hw
    refine ⟨b, rfl, hw, fun s p => ?_⟩
    simp
  | cons id rest ih =>
    intro b hw
    obtain ⟨b', hc⟩ := cancel_total hw id
    obtain ⟨b1, h1, hw1, hq⟩ := ih (wf_cancel hw hc)
    refine ⟨b1, ?_, hw1, fun s p => ?_⟩
    · unfold OrderBook.CancelOrders
      rw [hc, Option.some_bind]
      exact h1
    · rw [hq s p, cancel_levelQueue_filter hw hc s p, List.filter_filter]
      apply List.filter_congr
      intro x _
      by_cases e : x.orderId_ = id
      · simp [e]
      · simp [e]

theorem reachable_CancelOrders : ∀ (ids : List Nat) {b b1 : OrderBook}, Reachable b →
    b.CancelOrders ids = some b1 → Reachable b1 := by
  intro ids
  induction ids with
  | nil =>
    intro b b1 h hc
    simp only [OrderBook.CancelOrders, Option.some.injEq] at hc
    rw [← hc]; exact h
  | cons id rest ih =>
    intro b b1 h hc
    unfold OrderBook.CancelOrders at hc
    cases hx : b.CancelOrderInternal id with
    | none => rw [hx] at hc; simp at hc
    | some b' =>
      rw [hx, Option.some_bind] at hc
      exact ih (Reachable.cancel id h hx) hc

theorem reachableFit_CancelOrders : ∀ (ids : List Nat) {b b1 : OrderBook}, ReachableFit b →
    b.CancelOrders ids = some b1 → ReachableFit b1 := by
  intro ids
  induction ids with
  | nil =>
    intro b b1 h hc
    simp only [OrderBook.CancelOrders, Option.some.injEq] at hc
    rw [← hc]; exact h
  | cons id rest ih =>
    intro b b1 h hc
    unfold OrderBook.CancelOrders at hc
    cases hx : b.CancelOrderInternal id with
    | none => rw [hx] at hc; simp at hc
    | some b' =>
      rw [hx, Option.some_bind] at hc
      exact ih (ReachableFit.cancel id h hx) hc

/-- The ids that the day-expiry step collects are those of the resting orders
of type `GoodForDay`. -/
theorem mem_goodForDayIds {b : OrderBook} (hw : b.WF) {o : Order} (ho : o ∈ b.allOrders) :
    o.orderId_ ∈ b.goodForDayIds ↔ o.orderType_ = OrderType.GoodForDay := by
  unfold OrderBook.goodForDayIds
  constructor
  · intro hm
    obtain ⟨e, he, hid⟩ := List.mem_map.1 hm
    rw [List.mem_filter] at he
    obtain ⟨e1, e2⟩ := hw.entry he.1
    have h1 := (hw.index o.orderId_ e.2).2 ⟨e1, hid⟩
    rw [hw.find_of_mem ho] at h1
    rw [Option.some.inj h1]
    simpa using he.2
  · intro ht
    refine List.mem_map.2 ⟨(o.orderId_, o), ?_, rfl⟩
    rw [List.mem_filter]
    exact ⟨assocFind_mem (hw.find_of_mem ho), by simpa using ht⟩

theorem remainingSum_filter_split (l : List Order) (f : Order → Bool) :
    remainingSum (l.filter f) + remainingSum (l.filter (fun x => !f x)) = remainingSum l := by
  induction l with
  | nil => rfl
  | cons x l ih =>
    rw [List.filter_cons, List.filter_cons]
    cases hf : f x
    · simp only [Bool.false_eq_true, if_false, Bool.not_false, if_true, remainingSum_cons]
      omega
    · simp only [if_true, Bool.not_true, Bool.false_eq_true, if_false, remainingSum_cons]
      omega

theorem length_filter_split (l : List Order) (f : Order → Bool) :
    (l.filter f).length + (l.filter (fun x => !f x)).length = l.length := by
  induction l with
  | nil => rfl
  | cons x l ih =>
    rw [List.filter_cons, List.filter_cons]
    cases hf : f x
    · simp only [Bool.false_eq_true, if_false, Bool.not_false, if_true, List.length_cons]
      omega
    · simp only [if_true, Bool.not_true, Bool.false_eq_true, if_false, List.length_cons]
      omega


/-! ## Claim C18 -/

/-- C18: in every reachable book state the day-expiry step (the ids of the
entries of `orders_` of type `GoodForDay` are collected and passed to
`CancelOrders`) returns, and afterwards no order of a ladder or of `orders_`
has type `GoodForDay`; every level queue is the previous queue without its
`GoodForDay` orders, so every order of another type is still in its level,
with the same remaining quantity and the same place relative to the others,
and is still indexed under its id. Where the state was reached with positive
quantities and without 32-bit overflow of a level total, the aggregate entry
of every price (all zero when there is none) has lost exactly the number and
the remaining quantities, per side, of the `GoodForDay` orders of that price,
and there is no entry exactly when no order is left at that price. -/
theorem day_expiry_step {b : OrderBook} (h : Reachable b) :
    ∃ b1, b.pruneStep = some b1
      ∧ (∀ o ∈ b1.allOrders, o.orderType_ ≠ OrderType.GoodForDay)
      ∧ (∀ id o, assocFind id b1.orders_ = some o → o.orderType_ ≠ OrderType.GoodForDay)
      ∧ (∀ s p, b1.levelQueue s p
          = (b.levelQueue s p).filter (fun o => decide (o.orderType_ ≠ OrderType.GoodForDay)))
      ∧ (∀ id o, o.orderType_ ≠ OrderType.GoodForDay → assocFind id b.orders_ = some o →
          assocFind id b1.orders_ = some o)
      ∧ (ReachableFit b → ∀ p,
          (b1.levelData p).count_
              + ((b.levelQueue Side.Buy p).filter
                  (fun o => decide (o.orderType_ = OrderType.GoodForDay))).length
              + ((b.levelQueue Side.Sell p).filter
                  (fun o => decide (o.orderType_ = OrderType.GoodForDay))).length
            = (b.levelData p).count_
          ∧ (b1.levelData p).bidQuantity_
              + remainingSum ((b.levelQueue Side.Buy p).filter
                  (fun o => decide (o.orderType_ = OrderType.GoodForDay)))
            = (b.levelData p).bidQuantity_
          ∧ (b1.levelData p).askQuantity_
              + remainingSum ((b.levelQueue Side.Sell p).filter
                  (fun o => decide (o.orderType_ = OrderType.GoodForDay)))
            = (b.levelData p).askQuantity_
          ∧ (assocFind p b1.data_ = none ↔ (b1.levelData p).count_ = 0)) := by
  have hw := h.wf_uncrossed.1
  obtain ⟨b1, hc, hw1, hq⟩ := CancelOrders_queues b.goodForDayIds hw
  have hq' : ∀ s p, b1.levelQueue s p
      = (b.levelQueue s p).filter (fun o => decide (o.orderType_ ≠ OrderType.GoodForDay)) := by
    intro s p
    rw [hq s p]
    apply List.filter_congr
    intro x hx
    have := mem_goodForDayIds hw (hw.of_mem_levelQueue hx).1
    by_cases ht : x.orderType_ = OrderType.GoodForDay
    · simp [ht, this.2 ht]
    · have hn : x.orderId_ ∉ b.goodForDayIds := fun hm => ht (this.1 hm)
      simp [ht, hn]
  have hall : ∀ o ∈ b1.allOrders, o.orderType_ ≠ OrderType.GoodForDay := by
    intro o ho
    have hm := (hw1.mem_levelQueue ho).1
    rw [hq', List.mem_filter] at hm
    simpa using hm.2
  refine ⟨b1, hc, hall, ?_, hq', ?_, ?_⟩
  · intro id o hf
    exact hall o ((hw1.index id o).1 hf).1
  · intro id o ht hf
    obtain ⟨ho, hid⟩ := (hw.index id o).1 hf
    have hm := (hw.mem_levelQueue ho).1
    have hm1 : o ∈ b1.levelQueue o.side_ o.price_ := by
      rw [hq', List.mem_filter]
      exact ⟨hm, by simpa using ht⟩
    exact (hw1.index id o).2 ⟨(hw1.of_mem_levelQueue hm1).1, hid⟩
  · intro hfit p
    have hd := hfit.data.1
    have hd1 := (reachableFit_CancelOrders b.goodForDayIds hfit hc).data.1
    have v0 := levelData_eq hw hd p
    have v1 := levelData_eq hw1 hd1 p
    have e1 := data_entry_iff hw1 hd1 p
    have key : ∀ Q : List Order,
        Q.filter (fun x => !decide (x.orderType_ ≠ OrderType.GoodForDay))
          = Q.filter (fun o => decide (o.orderType_ = OrderType.GoodForDay)) := by
      intro Q
      apply List.filter_congr
      intro x _
      by_cases ht : x.orderType_ = OrderType.GoodForDay <;> simp [ht]
    have sb := remainingSum_filter_split (b.levelQueue Side.Buy p)
      (fun o => decide (o.orderType_ ≠ OrderType.GoodForDay))
    have ss := remainingSum_filter_split (b.levelQueue Side.Sell p)
      (fun o => decide (o.orderType_ ≠ OrderType.GoodForDay))
    have lb := length_filter_split (b.levelQueue Side.Buy p)
      (fun o => decide (o.orderType_ ≠ OrderType.GoodForDay))
    have ls := length_filter_split (b.levelQueue Side.Sell p)
      (fun o => decide (o.orderType_ ≠ OrderType.GoodForDay))
    rw [key] at sb ss lb ls
    rw [hq' Side.Buy p, hq' Side.Sell p] at v1 e1
    rw [v0, v1]
    refine ⟨?_, ?_, ?_, ?_⟩
    · dsimp only; omega
    · dsimp only; omega
    · dsimp only; omega
    · rw [e1]
      simp only []
      constructor
      · intro hx
        split_ifs at hx with hz
        exact hz
      · intro hx
        rw [if_pos hx]

theorem day_expiry_step_witness :
    Reachable bookBidAsk ∧ ReachableFit bookBidAsk
    ∧ bookBidAsk.pruneStep = some bookBidAsk
    ∧ ∃ b1, bookBidAsk.pruneStep = some b1
      ∧ (∀ o ∈ b1.allOrders, o.orderType_ ≠ OrderType.GoodForDay)
      ∧ (∀ s p, b1.levelQueue s p
          = (bookBidAsk.levelQueue s p).filter
              (fun o => decide (o.orderType_ ≠ OrderType.GoodForDay)))
      ∧ (∀ p, assocFind p b1.data_ = none ↔ (b1.levelData p).count_ = 0) :=
  ⟨reachableValid_bookBidAsk.reachable, reachableFit_bookBidAsk, rfl,
    (day_expiry_step reachableValid_bookBidAsk.reachable).imp
      (fun _ hb1 => ⟨hb1.1, hb1.2.1, hb1.2.2.2.1,
        fun p => (hb1.2.2.2.2.2 reachableFit_bookBidAsk p).2.2.2⟩)⟩

/-- C18, as stated for every reachable state, fails: after
`A S GoodForDay 100 2147483648 1`, `A S GoodForDay 100 2147483653 2` and
`A B GoodTillCancel 100 5 3` the two `GoodForDay` asks rest at 100 and the
aggregate index is empty; the day-expiry step cancels both and leaves an
aggregate entry at 100 with `count_` 4294967294. -/
theorem day_expiry_grows_aggregate :
    ({} : OrderBook).executeAll traceErasedAggregate = some bookErasedAggregate
    ∧ ReachableValid bookErasedAggregate
    ∧ bookErasedAggregate.data_ = []
    ∧ bookErasedAggregate.goodForDayIds = [1, 2]
    ∧ bookErasedAggregate.pruneStep
        = some { data_ := [(100, { askQuantity_ := 0, bidQuantity_ := 0,
                                   count_ := 4294967294 })],
                 bids_ := [], asks_ := [], orders_ := [] } :=
  ⟨rfl, reachableValid_bookErasedAggregate, rfl, rfl, rfl⟩


/-! ## Claim C19 -/

theorem reachableValid_bookOneAsk : ReachableValid bookOneAsk :=
  ReachableValid.add (b := {}) OrderType.GoodTillCancel 1 Side.Sell 100 3
    ReachableValid.empty (by decide) rfl

/-- C19 fails in the code: `AddOrder` takes `ordersMutex_` a second time while
it holds it. On the book with the one ask 100x3, `A B FillAndKill 100 10 2`
crosses, is inserted and trades 3 with order 1; `MatchOrder` then finds order
2, with 7 left, at the front of the best bid level and cancels it through the
public `CancelOrder`, whose `scoped_lock` is constructed by the thread that
owns the mutex since the top of `AddOrder`: that lock does not return, and
neither does `AddOrder`. `CancelOrderInternal`, which `CancelOrders` calls
under its lock, would have removed the order and left the empty book. -/
theorem match_order_locks_held_mutex :
    ReachableValid bookOneAsk
    ∧ assocFind 2 bookOneAsk.orders_ = none
    ∧ bookOneAsk.CanMatch Side.Buy 100 = true
    ∧ ((bookOneAsk.insertOrder (Order.create OrderType.FillAndKill 2 Side.Buy 100 10)).matchLevel
          2 []).map (fun r => (r.1, r.2.afterLevel 100 100))
        = some ([{ bidTrade_ := { orderId_ := 2, price_ := 100, quantity_ := 3 },
                   askTrade_ := { orderId_ := 1, price_ := 100, quantity_ := 3 } }],
                bookFillAndKillLeft)
    ∧ bookFillAndKillLeft.cancelFillAndKill bookFillAndKillLeft.bids_
        = bookFillAndKillLeft.CancelOrderFrom true 2
    ∧ scopedLock true = none
    ∧ bookFillAndKillLeft.CancelOrderFrom true 2 = none
    ∧ bookFillAndKillLeft.CancelOrderInternal 2 = some {}
    ∧ (bookOneAsk.insertOrder (Order.create OrderType.FillAndKill 2 Side.Buy 100 10)).MatchOrder
        = none
    ∧ bookOneAsk.AddOrder (Order.create OrderType.FillAndKill 2 Side.Buy 100 10) = none :=
  ⟨reachableValid_bookOneAsk, rfl, rfl, rfl, rfl, rfl, rfl, rfl, rfl, rfl⟩


/-! ## The instruction parser: what it rejects -/

theorem ToNumber_of_fromChars_none {str : List Char} (h : fromChars str = none) :
    ToNumber str = Outcome.ok 0 := by
  unfold ToNumber
  rw [h]
  rfl

theorem ToNumber_of_negative {str : List Char} {value : Int} (h : fromChars str = some value)
    (hneg : value < 0) : ToNumber str = Outcome.thrown := by
  unfold ToNumber
  rw [h]
  simp only [Option.getD_some]
  rw [if_pos hneg]

theorem ParseSide_thrown {str : List Char} (hB : str.head? ≠ some 'B')
    (hS : str.head? ≠ some 'S') : ParseSide str = Outcome.thrown := by
  unfold ParseSide
  cases hh : str.head? with
  | none => rfl
  | some c =>
    rw [hh] at hB hS
    have h1 : c ≠ 'B' := fun h => hB (by rw [h])
    have h2 : c ≠ 'S' := fun h => hS (by rw [h])
    simp only [if_neg h1, if_neg h2]

theorem ParseOrderType_thrown {str : List Char} (h1 : str ≠ "Market".toList)
    (h2 : str ≠ "FillAndKill".toList) (h3 : str ≠ "FillOrKill".toList)
    (h4 : str ≠ "GoodForDay".toList) (h5 : str ≠ "GoodTillCancel".toList) :
    ParseOrderType str = Outcome.thrown := by
  unfold ParseOrderType
  rw [if_neg h1, if_neg h2, if_neg h3, if_neg h4, if_neg h5]

theorem TryParseInformation_unknown_action {str : List Char} {action : Char}
    (h : str.head? = some action) (hA : action ≠ 'A') (hM : action ≠ 'M')
    (hC : action ≠ 'C') : TryParseInformation str = Outcome.ok none := by
  unfold TryParseInformation
  rw [h]
  simp only [if_neg hA, if_neg hM, if_neg hC]

theorem getInformationsLoop_unknown_action {line : List Char} {action : Char}
    (h : line.head? = some action) (hA : action ≠ 'A') (hM : action ≠ 'M')
    (hC : action ≠ 'C') (hR : action ≠ 'R') (rest : List (List Char))
    (informations : List Information) :
    getInformationsLoop (line :: rest) informations = Outcome.thrown := by
  have hne : line ≠ [] := by
    intro hl
    rw [hl] at h
    exact Option.noConfusion h
  have hr : line.head? ≠ some 'R' := by
    rw [h]
    intro he
    exact hR (Option.some.inj he)
  unfold getInformationsLoop
  rw [if_neg hne, if_pos hr, TryParseInformation_unknown_action h hA hM hC]
  rfl


/-! ## Claim C20 -/

/-- C20 fails on the code. The file with the lines `A B GoodTillCancel abc 10 1`
and `R 1 1 0` is parsed without an error into the instruction to add a buy at
price 0, and that instruction is run. A price with trailing garbage (`12x`) is
read as 12 and a lone minus sign as 0. The line `A B GoodTillCancel 100 10`,
which lacks the order id, reads `values[5]` past the end of the vector. A
negative number, an unknown order type, an unknown side and an unknown action
character do throw. -/
theorem malformed_numeric_field_accepted :
    GetInformationsAndResult ["A B GoodTillCancel abc 10 1".toList, "R 1 1 0".toList]
        = Outcome.ok ([Information.add Side.Buy OrderType.GoodTillCancel 0 10 1],
            { allCount_ := 1, bidCount_ := 1, askCount_ := 0 })
    ∧ ((OrderBook.executeAll {}
          [Information.add Side.Buy OrderType.GoodTillCancel 0 10 1]).map
            fun b => b.levelIds Side.Buy 0) = some [1]
    ∧ TryParseInformation "A B GoodTillCancel 12x 10 1".toList
        = Outcome.ok (some (Information.add Side.Buy OrderType.GoodTillCancel 12 10 1))
    ∧ TryParseInformation "A B GoodTillCancel - 10 1".toList
        = Outcome.ok (some (Information.add Side.Buy OrderType.GoodTillCancel 0 10 1))
    ∧ TryParseInformation "A B GoodTillCancel 100 10".toList = Outcome.undefined
    ∧ TryParseInformation "A B GoodTillCancel -5 10 1".toList = Outcome.thrown
    ∧ TryParseInformation "A B Limit 100 10 1".toList = Outcome.thrown
    ∧ TryParseInformation "A X GoodTillCancel 100 10 1".toList = Outcome.thrown
    ∧ GetInformationsAndResult ["X 100 10 1".toList, "R 0 0 0".toList] = Outcome.thrown :=
  ⟨rfl, rfl, rfl, rfl, rfl, rfl, rfl, rfl, rfl⟩


/-! ## The result line -/

theorem getInformationsLoop_nil (informations : List Information) :
    getInformationsLoop [] informations = Outcome.thrown := rfl

theorem getInformationsLoop_blank (rest : List (List Char)) (informations : List Information) :
    getInformationsLoop ([] :: rest) informations = Outcome.thrown := rfl

/-- On a result line the loop returns what `TryParseResult` gives, whatever
lines follow. -/
theorem getInformationsLoop_result {line : List Char} (hne : line ≠ [])
    (hR : line.head? = some 'R') (rest rest1 : List (List Char))
    (informations : List Information) :
    getInformationsLoop (line :: rest) informations
      = getInformationsLoop (line :: rest1) informations := by
  rw [getInformationsLoop, getInformationsLoop, if_neg hne, if_neg hne,
    if_neg (not_not.2 hR), if_neg (not_not.2 hR)]

theorem getInformationsLoop_result_ok {line : List Char} (hne : line ≠ [])
    (hR : line.head? = some 'R') {rest : List (List Char)} {informations : List Information}
    {r : List Information × Result}
    (h : getInformationsLoop (line :: rest) informations = Outcome.ok r) :
    TryParseResult line = Outcome.ok (some r.2) ∧ r.1 = informations := by
  rw [getInformationsLoop, if_neg hne, if_neg (not_not.2 hR)] at h
  cases hp : TryParseResult line with
  | ok parsed =>
    rw [hp] at h
    cases parsed with
    | none => exact Outcome.noConfusion h
    | some result =>
      have h1 : (informations, result) = r := Outcome.ok.inj h
      rw [← h1]
      exact ⟨rfl, rfl⟩
  | thrown => rw [hp] at h; exact Outcome.noConfusion h
  | undefined => rw [hp] at h; exact Outcome.noConfusion h

theorem getInformationsLoop_information {line : List Char} (hne : line ≠ [])
    (hR : line.head? ≠ some 'R') (rest : List (List Char)) (informations : List Information)
    {information : Information}
    (hp : TryParseInformation line = Outcome.ok (some information)) :
    getInformationsLoop (line :: rest) informations
      = getInformationsLoop rest (informations ++ [information]) := by
  rw [getInformationsLoop, if_neg hne, if_pos hR, hp]
  rfl

theorem getInformationsLoop_information_ok {line : List Char} (hne : line ≠ [])
    (hR : line.head? ≠ some 'R') {rest : List (List Char)} {informations : List Information}
    {r : List Information × Result}
    (h : getInformationsLoop (line :: rest) informations = Outcome.ok r) :
    ∃ information, TryParseInformation line = Outcome.ok (some information) := by
  rw [getInformationsLoop, if_neg hne, if_pos hR] at h
  cases hp : TryParseInformation line with
  | ok parsed =>
    rw [hp] at h
    cases parsed with
    | none => exact Outcome.noConfusion h
    | some information => exact ⟨information, rfl⟩
  | thrown => rw [hp] at h; exact Outcome.noConfusion h
  | undefined => rw [hp] at h; exact Outcome.noConfusion h

/-- Once a result line has been read the lines after it are not looked at. -/
theorem getInformationsLoop_append : ∀ (lines : List (List Char))
    (informations : List Information) (r : List Information × Result),
    getInformationsLoop lines informations = Outcome.ok r →
    ∀ post, getInformationsLoop (lines ++ post) informations = Outcome.ok r := by
  intro lines
  induction lines with
  | nil =>
    intro informations r h
    rw [getInformationsLoop_nil] at h
    exact Outcome.noConfusion h
  | cons line rest ih =>
    intro informations r h post
    by_cases hne : line = []
    · subst hne
      rw [getInformationsLoop_blank] at h
      exact Outcome.noConfusion h
    · by_cases hR : line.head? = some 'R'
      · rw [List.cons_append, getInformationsLoop_result hne hR (rest ++ post) rest]
        exact h
      · obtain ⟨information, hp⟩ := getInformationsLoop_information_ok hne hR h
        rw [getInformationsLoop_information hne hR _ _ hp] at h
        rw [List.cons_append, getInformationsLoop_information hne hR _ _ hp]
        exact ih _ r h post

/-- Without a result line before the first empty line or the end of the input
the call does not return. -/
theorem getInformationsLoop_no_result : ∀ (lines : List (List Char))
    (informations : List Information), (∀ line ∈ lines, line.head? ≠ some 'R') →
    ∀ post, (post = [] ∨ ∃ rest, post = [] :: rest) →
    ∀ r, getInformationsLoop (lines ++ post) informations ≠ Outcome.ok r := by
  intro lines
  induction lines with
  | nil =>
    intro informations _ post hpost r h
    rcases hpost with rfl | ⟨rest, rfl⟩
    · exact Outcome.noConfusion h
    · exact Outcome.noConfusion h
  | cons line rest ih =>
    intro informations hall post hpost r h
    by_cases hne : line = []
    · subst hne
      exact Outcome.noConfusion h
    · have hR : line.head? ≠ some 'R' := hall line (List.mem_cons_self _ _)
      rw [List.cons_append] at h
      obtain ⟨information, hp⟩ := getInformationsLoop_information_ok hne hR h
      rw [getInformationsLoop_information hne hR _ _ hp] at h
      exact ih _ (fun l hl => hall l (List.mem_cons_of_mem _ hl)) post hpost r h

/-- What a call that returns has read: instruction lines, each parsed into one
instruction, then a result line. -/
theorem getInformationsLoop_ok : ∀ (lines : List (List Char))
    (informations : List Information) (r : List Information × Result),
    getInformationsLoop lines informations = Outcome.ok r →
    ∃ (pre : List (List Char)) (resultLine : List Char) (post : List (List Char))
      (parsed : List Information),
      lines = pre ++ resultLine :: post
        ∧ (∀ line ∈ pre, line ≠ [] ∧ line.head? ≠ some 'R')
        ∧ List.Forall₂ (fun line information =>
            TryParseInformation line = Outcome.ok (some information)) pre parsed
        ∧ resultLine.head? = some 'R'
        ∧ TryParseResult resultLine = Outcome.ok (some r.2)
        ∧ r.1 = informations ++ parsed := by
  intro lines
  induction lines with
  | nil =>
    intro informations r h
    exact Outcome.noConfusion h
  | cons line rest ih =>
    intro informations r h
    by_cases hne : line = []
    · subst hne
      exact Outcome.noConfusion h
    · by_cases hR : line.head? = some 'R'
      · obtain ⟨h1, h2⟩ := getInformationsLoop_result_ok hne hR h
        exact ⟨[], line, rest, [], rfl, by simp, List.Forall₂.nil, hR, h1, by simp [h2]⟩
      · obtain ⟨information, hp⟩ := getInformationsLoop_information_ok hne hR h
        rw [getInformationsLoop_information hne hR _ _ hp] at h
        obtain ⟨pre, resultLine, post, parsed, e1, e2, e3, e4, e5, e6⟩ := ih _ r h
        refine ⟨line :: pre, resultLine, post, information :: parsed, by rw [e1]; rfl, ?_,
          List.Forall₂.cons hp e3, e4, e5, by rw [e6]; simp⟩
        intro l hl
        rcases List.mem_cons.1 hl with rfl | hl
        · exact ⟨hne, hR⟩
        · exact e2 l hl


/-! ## Claim C21 -/

/-- C21 fails on the code. `GetInformationsAndResult` returns at the first
line that starts with `R` and does not look at the lines after it: the lines
`A B GoodTillCancel 100 10 1` and `R 1 1 0` followed by any lines at all give
the one instruction and the counts 1, 1, 0, for instance when `C 1` follows;
and `R 0 0 0` followed by an instruction line gives no instruction and the
counts 0, 0, 0. Without a result line, at the end of the input or before an
empty line, the call throws. -/
theorem lines_after_result_ignored :
    (∀ post : List (List Char),
        GetInformationsAndResult
            (["A B GoodTillCancel 100 10 1".toList, "R 1 1 0".toList] ++ post)
          = Outcome.ok ([Information.add Side.Buy OrderType.GoodTillCancel 100 10 1],
              { allCount_ := 1, bidCount_ := 1, askCount_ := 0 }))
    ∧ GetInformationsAndResult
          ["A B GoodTillCancel 100 10 1".toList, "R 1 1 0".toList, "C 1".toList]
        = Outcome.ok ([Information.add Side.Buy OrderType.GoodTillCancel 100 10 1],
            { allCount_ := 1, bidCount_ := 1, askCount_ := 0 })
    ∧ GetInformationsAndResult ["R 0 0 0".toList, "A B GoodTillCancel 100 10 1".toList]
        = Outcome.ok ([], { allCount_ := 0, bidCount_ := 0, askCount_ := 0 })
    ∧ GetInformationsAndResult ["A B GoodTillCancel 100 10 1".toList] = Outcome.thrown
    ∧ GetInformationsAndResult ["A B GoodTillCancel 100 10 1".toList, [], "R 1 1 0".toList]
        = Outcome.thrown :=
  ⟨fun post =>
      getInformationsLoop_append
        ["A B GoodTillCancel 100 10 1".toList, "R 1 1 0".toList] []
        ([Information.add Side.Buy OrderType.GoodTillCancel 100 10 1],
          { allCount_ := 1, bidCount_ := 1, askCount_ := 0 }) rfl post,
    rfl, rfl, rfl, rfl⟩


/-! ## Claim C24 -/

/-- `ModifyOrder` returns: the order it adds has the type of a resting order,
which is not `FillAndKill`. -/
theorem ModifyOrder_total {b : OrderBook} (h : Reachable b) (m : OrderModify) :
    ∃ r, b.ModifyOrder m = some r := by
  unfold OrderBook.ModifyOrder
  cases hf : assocFind m.orderId_ b.orders_ with
  | none => exact ⟨_, rfl⟩
  | some order =>
    obtain ⟨b1, hc⟩ := cancel_total h.wf_uncrossed.1 m.orderId_
    have hc' : b.CancelOrder m.orderId_ = some b1 := hc
    have h1 : Reachable b1 := Reachable.cancel m.orderId_ h hc'
    obtain ⟨r, hr⟩ := AddOrder_total h1 (o := m.ToOrderPointer order.orderType_)
      (h.noFAK order ((h.wf_uncrossed.1.index m.orderId_ order).1 hf).1)
    exact ⟨r, by simp only [hc', Option.some_bind, hr]⟩

theorem OrderBook.WF.level_of_index {b : OrderBook} (hw : b.WF) {id : Nat} {o : Order}
    (hf : assocFind id b.orders_ = some o) :
    ∃ q, assocFind o.price_ (b.ladder o.side_) = some q ∧ o ∈ q := by
  have ho := ((hw.index id o).1 hf).1
  have hq := (hw.mem_levelQueue ho).1
  rw [levelQueue_eq_ladder] at hq
  cases hl : assocFind o.price_ (b.ladder o.side_) with
  | none =>
    rw [hl] at hq
    simp at hq
  | some q =>
    rw [hl] at hq
    exact ⟨q, rfl, hq⟩

/-- C24 fails in the code: a call of `AddOrder` does not complete. On the book
with the one buy 100x10, `A S FillAndKill 100 15 2` crosses and is inserted;
in `MatchOrder` the two `Fill` calls with the quantity 10 succeed and leave
order 2, with 5 remaining, at the front of the one ask level, where `front()`
finds it; `CancelOrderInternal` would find its level and remove it; but
`MatchOrder` calls `CancelOrder`, which locks the mutex that `AddOrder` holds,
and the call does not return. -/
theorem add_order_does_not_complete :
    Reachable bookOneBid
    ∧ assocFind 2 bookOneBid.orders_ = none
    ∧ bookOneBid.CanMatch Side.Sell 100 = true
    ∧ (Order.create OrderType.GoodTillCancel 1 Side.Buy 100 10).Fill 10
        = some { Order.create OrderType.GoodTillCancel 1 Side.Buy 100 10 with
                  remainingQuantity_ := 0 }
    ∧ (Order.create OrderType.FillAndKill 2 Side.Sell 100 15).Fill 10
        = some { Order.create OrderType.FillAndKill 2 Side.Sell 100 15 with
                  remainingQuantity_ := 5 }
    ∧ ((bookOneBid.insertOrder (Order.create OrderType.FillAndKill 2 Side.Sell 100 15)).matchLevel
          2 []).map (fun r => (r.1, (r.2.afterLevel 100 100).bids_, (r.2.afterLevel 100 100).asks_))
        = some ([{ bidTrade_ := { orderId_ := 1, price_ := 100, quantity_ := 10 },
                   askTrade_ := { orderId_ := 2, price_ := 100, quantity_ := 10 } }],
                [],
                [(100, [{ Order.create OrderType.FillAndKill 2 Side.Sell 100 15 with
                           remainingQuantity_ := 5 }])])
    ∧ ((bookOneBid.insertOrder (Order.create OrderType.FillAndKill 2 Side.Sell 100 15)).matchLevel
          2 []).bind (fun r => (r.2.afterLevel 100 100).CancelOrderInternal 2)
        = some {}
    ∧ ((bookOneBid.insertOrder (Order.create OrderType.FillAndKill 2 Side.Sell 100 15)).matchLevel
          2 []).bind (fun r => (r.2.afterLevel 100 100).cancelFillAndKill
            (r.2.afterLevel 100 100).asks_)
        = none
    ∧ bookOneBid.AddOrder (Order.create OrderType.FillAndKill 2 Side.Sell 100 15) = none :=
  ⟨reachableValid_bookOneBid.reachable, rfl, rfl, rfl, rfl, rfl, rfl, rfl, rfl⟩


/-! ## `CanFullyFill`: a requested quantity of 0, the traversal order, the subtractions -/

/-- For a requested quantity of 0 the loop of `CanFullyFill` answers whether
some entry it takes into account has a quantity that is not 0. -/
theorem canFullyFillLoop_zero (side : Side) (price t : Nat) (data : List (Nat × LevelData)) :
    canFullyFillLoop side price t data 0 = decide (0 < countedQuantity side price t data) := by
  induction data with
  | nil => simp [canFullyFillLoop]
  | cons e data ih =>
    obtain ⟨k, d⟩ := e
    have hnb : ¬ (Side.Buy = Side.Sell) := by decide
    have hns : ¬ (Side.Sell = Side.Buy) := by decide
    rw [countedQuantity_cons]
    unfold canFullyFillLoop
    cases side with
    | Buy =>
      simp only [true_and, hnb, false_and, or_false, if_true]
      by_cases h1 : k < t
      · have hterm : (if t ≤ k ∧ k ≤ price then d.askQuantity_ else 0) = 0 := if_neg (by omega)
        rw [if_pos h1, ih, hterm, Nat.zero_add]
      · rw [if_neg h1]
        by_cases h2 : k > price
        · have hterm : (if t ≤ k ∧ k ≤ price then d.askQuantity_ else 0) = 0 := if_neg (by omega)
          rw [if_pos h2, ih, hterm, Nat.zero_add]
        · have hterm : (if t ≤ k ∧ k ≤ price then d.askQuantity_ else 0) = d.askQuantity_ :=
            if_pos ⟨by omega, by omega⟩
          rw [if_neg h2, hterm]
          by_cases h3 : d.askQuantity_ = 0
          · rw [if_pos h3, ih, h3, Nat.zero_add]
          · rw [if_neg h3, if_pos (Nat.zero_le _)]
            symm
            rw [decide_eq_true_iff]
            omega
    | Sell =>
      simp only [true_and, hns, false_and, false_or, if_false]
      by_cases h1 : k > t
      · have hterm : (if price ≤ k ∧ k ≤ t then d.bidQuantity_ else 0) = 0 := if_neg (by omega)
        rw [if_pos h1, ih, hterm, Nat.zero_add]
      · rw [if_neg h1]
        by_cases h2 : k < price
        · have hterm : (if price ≤ k ∧ k ≤ t then d.bidQuantity_ else 0) = 0 := if_neg (by omega)
          rw [if_pos h2, ih, hterm, Nat.zero_add]
        · have hterm : (if price ≤ k ∧ k ≤ t then d.bidQuantity_ else 0) = d.bidQuantity_ :=
            if_pos ⟨by omega, by omega⟩
          rw [if_neg h2, hterm]
          by_cases h3 : d.bidQuantity_ = 0
          · rw [if_pos h3, ih, h3, Nat.zero_add]
          · rw [if_neg h3, if_pos (Nat.zero_le _)]
            symm
            rw [decide_eq_true_iff]
            omega

/-- The loop of `CanFullyFill` on a 32-bit quantity: the sum of the quantities
it takes into account is at least the requested quantity, and is not 0. -/
theorem canFullyFillLoop_sum (side : Side) (price t : Nat) (data : List (Nat × LevelData))
    (q : Nat) (hq : q < 2 ^ 32) :
    canFullyFillLoop side price t data q = true
      ↔ q ≤ countedQuantity side price t data ∧ 0 < countedQuantity side price t data := by
  rcases Nat.eq_zero_or_pos q with h0 | hpos
  · subst h0
    rw [canFullyFillLoop_zero, decide_eq_true_iff]
    exact ⟨fun h => ⟨Nat.zero_le _, h⟩, fun h => h.2⟩
  · rw [canFullyFillLoop_eq side price t data q hpos hq, decide_eq_true_iff]
    exact ⟨fun h => ⟨h, by omega⟩, fun h => h.1⟩

theorem countedQuantity_perm (side : Side) (price t : Nat) {data data1 : List (Nat × LevelData)}
    (h : data1.Perm data) :
    countedQuantity side price t data1 = countedQuantity side price t data := by
  unfold countedQuantity
  exact (h.map _).sum_eq

/-- The answer of the loop of `CanFullyFill` does not depend on the order in
which the entries of the aggregate index come. -/
theorem canFullyFillLoop_perm (side : Side) (price t : Nat) {data data1 : List (Nat × LevelData)}
    (h : data1.Perm data) (q : Nat) (hq : q < 2 ^ 32) :
    canFullyFillLoop side price t data1 q = canFullyFillLoop side price t data q := by
  rw [Bool.eq_iff_iff, canFullyFillLoop_sum side price t data1 q hq,
    canFullyFillLoop_sum side price t data q hq, countedQuantity_perm side price t h]

/-- Every subtraction of the loop of `CanFullyFill` takes less than the value
of `quantity` at that point. -/
theorem canFullyFillSubtractions_lt (side : Side) (price t : Nat)
    (data : List (Nat × LevelData)) :
    ∀ (q : Nat), ∀ s ∈ canFullyFillSubtractions side price t data q, s.2 < s.1 := by
  induction data with
  | nil =>
    intro q s hs
    simp [canFullyFillSubtractions] at hs
  | cons e data ih =>
    obtain ⟨k, d⟩ := e
    intro q s hs
    unfold canFullyFillSubtractions at hs
    split_ifs at hs with h1 h2 h3 h4 h5
    · exact ih q s hs
    · exact ih q s hs
    · exact ih q s hs
    · simp at hs
    · rcases List.mem_cons.1 hs with rfl | hs
      · show d.askQuantity_ < q
        by_contra hc
        exact h4 (Or.inl ⟨h5, by omega⟩)
      · exact ih _ s hs
    · rcases List.mem_cons.1 hs with rfl | hs
      · show d.bidQuantity_ < q
        by_contra hc
        exact h4 (Or.inr ⟨Side.eq_sell_of_ne_buy h5, by omega⟩)
      · exact ih _ s hs

theorem CanMatch_bestOpposite {b : OrderBook} {side : Side} {price : Nat}
    (h : b.CanMatch side price = true) :
    ∃ t, b.bestOpposite side = some t
      ∧ (side = Side.Buy → t ≤ price) ∧ (side = Side.Sell → price ≤ t) := by
  unfold OrderBook.CanMatch at h
  unfold OrderBook.bestOpposite
  cases side with
  | Buy =>
    simp only [if_true] at h ⊢
    cases ha : b.asks_ with
    | nil => rw [ha] at h; simp at h
    | cons x xs =>
      rw [ha] at h
      simp only [decide_eq_true_eq] at h
      exact ⟨x.1, rfl, fun _ => h, fun hs => absurd hs (by decide)⟩
  | Sell =>
    have hns : ¬ (Side.Sell = Side.Buy) := by decide
    simp only [hns, if_false] at h ⊢
    cases hb : b.bids_ with
    | nil => rw [hb] at h; simp at h
    | cons x xs =>
      rw [hb] at h
      simp only [decide_eq_true_eq] at h
      exact ⟨x.1, rfl, fun hs => absurd hs (by decide), fun _ => h⟩

theorem CanFullyFill_eq (b : OrderBook) (side : Side) (price quantity : Nat) :
    b.CanFullyFill side price quantity = true
      ↔ b.CanMatch side price = true
          ∧ ∃ t, b.bestOpposite side = some t ∧ canFullyFillLoop side price t b.data_ quantity = true := by
  unfold OrderBook.CanFullyFill
  by_cases hc : b.CanMatch side price = true
  · obtain ⟨t, ht, -⟩ := CanMatch_bestOpposite hc
    have ht' : (if side = Side.Buy then b.asks_.head?.map Prod.fst
        else b.bids_.head?.map Prod.fst) = some t := ht
    simp only [hc, not_true_eq_false, if_false, true_and, ht']
    constructor
    · intro h
      exact ⟨t, ht, h⟩
    · rintro ⟨t1, h1, h2⟩
      rw [ht] at h1
      cases h1
      exact h2
  · simp [hc]


/-! ## Claim C22 -/

theorem canFullyFillSubtractions_bound (side : Side) (price t : Nat)
    (data : List (Nat × LevelData)) :
    ∀ (q : Nat), q < 2 ^ 32 →
      ∀ s ∈ canFullyFillSubtractions side price t data q, s.1 < 2 ^ 32 := by
  induction data with
  | nil =>
    intro q _ s hs
    simp [canFullyFillSubtractions] at hs
  | cons e data ih =>
    obtain ⟨k, d⟩ := e
    intro q hq s hs
    have hsub : ∀ x, sub32 q x < 2 ^ 32 := fun x => Nat.mod_lt _ (by decide)
    unfold canFullyFillSubtractions at hs
    split_ifs at hs with h1 h2 h3 h4 h5
    · exact ih q hq s hs
    · exact ih q hq s hs
    · exact ih q hq s hs
    · simp at hs
    · rcases List.mem_cons.1 hs with rfl | hs
      · exact hq
      · exact ih _ (hsub _) s hs
    · rcases List.mem_cons.1 hs with rfl | hs
      · exact hq
      · exact ih _ (hsub _) s hs

theorem bestOpposite_buy {b : OrderBook} {t : Nat} (h : b.bestOpposite Side.Buy = some t) :
    ∃ aq al, b.asks_ = (t, aq) :: al := by
  unfold OrderBook.bestOpposite at h
  simp only [if_true] at h
  cases ha : b.asks_ with
  | nil => rw [ha] at h; simp at h
  | cons x xs =>
    rw [ha] at h
    simp only [List.head?_cons, Option.map_some', Option.some.injEq] at h
    obtain ⟨k, q⟩ := x
    simp only at h
    subst h
    exact ⟨q, xs, rfl⟩

theorem bestOpposite_sell {b : OrderBook} {t : Nat} (h : b.bestOpposite Side.Sell = some t) :
    ∃ bq bl, b.bids_ = (t, bq) :: bl := by
  unfold OrderBook.bestOpposite at h
  have hns : ¬ (Side.Sell = Side.Buy) := by decide
  simp only [hns, if_false] at h
  cases hb : b.bids_ with
  | nil => rw [hb] at h; simp at h
  | cons x xs =>
    rw [hb] at h
    simp only [List.head?_cons, Option.map_some', Option.some.injEq] at h
    obtain ⟨k, q⟩ := x
    simp only at h
    subst h
    exact ⟨q, xs, rfl⟩

theorem dataOK_bookZeroAsk : DataOK bookZeroAsk.data_ bookZeroAsk.allOrders := by
  refine ⟨by decide, ?_⟩
  intro p
  by_cases hp : p = 100
  · subst hp
    rfl
  · have h1 : assocFind p bookZeroAsk.data_ = none := by
      simp [bookZeroAsk, assocFind_cons, assocFind_nil, Ne.symm hp]
    have h2 : levelCount bookZeroAsk.allOrders p = 0 := by
      simp [bookZeroAsk, OrderBook.allOrders, ladderOrders, levelCount, Order.create, Ne.symm hp]
    rw [h1]
    unfold expectedLevelData
    rw [if_pos h2]

theorem reachable_bookZeroAsk : Reachable bookZeroAsk :=
  Reachable.add (b := {}) OrderType.GoodTillCancel 1 Side.Sell 100 0 Reachable.empty rfl

/-- C22, amended: in every book state whose ladders and index are consistent
and whose aggregate index is the one the resting orders call for, and for every
32-bit quantity `Q`, `CanFullyFill(side, price, Q)` is true iff
`CanMatch(side, price)` holds and the sum of the opposite-side aggregate
quantities over the prices between the best opposite price and `price`
inclusive is at least `Q` and is not 0. That sum is the total remaining
quantity of the opposite orders at those prices. The result is the same for
every order in which the entries of `data_` are traversed, and every running
subtraction takes less than the current value of the quantity, so that none
underflows. -/
theorem can_fully_fill_is_sum_test {b : OrderBook} (hw : b.WF)
    (hd : DataOK b.data_ b.allOrders) (side : Side) (price quantity : Nat)
    (hq : quantity < 2 ^ 32) :
    (b.CanFullyFill side price quantity = true
      ↔ b.CanMatch side price = true
          ∧ ∃ t, b.bestOpposite side = some t
              ∧ quantity ≤ countedQuantity side price t b.data_
              ∧ 0 < countedQuantity side price t b.data_)
    ∧ (∀ t, b.bestOpposite side = some t →
        countedQuantity side price t b.data_ = b.crossingLiquidity side price)
    ∧ (∀ data1 : List (Nat × LevelData), data1.Perm b.data_ →
        OrderBook.CanFullyFill { b with data_ := data1 } side price quantity
          = b.CanFullyFill side price quantity)
    ∧ (∀ t, ∀ s ∈ canFullyFillSubtractions side price t b.data_ quantity,
        s.2 < s.1 ∧ sub32 s.1 s.2 = s.1 - s.2) := by
  refine ⟨?_, ?_, ?_, ?_⟩
  · rw [CanFullyFill_eq]
    constructor
    · rintro ⟨hc, t, ht, hl⟩
      exact ⟨hc, t, ht, (canFullyFillLoop_sum side price t b.data_ quantity hq).1 hl⟩
    · rintro ⟨hc, t, ht, hl⟩
      exact ⟨hc, t, ht, (canFullyFillLoop_sum side price t b.data_ quantity hq).2 hl⟩
  · intro t ht
    cases side with
    | Buy =>
      obtain ⟨aq, al, ha⟩ := bestOpposite_buy ht
      exact countedQuantity_buy hw hd ha
    | Sell =>
      obtain ⟨bq, bl, hb⟩ := bestOpposite_sell ht
      exact countedQuantity_sell hw hd hb
  · intro data1 hperm
    rw [Bool.eq_iff_iff, CanFullyFill_eq, CanFullyFill_eq]
    have h1 : OrderBook.CanMatch { b with data_ := data1 } side price = b.CanMatch side price := rfl
    have h2 : OrderBook.bestOpposite { b with data_ := data1 } side = b.bestOpposite side := rfl
    rw [h1, h2]
    constructor
    · rintro ⟨hc, t, ht, hl⟩
      refine ⟨hc, t, ht, ?_⟩
      rw [← canFullyFillLoop_perm side price t hperm quantity hq]
      exact hl
    · rintro ⟨hc, t, ht, hl⟩
      refine ⟨hc, t, ht, ?_⟩
      show canFullyFillLoop side price t data1 quantity = true
      rw [canFullyFillLoop_perm side price t hperm quantity hq]
      exact hl
  · intro t s hs
    have h1 := canFullyFillSubtractions_lt side price t b.data_ quantity s hs
    have h2 := canFullyFillSubtractions_bound side price t b.data_ quantity hq s hs
    exact ⟨h1, sub32_eq (by omega) h2⟩

theorem can_fully_fill_is_sum_test_witness :
    bookBidAsk.WF ∧ DataOK bookBidAsk.data_ bookBidAsk.allOrders ∧ 5 < 2 ^ 32
    ∧ ((bookBidAsk.CanFullyFill Side.Buy 105 5 = true
        ↔ bookBidAsk.CanMatch Side.Buy 105 = true
            ∧ ∃ t, bookBidAsk.bestOpposite Side.Buy = some t
                ∧ 5 ≤ countedQuantity Side.Buy 105 t bookBidAsk.data_
                ∧ 0 < countedQuantity Side.Buy 105 t bookBidAsk.data_)
      ∧ (∀ t, bookBidAsk.bestOpposite Side.Buy = some t →
          countedQuantity Side.Buy 105 t bookBidAsk.data_
            = bookBidAsk.crossingLiquidity Side.Buy 105)
      ∧ (∀ data1 : List (Nat × LevelData), data1.Perm bookBidAsk.data_ →
          OrderBook.CanFullyFill { bookBidAsk with data_ := data1 } Side.Buy 105 5
            = bookBidAsk.CanFullyFill Side.Buy 105 5)
      ∧ (∀ t, ∀ s ∈ canFullyFillSubtractions Side.Buy 105 t bookBidAsk.data_ 5,
          s.2 < s.1 ∧ sub32 s.1 s.2 = s.1 - s.2))
    ∧ bookBidAsk.CanFullyFill Side.Buy 105 5 = true
    ∧ bookBidAsk.CanFullyFill Side.Buy 105 6 = false
    ∧ countedQuantity Side.Buy 105 105 bookBidAsk.data_ = 5 :=
  ⟨reachableFit_bookBidAsk.valid.reachable.wf_uncrossed.1, reachableFit_bookBidAsk.data.1,
    by decide,
    can_fully_fill_is_sum_test reachableFit_bookBidAsk.valid.reachable.wf_uncrossed.1
      reachableFit_bookBidAsk.data.1 Side.Buy 105 5 (by decide),
    rfl, rfl, rfl⟩

/-- C22, as stated, fails. After `A S GoodTillCancel 100 0 1` the ladders, the
index and the aggregate index are consistent and no total overflows; for a buy
at 100 of quantity 0, `CanMatch` holds and the sum of the ask quantities of the
aggregate entries from the best ask 100 to 100 is 0, which is at least 0; yet
`CanFullyFill` returns false, the loop having skipped the one entry because its
ask quantity is 0. -/
theorem can_fully_fill_refuses_zero :
    Reachable bookZeroAsk
    ∧ (OrderBook.executeAll {} [Information.add Side.Sell OrderType.GoodTillCancel 100 0 1]
        = some bookZeroAsk)
    ∧ bookZeroAsk.WF
    ∧ DataOK bookZeroAsk.data_ bookZeroAsk.allOrders
    ∧ FitsIn32 bookZeroAsk.allOrders
    ∧ bookZeroAsk.CanMatch Side.Buy 100 = true
    ∧ bookZeroAsk.bestOpposite Side.Buy = some 100
    ∧ countedQuantity Side.Buy 100 100 bookZeroAsk.data_ = 0
    ∧ 0 ≤ countedQuantity Side.Buy 100 100 bookZeroAsk.data_
    ∧ bookZeroAsk.CanFullyFill Side.Buy 100 0 = false :=
  ⟨reachable_bookZeroAsk, rfl, reachable_bookZeroAsk.wf_uncrossed.1, dataOK_bookZeroAsk,
    fitsIn32_of_small (by decide) (by decide), rfl, rfl, rfl, Nat.zero_le _, rfl⟩


/-! ## Every trade removes an order -/

theorem OrderBook.WF.find_none_of_not_mem {b : OrderBook} (hw : b.WF) {id : Nat}
    (h : id ∉ b.bookIds) : assocFind id b.orders_ = none := by
  cases hf : assocFind id b.orders_ with
  | none => rfl
  | some o =>
    exfalso
    obtain ⟨ho, hid⟩ := (hw.index id o).1 hf
    apply h
    rw [← hid]
    exact List.mem_map_of_mem _ ho

theorem fillQueue_ids_subset (o o1 : Order) (X : List Order) (h : o1.orderId_ = o.orderId_) :
    ∀ id ∈ (fillQueue o1 X).map Order.orderId_, id ∈ (o :: X).map Order.orderId_ := by
  intro id hid
  unfold fillQueue at hid
  split_ifs at hid
  · exact List.mem_map.2 (by
      obtain ⟨x, hx, e⟩ := List.mem_map.1 hid
      exact ⟨x, List.mem_cons_of_mem _ hx, e⟩)
  · simp only [List.map_cons, List.mem_cons] at hid ⊢
    rw [h] at hid
    exact hid

/-- One pass of the inner loop of `MatchOrder` on a consistent book: the trade
carries the ids of the two front orders and one common quantity, at least one
of the two orders is filled completely and leaves the book, and no other order
enters it. -/
theorem matchFront_step {b b' : OrderBook} {bp ap : Nat} {bid ask : Order}
    {bids asks : List Order} {bl al : Ladder} {t : Trade} (hw : b.WF)
    (hb : b.bids_ = (bp, bid :: bids) :: bl) (ha : b.asks_ = (ap, ask :: asks) :: al)
    (h : b.matchFront bp bid bids bl ap ask asks al = some (t, b')) :
    t.bidTrade_.orderId_ = bid.orderId_ ∧ t.askTrade_.orderId_ = ask.orderId_
      ∧ t.bidTrade_.quantity_ = t.askTrade_.quantity_
      ∧ b'.allOrders.length + 1 ≤ b.allOrders.length
      ∧ (∀ id ∈ b'.bookIds, id ∈ b.bookIds)
      ∧ ((t.bidTrade_.quantity_ = bid.remainingQuantity_ ∧ bid.orderId_ ∉ b'.bookIds)
          ∨ (t.askTrade_.quantity_ = ask.remainingQuantity_ ∧ ask.orderId_ ∉ b'.bookIds)) := by
  obtain ⟨q, bid1, ask1, g1, g2, g3, g4, g5, g6, -, -⟩ := matchFront_eq h
  have hall : b.allOrders = (bid :: bids ++ ladderOrders bl) ++ (ask :: asks ++ ladderOrders al) := by
    simp only [OrderBook.allOrders, hb, ha, ladderOrders_cons]
  have hall' : b'.allOrders
      = (fillQueue bid1 bids ++ ladderOrders bl) ++ (fillQueue ask1 asks ++ ladderOrders al) := by
    simp only [OrderBook.allOrders, g5, g6, ladderOrders_cons]
  have hbid : bid1.orderId_ = bid.orderId_ := by rw [g2]
  have hask : ask1.orderId_ = ask.orderId_ := by rw [g3]
  have hnd := hw.idsNodup
  rw [hall] at hnd
  have hsub : ∀ id ∈ b'.bookIds, id ∈ b.bookIds := by
    intro id hid
    unfold OrderBook.bookIds at hid ⊢
    rw [hall'] at hid
    rw [hall]
    simp only [List.map_append, List.mem_append] at hid ⊢
    rcases hid with (hid | hid) | (hid | hid)
    · have := fillQueue_ids_subset bid bid1 bids hbid id hid
      exact Or.inl (Or.inl this)
    · exact Or.inl (Or.inr hid)
    · have := fillQueue_ids_subset ask ask1 asks hask id hid
      exact Or.inr (Or.inl this)
    · exact Or.inr (Or.inr hid)
  have hlb := fillQueue_length_le bid1 bids
  have hla := fillQueue_length_le ask1 asks
  have hq : q = bid.remainingQuantity_ ∨ q = ask.remainingQuantity_ := by
    rw [g1]
    rcases Nat.le_total bid.remainingQuantity_ ask.remainingQuantity_ with hle | hle
    · exact Or.inl (Nat.min_eq_left hle)
    · exact Or.inr (Nat.min_eq_right hle)
  have htb : t.bidTrade_.quantity_ = q := by rw [g4]
  have hta : t.askTrade_.quantity_ = q := by rw [g4]
  refine ⟨by rw [g4], by rw [g4], by rw [htb, hta], ?_, hsub, ?_⟩
  · rw [hall, hall']
    simp only [List.length_append, List.length_cons]
    rcases hq with hq | hq
    · have hf : fillQueue bid1 bids = bids := by
        unfold fillQueue Order.IsFilled
        rw [g2]
        simp [hq]
      rw [hf]
      omega
    · have hf : fillQueue ask1 asks = asks := by
        unfold fillQueue Order.IsFilled
        rw [g3]
        simp [hq]
      rw [hf]
      omega
  · rcases hq with hq | hq
    · left
      refine ⟨by rw [htb, hq], ?_⟩
      have hf : fillQueue bid1 bids = bids := by
        unfold fillQueue Order.IsFilled
        rw [g2]
        simp [hq]
      unfold OrderBook.bookIds
      rw [hall', hf]
      intro hmem
      simp only [List.map_append, List.mem_append] at hmem
      simp only [List.map_append, List.map_cons, List.cons_append, List.nodup_cons,
        List.mem_append, List.mem_cons] at hnd
      apply hnd.1
      rcases hmem with (hm | hm) | (hm | hm)
      · exact Or.inl (Or.inl hm)
      · exact Or.inl (Or.inr hm)
      · have := fillQueue_ids_subset ask ask1 asks hask _ hm
        simp only [List.map_cons, List.mem_cons] at this
        rcases this with h1 | h1
        · exact Or.inr (Or.inl h1)
        · exact Or.inr (Or.inr (Or.inl h1))
      · exact Or.inr (Or.inr (Or.inr hm))
    · right
      refine ⟨by rw [hta, hq], ?_⟩
      have hf : fillQueue ask1 asks = asks := by
        unfold fillQueue Order.IsFilled
        rw [g3]
        simp [hq]
      unfold OrderBook.bookIds
      rw [hall', hf]
      intro hmem
      simp only [List.map_append, List.mem_append] at hmem
      have hnd2 := hnd
      simp only [List.map_append, List.map_cons] at hnd2
      have h3 := (List.nodup_append.1 hnd2).2.1
      have h4 := (List.nodup_append.1 hnd2).2.2
      simp only [List.cons_append, List.nodup_cons, List.mem_append] at h3
      have hself : ask.orderId_ ∈ (ask.orderId_ :: List.map Order.orderId_ asks
          ++ List.map Order.orderId_ (ladderOrders al)) :=
        List.mem_append_left _ (List.mem_cons_self _ _)
      rcases hmem with (hm | hm) | (hm | hm)
      · have := fillQueue_ids_subset bid bid1 bids hbid _ hm
        exact h4 (List.mem_append_left _ this) hself
      · exact h4 (List.mem_append_right _ hm) hself
      · exact h3.1 (Or.inl hm)
      · exact h3.1 (Or.inr hm)


/-! ## The trade list is bounded by the number of orders -/

/-- The invariant of the two loops of `MatchOrder`: the book is consistent,
the trades emitted so far and the orders still resting number at most `n`, no
order has entered the book, and each trade emitted so far has one of its two
orders out of the book. -/
theorem matchLevel_removes {fuel : Nat} {b : OrderBook} {ts : Trades} {r : Trades × OrderBook}
    (n : Nat) (hw : b.WF) (hn : ts.length + b.allOrders.length ≤ n)
    (hts : ∀ t ∈ ts, t.bidTrade_.orderId_ ∉ b.bookIds ∨ t.askTrade_.orderId_ ∉ b.bookIds)
    (h : b.matchLevel fuel ts = some r) :
    r.2.WF ∧ r.1.length + r.2.allOrders.length ≤ n
      ∧ (∀ id ∈ r.2.bookIds, id ∈ b.bookIds)
      ∧ (∀ t ∈ r.1, t.bidTrade_.orderId_ ∉ r.2.bookIds ∨ t.askTrade_.orderId_ ∉ r.2.bookIds) := by
  refine matchLevel_induct
    (fun b1 ts1 => b1.WF ∧ ts1.length + b1.allOrders.length ≤ n
      ∧ (∀ id ∈ b1.bookIds, id ∈ b.bookIds)
      ∧ (∀ t ∈ ts1, t.bidTrade_.orderId_ ∉ b1.bookIds ∨ t.askTrade_.orderId_ ∉ b1.bookIds))
    ?_ fuel b ts r ⟨hw, hn, fun id hid => hid, hts⟩ h
  intro b1 b2 ts1 bp ap bid ask bids asks bl al t hb1 ha1 hp hm
  obtain ⟨w1, n1, s1, t1⟩ := hp
  obtain ⟨e1, e2, -, e4, e5, e6⟩ := matchFront_step w1 hb1 ha1 hm
  refine ⟨wf_matchFront w1 hb1 ha1 hm, ?_, fun id hid => s1 id (e5 id hid), ?_⟩
  · simp only [List.length_append, List.length_singleton]
    omega
  · intro t' ht'
    rcases List.mem_append.1 ht' with ht' | ht'
    · rcases t1 t' ht' with h1 | h1
      · exact Or.inl fun hc => h1 (e5 _ hc)
      · exact Or.inr fun hc => h1 (e5 _ hc)
    · simp only [List.mem_singleton] at ht'
      subst ht'
      rcases e6 with ⟨-, h1⟩ | ⟨-, h1⟩
      · exact Or.inl (by rw [e1]; exact h1)
      · exact Or.inr (by rw [e2]; exact h1)

theorem cancelFillAndKill_removes {b b' : OrderBook} {l : Ladder}
    (hc : b.cancelFillAndKill l = some b') :
    b'.allOrders.length ≤ b.allOrders.length ∧ ∀ id ∈ b'.bookIds, id ∈ b.bookIds := by
  have hs := cancelFillAndKill_sublist hc
  exact ⟨hs.length_le, fun id hid => (hs.map Order.orderId_).subset hid⟩

theorem matchPass_removes {b : OrderBook} {bp ap fuel : Nat} {ts : Trades}
    {r : Trades × OrderBook} (n : Nat) (hw : b.WF) (hn : ts.length + b.allOrders.length ≤ n)
    (hts : ∀ t ∈ ts, t.bidTrade_.orderId_ ∉ b.bookIds ∨ t.askTrade_.orderId_ ∉ b.bookIds)
    (h : b.matchPass bp ap fuel ts = some r) :
    r.2.WF ∧ r.1.length + r.2.allOrders.length ≤ n
      ∧ (∀ id ∈ r.2.bookIds, id ∈ b.bookIds)
      ∧ (∀ t ∈ r.1, t.bidTrade_.orderId_ ∉ r.2.bookIds ∨ t.askTrade_.orderId_ ∉ r.2.bookIds) := by
  obtain ⟨r1, b3, h1, h2, h3, h4⟩ := matchPass_eq_some h
  obtain ⟨w1, n1, s1, t1⟩ := matchLevel_removes n hw hn hts h1
  obtain ⟨c1, c2⟩ := cancelFillAndKill_removes h2
  obtain ⟨d1, d2⟩ := cancelFillAndKill_removes h3
  have hids : (r1.2.afterLevel bp ap).bookIds = r1.2.bookIds := by
    unfold OrderBook.bookIds
    rw [allOrders_afterLevel]
  rw [allOrders_afterLevel] at c1
  have hsub : ∀ id ∈ r.2.bookIds, id ∈ r1.2.bookIds := by
    intro id hid
    rw [← hids]
    exact c2 id (d2 id hid)
  refine ⟨wf_matchPass hw h, ?_, fun id hid => s1 id (hsub id hid), ?_⟩
  · rw [h4]
    omega
  · intro t ht
    rw [h4] at ht
    rcases t1 t ht with g | g
    · exact Or.inl fun hc => g (hsub _ hc)
    · exact Or.inr fun hc => g (hsub _ hc)

theorem matchLoop_removes {fuel : Nat} {b : OrderBook} {ts : Trades} {r : Trades × OrderBook}
    (n : Nat) (hw : b.WF) (hn : ts.length + b.allOrders.length ≤ n)
    (hts : ∀ t ∈ ts, t.bidTrade_.orderId_ ∉ b.bookIds ∨ t.askTrade_.orderId_ ∉ b.bookIds)
    (h : b.matchLoop fuel ts = some r) :
    r.2.WF ∧ r.1.length + r.2.allOrders.length ≤ n
      ∧ (∀ id ∈ r.2.bookIds, id ∈ b.bookIds)
      ∧ (∀ t ∈ r.1, t.bidTrade_.orderId_ ∉ r.2.bookIds ∨ t.askTrade_.orderId_ ∉ r.2.bookIds) := by
  refine matchLoop_induct
    (fun b1 ts1 => b1.WF ∧ ts1.length + b1.allOrders.length ≤ n
      ∧ (∀ id ∈ b1.bookIds, id ∈ b.bookIds)
      ∧ (∀ t ∈ ts1, t.bidTrade_.orderId_ ∉ b1.bookIds ∨ t.askTrade_.orderId_ ∉ b1.bookIds))
    ?_ fuel b ts r ⟨hw, hn, fun id hid => hid, hts⟩ h
  intro b1 ts1 bp ap bids asks bl al r1 _ _ _ hp hm
  obtain ⟨w1, n1, s1, t1⟩ := hp
  obtain ⟨w2, n2, s2, t2⟩ := matchPass_removes n w1 n1 t1 hm
  exact ⟨w2, n2, fun id hid => s1 id (s2 id hid), t2⟩

/-- The trades of `MatchOrder` on a consistent book whose levels are not
empty: the call returns, and the trades and the orders left number at most the
orders at entry. -/
theorem MatchOrder_removes {b : OrderBook} {r : Trades × OrderBook} (hw : b.WF)
    (h : b.MatchOrder = some r) :
    r.2.WF ∧ r.1.length + r.2.Size ≤ b.Size
      ∧ (∀ id ∈ r.2.bookIds, id ∈ b.bookIds)
      ∧ (∀ t ∈ r.1, t.bidTrade_.orderId_ ∉ r.2.bookIds ∨ t.askTrade_.orderId_ ∉ r.2.bookIds) := by
  obtain ⟨w, n, s, t⟩ := matchLoop_removes b.allOrders.length hw (by simp) (by simp) h
  refine ⟨w, ?_, s, t⟩
  rw [w.size_eq, hw.size_eq]
  exact n


/-! ## Claim C25 -/

/-- C25 fails in the code: `MatchOrder` does not terminate on a consistent
book whose incoming order is `FillAndKill` and is not used up. On the book
with the buys 1 and 2 at 100x5, `AddOrder` of `A S FillAndKill 100 12 3`
inserts the order and runs `MatchOrder` on a book that satisfies the
index/ladder consistency invariant and has no empty level. The inner loop
ends after two trades, each of which fills and removes a buy order; order 3 is
then the front of the one ask level with 2 left, and the call of `CancelOrder`
on it locks the mutex that `AddOrder` holds: `MatchOrder` does not return.
`CancelOrderInternal` would have removed the order and left the empty book. -/
theorem match_order_blocks_on_fill_and_kill :
    Reachable bookTwoBuys
    ∧ (bookTwoBuys.insertOrder (Order.create OrderType.FillAndKill 3 Side.Sell 100 12)).WF
    ∧ (bookTwoBuys.insertOrder
        (Order.create OrderType.FillAndKill 3 Side.Sell 100 12)).NoEmptyLevels
    ∧ bookTwoBuys.AddOrder (Order.create OrderType.FillAndKill 3 Side.Sell 100 12)
        = (bookTwoBuys.insertOrder
            (Order.create OrderType.FillAndKill 3 Side.Sell 100 12)).MatchOrder
    ∧ ((bookTwoBuys.insertOrder
          (Order.create OrderType.FillAndKill 3 Side.Sell 100 12)).matchLevel 3 []).map
          (fun r => (r.1, (r.2.afterLevel 100 100).bids_, (r.2.afterLevel 100 100).asks_))
        = some ([{ bidTrade_ := { orderId_ := 1, price_ := 100, quantity_ := 5 },
                   askTrade_ := { orderId_ := 3, price_ := 100, quantity_ := 5 } },
                 { bidTrade_ := { orderId_ := 2, price_ := 100, quantity_ := 5 },
                   askTrade_ := { orderId_ := 3, price_ := 100, quantity_ := 5 } }],
                [],
                [(100, [{ Order.create OrderType.FillAndKill 3 Side.Sell 100 12 with
                           remainingQuantity_ := 2 }])])
    ∧ ((bookTwoBuys.insertOrder
          (Order.create OrderType.FillAndKill 3 Side.Sell 100 12)).matchLevel 3 []).bind
          (fun r => (r.2.afterLevel 100 100).cancelFillAndKill (r.2.afterLevel 100 100).asks_)
        = none
    ∧ ((bookTwoBuys.insertOrder
          (Order.create OrderType.FillAndKill 3 Side.Sell 100 12)).matchLevel 3 []).bind
          (fun r => (r.2.afterLevel 100 100).CancelOrderInternal 3)
        = some {}
    ∧ (bookTwoBuys.insertOrder
        (Order.create OrderType.FillAndKill 3 Side.Sell 100 12)).MatchOrder = none :=
  ⟨reachableValid_bookTwoBuys.reachable,
    wf_insertOrder reachableValid_bookTwoBuys.reachable.wf_uncrossed.1 _ rfl,
    noEmpty_insertOrder reachableValid_bookTwoBuys.reachable.noEmpty _, rfl, rfl, rfl, rfl, rfl⟩


/-! ## An incoming buy order takes the asks in priority order -/

@[simp] theorem Trade.leg_buy (t : Trade) : t.leg Side.Buy = t.bidTrade_ := rfl

@[simp] theorem Trade.leg_sell (t : Trade) : t.leg Side.Sell = t.askTrade_ := rfl

@[simp] theorem Side.opposite_buy : Side.Buy.opposite = Side.Sell := rfl

@[simp] theorem Side.opposite_sell : Side.Sell.opposite = Side.Buy := rfl

theorem Swept.start (side : Side) (o : Order) (opposite : List Order) :
    Swept side o opposite [o] opposite [] :=
  ⟨by simp, [], opposite, rfl, rfl, Or.inl ⟨Or.inl ⟨o, rfl, rfl⟩, rfl, rfl⟩⟩

theorem Swept.own_cases {side : Side} {o : Order} {opposite own now : List Order}
    {trades : Trades} (h : Swept side o opposite own now trades) :
    own = [] ∨ ∃ o', own = [o'] ∧ o'.ident = o.ident := by
  obtain ⟨-, done, rest, -, -, ⟨h1 | h1, -⟩ | ⟨h1, -⟩⟩ := h
  · exact Or.inr h1
  · exact Or.inl h1
  · exact Or.inl h1

/-- The orders of the opposite side now are orders of the opposite side at
entry, up to their remaining quantity. -/
theorem Swept.from_opposite {side : Side} {o : Order} {opposite own now : List Order}
    {trades : Trades} (h : Swept side o opposite own now trades) :
    ∀ x ∈ now, ∃ y ∈ opposite, x.ident = y.ident := by
  obtain ⟨-, done, rest, hA, -, ⟨-, h2, -⟩ | ⟨-, init, last, last', h2, h3, h4, -⟩⟩ := h
  · intro x hx
    rw [h2] at hx
    exact ⟨x, by rw [hA]; exact List.mem_append_right _ hx, rfl⟩
  · intro x hx
    rw [h3] at hx
    rcases List.mem_cons.1 hx with rfl | hx
    · exact ⟨last, by rw [hA, h2]; simp, h4⟩
    · exact ⟨x, by rw [hA]; exact List.mem_append_right _ hx, rfl⟩

/-- One pass of the inner loop while the lone incoming buy order heads the
bids. -/
theorem matchFront_swept_buy {b b' : OrderBook} {p ap : Nat} {bid ask : Order}
    {bids asks : List Order} {bl al : Ladder} {t : Trade} {o : Order} {opposite : List Order}
    {ts : Trades}
    (ha : b.asks_ = (ap, ask :: asks) :: al)
    (hs : Swept Side.Buy o opposite (bid :: bids) (ladderOrders b.asks_) ts)
    (hm : b.matchFront p bid bids bl ap ask asks al = some (t, b')) :
    ∃ own, b'.bids_ = (p, own) :: bl
      ∧ Swept Side.Buy o opposite own (ladderOrders b'.asks_) (ts ++ [t]) := by
  obtain ⟨hlegs, done, rest, hA, hids, hcase⟩ := hs
  obtain ⟨q, bid1, ask1, g1, g2, g3, g4, g5, g6, -, -⟩ := matchFront_eq hm
  rcases hcase with ⟨hown, hnow, hq⟩ | ⟨hown, -⟩
  swap
  · exact absurd hown (List.cons_ne_nil _ _)
  rcases hown with ⟨o', hown, hident⟩ | hown
  swap
  · exact absurd hown (List.cons_ne_nil _ _)
  simp only [List.cons.injEq] at hown
  obtain ⟨rfl, rfl⟩ := hown
  rw [ha, ladderOrders_cons] at hnow
  have fo := Order.fields_of_ident hident
  have hb1 : bid1.ident = o.ident := by rw [g2]; exact hident
  have ha1 : ask1.ident = ask.ident := by rw [g3]; rfl
  have hnow' : ladderOrders b'.asks_ = fillQueue ask1 asks ++ ladderOrders al := by
    rw [g6, ladderOrders_cons]
  have hlegs' : ∀ t' ∈ ts ++ [t], (t'.leg Side.Buy).orderId_ = o.orderId_
      ∧ (t'.leg Side.Buy).price_ = o.price_ := by
    intro t' ht'
    rcases List.mem_append.1 ht' with ht' | ht'
    · exact hlegs t' ht'
    · simp only [List.mem_singleton] at ht'
      rw [ht', g4]
      exact ⟨fo.2.1, fo.2.2.2.1⟩
  have hA' : opposite = (done ++ [ask]) ++ (asks ++ ladderOrders al) := by
    rw [hA, ← hnow]
    simp
  have hids' : (ts ++ [t]).map (fun t => (t.leg Side.Buy.opposite).orderId_)
      = (done ++ [ask]).map Order.orderId_ := by
    rw [List.map_append, List.map_append, hids, g4]
    rfl
  refine ⟨fillQueue bid1 [], g5, hlegs', done ++ [ask], asks ++ ladderOrders al, hA', hids', ?_⟩
  by_cases hfa : ask.remainingQuantity_ ≤ bid.remainingQuantity_
  · have hqa : q = ask.remainingQuantity_ := by rw [g1]; exact Nat.min_eq_right hfa
    have hf : fillQueue ask1 asks = asks := by
      unfold fillQueue Order.IsFilled
      rw [g3]
      simp [hqa]
    left
    refine ⟨?_, by rw [hnow', hf], ?_⟩
    · unfold fillQueue
      split_ifs
      · exact Or.inr rfl
      · exact Or.inl ⟨bid1, rfl, hb1⟩
    · rw [List.map_append, List.map_append, hq, g4]
      simp [hqa]
  · have hqb : q = bid.remainingQuantity_ := by rw [g1]; exact Nat.min_eq_left (by omega)
    have hfb : fillQueue bid1 [] = [] := by
      unfold fillQueue Order.IsFilled
      rw [g2]
      simp [hqb]
    have hf : fillQueue ask1 asks = ask1 :: asks := by
      unfold fillQueue Order.IsFilled
      rw [g3]
      have : ¬ ask.remainingQuantity_ - q = 0 := by omega
      simp [this]
    right
    refine ⟨hfb, done, ask, ask1, rfl, by rw [hnow', hf]; rfl, ha1, ?_⟩
    rw [List.dropLast_concat]
    exact hq


/-! ## The sweep of a buy order through the loops of `MatchOrder` -/

theorem matchLevel_swept_buy {fuel : Nat} {b : OrderBook} {ts : Trades}
    {r : Trades × OrderBook} {p : Nat} {own : List Order} {bl : Ladder} {o : Order}
    {opposite : List Order}
    (hb : b.bids_ = (p, own) :: bl)
    (hs : Swept Side.Buy o opposite own (ladderOrders b.asks_) ts)
    (h : b.matchLevel fuel ts = some r) :
    ∃ own1, r.2.bids_ = (p, own1) :: bl
      ∧ Swept Side.Buy o opposite own1 (ladderOrders r.2.asks_) r.1 := by
  refine matchLevel_induct
    (fun b1 ts1 => ∃ own1, b1.bids_ = (p, own1) :: bl
      ∧ Swept Side.Buy o opposite own1 (ladderOrders b1.asks_) ts1)
    ?_ fuel b ts r ⟨own, hb, hs⟩ h
  intro b1 b2 ts1 bp ap bid ask bids asks bl1 al t hb1 ha1 hp hm
  obtain ⟨own1, e1, e2⟩ := hp
  rw [hb1] at e1
  simp only [List.cons.injEq, Prod.mk.injEq] at e1
  obtain ⟨⟨rfl, rfl⟩, rfl⟩ := e1
  exact matchFront_swept_buy ha1 e2 hm

/-- One pass of the outer loop that returns, while the lone incoming buy order
heads the bids. -/
theorem matchPass_swept_buy {b : OrderBook} {r : Trades × OrderBook} {p ap fuel : Nat}
    {own aq : List Order} {bl al : Ladder} {ts : Trades} {o : Order} {opposite : List Order}
    (hb : b.bids_ = (p, own) :: bl) (ha : b.asks_ = (ap, aq) :: al)
    (hs : Swept Side.Buy o opposite own (ladderOrders b.asks_) ts)
    (h : b.matchPass p ap fuel ts = some r) :
    ∃ own1, ((own1 ≠ [] ∧ r.2.bids_ = (p, own1) :: bl) ∨ (own1 = [] ∧ r.2.bids_ = bl))
      ∧ Swept Side.Buy o opposite own1 (ladderOrders r.2.asks_) r.1 := by
  obtain ⟨r1, b3, h1, h2, h3, h4⟩ := matchPass_eq_some h
  obtain ⟨own1, e1, e2⟩ := matchLevel_swept_buy hb hs h1
  obtain ⟨bq', aq', s1, s2, -⟩ := matchLevel_shape fuel b ts r1 p ap own aq bl al hb ha h1
  rw [e1] at s1
  simp only [List.cons.injEq, Prod.mk.injEq, true_and, and_true] at s1
  subst s1
  obtain ⟨f1, f2, -⟩ := afterLevel_shape e1 s2
  have hlo : ladderOrders (r1.2.afterLevel p ap).asks_ = ladderOrders r1.2.asks_ := by
    rw [f2, s2]
    split_ifs with haq
    · rw [haq]; simp [ladderOrders_cons]
    · rfl
  have hb3 : b3 = r1.2.afterLevel p ap := (cancelFillAndKill_eq_some h2).1
  subst hb3
  have hr2 : r.2 = r1.2.afterLevel p ap := (cancelFillAndKill_eq_some h3).1
  rw [h4, hr2, hlo]
  by_cases hown : own1 = []
  · rw [if_pos hown] at f1
    exact ⟨own1, Or.inr ⟨hown, f1⟩, e2⟩
  · rw [if_neg hown] at f1
    exact ⟨own1, Or.inl ⟨hown, f1⟩, e2⟩

/-- The outer loop started with the lone incoming buy order on the best bid
level of a book that is otherwise uncrossed, when it returns. -/
theorem matchLoop_swept_buy {fuel : Nat} {b : OrderBook} {r : Trades × OrderBook} {p : Nat}
    {bl : Ladder} {o : Order} (hb : b.bids_ = (p, [o]) :: bl)
    (hrest : ∀ x ∈ bl, ∀ y ∈ b.asks_, x.1 < y.1)
    (h : b.matchLoop fuel [] = some r) :
    ∃ own1, ((own1 ≠ [] ∧ r.2.bids_ = (p, own1) :: bl) ∨ (own1 = [] ∧ r.2.bids_ = bl))
      ∧ Swept Side.Buy o (ladderOrders b.asks_) own1 (ladderOrders r.2.asks_) r.1 := by
  have key := matchLoop_induct
    (fun b1 ts1 => List.Sublist (b1.asks_.map Prod.fst) (b.asks_.map Prod.fst)
      ∧ ∃ own1, ((own1 ≠ [] ∧ b1.bids_ = (p, own1) :: bl) ∨ (own1 = [] ∧ b1.bids_ = bl))
          ∧ Swept Side.Buy o (ladderOrders b.asks_) own1 (ladderOrders b1.asks_) ts1)
    ?_ fuel b [] r
    ⟨List.Sublist.refl _, [o], Or.inl ⟨List.cons_ne_nil _ _, hb⟩, Swept.start _ _ _⟩ h
  · exact key.2
  · intro b1 ts1 bp ap bids asks bl1 al r1 hb1 ha1 hx hp hm
    obtain ⟨k1, own1, hown, s1⟩ := hp
    obtain ⟨-, k2⟩ := matchPass_keys hb1 ha1 hm
    rcases hown with ⟨hne, hb2⟩ | ⟨-, hb2⟩
    · rw [hb1] at hb2
      simp only [List.cons.injEq, Prod.mk.injEq] at hb2
      obtain ⟨⟨rfl, rfl⟩, rfl⟩ := hb2
      obtain ⟨own2, g1, g2⟩ := matchPass_swept_buy hb1 ha1 s1 hm
      exact ⟨k2.trans k1, own2, g1, g2⟩
    · exfalso
      have hmem : (bp, bids) ∈ bl := by rw [← hb2, hb1]; exact List.mem_cons_self _ _
      have hap : ap ∈ b.asks_.map Prod.fst :=
        k1.subset (by rw [ha1]; simp)
      obtain ⟨y, hy, ey⟩ := List.mem_map.1 hap
      have := hrest (bp, bids) hmem y hy
      simp only at this
      rw [ey] at this
      exact hx this


/-! ## What a finished sweep says about the trade list -/

/-- At any point of a sweep the opposite legs of the trades follow a prefix of
the opposite priority sequence at entry, every order of that prefix but the
last was filled for its whole remaining quantity, and none of those is on the
opposite side any more. -/
theorem Swept.result {side : Side} {o : Order} {opposite own now : List Order}
    {trades : Trades} (h : Swept side o opposite own now trades)
    (hnd : (opposite.map Order.orderId_).Nodup) :
    ∃ done rest, opposite = done ++ rest
      ∧ trades.map (fun t => (t.leg side.opposite).orderId_) = done.map Order.orderId_
      ∧ trades.dropLast.map (fun t => (t.leg side.opposite).quantity_)
          = done.dropLast.map Order.remainingQuantity_
      ∧ ∀ x ∈ done.dropLast, x.orderId_ ∉ now.map Order.orderId_ := by
  obtain ⟨-, done, rest, hA, hids, ⟨-, h2, h3⟩ | ⟨-, init, last, last', h2, h3, h4, h5⟩⟩ := h
  · refine ⟨done, rest, hA, hids, ?_, ?_⟩
    · rw [List.map_dropLast, List.map_dropLast, h3]
    · intro x hx hmem
      rw [hA, List.map_append] at hnd
      have hdis := (List.nodup_append.1 hnd).2.2
      rw [h2] at hmem
      exact hdis (List.mem_map_of_mem _ (List.mem_of_mem_dropLast hx)) hmem
  · refine ⟨done, rest, hA, hids, ?_, ?_⟩
    · rw [h2, List.dropLast_concat]
      exact h5
    · intro x hx hmem
      rw [h2, List.dropLast_concat] at hx
      rw [hA, h2, List.append_assoc, List.map_append] at hnd
      have hdis := (List.nodup_append.1 hnd).2.2
      rw [h3] at hmem
      have hlast : last'.orderId_ = last.orderId_ := (Order.fields_of_ident h4).2.1
      apply hdis (List.mem_map_of_mem _ hx)
      simp only [List.map_cons, List.mem_cons] at hmem
      simp only [List.singleton_append, List.map_cons, List.mem_cons]
      rcases hmem with hm | hm
      · exact Or.inl (hm.trans hlast)
      · exact Or.inr hm

theorem OrderBook.WF.asks_ids_nodup {b : OrderBook} (hw : b.WF) :
    ((ladderOrders b.asks_).map Order.orderId_).Nodup := by
  have := hw.idsNodup
  unfold OrderBook.allOrders at this
  rw [List.map_append] at this
  exact (List.nodup_append.1 this).2.1

theorem OrderBook.WF.bids_ids_nodup {b : OrderBook} (hw : b.WF) :
    ((ladderOrders b.bids_).map Order.orderId_).Nodup := by
  have := hw.idsNodup
  unfold OrderBook.allOrders at this
  rw [List.map_append] at this
  exact (List.nodup_append.1 this).1

theorem OrderBook.WF.ids_disjoint {b : OrderBook} (hw : b.WF) {x y : Order}
    (hx : x ∈ ladderOrders b.bids_) (hy : y ∈ ladderOrders b.asks_) :
    x.orderId_ ≠ y.orderId_ := by
  have := hw.idsNodup
  unfold OrderBook.allOrders at this
  rw [List.map_append] at this
  intro he
  exact (List.nodup_append.1 this).2.2 (List.mem_map_of_mem _ hx)
    (by rw [he]; exact List.mem_map_of_mem _ hy)

/-- The trades of `MatchOrder` right after the insertion of a buy order into a
book at rest: every trade has the order as its buy leg, the sell legs follow a
prefix of the asks in priority order, every ask of that prefix but the last is
filled for its whole remaining quantity, and none of those is in the book
afterwards. -/
theorem insert_sweep_buy {b : OrderBook} {o1 : Order} {r : Trades × OrderBook}
    (hw : b.WF) (hu : b.Uncrossed)
    (hf : assocFind o1.orderId_ b.orders_ = none) (hs : o1.side_ = Side.Buy)
    (hm : (b.insertOrder o1).MatchOrder = some r) :
    (∀ t ∈ r.1, t.bidTrade_.orderId_ = o1.orderId_ ∧ t.bidTrade_.price_ = o1.price_)
      ∧ ∃ done rest, ladderOrders b.asks_ = done ++ rest
          ∧ r.1.map (fun t => t.askTrade_.orderId_) = done.map Order.orderId_
          ∧ r.1.dropLast.map (fun t => t.askTrade_.quantity_)
              = done.dropLast.map Order.remainingQuantity_
          ∧ ∀ x ∈ done.dropLast, x.orderId_ ∉ r.2.bookIds := by
  have hw1 := wf_insertOrder hw o1 hf
  have hasks : (b.insertOrder o1).asks_ = b.asks_ := by
    unfold OrderBook.insertOrder; simp [hs]
  by_cases hcm : b.CanMatch Side.Buy o1.price_ = true
  · obtain ⟨ap, aq, al, ha, hle⟩ := CanMatch_buy hcm
    obtain ⟨e1, e2⟩ := insertOrder_buy_crossing hu hs ha hle
    obtain ⟨own1, hbids, hsw⟩ := matchLoop_swept_buy e1
      (fun x hx y hy => hu x hx y (by rw [← hasks]; exact hy)) hm
    rw [hasks] at hsw
    obtain ⟨done, rest, g1, g2, g3, g4⟩ := hsw.result hw.asks_ids_nodup
    refine ⟨fun t ht => hsw.1 t ht, done, rest, g1, g2, g3, ?_⟩
    intro x hx hmem
    have hxa : x ∈ ladderOrders b.asks_ := by
      rw [g1]
      exact List.mem_append_left _ (List.mem_of_mem_dropLast hx)
    unfold OrderBook.bookIds OrderBook.allOrders at hmem
    rw [List.map_append, List.mem_append] at hmem
    rcases hmem with hmem | hmem
    · obtain ⟨y, hy, ey⟩ := List.mem_map.1 hmem
      have hyb : y ∈ own1 ++ ladderOrders b.bids_ := by
        rcases hbids with ⟨-, hb2⟩ | ⟨hown, hb2⟩
        · rw [hb2, ladderOrders_cons] at hy
          exact hy
        · rw [hb2] at hy
          exact List.mem_append_right _ hy
      rcases List.mem_append.1 hyb with hy1 | hy1
      · rcases hsw.own_cases with hown | ⟨o', hown, hident⟩
        · rw [hown] at hy1
          simp at hy1
        · rw [hown] at hy1
          simp only [List.mem_singleton] at hy1
          have hid : o'.orderId_ = o1.orderId_ := (Order.fields_of_ident hident).2.1
          apply hw.not_mem_of_fresh hf
          rw [← hid, ← hy1, ey]
          exact List.mem_map_of_mem _ (List.mem_append_right _ hxa)
      · exact hw.ids_disjoint hy1 hxa ey
    · exact g4 x hx hmem
  · have hall := not_CanMatch_buy hw hcm
    have hu1 : (b.insertOrder o1).Uncrossed := by
      intro x hx y hy
      rw [hasks] at hy
      rcases mem_insertOrder_bids hx with ⟨-, h1⟩ | h1
      · rw [h1]; exact hall y hy
      · exact hu x h1 y hy
    unfold OrderBook.MatchOrder at hm
    rw [matchLoop_succ_uncrossed (headUncrossed_of_uncrossed hu1)] at hm
    simp only [Option.some.injEq] at hm
    subst hm
    exact ⟨by simp, [], ladderOrders b.asks_, rfl, rfl, rfl, by simp⟩


/-! ## An incoming sell order takes the bids in priority order -/

/-- One pass of the inner loop while the lone incoming sell order heads the
asks. -/
theorem matchFront_swept_sell {b b' : OrderBook} {bp p : Nat} {bid ask : Order}
    {bids asks : List Order} {bl al : Ladder} {t : Trade} {o : Order} {opposite : List Order}
    {ts : Trades}
    (hb : b.bids_ = (bp, bid :: bids) :: bl)
    (hs : Swept Side.Sell o opposite (ask :: asks) (ladderOrders b.bids_) ts)
    (hm : b.matchFront bp bid bids bl p ask asks al = some (t, b')) :
    ∃ own, b'.asks_ = (p, own) :: al
      ∧ Swept Side.Sell o opposite own (ladderOrders b'.bids_) (ts ++ [t]) := by
  obtain ⟨hlegs, done, rest, hA, hids, hcase⟩ := hs
  obtain ⟨q, bid1, ask1, g1, g2, g3, g4, g5, g6, -, -⟩ := matchFront_eq hm
  rcases hcase with ⟨hown, hnow, hq⟩ | ⟨hown, -⟩
  swap
  · exact absurd hown (List.cons_ne_nil _ _)
  rcases hown with ⟨o', hown, hident⟩ | hown
  swap
  · exact absurd hown (List.cons_ne_nil _ _)
  simp only [List.cons.injEq] at hown
  obtain ⟨rfl, rfl⟩ := hown
  rw [hb, ladderOrders_cons] at hnow
  have fo := Order.fields_of_ident hident
  have ha1 : ask1.ident = o.ident := by rw [g3]; exact hident
  have hb1 : bid1.ident = bid.ident := by rw [g2]; rfl
  have hnow' : ladderOrders b'.bids_ = fillQueue bid1 bids ++ ladderOrders bl := by
    rw [g5, ladderOrders_cons]
  have hlegs' : ∀ t' ∈ ts ++ [t], (t'.leg Side.Sell).orderId_ = o.orderId_
      ∧ (t'.leg Side.Sell).price_ = o.price_ := by
    intro t' ht'
    rcases List.mem_append.1 ht' with ht' | ht'
    · exact hlegs t' ht'
    · simp only [List.mem_singleton] at ht'
      rw [ht', g4]
      exact ⟨fo.2.1, fo.2.2.2.1⟩
  have hA' : opposite = (done ++ [bid]) ++ (bids ++ ladderOrders bl) := by
    rw [hA, ← hnow]
    simp
  have hids' : (ts ++ [t]).map (fun t => (t.leg Side.Sell.opposite).orderId_)
      = (done ++ [bid]).map Order.orderId_ := by
    rw [List.map_append, List.map_append, hids, g4]
    rfl
  refine ⟨fillQueue ask1 [], g6, hlegs', done ++ [bid], bids ++ ladderOrders bl, hA', hids', ?_⟩
  by_cases hfa : bid.remainingQuantity_ ≤ ask.remainingQuantity_
  · have hqb : q = bid.remainingQuantity_ := by rw [g1]; exact Nat.min_eq_left hfa
    have hf : fillQueue bid1 bids = bids := by
      unfold fillQueue Order.IsFilled
      rw [g2]
      simp [hqb]
    left
    refine ⟨?_, by rw [hnow', hf], ?_⟩
    · unfold fillQueue
      split_ifs
      · exact Or.inr rfl
      · exact Or.inl ⟨ask1, rfl, ha1⟩
    · rw [List.map_append, List.map_append, hq, g4]
      simp [hqb]
  · have hqa : q = ask.remainingQuantity_ := by rw [g1]; exact Nat.min_eq_right (by omega)
    have hfa1 : fillQueue ask1 [] = [] := by
      unfold fillQueue Order.IsFilled
      rw [g3]
      simp [hqa]
    have hf : fillQueue bid1 bids = bid1 :: bids := by
      unfold fillQueue Order.IsFilled
      rw [g2]
      have : ¬ bid.remainingQuantity_ - q = 0 := by omega
      simp [this]
    right
    refine ⟨hfa1, done, bid, bid1, rfl, by rw [hnow', hf]; rfl, hb1, ?_⟩
    rw [List.dropLast_concat]
    exact hq

theorem matchLevel_swept_sell {fuel : Nat} {b : OrderBook} {ts : Trades}
    {r : Trades × OrderBook} {p : Nat} {own : List Order} {al : Ladder} {o : Order}
    {opposite : List Order}
    (ha : b.asks_ = (p, own) :: al)
    (hs : Swept Side.Sell o opposite own (ladderOrders b.bids_) ts)
    (h : b.matchLevel fuel ts = some r) :
    ∃ own1, r.2.asks_ = (p, own1) :: al
      ∧ Swept Side.Sell o opposite own1 (ladderOrders r.2.bids_) r.1 := by
  refine matchLevel_induct
    (fun b1 ts1 => ∃ own1, b1.asks_ = (p, own1) :: al
      ∧ Swept Side.Sell o opposite own1 (ladderOrders b1.bids_) ts1)
    ?_ fuel b ts r ⟨own, ha, hs⟩ h
  intro b1 b2 ts1 bp ap bid ask bids asks bl al1 t hb1 ha1 hp hm
  obtain ⟨own1, e1, e2⟩ := hp
  rw [ha1] at e1
  simp only [List.cons.injEq, Prod.mk.injEq] at e1
  obtain ⟨⟨rfl, rfl⟩, rfl⟩ := e1
  exact matchFront_swept_sell hb1 e2 hm

/-- One pass of the outer loop that returns, while the lone incoming sell
order heads the asks. -/
theorem matchPass_swept_sell {b : OrderBook} {r : Trades × OrderBook} {bp p fuel : Nat}
    {own bq : List Order} {bl al : Ladder} {ts : Trades} {o : Order} {opposite : List Order}
    (hb : b.bids_ = (bp, bq) :: bl) (ha : b.asks_ = (p, own) :: al)
    (hs : Swept Side.Sell o opposite own (ladderOrders b.bids_) ts)
    (h : b.matchPass bp p fuel ts = some r) :
    ∃ own1, ((own1 ≠ [] ∧ r.2.asks_ = (p, own1) :: al) ∨ (own1 = [] ∧ r.2.asks_ = al))
      ∧ Swept Side.Sell o opposite own1 (ladderOrders r.2.bids_) r.1 := by
  obtain ⟨r1, b3, h1, h2, h3, h4⟩ := matchPass_eq_some h
  obtain ⟨own1, e1, e2⟩ := matchLevel_swept_sell ha hs h1
  obtain ⟨bq', aq', s1, s2, -⟩ := matchLevel_shape fuel b ts r1 bp p bq own bl al hb ha h1
  rw [e1] at s2
  simp only [List.cons.injEq, Prod.mk.injEq, true_and, and_true] at s2
  subst s2
  obtain ⟨f1, f2, -⟩ := afterLevel_shape s1 e1
  have hlo : ladderOrders (r1.2.afterLevel bp p).bids_ = ladderOrders r1.2.bids_ := by
    rw [f1, s1]
    split_ifs with hbq
    · rw [hbq]; simp [ladderOrders_cons]
    · rfl
  have hb3 : b3 = r1.2.afterLevel bp p := (cancelFillAndKill_eq_some h2).1
  subst hb3
  have hr2 : r.2 = r1.2.afterLevel bp p := (cancelFillAndKill_eq_some h3).1
  rw [h4, hr2, hlo]
  by_cases hown : own1 = []
  · rw [if_pos hown] at f2
    exact ⟨own1, Or.inr ⟨hown, f2⟩, e2⟩
  · rw [if_neg hown] at f2
    exact ⟨own1, Or.inl ⟨hown, f2⟩, e2⟩

/-- The outer loop started with the lone incoming sell order on the best ask
level of a book that is otherwise uncrossed, when it returns. -/
theorem matchLoop_swept_sell {fuel : Nat} {b : OrderBook} {r : Trades × OrderBook} {p : Nat}
    {al : Ladder} {o : Order} (ha : b.asks_ = (p, [o]) :: al)
    (hrest : ∀ x ∈ b.bids_, ∀ y ∈ al, x.1 < y.1)
    (h : b.matchLoop fuel [] = some r) :
    ∃ own1, ((own1 ≠ [] ∧ r.2.asks_ = (p, own1) :: al) ∨ (own1 = [] ∧ r.2.asks_ = al))
      ∧ Swept Side.Sell o (ladderOrders b.bids_) own1 (ladderOrders r.2.bids_) r.1 := by
  have key := matchLoop_induct
    (fun b1 ts1 => List.Sublist (b1.bids_.map Prod.fst) (b.bids_.map Prod.fst)
      ∧ ∃ own1, ((own1 ≠ [] ∧ b1.asks_ = (p, own1) :: al) ∨ (own1 = [] ∧ b1.asks_ = al))
          ∧ Swept Side.Sell o (ladderOrders b.bids_) own1 (ladderOrders b1.bids_) ts1)
    ?_ fuel b [] r
    ⟨List.Sublist.refl _, [o], Or.inl ⟨List.cons_ne_nil _ _, ha⟩, Swept.start _ _ _⟩ h
  · exact key.2
  · intro b1 ts1 bp ap bids asks bl al1 r1 hb1 ha1 hx hp hm
    obtain ⟨k1, own1, hown, s1⟩ := hp
    obtain ⟨k2, -⟩ := matchPass_keys hb1 ha1 hm
    rcases hown with ⟨hne, ha2⟩ | ⟨-, ha2⟩
    · rw [ha1] at ha2
      simp only [List.cons.injEq, Prod.mk.injEq] at ha2
      obtain ⟨⟨rfl, rfl⟩, rfl⟩ := ha2
      obtain ⟨own2, g1, g2⟩ := matchPass_swept_sell hb1 ha1 s1 hm
      exact ⟨k2.trans k1, own2, g1, g2⟩
    · exfalso
      have hmem : (ap, asks) ∈ al := by rw [← ha2, ha1]; exact List.mem_cons_self _ _
      have hbp : bp ∈ b.bids_.map Prod.fst :=
        k1.subset (by rw [hb1]; simp)
      obtain ⟨y, hy, ey⟩ := List.mem_map.1 hbp
      have := hrest y hy (ap, asks) hmem
      simp only at this
      rw [ey] at this
      exact hx this


/-! ## The trades of an incoming sell order -/

/-- The trades of `MatchOrder` right after the insertion of a sell order into
a book at rest: every trade has the order as its sell leg, the buy legs follow
a prefix of the bids in priority order, every bid of that prefix but the last
is filled for its whole remaining quantity, and none of those is in the book
afterwards. -/
theorem insert_sweep_sell {b : OrderBook} {o1 : Order} {r : Trades × OrderBook}
    (hw : b.WF) (hu : b.Uncrossed)
    (hf : assocFind o1.orderId_ b.orders_ = none) (hs : o1.side_ = Side.Sell)
    (hm : (b.insertOrder o1).MatchOrder = some r) :
    (∀ t ∈ r.1, t.askTrade_.orderId_ = o1.orderId_ ∧ t.askTrade_.price_ = o1.price_)
      ∧ ∃ done rest, ladderOrders b.bids_ = done ++ rest
          ∧ r.1.map (fun t => t.bidTrade_.orderId_) = done.map Order.orderId_
          ∧ r.1.dropLast.map (fun t => t.bidTrade_.quantity_)
              = done.dropLast.map Order.remainingQuantity_
          ∧ ∀ x ∈ done.dropLast, x.orderId_ ∉ r.2.bookIds := by
  have hw1 := wf_insertOrder hw o1 hf
  have hbids : (b.insertOrder o1).bids_ = b.bids_ := by
    unfold OrderBook.insertOrder; simp [hs]
  by_cases hcm : b.CanMatch Side.Sell o1.price_ = true
  · obtain ⟨bp, bq, bl, hb, hle⟩ := CanMatch_sell hcm
    obtain ⟨e1, e2⟩ := insertOrder_sell_crossing hu hs hb hle
    obtain ⟨own1, hasks, hsw⟩ := matchLoop_swept_sell e2
      (fun x hx y hy => hu x (by rw [← hbids]; exact hx) y hy) hm
    rw [hbids] at hsw
    obtain ⟨done, rest, g1, g2, g3, g4⟩ := hsw.result hw.bids_ids_nodup
    refine ⟨fun t ht => hsw.1 t ht, done, rest, g1, g2, g3, ?_⟩
    intro x hx hmem
    have hxb : x ∈ ladderOrders b.bids_ := by
      rw [g1]
      exact List.mem_append_left _ (List.mem_of_mem_dropLast hx)
    unfold OrderBook.bookIds OrderBook.allOrders at hmem
    rw [List.map_append, List.mem_append] at hmem
    rcases hmem with hmem | hmem
    · exact g4 x hx hmem
    · obtain ⟨y, hy, ey⟩ := List.mem_map.1 hmem
      have hya : y ∈ own1 ++ ladderOrders b.asks_ := by
        rcases hasks with ⟨-, ha2⟩ | ⟨hown, ha2⟩
        · rw [ha2, ladderOrders_cons] at hy
          exact hy
        · rw [ha2] at hy
          exact List.mem_append_right _ hy
      rcases List.mem_append.1 hya with hy1 | hy1
      · rcases hsw.own_cases with hown | ⟨o', hown, hident⟩
        · rw [hown] at hy1
          simp at hy1
        · rw [hown] at hy1
          simp only [List.mem_singleton] at hy1
          have hid : o'.orderId_ = o1.orderId_ := (Order.fields_of_ident hident).2.1
          apply hw.not_mem_of_fresh hf
          rw [← hid, ← hy1, ey]
          exact List.mem_map_of_mem _ (List.mem_append_left _ hxb)
      · exact hw.ids_disjoint hxb hy1 ey.symm
  · have hall := not_CanMatch_sell hw hcm
    have hu1 : (b.insertOrder o1).Uncrossed := by
      intro x hx y hy
      rw [hbids] at hx
      rcases mem_insertOrder_asks hy with ⟨-, h1⟩ | h1
      · rw [h1]; exact hall x hx
      · exact hu x hx y h1
    unfold OrderBook.MatchOrder at hm
    rw [matchLoop_succ_uncrossed (headUncrossed_of_uncrossed hu1)] at hm
    simp only [Option.some.injEq] at hm
    subst hm
    exact ⟨by simp, [], ladderOrders b.bids_, rfl, rfl, rfl, by simp⟩


/-! ## Claim C23 -/

/-- C23: in every reachable book state, `AddOrder(o)` returns for every order
that is not `FillAndKill`, and whenever `AddOrder(o)` returns, every trade it
returns has the id of `o` on the leg of `o`'s side, with the price of `o`
unless `o` is a `Market` order (whose price is set on entry); the orders on
the opposite legs, in the order of the trade list, are a prefix `done` of the
opposite side's priority sequence before the call (the ladders are ordered
best price first, the asks ascending and the bids descending, and each level
is in arrival order); and every order of that prefix except possibly the last
is traded for its whole remaining quantity and is in neither the ladders nor
the index afterwards. -/
theorem price_time_priority {b : OrderBook} (h : Reachable b) (o : Order) :
    (o.orderType_ ≠ OrderType.FillAndKill → ∃ trades b1, b.AddOrder o = some (trades, b1))
    ∧ ∀ (trades : Trades) (b1 : OrderBook), b.AddOrder o = some (trades, b1) →
      (∀ t ∈ trades, (t.leg o.side_).orderId_ = o.orderId_)
      ∧ (o.orderType_ ≠ OrderType.Market →
          ∀ t ∈ trades, (t.leg o.side_).price_ = o.price_)
      ∧ b.bids_.Pairwise (fun x y => x.1 > y.1) ∧ b.asks_.Pairwise (fun x y => x.1 < y.1)
      ∧ ∃ done rest, b.prioritySequence o.side_.opposite = done ++ rest
          ∧ trades.map (fun t => (t.leg o.side_.opposite).orderId_) = done.map Order.orderId_
          ∧ trades.dropLast.map (fun t => (t.leg o.side_.opposite).quantity_)
              = done.dropLast.map Order.remainingQuantity_
          ∧ ∀ x ∈ done.dropLast,
              x.orderId_ ∉ b1.bookIds ∧ assocFind x.orderId_ b1.orders_ = none := by
  obtain ⟨hw, hu⟩ := h.wf_uncrossed
  refine ⟨fun ht => ?_, ?_⟩
  · obtain ⟨r, hr⟩ := AddOrder_total h ht
    exact ⟨r.1, r.2, hr⟩
  intro trades b1 hadd0
  obtain ⟨r, hadd, hr1, hr2⟩ : ∃ r : Trades × OrderBook, b.AddOrder o = some r
      ∧ r.1 = trades ∧ r.2 = b1 := ⟨(trades, b1), hadd0, rfl, rfl⟩
  subst hr1 hr2
  refine ⟨?_, ?_, hw.bidsSorted, hw.asksSorted, ?_⟩
  · rcases AddOrder_eq_some hadd with hr | ⟨o1, hf, hprom, -, hm⟩
    · rw [hr]
      simp
    · have hid := hprom.id_eq
      have hside := hprom.side_eq
      rw [← hid] at hf
      cases hs : o.side_ with
      | Buy =>
        rw [hs] at hside
        intro t ht
        rw [← hid]
        exact ((insert_sweep_buy hw hu hf hside hm).1 t ht).1
      | Sell =>
        rw [hs] at hside
        intro t ht
        rw [← hid]
        exact ((insert_sweep_sell hw hu hf hside hm).1 t ht).1
  · intro hnm
    rcases AddOrder_eq_some hadd with hr | ⟨o1, hf, hprom, -, hm⟩
    · rw [hr]
      simp
    · have ho1 : o1 = o := by
        rcases hprom with ⟨-, h1⟩ | ⟨h1, -⟩
        · exact h1
        · exact absurd h1 hnm
      subst ho1
      cases hs : o1.side_ with
      | Buy =>
        intro t ht
        exact ((insert_sweep_buy hw hu hf hs hm).1 t ht).2
      | Sell =>
        intro t ht
        exact ((insert_sweep_sell hw hu hf hs hm).1 t ht).2
  · rcases AddOrder_eq_some hadd with hr | ⟨o1, hf, hprom, -, hm⟩
    · rw [hr]
      exact ⟨[], _, rfl, rfl, rfl, by simp⟩
    · have hid := hprom.id_eq
      have hside := hprom.side_eq
      rw [← hid] at hf
      have hw1 : r.2.WF := (wf_MatchOrder (wf_insertOrder hw o1 hf) hm).1
      cases hs : o.side_ with
      | Buy =>
        rw [hs] at hside
        obtain ⟨-, done, rest, g1, g2, g3, g4⟩ := insert_sweep_buy hw hu hf hside hm
        exact ⟨done, rest, g1, g2, g3,
          fun x hx => ⟨g4 x hx, hw1.find_none_of_not_mem (g4 x hx)⟩⟩
      | Sell =>
        rw [hs] at hside
        obtain ⟨-, done, rest, g1, g2, g3, g4⟩ := insert_sweep_sell hw hu hf hside hm
        exact ⟨done, rest, g1, g2, g3,
          fun x hx => ⟨g4 x hx, hw1.find_none_of_not_mem (g4 x hx)⟩⟩

theorem price_time_priority_witness :
    Reachable bookTwoBuys
    ∧ bookTwoBuys.AddOrder (Order.create OrderType.FillAndKill 3 Side.Sell 100 10)
        = some ([{ bidTrade_ := { orderId_ := 1, price_ := 100, quantity_ := 5 },
                   askTrade_ := { orderId_ := 3, price_ := 100, quantity_ := 5 } },
                 { bidTrade_ := { orderId_ := 2, price_ := 100, quantity_ := 5 },
                   askTrade_ := { orderId_ := 3, price_ := 100, quantity_ := 5 } }], {})
    ∧ ((∀ t ∈ [({ bidTrade_ := { orderId_ := 1, price_ := 100, quantity_ := 5 },
                   askTrade_ := { orderId_ := 3, price_ := 100, quantity_ := 5 } } : Trade),
                { bidTrade_ := { orderId_ := 2, price_ := 100, quantity_ := 5 },
                  askTrade_ := { orderId_ := 3, price_ := 100, quantity_ := 5 } }],
          (t.leg (Order.create OrderType.FillAndKill 3 Side.Sell 100 10).side_).orderId_
            = (Order.create OrderType.FillAndKill 3 Side.Sell 100 10).orderId_)
      ∧ ((Order.create OrderType.FillAndKill 3 Side.Sell 100 10).orderType_
            ≠ OrderType.Market →
          ∀ t ∈ [({ bidTrade_ := { orderId_ := 1, price_ := 100, quantity_ := 5 },
                     askTrade_ := { orderId_ := 3, price_ := 100, quantity_ := 5 } } : Trade),
                  { bidTrade_ := { orderId_ := 2, price_ := 100, quantity_ := 5 },
                    askTrade_ := { orderId_ := 3, price_ := 100, quantity_ := 5 } }],
            (t.leg (Order.create OrderType.FillAndKill 3 Side.Sell 100 10).side_).price_
              = (Order.create OrderType.FillAndKill 3 Side.Sell 100 10).price_)
      ∧ bookTwoBuys.bids_.Pairwise (fun x y => x.1 > y.1)
      ∧ bookTwoBuys.asks_.Pairwise (fun x y => x.1 < y.1)
      ∧ ∃ done rest,
          bookTwoBuys.prioritySequence
              (Order.create OrderType.FillAndKill 3 Side.Sell 100 10).side_.opposite
            = done ++ rest
          ∧ [({ bidTrade_ := { orderId_ := 1, price_ := 100, quantity_ := 5 },
                askTrade_ := { orderId_ := 3, price_ := 100, quantity_ := 5 } } : Trade),
             { bidTrade_ := { orderId_ := 2, price_ := 100, quantity_ := 5 },
               askTrade_ := { orderId_ := 3, price_ := 100, quantity_ := 5 } }].map (fun t =>
              (t.leg
                (Order.create OrderType.FillAndKill 3 Side.Sell 100 10).side_.opposite).orderId_)
              = done.map Order.orderId_
          ∧ [({ bidTrade_ := { orderId_ := 1, price_ := 100, quantity_ := 5 },
                askTrade_ := { orderId_ := 3, price_ := 100, quantity_ := 5 } } : Trade),
             { bidTrade_ := { orderId_ := 2, price_ := 100, quantity_ := 5 },
               askTrade_ := { orderId_ := 3, price_ := 100, quantity_ := 5 } }].dropLast.map
              (fun t =>
                (t.leg
                  (Order.create OrderType.FillAndKill 3 Side.Sell 100 10).side_.opposite).quantity_)
              = done.dropLast.map Order.remainingQuantity_
          ∧ ∀ x ∈ done.dropLast,
              x.orderId_ ∉ ({} : OrderBook).bookIds
                ∧ assocFind x.orderId_ ({} : OrderBook).orders_ = none)
    ∧ (bookTwoBuys.prioritySequence Side.Buy).map Order.orderId_ = [1, 2]
    ∧ bookTwoAskLevels.AddOrder (Order.create OrderType.GoodTillCancel 3 Side.Buy 105 5)
        = some (tradesOfSweep, bookAfterSweep)
    ∧ (bookTwoAskLevels.prioritySequence Side.Sell).map Order.orderId_ = [1, 2]
    ∧ tradesOfSweep.map (fun t => t.askTrade_.orderId_) = [1, 2]
    ∧ bookAfterSweep.bookIds = [2] :=
  ⟨reachableValid_bookTwoBuys.reachable, rfl,
    (price_time_priority reachableValid_bookTwoBuys.reachable
      (Order.create OrderType.FillAndKill 3 Side.Sell 100 10)).2 _ _ rfl,
    rfl, rfl, rfl, rfl, rfl⟩
